import Mathlib

/-!
# bimap: a bidirectional map built from two intrusive binary search trees

Shallow embedding of `bimap_node.h`, `bimap_node.cpp`, `intusive_map.h` and `bimap.h`.

* A `base_node*` is an `Option Nat`: `none` is `nullptr`, `some a` is the address `a`.
* Every `empty_bimap_node` (an element or a sentinel) lives at one address and has two
  `base_node` sub-objects, `map_node<left_tag>` and `map_node<right_tag>`.  The heap keeps them
  in two memories `lnode` and `rnode`, so that the up- and downcasts between the two facets of
  one object (and therefore `flip`) do not change the address.
* Loops take a fuel argument; `none` stands for a run that has no result: a loop that does not
  stop within its fuel, a null pointer that is dereferenced, or a value read or freed at an
  address that holds no element.
* The public operations of `bimap` run their loops with fuel `brk + 1`, where `brk` counts the
  addresses handed out so far: a pointer chain without a repetition is shorter than that.
* A bimap object is named by the address of its sentinel.  Properties of one bimap are stated
  for `Reachable` (the bimap is alone in its heap); properties of `swap` and of the copies are
  stated for `Reachable2`, two bimaps of one heap with the same comparators under interleaved
  calls; `operator==` is stated for `ReachablePair`, where each bimap has comparators of its
  own.
-/

namespace Bimap

/-! ## bimap_node.h / bimap_node.cpp : `base_node` -/

/-- A nullable pointer to a `base_node`. -/
abbrev Ptr := Option Nat

/-- The three links of `struct base_node`. -/
structure base_node where
  parent_ : Ptr
  left_ : Ptr
  right_ : Ptr
deriving DecidableEq, Repr

/-- One memory of `base_node` sub-objects, indexed by address. -/
abbrev Mem := Nat → base_node

/-- Assignment `a->parent_ = p`. -/
def set_parent (m : Mem) (a : Nat) (p : Ptr) : Mem :=
  fun x => if x = a then { m a with parent_ := p } else m x

/-- Assignment `a->left_ = p`. -/
def set_left (m : Mem) (a : Nat) (p : Ptr) : Mem :=
  fun x => if x = a then { m a with left_ := p } else m x

/-- Assignment `a->right_ = p`. -/
def set_right (m : Mem) (a : Nat) (p : Ptr) : Mem :=
  fun x => if x = a then { m a with right_ := p } else m x

/-- The constructor `base_node() : parent_(this) {}` run at address `a`. -/
def construct (m : Mem) (a : Nat) : Mem :=
  fun x => if x = a then ⟨some a, none, none⟩ else m x

/-- The method `base_node::unlink`. -/
def unlink (m : Mem) (a : Nat) : Mem :=
  fun x => if x = a then ⟨none, none, none⟩ else m x

/-- The method `base_node::insert_left`. -/
def insert_left (m : Mem) (this : Nat) (left_son : Ptr) : Mem :=
  let m1 := match left_son with
    | some s => set_parent m s (some this)
    | none => m
  set_left m1 this left_son

/-- The method `base_node::insert_right`. -/
def insert_right (m : Mem) (this : Nat) (right_son : Ptr) : Mem :=
  let m1 := match right_son with
    | some s => set_parent m s (some this)
    | none => m
  set_right m1 this right_son

/-- The method `base_node::is_left`: `parent_ && parent_->left_ == this`. -/
def is_left (m : Mem) (this : Nat) : Bool :=
  match (m this).parent_ with
  | none => false
  | some p => (m p).left_ == some this

/-- The method `base_node::is_right`: `parent_ && parent_->right_ == this`. -/
def is_right (m : Mem) (this : Nat) : Bool :=
  match (m this).parent_ with
  | none => false
  | some p => (m p).right_ == some this

/-- The method `base_node::relink_parent`. -/
def relink_parent (m : Mem) (this : Nat) (p : Ptr) : Mem :=
  let m1 := if is_left m this then
      (match (m this).parent_ with
       | some q => set_left m q p
       | none => m)
    else m
  let m2 := if is_right m1 this then
      (match (m1 this).parent_ with
       | some q => set_right m1 q p
       | none => m1)
    else m1
  match p with
  | some c => set_parent m2 c (m2 this).parent_
  | none => m2

/-- The loop `while (ret->left_) ret = ret->left_;` started at `ret`. -/
def descend_left (m : Mem) : Nat → Nat → Option Nat
  | 0, _ => none
  | f + 1, ret =>
    match (m ret).left_ with
    | none => some ret
    | some l => descend_left m f l

/-- The loop `while (cur->is_right()) cur = cur->parent_;` started at `cur`. -/
def climb_right (m : Mem) : Nat → Nat → Option Nat
  | 0, _ => none
  | f + 1, cur =>
    if is_right m cur then
      match (m cur).parent_ with
      | some p => climb_right m f p
      | none => none
    else some cur

/-- The method `base_node::next`. -/
def next (fuel : Nat) (m : Mem) (this : Nat) : Option Ptr :=
  match (m this).right_ with
  | some r => (descend_left m fuel r).map some
  | none => (climb_right m fuel this).map (fun cur => (m cur).parent_)

/-! ## intusive_map.h : `intrusive_map` and `map_iterator`

An `intrusive_map<Left, Right, Tag, Compare>` is a view: the comparator `lt`, the address
`root_` of the sentinel, the memory `m` of the facets selected by `Tag`, and the projection
`key` that reads `get_key<Tag>()` of the element at an address. -/

section intrusive_map

variable {K : Type} (lt : K → K → Bool) (key : Nat → Option K) (root_ : Nat)

/-- The overload `cmp(key_t const&, key_t const&)`. -/
def cmp_keys (key_a key_b : K) : Int :=
  if lt key_a key_b then -1
  else if lt key_b key_a then 1
  else 0

/-- The overload `cmp(base_node const*, key_t const&)`. -/
def cmp (a : Nat) (key_b : K) : Option Int :=
  if a = root_ then some 1
  else match key a with
    | some key_a => some (cmp_keys lt key_a key_b)
    | none => none

/-- The loop of `intrusive_map::find_impl`, started at `it`. -/
def find_loop (m : Mem) (val : K) : Nat → Nat → Option Nat
  | 0, _ => none
  | f + 1, it =>
    match cmp lt key root_ it val with
    | none => none
    | some cmp_val =>
      if cmp_val = 1 then
        match (m it).left_ with
        | none => some it
        | some l => find_loop m val f l
      else if cmp_val = 0 then some it
      else
        match (m it).right_ with
        | none => some it
        | some r => find_loop m val f r

/-- The method `intrusive_map::find_impl`. -/
def find_impl (fuel : Nat) (m : Mem) (val : K) : Option Nat :=
  find_loop lt key root_ m val fuel root_

/-- The method `intrusive_map::insert_impl`; `val` is the address of the node to attach. -/
def insert_impl (m : Mem) (it : Nat) (val : Nat) : Option (Ptr × Mem) :=
  match key val with
  | none => none
  | some k =>
    match cmp lt key root_ it k with
    | none => none
    | some cmp_val =>
      if cmp_val = 1 then
        let m1 := insert_left m it (some val)
        some ((m1 it).left_, m1)
      else if cmp_val = 0 then some (some root_, m)
      else
        let m1 := insert_right m it (some val)
        some ((m1 it).right_, m1)

/-- The method `intrusive_map::find`. -/
def find (fuel : Nat) (m : Mem) (val : K) : Option Ptr :=
  match find_impl lt key root_ fuel m val with
  | none => none
  | some it =>
    match cmp lt key root_ it val with
    | none => none
    | some c => if c = 0 then some (some it) else some (some root_)

end intrusive_map

/-- The method `intrusive_map::erase_impl`. -/
def erase_impl : Nat → Mem → Nat → Option (Ptr × Mem)
  | 0, _, _ => none
  | f + 1, m, it =>
    match next f m it with
    | none => none
    | some ret =>
      if (m it).left_ = none ∧ (m it).right_ = none then
        some (ret, relink_parent m it none)
      else if (m it).left_ = none then
        some (ret, relink_parent m it (m it).right_)
      else if (m it).right_ = none then
        some (ret, relink_parent m it (m it).left_)
      else
        match ret with
        | none => none
        | some r =>
          match erase_impl f m r with
          | none => none
          | some (_, m1) =>
            let m2 := relink_parent m1 it ret
            let m3 := insert_left m2 r (m2 it).left_
            let m4 := insert_right m3 r (m3 it).right_
            some (ret, m4)

/-- The method `intrusive_map::begin`: descend from the sentinel along `left_`. -/
def map_begin (fuel : Nat) (m : Mem) (root_ : Nat) : Option Ptr :=
  (descend_left m fuel root_).map some

/-- The method `map_iterator::flip`: the other facet of the same object, at the same address. -/
def flip (it : Ptr) : Ptr := it

/-- The loop `for (it = first; it != last; ++it)`, collecting the positions it visits. -/
def walk (nf : Nat) (m : Mem) (last : Ptr) : Nat → Ptr → Option (List Nat)
  | 0, _ => none
  | f + 1, it =>
    if it = last then some []
    else
      match it with
      | none => none
      | some a =>
        match next nf m a with
        | none => none
        | some nx => (walk nf m last f nx).map (fun rest => a :: rest)

/-! ## bimap.h : `bimap` -/

/-- The heap: both facet memories, the values of the live elements, and the allocation mark. -/
structure Heap (L R : Type) where
  lnode : Mem
  rnode : Mem
  val : Nat → Option (L × R)
  brk : Nat

/-- The data members of `struct bimap` that are not views: the sentinel `root_` and `size_`. -/
structure bimap where
  root_ : Nat
  size_ : Nat
deriving DecidableEq, Repr

section bimap_ops

variable {L R : Type}

/-- The fuel the public operations give to every loop they run. -/
def Heap.fuel (h : Heap L R) : Nat := h.brk + 1

/-- The projection `get_key<left_tag>` at an address. -/
def Heap.lkey (h : Heap L R) (a : Nat) : Option L := (h.val a).map Prod.fst

/-- The projection `get_key<right_tag>` at an address. -/
def Heap.rkey (h : Heap L R) (a : Nat) : Option R := (h.val a).map Prod.snd

/-- A heap in which nothing is allocated. -/
def Heap.empty : Heap L R :=
  ⟨fun _ => ⟨none, none, none⟩, fun _ => ⟨none, none, none⟩, fun _ => none, 0⟩

/-- The expression `new bimap_node<Left, Right>(left, right)`. -/
def Heap.alloc (h : Heap L R) (left : L) (right : R) : Nat × Heap L R :=
  (h.brk,
   { lnode := construct h.lnode h.brk,
     rnode := construct h.rnode h.brk,
     val := fun x => if x = h.brk then some (left, right) else h.val x,
     brk := h.brk + 1 })

/-- The expression `delete node`: both `~base_node` destructors unlink, the storage is freed. -/
def Heap.delete (h : Heap L R) (a : Nat) : Option (Heap L R) :=
  match h.val a with
  | none => none
  | some _ =>
    some { lnode := unlink h.lnode a,
           rnode := unlink h.rnode a,
           val := fun x => if x = a then none else h.val x,
           brk := h.brk }

/-- The default constructor of `bimap`: a sentinel whose two facets are their own parent. -/
def bimap_new (h : Heap L R) : Heap L R × bimap :=
  ({ lnode := construct h.lnode h.brk,
     rnode := construct h.rnode h.brk,
     val := h.val,
     brk := h.brk + 1 },
   ⟨h.brk, 0⟩)

/-- The method `bimap::end_left`. -/
def end_left (b : bimap) : Ptr := some b.root_

/-- The method `bimap::end_right`. -/
def end_right (b : bimap) : Ptr := some b.root_

/-- The method `bimap::begin_left`. -/
def begin_left (h : Heap L R) (b : bimap) : Option Ptr := map_begin h.fuel h.lnode b.root_

/-- The method `bimap::begin_right`. -/
def begin_right (h : Heap L R) (b : bimap) : Option Ptr := map_begin h.fuel h.rnode b.root_

/-- The method `bimap::size`. -/
def size (b : bimap) : Nat := b.size_

/-- The operator `*it` of a left iterator. -/
def deref_left (h : Heap L R) (it : Ptr) : Option L := it.bind h.lkey

/-- The method `get_value` of a left iterator. -/
def get_value_left (h : Heap L R) (it : Ptr) : Option R := it.bind h.rkey

/-- The operator `*it` of a right iterator. -/
def deref_right (h : Heap L R) (it : Ptr) : Option R := it.bind h.rkey

/-- The method `get_value` of a right iterator. -/
def get_value_right (h : Heap L R) (it : Ptr) : Option L := it.bind h.lkey

/-- The operator `++it` of a left iterator. -/
def incr_left (h : Heap L R) (it : Ptr) : Option Ptr := it.bind (next h.fuel h.lnode)

/-- The operator `++it` of a right iterator. -/
def incr_right (h : Heap L R) (it : Ptr) : Option Ptr := it.bind (next h.fuel h.rnode)

variable (cl : L → L → Bool) (cr : R → R → Bool)

/-- The method `bimap::find_left`. -/
def find_left (h : Heap L R) (b : bimap) (left : L) : Option Ptr :=
  find cl h.lkey b.root_ h.fuel h.lnode left

/-- The method `bimap::find_right`. -/
def find_right (h : Heap L R) (b : bimap) (right : R) : Option Ptr :=
  find cr h.rkey b.root_ h.fuel h.rnode right

/-- The method `bimap::insert`, that is `bimap::insert_impl`.  The counter `size_` is a
natural number: every element takes its own address, so `size_++` stays below `2 ^ 64`. -/
def insert (h : Heap L R) (b : bimap) (left : L) (right : R) :
    Option (Ptr × Heap L R × bimap) :=
  let it := end_left b
  match find_impl cl h.lkey b.root_ h.fuel h.lnode left with
  | none => none
  | some left_ptr =>
    match find_impl cr h.rkey b.root_ h.fuel h.rnode right with
    | none => none
    | some right_ptr =>
      match cmp cl h.lkey b.root_ left_ptr left with
      | none => none
      | some c1 =>
        if c1 = 0 then some (it, h, b)
        else
          match cmp cr h.rkey b.root_ right_ptr right with
          | none => none
          | some c2 =>
            if c2 = 0 then some (it, h, b)
            else
              let node := (h.alloc left right).1
              let h1 := (h.alloc left right).2
              match insert_impl cl h1.lkey b.root_ h1.lnode left_ptr node with
              | none => none
              | some (it1, ln) =>
                match insert_impl cr h1.rkey b.root_ h1.rnode right_ptr node with
                | none => none
                | some (_, rn) =>
                  some (it1, { h1 with lnode := ln, rnode := rn },
                        { b with size_ := b.size_ + 1 })

/-- The statement `size_--` on a 64-bit `size_t`. -/
def size_dec (n : Nat) : Nat := if n = 0 then 2 ^ 64 - 1 else n - 1

/-- The method `bimap::erase_left(left_iterator)`. -/
def erase_left (h : Heap L R) (b : bimap) (it : Ptr) : Option (Ptr × Heap L R × bimap) :=
  match it with
  | none => none
  | some a =>
    match erase_impl h.fuel h.lnode a with
    | none => none
    | some (ret, ln) =>
      match flip it with
      | none => none
      | some a2 =>
        match erase_impl h.fuel h.rnode a2 with
        | none => none
        | some (_, rn) =>
          match Heap.delete { h with lnode := ln, rnode := rn } a with
          | none => none
          | some h1 => some (ret, h1, { b with size_ := size_dec b.size_ })

/-- The method `bimap::erase_left(left_t const&)`. -/
def erase_left_key (h : Heap L R) (b : bimap) (left : L) : Option (Bool × Heap L R × bimap) :=
  match find_left cl h b left with
  | none => none
  | some it =>
    if it = end_left b then some (false, h, b)
    else
      match erase_left h b it with
      | none => none
      | some (_, h1, b1) => some (true, h1, b1)

/-- The method `bimap::erase_right(right_iterator)`. -/
def erase_right (h : Heap L R) (b : bimap) (it : Ptr) : Option (Ptr × Heap L R × bimap) :=
  match erase_left h b (flip it) with
  | none => none
  | some (ret, h1, b1) => some (flip ret, h1, b1)

/-- The method `bimap::erase_right(right_t const&)`. -/
def erase_right_key (h : Heap L R) (b : bimap) (right : R) : Option (Bool × Heap L R × bimap) :=
  match find_right cr h b right with
  | none => none
  | some it =>
    if it = end_right b then some (false, h, b)
    else
      match erase_right h b it with
      | none => none
      | some (_, h1, b1) => some (true, h1, b1)

/-- The loop of `bimap::erase_left(left_iterator, left_iterator)`. -/
def erase_left_loop (last : Ptr) : Nat → Heap L R → bimap → Ptr → Option (Ptr × Heap L R × bimap)
  | 0, _, _, _ => none
  | f + 1, h, b, first =>
    if first = last then some (first, h, b)
    else
      match incr_left h first with
      | none => none
      | some nx =>
        match erase_left h b first with
        | none => none
        | some (_, h1, b1) => erase_left_loop last f h1 b1 nx

/-- The method `bimap::erase_left(left_iterator, left_iterator)`. -/
def erase_left_range (h : Heap L R) (b : bimap) (first last : Ptr) :
    Option (Ptr × Heap L R × bimap) :=
  erase_left_loop last h.fuel h b first

/-- The loop of `bimap::erase_right(right_iterator, right_iterator)`. -/
def erase_right_loop (last : Ptr) : Nat → Heap L R → bimap → Ptr → Option (Ptr × Heap L R × bimap)
  | 0, _, _, _ => none
  | f + 1, h, b, first =>
    if first = last then some (first, h, b)
    else
      match incr_right h first with
      | none => none
      | some nx =>
        match erase_right h b first with
        | none => none
        | some (_, h1, b1) => erase_right_loop last f h1 b1 nx

/-- The method `bimap::erase_right(right_iterator, right_iterator)`. -/
def erase_right_range (h : Heap L R) (b : bimap) (first last : Ptr) :
    Option (Ptr × Heap L R × bimap) :=
  erase_right_loop last h.fuel h b first

end bimap_ops

/-! ## Observations of a bimap through its public interface -/

section observers

variable {L R : Type}

/-- The positions met by `for (it = begin_left(); it != end_left(); ++it)`. -/
def left_positions (h : Heap L R) (b : bimap) : Option (List Nat) :=
  match begin_left h b with
  | none => none
  | some it => walk h.fuel h.lnode (end_left b) h.fuel it

/-- The positions met by `for (it = begin_right(); it != end_right(); ++it)`. -/
def right_positions (h : Heap L R) (b : bimap) : Option (List Nat) :=
  match begin_right h b with
  | none => none
  | some it => walk h.fuel h.rnode (end_right b) h.fuel it

/-- Read the stored pair at each position of a list. -/
def read_all (h : Heap L R) : List Nat → Option (List (L × R))
  | [] => some []
  | a :: rest =>
    match h.val a, read_all h rest with
    | some p, some ps => some (p :: ps)
    | _, _ => none

/-- The pairs `(*it, it.get_value())` met when iterating in left order. -/
def left_pairs (h : Heap L R) (b : bimap) : Option (List (L × R)) :=
  (left_positions h b).bind (read_all h)

/-- The pairs `(it.get_value(), *it)` met when iterating in right order. -/
def right_pairs (h : Heap L R) (b : bimap) : Option (List (L × R)) :=
  (right_positions h b).bind (read_all h)

end observers

/-! ## Concrete runs -/

/-- The comparator `std::less<int>` on natural numbers. -/
def nat_less (a b : Nat) : Bool := decide (a < b)

/-- Run a list of insertions, skipping one that has no result. -/
def insert_all : Heap Nat Nat × bimap → List (Nat × Nat) → Heap Nat Nat × bimap
  | s, [] => s
  | s, p :: ps =>
    match insert nat_less nat_less s.1 s.2 p.1 p.2 with
    | some (_, h1, b1) => insert_all (h1, b1) ps
    | none => s

/-- The bimap after `insert(5, 0); insert(10, 1); insert(3, 7); insert(4, 4); insert(7, 8)`. -/
def sample : Heap Nat Nat × bimap :=
  insert_all (bimap_new Heap.empty) [(5, 0), (10, 1), (3, 7), (4, 4), (7, 8)]

/-- The bimap after `insert(1, 20); insert(2, 10)`. -/
def sample2 : Heap Nat Nat × bimap :=
  insert_all (bimap_new Heap.empty) [(1, 20), (2, 10)]

/-! ## Comparators -/

/-- Two keys are equivalent when neither is less than the other. -/
def equivalent {K : Type} (lt : K → K → Bool) (a b : K) : Prop :=
  lt a b = false ∧ lt b a = false

instance {K : Type} (lt : K → K → Bool) (a b : K) : Decidable (equivalent lt a b) := by
  unfold equivalent; exact inferInstance

/-- The requirement on a comparator: a strict weak order. -/
structure StrictWeakOrder {K : Type} (lt : K → K → Bool) : Prop where
  irrefl : ∀ a, lt a a = false
  trans : ∀ a b c, lt a b = true → lt b c = true → lt a c = true
  equiv_trans : ∀ a b c, equivalent lt a b → equivalent lt b c → equivalent lt a c

/-! ## The shape of a tree of facets -/

/-- A binary tree of addresses: the shape the links of one index are meant to have. -/
inductive Tree where
  | nil : Tree
  | node (l : Tree) (a : Nat) (r : Tree) : Tree

namespace Tree

/-- The addresses of a tree in symmetric order. -/
def toList : Tree → List Nat
  | nil => []
  | node l a r => l.toList ++ a :: r.toList

/-- The pointer to the root of a tree. -/
def root : Tree → Ptr
  | nil => none
  | node _ a _ => some a

/-- The leftmost address of a tree, `d` for the empty tree. -/
def first : Tree → Nat → Nat
  | nil, d => d
  | node l a _, _ => first l a

/-- Remove the node at address `x`, the way `erase_impl` restructures the tree. -/
def erase : Tree → Nat → Tree
  | nil, _ => nil
  | node l p r, x =>
    if x = p then
      if l.root = none then r
      else if r.root = none then l
      else node l (r.first p) (erase r (r.first p))
    else if x ∈ l.toList then node (erase l x) p r
    else node l p (erase r x)

/-- The node at which the descent of `find_impl` stops; `c` is the three-way comparison of
each node with the searched key, `d` the node the descent comes from. -/
def locate (c : Nat → Int) : Tree → Nat → Nat
  | nil, d => d
  | node l p r, _ => if c p = 1 then locate c l p else if c p = 0 then p else locate c r p

/-- Attach the node `a` where the descent of `find_impl` stops. -/
def ins (c : Nat → Int) (a : Nat) : Tree → Tree
  | nil => node nil a nil
  | node l p r => if c p = 1 then node (ins c a l) p r else node l p (ins c a r)

end Tree

/-- The links stored in `m` for the nodes of `t` are those of the shape `t`, hanging below
the node `par`. -/
def Rep (m : Mem) : Nat → Tree → Prop
  | _, .nil => True
  | par, .node l a r =>
    (m a).parent_ = some par ∧ (m a).left_ = l.root ∧ (m a).right_ = r.root ∧
      Rep m a l ∧ Rep m a r

/-- The element after `x` in a list, `d` when `x` is the last one. -/
def lsucc : List Nat → Nat → Nat → Nat
  | [], d, _ => d
  | a :: rest, d, x => if a = x then rest.headD d else lsucc rest d x

/-- The three-way comparison of every node with the key `k`, `0` where `cmp` has no result. -/
def cmpf {K : Type} (lt : K → K → Bool) (key : Nat → Option K) (root_ : Nat) (k : K)
    (x : Nat) : Int :=
  (cmp lt key root_ x k).getD 0

/-- The memory after `insert_impl` has attached `a` below `q`. -/
def attach (c : Nat → Int) (m : Mem) (q a : Nat) : Mem :=
  if c q = 1 then insert_left m q (some a) else insert_right m q (some a)

/-- The child pointer of `par` on one side: `left_` for `true`, `right_` for `false`. -/
def child (m : Mem) (par : Nat) (s : Bool) : Ptr :=
  if s then (m par).left_ else (m par).right_

/-- Assignment to the child pointer of `par` on one side. -/
def set_child (m : Mem) (par : Nat) (s : Bool) (p : Ptr) : Mem :=
  if s then set_left m par p else set_right m par p

/-- The memory after `relink_parent` has put `p` into the slot `s` of `par`. -/
def splice (m : Mem) (par : Nat) (s : Bool) (p : Ptr) : Mem :=
  match p with
  | some c => set_parent (set_child m par s p) c (some par)
  | none => set_child m par s p

/-- The keys at the addresses `x` and `y` are present and in strictly increasing order. -/
def key_lt {K : Type} (lt : K → K → Bool) (key : Nat → Option K) (x y : Nat) : Prop :=
  ∃ kx ky, key x = some kx ∧ key y = some ky ∧ lt kx ky = true

/-- The comparison function `c` reads the keys stored at the nodes of a list. -/
def Reads {K : Type} (lt : K → K → Bool) (key : Nat → Option K) (k : K) (c : Nat → Int)
    (xs : List Nat) : Prop :=
  ∀ x ∈ xs, ∃ kx, key x = some kx ∧ c x = cmp_keys lt kx k

/-- One ordered index is well formed: its links have the shape `t` below the sentinel, no
address occurs twice, and the keys increase along the symmetric order. -/
structure IsIndex {K : Type} (lt : K → K → Bool) (key : Nat → Option K) (root_ : Nat)
    (m : Mem) (t : Tree) : Prop where
  rep : Rep m root_ (.node t root_ .nil)
  nodup : (root_ :: t.toList).Nodup
  keyed : ∀ x ∈ t.toList, (key x).isSome = true
  sorted : t.toList.Pairwise (key_lt lt key)

/-- The representation invariant of a bimap that is alone in its heap. -/
structure Inv {L R : Type} (cl : L → L → Bool) (cr : R → R → Bool) (h : Heap L R) (b : bimap)
    (tl tr : Tree) : Prop where
  left : IsIndex cl h.lkey b.root_ h.lnode tl
  right : IsIndex cr h.rkey b.root_ h.rnode tr
  live : ∀ a, (h.val a).isSome = true ↔ a ∈ tl.toList
  same : ∀ a, a ∈ tl.toList ↔ a ∈ tr.toList
  bound : ∀ a ∈ tl.toList, a < h.brk
  root_bound : b.root_ < h.brk
  size_eq : b.size_ = tl.toList.length

/-- The bimaps obtained from the empty bimap by calls of `insert` and of the six `erase`
overloads that return. -/
inductive Reachable {L R : Type} (cl : L → L → Bool) (cr : R → R → Bool) :
    Heap L R → bimap → Prop where
  | empty : Reachable cl cr (bimap_new Heap.empty).1 (bimap_new Heap.empty).2
  | insert {h h1 b b1 it} (l : L) (r : R) : Reachable cl cr h b →
      insert cl cr h b l r = some (it, h1, b1) → Reachable cl cr h1 b1
  | erase_left {h h1 b b1 ret} (it : Ptr) : Reachable cl cr h b →
      erase_left h b it = some (ret, h1, b1) → Reachable cl cr h1 b1
  | erase_right {h h1 b b1 ret} (it : Ptr) : Reachable cl cr h b →
      erase_right h b it = some (ret, h1, b1) → Reachable cl cr h1 b1
  | erase_left_key {h h1 b b1 res} (l : L) : Reachable cl cr h b →
      erase_left_key cl h b l = some (res, h1, b1) → Reachable cl cr h1 b1
  | erase_right_key {h h1 b b1 res} (r : R) : Reachable cl cr h b →
      erase_right_key cr h b r = some (res, h1, b1) → Reachable cl cr h1 b1
  | erase_left_range {h h1 b b1 ret} (first last : Ptr) : Reachable cl cr h b →
      erase_left_range h b first last = some (ret, h1, b1) → Reachable cl cr h1 b1
  | erase_right_range {h h1 b b1 ret} (first last : Ptr) : Reachable cl cr h b →
      erase_right_range h b first last = some (ret, h1, b1) → Reachable cl cr h1 b1

/-! ## bimap.h : lookups that may throw, bounds, default-inserting lookups -/

/-- The exception `std::out_of_range("invalid key")`. -/
inductive out_of_range where
  | invalid_key : out_of_range
deriving DecidableEq, Repr

/-- The two role tags `left_tag` and `right_tag`. -/
inductive Tag where
  | left_tag : Tag
  | right_tag : Tag
deriving DecidableEq, Repr

/-- The cast `upcast<Left, Right, Tag>(ptr)` of a pointer to the facet `facet` of the object
at `a`.  The two `static_cast`s are defined when `ptr` points to the `map_node<Tag>`
sub-object; on a pointer to the other facet the result would address the object one
`base_node` off, which has no defined meaning. -/
def upcast (tag facet : Tag) (a : Nat) : Option Nat :=
  if tag = facet then some a else none

section intrusive_map_more

variable {K : Type} (lt : K → K → Bool) (key : Nat → Option K) (root_ : Nat)

/-- The method `intrusive_map::insert`; `val` is the address of the node to attach. -/
def map_insert (fuel : Nat) (m : Mem) (val : Nat) : Option (Ptr × Mem) :=
  match key val with
  | none => none
  | some k =>
    match find_impl lt key root_ fuel m k with
    | none => none
    | some it => insert_impl lt key root_ m it val

/-- The method `intrusive_map::lower_bound`. -/
def lower_bound (fuel : Nat) (m : Mem) (val : K) : Option Ptr :=
  match find_impl lt key root_ fuel m val with
  | none => none
  | some it =>
    match cmp lt key root_ it val with
    | none => none
    | some c => if c = -1 then next fuel m it else some (some it)

/-- The method `intrusive_map::upper_bound`. -/
def upper_bound (fuel : Nat) (m : Mem) (val : K) : Option Ptr :=
  match find_impl lt key root_ fuel m val with
  | none => none
  | some it =>
    match cmp lt key root_ it val with
    | none => none
    | some c => if c ≤ 0 then next fuel m it else some (some it)

end intrusive_map_more

/-- The method `intrusive_map::swap`, called on the map with sentinel `root_`. -/
def map_swap (m : Mem) (root_ rhs_root : Nat) : Mem :=
  let ptr := (m rhs_root).left_
  let m1 := insert_left m rhs_root (m root_).left_
  insert_left m1 root_ ptr

/-- The move constructor `base_node(base_node&& rhs)` run at address `this`. -/
def base_node_move (m : Mem) (this rhs : Nat) : Mem :=
  let m0 : Mem := fun x =>
    if x = this then ⟨(m rhs).parent_, (m rhs).left_, (m rhs).right_⟩ else m x
  let m1 := match (m0 this).left_ with
    | some l => set_parent m0 l (some this)
    | none => m0
  let m2 := match (m1 this).right_ with
    | some r => set_parent m1 r (some this)
    | none => m1
  let m3 := relink_parent m2 rhs (some this)
  unlink m3 rhs

section bimap_more

variable {L R : Type} (cl : L → L → Bool) (cr : R → R → Bool)

/-- The method `bimap::at_left`, a `const` member: it returns or throws, nothing is written. -/
def at_left (h : Heap L R) (b : bimap) (key : L) : Option (Except out_of_range R) :=
  match find_left cl h b key with
  | none => none
  | some it =>
    if it = end_left b then some (.error .invalid_key)
    else (get_value_left h it).map .ok

/-- The method `bimap::at_right`, a `const` member: it returns or throws, nothing is written. -/
def at_right (h : Heap L R) (b : bimap) (key : R) : Option (Except out_of_range L) :=
  match find_right cr h b key with
  | none => none
  | some it =>
    if it = end_right b then some (.error .invalid_key)
    else (get_value_right h it).map .ok

/-- The method `bimap::lower_bound_left`. -/
def lower_bound_left (h : Heap L R) (b : bimap) (left : L) : Option Ptr :=
  lower_bound cl h.lkey b.root_ h.fuel h.lnode left

/-- The method `bimap::upper_bound_left`. -/
def upper_bound_left (h : Heap L R) (b : bimap) (left : L) : Option Ptr :=
  upper_bound cl h.lkey b.root_ h.fuel h.lnode left

/-- The method `bimap::lower_bound_right`. -/
def lower_bound_right (h : Heap L R) (b : bimap) (right : R) : Option Ptr :=
  lower_bound cr h.rkey b.root_ h.fuel h.rnode right

/-- The method `bimap::upper_bound_right`. -/
def upper_bound_right (h : Heap L R) (b : bimap) (right : R) : Option Ptr :=
  upper_bound cr h.rkey b.root_ h.fuel h.rnode right

/-- The assignment `node->left_value_ = key`. -/
def Heap.set_left_value (h : Heap L R) (a : Nat) (key : L) : Option (Heap L R) :=
  match h.val a with
  | none => none
  | some p => some { h with val := fun x => if x = a then some (key, p.2) else h.val x }

/-- The assignment `node->right_value_ = key`. -/
def Heap.set_right_value (h : Heap L R) (a : Nat) (key : R) : Option (Heap L R) :=
  match h.val a with
  | none => none
  | some p => some { h with val := fun x => if x = a then some (p.1, key) else h.val x }

/-- The method `bimap::at_left_or_default`; `d` is the value `right_t()`. -/
def at_left_or_default (d : R) (h : Heap L R) (b : bimap) (key : L) :
    Option (R × Heap L R × bimap) :=
  match find_impl cl h.lkey b.root_ h.fuel h.lnode key with
  | none => none
  | some left_it =>
    match cmp cl h.lkey b.root_ left_it key with
    | none => none
    | some c1 =>
      if c1 = 0 then
        match (upcast .left_tag .left_tag left_it).bind h.rkey with
        | none => none
        | some v => some (v, h, b)
      else
        match find_impl cr h.rkey b.root_ h.fuel h.rnode d with
        | none => none
        | some right_it =>
          match cmp cr h.rkey b.root_ right_it d with
          | none => none
          | some c2 =>
            if c2 = 0 then
              match (upcast .right_tag .right_tag right_it).bind
                  (fun n => h.set_left_value n key) with
              | none => none
              | some h1 =>
                match erase_impl h1.fuel h1.lnode left_it with
                | none => none
                | some (_, ln) =>
                  match (upcast .left_tag .left_tag left_it).bind
                      (map_insert cl h1.lkey b.root_ h1.fuel ln) with
                  | none => none
                  | some (_, ln1) =>
                    match (upcast .right_tag .right_tag right_it).bind h1.rkey with
                    | none => none
                    | some v => some (v, { h1 with lnode := ln1 }, b)
            else
              match insert cl cr h b key d with
              | none => none
              | some (it, h1, b1) =>
                match get_value_left h1 it with
                | none => none
                | some v => some (v, h1, b1)

/-- The method `bimap::at_right_or_default`; `d` is the value `left_t()`. -/
def at_right_or_default (d : L) (h : Heap L R) (b : bimap) (key : R) :
    Option (L × Heap L R × bimap) :=
  match find_impl cr h.rkey b.root_ h.fuel h.rnode key with
  | none => none
  | some right_it =>
    match cmp cr h.rkey b.root_ right_it key with
    | none => none
    | some c1 =>
      if c1 = 0 then
        match (upcast .left_tag .right_tag right_it).bind h.lkey with
        | none => none
        | some v => some (v, h, b)
      else
        match find_impl cl h.lkey b.root_ h.fuel h.lnode d with
        | none => none
        | some left_it =>
          match cmp cl h.lkey b.root_ left_it d with
          | none => none
          | some c2 =>
            if c2 = 0 then
              match (upcast .left_tag .left_tag left_it).bind
                  (fun n => h.set_right_value n key) with
              | none => none
              | some h1 =>
                match erase_impl h1.fuel h1.rnode right_it with
                | none => none
                | some (_, rn) =>
                  match (upcast .right_tag .right_tag right_it).bind
                      (map_insert cr h1.rkey b.root_ h1.fuel rn) with
                  | none => none
                  | some (_, rn1) =>
                    match (upcast .left_tag .left_tag left_it).bind h1.lkey with
                    | none => none
                    | some v => some (v, { h1 with rnode := rn1 }, b)
            else
              match insert cl cr h b d key with
              | none => none
              | some (it, h1, b1) =>
                match deref_left h1 it with
                | none => none
                | some v => some (v, h1, b1)

end bimap_more

section bimap_special

variable {L R : Type}

/-- The move constructor `bimap(bimap&& other)`: the new object takes a fresh address, its
sentinel is move-constructed from `other.root_` and `size_` is copied.  The result lists the
new object first and `other` second; no member of `other` but its sentinel is written. -/
def move_construct (h : Heap L R) (other : bimap) : Heap L R × bimap × bimap :=
  ({ lnode := base_node_move h.lnode h.brk other.root_,
     rnode := base_node_move h.rnode h.brk other.root_,
     val := h.val,
     brk := h.brk + 1 },
   ⟨h.brk, other.size_⟩, other)

/-- The method `bimap::swap`; the result lists `*this` first and `rhs` second. -/
def swap (h : Heap L R) (this rhs : bimap) : Heap L R × bimap × bimap :=
  ({ h with lnode := map_swap h.lnode this.root_ rhs.root_,
            rnode := map_swap h.rnode this.root_ rhs.root_ },
   { this with size_ := rhs.size_ }, { rhs with size_ := this.size_ })

/-- The method `bimap::recursive_delete`. -/
def recursive_delete : Nat → Heap L R → Ptr → Option (Heap L R)
  | _, h, none => some h
  | 0, _, some _ => none
  | f + 1, h, some p =>
    match recursive_delete f h (h.lnode p).left_ with
    | none => none
    | some h1 =>
      match recursive_delete f h1 (h1.lnode p).right_ with
      | none => none
      | some h2 => Heap.delete h2 p

/-- The destructor `~bimap`, followed by the destruction of the sentinel. -/
def destroy (h : Heap L R) (b : bimap) : Option (Heap L R) :=
  match recursive_delete h.fuel h (h.lnode b.root_).left_ with
  | none => none
  | some h1 =>
    some { h1 with lnode := unlink h1.lnode b.root_, rnode := unlink h1.rnode b.root_ }

/-- The move assignment `bimap::operator=(bimap&& other)`: `bimap tmp(std::move(other));
swap(tmp);` and the destruction of `tmp`.  The result lists `*this` first and `other` second. -/
def move_assign (h : Heap L R) (this other : bimap) : Option (Heap L R × bimap × bimap) :=
  if this.root_ = other.root_ then some (h, this, other)
  else
    match destroy (swap (move_construct h other).1 this (move_construct h other).2.1).1
        (swap (move_construct h other).1 this (move_construct h other).2.1).2.2 with
    | none => none
    | some h3 =>
      some (h3, (swap (move_construct h other).1 this (move_construct h other).2.1).2.1,
        (move_construct h other).2.2)

/-- The method `bimap::empty`. -/
def empty (b : bimap) : Bool := decide (b.size_ = 0)

variable [DecidableEq L] [DecidableEq R]

/-- The loop of `operator==`. -/
def eq_loop (h : Heap L R) (a b : bimap) : Nat → Ptr → Ptr → Option Bool
  | 0, _, _ => none
  | f + 1, it1, it2 =>
    if it1 ≠ end_left a ∧ it2 ≠ end_left b then
      match deref_left h it1, deref_left h it2, get_value_left h it1, get_value_left h it2 with
      | some k1, some k2, some v1, some v2 =>
        if k1 ≠ k2 ∨ v1 ≠ v2 then some false
        else
          match incr_left h it1, incr_left h it2 with
          | some n1, some n2 => eq_loop h a b f n1 n2
          | _, _ => none
      | _, _, _, _ => none
    else some true

/-- The friend `operator==(bimap const& a, bimap const& b)`. -/
def bimap_eq (h : Heap L R) (a b : bimap) : Option Bool :=
  if a.size_ ≠ b.size_ then some false
  else
    match begin_left h a, begin_left h b with
    | some it1, some it2 => eq_loop h a b h.fuel it1 it2
    | _, _ => none

/-- The friend `operator!=(bimap const& a, bimap const& b)`. -/
def bimap_ne (h : Heap L R) (a b : bimap) : Option Bool :=
  (bimap_eq h a b).map (fun r => !r)

end bimap_special

/-- The bimap after `insert(10, 1); insert(5, 0)`. -/
def sample3 : Heap Nat Nat × bimap :=
  insert_all (bimap_new Heap.empty) [(10, 1), (5, 0)]

/-- The lower bound in a tree: the first node, in symmetric order, that `c` does not put
below the key; `d` when there is none. -/
def Tree.lb (c : Nat → Int) : Tree → Nat → Nat
  | .nil, d => d
  | .node l p r, d => if c p = 1 then Tree.lb c l p else if c p = 0 then p else Tree.lb c r d

/-- The upper bound in a tree: the first node, in symmetric order, that `c` puts above the
key; `d` when there is none. -/
def Tree.ub (c : Nat → Int) : Tree → Nat → Nat
  | .nil, d => d
  | .node l p r, d =>
    if c p = 1 then Tree.ub c l p else if c p = 0 then r.first d else Tree.ub c r d

/-! ## Two bimaps in one heap -/

/-- The representation invariant of a bimap whose heap also holds other objects: as `Inv`,
but elements that are not its own may be live. -/
structure LInv {L R : Type} (cl : L → L → Bool) (cr : R → R → Bool) (h : Heap L R) (b : bimap)
    (tl tr : Tree) : Prop where
  left : IsIndex cl h.lkey b.root_ h.lnode tl
  right : IsIndex cr h.rkey b.root_ h.rnode tr
  live : ∀ a ∈ tl.toList, (h.val a).isSome = true
  same : ∀ a, a ∈ tl.toList ↔ a ∈ tr.toList
  bound : ∀ a ∈ tl.toList, a < h.brk
  root_bound : b.root_ < h.brk
  size_eq : b.size_ = tl.toList.length

/-- Two bimaps of one heap are both well formed and share no sentinel and no element. -/
structure Inv2 {L R : Type} (cl : L → L → Bool) (cr : R → R → Bool) (h : Heap L R)
    (a b : bimap) (tla tra tlb trb : Tree) : Prop where
  fst : LInv cl cr h a tla tra
  snd : LInv cl cr h b tlb trb
  roots : a.root_ ≠ b.root_
  root_fst : a.root_ ∉ tlb.toList
  root_snd : b.root_ ∉ tla.toList
  disj : ∀ x ∈ tla.toList, x ∉ tlb.toList

/-- The pairs of bimaps of one program: a reachable bimap and a newly constructed one, then
any interleaving of calls of `insert` and of `erase` on either of them.  An erased position is
one of the bimap it is erased from.  The range overloads are loops of `erase_left` and
`erase_right` calls and reach no further state. -/
inductive Reachable2 {L R : Type} (cl : L → L → Bool) (cr : R → R → Bool) :
    Heap L R → bimap → bimap → Prop where
  | new {h a} : Reachable cl cr h a → Reachable2 cl cr (bimap_new h).1 a (bimap_new h).2
  | symm {h a b} : Reachable2 cl cr h a b → Reachable2 cl cr h b a
  | insert {h h1 a a1 b it} (l : L) (r : R) : Reachable2 cl cr h a b →
      insert cl cr h a l r = some (it, h1, a1) → Reachable2 cl cr h1 a1 b
  | erase_left {h h1 a a1 b ret ps} (x : Nat) : Reachable2 cl cr h a b →
      left_positions h a = some ps → x ∈ ps →
      erase_left h a (some x) = some (ret, h1, a1) → Reachable2 cl cr h1 a1 b
  | erase_right {h h1 a a1 b ret ps} (x : Nat) : Reachable2 cl cr h a b →
      right_positions h a = some ps → x ∈ ps →
      erase_right h a (some x) = some (ret, h1, a1) → Reachable2 cl cr h1 a1 b
  | erase_left_key {h h1 a a1 b res} (l : L) : Reachable2 cl cr h a b →
      erase_left_key cl h a l = some (res, h1, a1) → Reachable2 cl cr h1 a1 b
  | erase_right_key {h h1 a a1 b res} (r : R) : Reachable2 cl cr h a b →
      erase_right_key cr h a r = some (res, h1, a1) → Reachable2 cl cr h1 a1 b

/-- Two bimaps of one heap: the first after the insertions `xs`, then the second is
constructed and receives the insertions `ys`.  The result lists the first bimap first. -/
def insert_both (xs ys : List (Nat × Nat)) : Heap Nat Nat × bimap × bimap :=
  ((insert_all (bimap_new (insert_all (bimap_new Heap.empty) xs).1) ys).1,
   (insert_all (bimap_new Heap.empty) xs).2,
   (insert_all (bimap_new (insert_all (bimap_new Heap.empty) xs).1) ys).2)

/-- The bimaps `a` after `insert(10, 1); insert(5, 0)` and `b` after `insert(1, 20);
insert(2, 10); insert(3, 30)`. -/
def duo : Heap Nat Nat × bimap × bimap :=
  insert_both [(10, 1), (5, 0)] [(1, 20), (2, 10), (3, 30)]

/-- The bimaps `a` after `insert(10, 1); insert(5, 0)` and `b` after `insert(5, 0);
insert(10, 1)`, with the same pairs in trees of different shapes. -/
def twins : Heap Nat Nat × bimap × bimap :=
  insert_both [(10, 1), (5, 0)] [(5, 0), (10, 1)]

/-! ## bimap.h : copy construction and copy assignment -/

section bimap_copy

variable {L R : Type} (cl : L → L → Bool) (cr : R → R → Bool)

/-- The loop of the copy constructor, `for (it = other.begin_left(); it != other.end_left();
++it) insert(*it, it.get_value());`, started at `it`. -/
def copy_loop (other : bimap) : Nat → Heap L R → bimap → Ptr → Option (Heap L R × bimap)
  | 0, _, _, _ => none
  | f + 1, h, this, it =>
    if it = end_left other then some (h, this)
    else
      match deref_left h it, get_value_left h it with
      | some l, some r =>
        match insert cl cr h this l r with
        | none => none
        | some (_, h1, this1) =>
          match incr_left h1 it with
          | none => none
          | some nx => copy_loop other f h1 this1 nx
      | _, _ => none

/-- The copy constructor `bimap(bimap const& other) : bimap()`: the new object takes a fresh
address and default-constructed comparators, here `cl` and `cr`. -/
def copy_construct (h : Heap L R) (other : bimap) : Option (Heap L R × bimap) :=
  match begin_left (bimap_new h).1 other with
  | none => none
  | some it => copy_loop cl cr other (bimap_new h).1.fuel (bimap_new h).1 (bimap_new h).2 it

/-- The copy assignment `bimap::operator=(bimap const& other)`: `bimap tmp(other); swap(tmp);`
and the destruction of `tmp`, unless `this == &other`. -/
def copy_assign (h : Heap L R) (this other : bimap) : Option (Heap L R × bimap) :=
  if this.root_ = other.root_ then some (h, this)
  else
    match copy_construct cl cr h other with
    | none => none
    | some (h1, tmp) =>
      match destroy (swap h1 this tmp).1 (swap h1 this tmp).2.2 with
      | none => none
      | some h3 => some (h3, (swap h1 this tmp).2.1)

/-- A sequence of calls of `insert`, one for each pair of a list in order. -/
def insert_seq : Heap L R → bimap → List (L × R) → Option (Heap L R × bimap)
  | h, b, [] => some (h, b)
  | h, b, p :: ps =>
    match insert cl cr h b p.1 p.2 with
    | none => none
    | some (_, h1, b1) => insert_seq h1 b1 ps

end bimap_copy

/-- A call on the bimap `c` has written only the sentinel of `c`, the elements of `c` and
addresses that were not yet handed out. -/
structure Grows {L R : Type} (h : Heap L R) (c : bimap) (tl : Tree) (h1 : Heap L R)
    (c1 : bimap) (tl1 : Tree) : Prop where
  root : c1.root_ = c.root_
  brk : h.brk ≤ h1.brk
  sub : ∀ x ∈ tl1.toList, x ∈ tl.toList ∨ h.brk ≤ x
  frame : ∀ y, y ∉ c.root_ :: tl.toList → y < h.brk →
    h1.lnode y = h.lnode y ∧ h1.rnode y = h.rnode y ∧ h1.val y = h.val y

/-- Two bimaps of one program: the first is constructed and receives `insert` for each pair
of `xs`, then the second is constructed and receives `insert` for each pair of `ys`.  The
result lists the first bimap first. -/
def build_pair {L R : Type} (cl : L → L → Bool) (cr : R → R → Bool) (xs ys : List (L × R)) :
    Option (Heap L R × bimap × bimap) :=
  match insert_seq cl cr (bimap_new (Heap.empty : Heap L R)).1
      (bimap_new (Heap.empty : Heap L R)).2 xs with
  | none => none
  | some (h1, a) =>
    match insert_seq cl cr (bimap_new h1).1 (bimap_new h1).2 ys with
    | none => none
    | some (h2, b) => some (h2, a, b)

/-! ## Two bimaps with comparators of their own -/

/-- One call on a bimap that returns: `insert`, `erase` at a position of the bimap, or `erase`
of a key. -/
inductive Call {L R : Type} (cl : L → L → Bool) (cr : R → R → Bool) :
    Heap L R → bimap → Heap L R → bimap → Prop where
  | insert {h h1 a a1 it} (l : L) (r : R) :
      insert cl cr h a l r = some (it, h1, a1) → Call cl cr h a h1 a1
  | erase_left {h h1 a a1 ret ps} (x : Nat) : left_positions h a = some ps → x ∈ ps →
      erase_left h a (some x) = some (ret, h1, a1) → Call cl cr h a h1 a1
  | erase_right {h h1 a a1 ret ps} (x : Nat) : right_positions h a = some ps → x ∈ ps →
      erase_right h a (some x) = some (ret, h1, a1) → Call cl cr h a h1 a1
  | erase_left_key {h h1 a a1 res} (l : L) :
      erase_left_key cl h a l = some (res, h1, a1) → Call cl cr h a h1 a1
  | erase_right_key {h h1 a a1 res} (r : R) :
      erase_right_key cr h a r = some (res, h1, a1) → Call cl cr h a h1 a1

/-- The pairs of bimaps of one program in which the first bimap orders its keys by `cla`, `cra`
and the second by `clb`, `crb` (two objects of one type `bimap<L, R, CL, CR>` whose comparator
objects may differ): a reachable bimap and a newly constructed one, in either order, then any
interleaving of calls on the two. -/
inductive ReachablePair {L R : Type} (cla : L → L → Bool) (cra : R → R → Bool)
    (clb : L → L → Bool) (crb : R → R → Bool) : Heap L R → bimap → bimap → Prop where
  | new_snd {h a} : Reachable cla cra h a →
      ReachablePair cla cra clb crb (bimap_new h).1 a (bimap_new h).2
  | new_fst {h b} : Reachable clb crb h b →
      ReachablePair cla cra clb crb (bimap_new h).1 (bimap_new h).2 b
  | fst {h h1 a a1 b} : ReachablePair cla cra clb crb h a b → Call cla cra h a h1 a1 →
      ReachablePair cla cra clb crb h1 a1 b
  | snd {h h1 a b b1} : ReachablePair cla cra clb crb h a b → Call clb crb h b h1 b1 →
      ReachablePair cla cra clb crb h1 a b1

/-- Two bimaps of one heap, each with comparators of its own, are both well formed and share
no sentinel and no element. -/
structure InvPair {L R : Type} (cla : L → L → Bool) (cra : R → R → Bool)
    (clb : L → L → Bool) (crb : R → R → Bool) (h : Heap L R) (a b : bimap)
    (tla tra tlb trb : Tree) : Prop where
  fst : LInv cla cra h a tla tra
  snd : LInv clb crb h b tlb trb
  roots : a.root_ ≠ b.root_
  root_fst : a.root_ ∉ tlb.toList
  root_snd : b.root_ ∉ tla.toList
  disj : ∀ x ∈ tla.toList, x ∉ tlb.toList

/-- The comparator `std::greater<int>` on natural numbers. -/
def nat_greater (a b : Nat) : Bool := decide (b < a)

/-- Run a list of insertions with the comparators `cl`, `cr`, skipping one that has no
result. -/
def insert_list {L R : Type} (cl : L → L → Bool) (cr : R → R → Bool) :
    Heap L R × bimap → List (L × R) → Heap L R × bimap
  | s, [] => s
  | s, p :: ps =>
    match insert cl cr s.1 s.2 p.1 p.2 with
    | some (_, h1, b1) => insert_list cl cr (h1, b1) ps
    | none => s

/-- Two bimaps of one heap: `a` with `std::less` after `insert(1, 10); insert(2, 20)`, then
`b` with `std::greater` after the same two calls. -/
def opposite : Heap Nat Nat × bimap × bimap :=
  ((insert_list nat_greater nat_greater
      (bimap_new (insert_list nat_less nat_less (bimap_new Heap.empty) [(1, 10), (2, 20)]).1)
      [(1, 10), (2, 20)]).1,
   (insert_list nat_less nat_less (bimap_new Heap.empty) [(1, 10), (2, 20)]).2,
   (insert_list nat_greater nat_greater
      (bimap_new (insert_list nat_less nat_less (bimap_new Heap.empty) [(1, 10), (2, 20)]).1)
      [(1, 10), (2, 20)]).2)

/-! ## Trees and lists -/

theorem Tree.first_eq (t : Tree) (d : Nat) : t.first d = t.toList.headD d := by
  induction t generalizing d with
  | nil => rfl
  | node l a r ihl _ =>
    simp only [Tree.first, Tree.toList, ihl]
    cases l.toList <;> simp

theorem Tree.root_mem {t : Tree} {a : Nat} (h : t.root = some a) : a ∈ t.toList := by
  cases t with
  | nil => simp [Tree.root] at h
  | node l p r => simp [Tree.root] at h; simp [Tree.toList, h]

theorem Tree.root_eq_none {t : Tree} : t.root = none ↔ t = .nil := by
  cases t <;> simp [Tree.root]

theorem Tree.first_mem {t : Tree} (d : Nat) (h : t ≠ .nil) : t.first d ∈ t.toList := by
  induction t generalizing d with
  | nil => exact absurd rfl h
  | node l a r ihl _ =>
    simp only [Tree.first, Tree.toList]
    by_cases hl : l = .nil
    · subst hl; simp [Tree.first, Tree.toList]
    · exact List.mem_append_left _ (ihl a hl)

theorem lsucc_append_left {l1 : List Nat} (l2 : List Nat) (d x : Nat) (h : x ∈ l1) :
    lsucc (l1 ++ l2) d x = lsucc l1 (l2.headD d) x := by
  induction l1 with
  | nil => simp at h
  | cons a rest ih =>
    simp only [List.cons_append, lsucc]
    by_cases hax : a = x
    · simp only [hax, if_true]
      cases rest <;> simp
    · simp only [hax, if_false]
      apply ih
      simpa [Ne.symm hax] using h

theorem lsucc_append_right {l1 : List Nat} (l2 : List Nat) (d x : Nat) (h : x ∉ l1) :
    lsucc (l1 ++ l2) d x = lsucc l2 d x := by
  induction l1 with
  | nil => simp
  | cons a rest ih =>
    simp only [List.mem_cons, not_or] at h
    simp only [List.cons_append, lsucc, Ne.symm h.1, if_false]
    exact ih h.2

/-! ## Memory updates -/

theorem Rep.congr {m m1 : Mem} {t : Tree} {par : Nat} (hm : ∀ x ∈ t.toList, m1 x = m x)
    (h : Rep m par t) : Rep m1 par t := by
  induction t generalizing par with
  | nil => trivial
  | node l a r ihl ihr =>
    simp only [Tree.toList, List.mem_append, List.mem_cons] at hm
    obtain ⟨h1, h2, h3, h4, h5⟩ := h
    have ha := hm a (Or.inr (Or.inl rfl))
    refine ⟨by rw [ha]; exact h1, by rw [ha]; exact h2, by rw [ha]; exact h3, ?_, ?_⟩
    · exact ihl (fun x hx => hm x (Or.inl hx)) h4
    · exact ihr (fun x hx => hm x (Or.inr (Or.inr hx))) h5

theorem Rep.reroot {m m1 : Mem} {l r : Tree} {a par q : Nat}
    (h : Rep m par (.node l a r))
    (hm : ∀ x ∈ l.toList ++ r.toList, m1 x = m x)
    (hp : (m1 a).parent_ = some q) (hl : (m1 a).left_ = (m a).left_)
    (hr : (m1 a).right_ = (m a).right_) : Rep m1 q (.node l a r) := by
  obtain ⟨_, h2, h3, h4, h5⟩ := h
  refine ⟨hp, hl.trans h2, hr.trans h3, ?_, ?_⟩
  · exact Rep.congr (fun x hx => hm x (List.mem_append_left _ hx)) h4
  · exact Rep.congr (fun x hx => hm x (List.mem_append_right _ hx)) h5

/-! ## Successor walk -/

theorem descend_left_spec {m : Mem} {l r : Tree} {a par : Nat} (h : Rep m par (.node l a r)) :
    ∀ f, l.toList.length + 1 ≤ f → descend_left m f a = some (l.first a) := by
  induction l generalizing a par r with
  | nil =>
    intro f hf
    obtain ⟨_, h2, _⟩ := h
    obtain ⟨g, rfl⟩ : ∃ g, f = g + 1 := ⟨f - 1, by omega⟩
    simp [descend_left, h2, Tree.root, Tree.first]
  | node l1 a1 r1 ih _ =>
    intro f hf
    obtain ⟨_, h2, _, h4, _⟩ := h
    obtain ⟨g, rfl⟩ : ∃ g, f = g + 1 := ⟨f - 1, by omega⟩
    simp only [descend_left, h2, Tree.root, Tree.first]
    apply ih h4
    simp only [Tree.toList, List.length_append, List.length_cons] at hf
    omega

theorem is_right_of_rep_right {m : Mem} {l r : Tree} {p par a : Nat}
    (h : Rep m par (.node l p r)) (ha : r.root = some a) : is_right m a = true := by
  obtain ⟨_, _, h3, _, h5⟩ := h
  cases r with
  | nil => simp [Tree.root] at ha
  | node rl ra rr =>
    simp only [Tree.root, Option.some.injEq] at ha
    subst ha
    simp [is_right, h5.1, h3, Tree.root]

theorem is_right_of_rep_left {m : Mem} {l r : Tree} {p par a : Nat}
    (h : Rep m par (.node l p r)) (ha : l.root = some a) (hnr : a ∉ r.toList) :
    is_right m a = false := by
  obtain ⟨_, _, h3, h4, _⟩ := h
  cases l with
  | nil => simp [Tree.root] at ha
  | node ll la lr =>
    simp only [Tree.root, Option.some.injEq] at ha
    subst ha
    simp only [is_right, h4.1, h3]
    cases hr : r.root with
    | none => simp
    | some b =>
      have := Tree.root_mem hr
      have hne : b ≠ la := fun e => hnr (e ▸ this)
      simp [hne]

/-- Inside a subtree `t` whose climb from the root leaves towards `d` after `n` steps, `next`
is the successor in symmetric order, and `d` for the last node. -/
theorem next_sub {m : Mem} (t : Tree) : ∀ (par d n : Nat), Rep m par t → t.toList.Nodup →
    (∀ p, t.root = some p → ∀ g, ∃ c, climb_right m (g + n) p = some c ∧
      (m c).parent_ = some d) →
    ∀ x ∈ t.toList, ∀ f, t.toList.length + n ≤ f + 1 →
      next f m x = some (some (lsucc t.toList d x)) := by
  induction t with
  | nil => intro par d n _ _ _ x hx; simp [Tree.toList] at hx
  | node l p r ihl ihr =>
    intro par d n hrep hnd hctx x hx f hf
    have hrep0 := hrep
    obtain ⟨h1, h2, h3, h4, h5⟩ := hrep
    simp only [Tree.toList, List.length_append, List.length_cons] at hf
    simp only [Tree.toList] at hnd hx ⊢
    have hnd1 := List.nodup_append.mp hnd
    have hndr := (List.nodup_cons.mp hnd1.2.1)
    have hpl : p ∉ l.toList := fun hp => hnd1.2.2 hp (List.mem_cons_self _ _)
    have hdisj : ∀ y ∈ l.toList, y ∉ r.toList := fun y hy hy2 =>
      hnd1.2.2 hy (List.mem_cons_of_mem _ hy2)
    rcases List.mem_append.mp hx with hxl | hxr
    · -- x in the left subtree
      rw [lsucc_append_left _ _ _ hxl]
      simp only [List.headD_cons]
      apply ihl p p 1 h4 hnd1.1 _ x hxl f (by omega)
      intro q hq g
      refine ⟨q, ?_, ?_⟩
      · have := is_right_of_rep_left hrep0 hq (hdisj q (Tree.root_mem hq))
        simp [climb_right, this]
      · cases l with
        | nil => simp [Tree.root] at hq
        | node ll la lr =>
          simp only [Tree.root, Option.some.injEq] at hq
          subst hq; exact h4.1
    · rw [lsucc_append_right _ _ _ (fun hxl => hdisj x hxl (by
        rcases List.mem_cons.mp hxr with e | e
        · exact absurd hxl (e ▸ hpl)
        · exact e))]
      rcases List.mem_cons.mp hxr with hxp | hxr2
      · -- x is the root
        subst hxp
        simp only [lsucc, if_true]
        cases hr : r.root with
        | none =>
          have hrn := Tree.root_eq_none.mp hr
          subst hrn
          simp only [next, h3, Tree.root, Tree.toList, List.headD_nil]
          obtain ⟨c, hc1, hc2⟩ := hctx x rfl (f - n)
          have : f - n + n = f := by omega
          rw [this] at hc1
          simp [hc1, hc2]
        | some b =>
          cases r with
          | nil => simp [Tree.root] at hr
          | node rl ra rr =>
            simp only [Tree.root, Option.some.injEq] at hr
            subst hr
            simp only [next, h3, Tree.root]
            rw [descend_left_spec h5 f (by
              simp only [Tree.toList, List.length_append, List.length_cons] at hf; omega)]
            have := Tree.first_eq (.node rl ra rr) d
            simp only [Tree.first] at this
            simp [this]
      · -- x in the right subtree
        have hxp : p ≠ x := fun e => hndr.1 (e ▸ hxr2)
        simp only [lsucc, hxp, if_false]
        apply ihr p d (n + 1) h5 hndr.2 _ x hxr2 f (by omega)
        intro q hq g
        obtain ⟨c, hc1, hc2⟩ := hctx p rfl g
        refine ⟨c, ?_, hc2⟩
        have hir := is_right_of_rep_right hrep0 hq
        have hqp : (m q).parent_ = some p := by
          cases r with
          | nil => simp [Tree.root] at hq
          | node rl ra rr =>
            simp only [Tree.root, Option.some.injEq] at hq
            subst hq; exact h5.1
        rw [← Nat.add_assoc]
        simp only [climb_right, hir, if_true, hqp]
        exact hc1

theorem length_le_of_nodup_bounded {l : List Nat} {n : Nat} (hnd : l.Nodup)
    (hb : ∀ x ∈ l, x < n) : l.length ≤ n := by
  have h1 : l.toFinset ⊆ Finset.range n := by
    intro x hx
    simp only [List.mem_toFinset] at hx
    simpa using hb x hx
  have h2 := Finset.card_le_card h1
  rwa [List.toFinset_card_of_nodup hnd, Finset.card_range] at h2

section index

variable {K : Type} {lt : K → K → Bool} {key : Nat → Option K} {root_ : Nat} {m : Mem} {t : Tree}

theorem IsIndex.root_not_mem (hi : IsIndex lt key root_ m t) : root_ ∉ t.toList :=
  (List.nodup_cons.mp hi.nodup).1

theorem IsIndex.nodup_list (hi : IsIndex lt key root_ m t) : t.toList.Nodup :=
  (List.nodup_cons.mp hi.nodup).2

theorem IsIndex.rep_tree (hi : IsIndex lt key root_ m t) : Rep m root_ t := hi.rep.2.2.2.1

theorem IsIndex.next_eq (hi : IsIndex lt key root_ m t) {x : Nat} (hx : x ∈ t.toList)
    {f : Nat} (hf : t.toList.length ≤ f) :
    next f m x = some (some (lsucc t.toList root_ x)) := by
  apply next_sub t root_ root_ 1 hi.rep_tree hi.nodup_list _ x hx f (Nat.succ_le_succ hf)
  intro p hp g
  refine ⟨p, ?_, ?_⟩
  · have h := hi.rep
    have : is_right m p = false := by
      apply is_right_of_rep_left h hp
      simp [Tree.toList]
    simp [climb_right, this]
  · have h := hi.rep_tree
    cases t with
    | nil => simp [Tree.root] at hp
    | node l a r =>
      simp only [Tree.root, Option.some.injEq] at hp
      subst hp; exact h.1

theorem IsIndex.begin_eq (hi : IsIndex lt key root_ m t) {f : Nat}
    (hf : t.toList.length + 1 ≤ f) :
    map_begin f m root_ = some (some (t.toList.headD root_)) := by
  simp only [map_begin]
  rw [descend_left_spec hi.rep f hf, Tree.first_eq]
  rfl

theorem IsIndex.walk_suffix (hi : IsIndex lt key root_ m t) {nf : Nat}
    (hnf : t.toList.length + 1 ≤ nf) (suf : List Nat) :
    ∀ (pre : List Nat), pre ++ suf = t.toList → ∀ f, suf.length + 1 ≤ f →
      walk nf m (some root_) f (some (suf.headD root_)) = some suf := by
  induction suf with
  | nil =>
    intro pre _ f hf
    obtain ⟨g, rfl⟩ : ∃ g, f = g + 1 := ⟨f - 1, by omega⟩
    simp [walk]
  | cons x rest ih =>
    intro pre hpre f hf
    obtain ⟨g, rfl⟩ : ∃ g, f = g + 1 := ⟨f - 1, by simp at hf; omega⟩
    have hx : x ∈ t.toList := by rw [← hpre]; simp
    have hxr : x ≠ root_ := fun e => hi.root_not_mem (e ▸ hx)
    have hnd := hi.nodup_list
    rw [← hpre] at hnd
    have hxpre : x ∉ pre := fun hp =>
      (List.nodup_append.mp hnd).2.2 hp (List.mem_cons_self _ _)
    have hs : lsucc t.toList root_ x = rest.headD root_ := by
      rw [← hpre, lsucc_append_right _ _ _ hxpre]
      simp [lsucc]
    simp only [List.headD_cons, walk, Option.some.injEq, hxr, if_false,
      hi.next_eq hx (Nat.le_of_succ_le hnf), hs]
    rw [ih (pre ++ [x]) (by simpa using hpre) g (by simp at hf; omega)]
    rfl

theorem IsIndex.walk_eq (hi : IsIndex lt key root_ m t) {nf f : Nat}
    (hnf : t.toList.length + 1 ≤ nf) (hf : t.toList.length + 1 ≤ f) :
    walk nf m (some root_) f (some (t.toList.headD root_)) = some t.toList :=
  hi.walk_suffix hnf t.toList [] rfl f hf

end index

/-! ## Descent of `find_impl` -/

theorem find_loop_spec {K : Type} {lt : K → K → Bool} {key : Nat → Option K} {root_ : Nat}
    {m : Mem} {k : K} {c : Nat → Int} (t : Tree) :
    ∀ (par p : Nat), t.root = some p → Rep m par t →
      (∀ x ∈ t.toList, cmp lt key root_ x k = some (c x)) →
      ∀ f, t.toList.length ≤ f → find_loop lt key root_ m k f p = some (t.locate c par) := by
  induction t with
  | nil => intro par p hp; simp [Tree.root] at hp
  | node l a r ihl ihr =>
    intro par p hp hrep hc f hf
    simp only [Tree.root, Option.some.injEq] at hp
    subst hp
    obtain ⟨_, h2, h3, h4, h5⟩ := hrep
    simp only [Tree.toList, List.length_append, List.length_cons] at hf
    obtain ⟨g, rfl⟩ : ∃ g, f = g + 1 := ⟨f - 1, by omega⟩
    have hca := hc a (by simp [Tree.toList])
    simp only [find_loop, hca, Tree.locate]
    by_cases h1 : c a = 1
    · simp only [h1, if_true, h2]
      cases hl : l.root with
      | none =>
        have := Tree.root_eq_none.mp hl
        subst this
        simp [Tree.locate]
      | some q =>
        simp only
        exact ihl a q hl h4 (fun x hx => hc x (by simp [Tree.toList, hx])) g (by omega)
    · simp only [h1, if_false]
      by_cases h0 : c a = 0
      · simp [h0]
      · simp only [h0, if_false, h3]
        cases hr : r.root with
        | none =>
          have := Tree.root_eq_none.mp hr
          subst this
          simp [Tree.locate]
        | some q =>
          simp only
          exact ihr a q hr h5 (fun x hx => hc x (by simp [Tree.toList, hx])) g (by omega)

theorem Tree.locate_mem (c : Nat → Int) (t : Tree) (d : Nat) :
    t.locate c d ∈ d :: t.toList := by
  induction t generalizing d with
  | nil => simp [Tree.locate]
  | node l p r ihl ihr =>
    simp only [Tree.locate, Tree.toList]
    split_ifs
    · have := ihl p
      simp only [List.mem_cons, List.mem_append] at this ⊢
      tauto
    · simp
    · have := ihr p
      simp only [List.mem_cons, List.mem_append] at this ⊢
      tauto

theorem Tree.locate_mem_of_root (c : Nat → Int) {t : Tree} (d : Nat) (h : t ≠ .nil) :
    t.locate c d ∈ t.toList := by
  cases t with
  | nil => exact absurd rfl h
  | node l p r =>
    simp only [Tree.locate, Tree.toList]
    split_ifs
    · have := Tree.locate_mem c l p
      simp only [List.mem_cons, List.mem_append] at this ⊢
      tauto
    · simp
    · have := Tree.locate_mem c r p
      simp only [List.mem_cons, List.mem_append] at this ⊢
      tauto

theorem Tree.locate_congr {c c1 : Nat → Int} (t : Tree) (d : Nat)
    (h : ∀ x ∈ t.toList, c x = c1 x) : t.locate c d = t.locate c1 d := by
  induction t generalizing d with
  | nil => rfl
  | node l p r ihl ihr =>
    simp only [Tree.toList, List.mem_append, List.mem_cons] at h
    simp only [Tree.locate, h p (Or.inr (Or.inl rfl))]
    rw [ihl p (fun x hx => h x (Or.inl hx)), ihr p (fun x hx => h x (Or.inr (Or.inr hx)))]

theorem Tree.ins_congr {c c1 : Nat → Int} (a : Nat) (t : Tree)
    (h : ∀ x ∈ t.toList, c x = c1 x) : t.ins c a = t.ins c1 a := by
  induction t with
  | nil => rfl
  | node l p r ihl ihr =>
    simp only [Tree.toList, List.mem_append, List.mem_cons] at h
    simp only [Tree.ins, h p (Or.inr (Or.inl rfl))]
    rw [ihl (fun x hx => h x (Or.inl hx)), ihr (fun x hx => h x (Or.inr (Or.inr hx)))]

theorem Tree.ins_root (c : Nat → Int) (a : Nat) {t : Tree} {p : Nat} (h : t.root = some p) :
    (t.ins c a).root = some p := by
  cases t with
  | nil => simp [Tree.root] at h
  | node l q r =>
    simp only [Tree.ins]
    split_ifs <;> exact h

theorem Tree.ins_toList (c : Nat → Int) (a : Nat) (t : Tree) :
    ∃ pre post, t.toList = pre ++ post ∧ (t.ins c a).toList = pre ++ a :: post := by
  induction t with
  | nil => exact ⟨[], [], rfl, rfl⟩
  | node l p r ihl ihr =>
    simp only [Tree.ins]
    split_ifs
    · obtain ⟨pre, post, h1, h2⟩ := ihl
      exact ⟨pre, post ++ p :: r.toList, by simp [Tree.toList, h1], by simp [Tree.toList, h2]⟩
    · obtain ⟨pre, post, h1, h2⟩ := ihr
      exact ⟨l.toList ++ p :: pre, post, by simp [Tree.toList, h1], by simp [Tree.toList, h2]⟩

theorem Tree.mem_ins (c : Nat → Int) (a : Nat) (t : Tree) (x : Nat) :
    x ∈ (t.ins c a).toList ↔ x = a ∨ x ∈ t.toList := by
  obtain ⟨pre, post, h1, h2⟩ := Tree.ins_toList c a t
  rw [h1, h2]
  simp only [List.mem_append, List.mem_cons]
  tauto

theorem Tree.length_ins (c : Nat → Int) (a : Nat) (t : Tree) :
    (t.ins c a).toList.length = t.toList.length + 1 := by
  obtain ⟨pre, post, h1, h2⟩ := Tree.ins_toList c a t
  rw [h1, h2]
  simp only [List.length_append, List.length_cons]
  omega

theorem Tree.nodup_ins (c : Nat → Int) {a : Nat} {t : Tree} (hnd : t.toList.Nodup)
    (ha : a ∉ t.toList) : (t.ins c a).toList.Nodup := by
  obtain ⟨pre, post, h1, h2⟩ := Tree.ins_toList c a t
  rw [h1] at hnd ha
  rw [h2]
  have hp : (pre ++ a :: post).Perm (a :: (pre ++ post)) := List.perm_middle
  exact hp.nodup_iff.mpr (List.nodup_cons.mpr ⟨ha, hnd⟩)

/-! ## Attaching a node -/

theorem attach_frame (c : Nat → Int) (m : Mem) {q a x : Nat} (hq : x ≠ q) (ha : x ≠ a) :
    attach c m q a x = m x := by
  unfold attach insert_left insert_right set_left set_right set_parent
  split_ifs <;> simp [hq, ha]

theorem attach_rep {m : Mem} {c : Nat → Int} {a : Nat} (hal : (m a).left_ = none)
    (har : (m a).right_ = none) (t : Tree) :
    ∀ (par p : Nat), t.root = some p → Rep m par t → t.toList.Nodup → a ∉ t.toList →
      c (t.locate c par) ≠ 0 →
      Rep (attach c m (t.locate c par) a) par (t.ins c a) := by
  induction t with
  | nil => intro par p hp; simp [Tree.root] at hp
  | node l q r ihl ihr =>
    intro par p hp hrep hnd ha hc
    obtain ⟨h1, h2, h3, h4, h5⟩ := hrep
    simp only [Tree.toList] at hnd ha
    have hnd1 := List.nodup_append.mp hnd
    have hndr := (List.nodup_cons.mp hnd1.2.1)
    have hql : q ∉ l.toList := fun hp => hnd1.2.2 hp (List.mem_cons_self _ _)
    have hdisj : ∀ y ∈ l.toList, y ∉ r.toList := fun y hy hy2 =>
      hnd1.2.2 hy (List.mem_cons_of_mem _ hy2)
    simp only [List.mem_append, List.mem_cons, not_or] at ha
    obtain ⟨hal1, haq, har1⟩ := ha
    simp only [Tree.locate] at hc ⊢
    simp only [Tree.ins]
    by_cases hc1 : c q = 1
    · simp only [hc1, if_true] at hc ⊢
      cases hl : l.root with
      | none =>
        have := Tree.root_eq_none.mp hl
        subst this
        simp only [Tree.locate, Tree.ins]
        have hm : ∀ x, x ≠ q → x ≠ a → attach c m q a x = m x :=
          fun x hx hx2 => attach_frame c m hx hx2
        have hq : attach c m q a q = { m q with left_ := some a } := by
          simp [attach, hc1, insert_left, set_left, set_parent, Ne.symm haq]
        have haa : attach c m q a a = { m a with parent_ := some q } := by
          simp [attach, hc1, insert_left, set_left, set_parent, haq]
        refine ⟨by rw [hq]; exact h1, by rw [hq]; rfl, by rw [hq]; exact h3, ?_, ?_⟩
        · exact ⟨by rw [haa], by rw [haa]; exact hal, by rw [haa]; exact har, trivial, trivial⟩
        · exact Rep.congr (fun x hx => hm x (fun e => hndr.1 (e ▸ hx))
            (fun e => har1 (e ▸ hx))) h5
      | some lp =>
        have hne : l ≠ .nil := fun e => by simp [e, Tree.root] at hl
        have hloc := Tree.locate_mem_of_root c q hne
        have hm : ∀ x, x ∉ l.toList → x ≠ a → attach c m (l.locate c q) a x = m x :=
          fun x hx hx2 => attach_frame c m (fun e => hx (e ▸ hloc)) hx2
        have ih := ihl q lp hl h4 hnd1.1 hal1 hc
        have hq := hm q hql (Ne.symm haq)
        refine ⟨by rw [hq]; exact h1, ?_, by rw [hq]; exact h3, ih, ?_⟩
        · rw [hq, h2, hl, Tree.ins_root c a hl]
        · exact Rep.congr (fun x hx => hm x (fun e => hdisj x e hx)
            (fun e => har1 (e ▸ hx))) h5
    · simp only [hc1, if_false] at hc ⊢
      by_cases hc0 : c q = 0
      · simp [hc0] at hc
      simp only [hc0, if_false] at hc ⊢
      cases hr : r.root with
      | none =>
        have := Tree.root_eq_none.mp hr
        subst this
        simp only [Tree.locate, Tree.ins]
        have hm : ∀ x, x ≠ q → x ≠ a → attach c m q a x = m x :=
          fun x hx hx2 => attach_frame c m hx hx2
        have hq : attach c m q a q = { m q with right_ := some a } := by
          simp [attach, hc1, insert_right, set_right, set_parent, Ne.symm haq]
        have haa : attach c m q a a = { m a with parent_ := some q } := by
          simp [attach, hc1, insert_right, set_right, set_parent, haq]
        refine ⟨by rw [hq]; exact h1, by rw [hq]; exact h2, by rw [hq]; rfl, ?_, ?_⟩
        · exact Rep.congr (fun x hx => hm x (fun e => hql (e ▸ hx))
            (fun e => hal1 (e ▸ hx))) h4
        · exact ⟨by rw [haa], by rw [haa]; exact hal, by rw [haa]; exact har, trivial, trivial⟩
      | some rp =>
        have hne : r ≠ .nil := fun e => by simp [e, Tree.root] at hr
        have hloc := Tree.locate_mem_of_root c q hne
        have hm : ∀ x, x ∉ r.toList → x ≠ a → attach c m (r.locate c q) a x = m x :=
          fun x hx hx2 => attach_frame c m (fun e => hx (e ▸ hloc)) hx2
        have ih := ihr q rp hr h5 hndr.2 har1 hc
        have hq := hm q hndr.1 (Ne.symm haq)
        refine ⟨by rw [hq]; exact h1, by rw [hq]; exact h2, ?_, ?_, ih⟩
        · rw [hq, h3, hr, Tree.ins_root c a hr]
        · exact Rep.congr (fun x hx => hm x (hdisj x hx)
            (fun e => hal1 (e ▸ hx))) h4

/-! ## Keys along the descent -/

section keys

variable {K : Type} {lt : K → K → Bool}

theorem cmp_keys_eq_one {a b : K} : cmp_keys lt a b = 1 ↔ lt a b = false ∧ lt b a = true := by
  unfold cmp_keys
  cases lt a b <;> cases lt b a <;> simp

theorem cmp_keys_eq_zero {a b : K} : cmp_keys lt a b = 0 ↔ equivalent lt a b := by
  unfold cmp_keys equivalent
  cases lt a b <;> cases lt b a <;> simp

theorem cmp_keys_lt {a b : K} (h1 : cmp_keys lt a b ≠ 1) (h0 : cmp_keys lt a b ≠ 0) :
    lt a b = true := by
  unfold cmp_keys at h1 h0
  cases hab : lt a b <;> cases hba : lt b a <;> simp [hab, hba] at h1 h0 ⊢

theorem Reads.mono {key : Nat → Option K} {k : K} {c : Nat → Int} {xs ys : List Nat}
    (h : Reads lt key k c xs) (hs : ∀ x ∈ ys, x ∈ xs) : Reads lt key k c ys :=
  fun x hx => h x (hs x hx)

theorem key_lt_trans (hlt : StrictWeakOrder lt) {key : Nat → Option K} {x y z : Nat}
    (h1 : key_lt lt key x y) (h2 : key_lt lt key y z) : key_lt lt key x z := by
  obtain ⟨kx, ky, e1, e2, e3⟩ := h1
  obtain ⟨ky1, kz, e4, e5, e6⟩ := h2
  rw [e2] at e4
  cases e4
  exact ⟨kx, kz, e1, e5, hlt.trans _ _ _ e3 e6⟩

theorem Tree.ins_sorted (hlt : StrictWeakOrder lt) {key : Nat → Option K} {k : K}
    {c : Nat → Int} {a : Nat} (hka : key a = some k) (t : Tree) :
    ∀ d, t.toList.Pairwise (key_lt lt key) → Reads lt key k c t.toList →
      c (t.locate c d) ≠ 0 → (t.ins c a).toList.Pairwise (key_lt lt key) := by
  induction t with
  | nil => intro d _ _ _; simp [Tree.ins, Tree.toList]
  | node l p r ihl ihr =>
    intro d hs hrd hc
    simp only [Tree.toList] at hs hrd
    obtain ⟨hs1, hs2, hs3⟩ := List.pairwise_append.mp hs
    obtain ⟨hs4, hs5⟩ := List.pairwise_cons.mp hs2
    obtain ⟨kp, hkp, hcp⟩ := hrd p (by simp)
    simp only [Tree.locate] at hc
    simp only [Tree.ins]
    by_cases hc1 : c p = 1
    · simp only [hc1, if_true] at hc ⊢
      have hap : key_lt lt key a p :=
        ⟨k, kp, hka, hkp, (cmp_keys_eq_one.mp (hcp ▸ hc1)).2⟩
      simp only [Tree.toList]
      refine List.pairwise_append.mpr ⟨?_, hs2, ?_⟩
      · exact ihl p hs1 (hrd.mono (fun x hx => by simp [hx])) hc
      · intro x hx y hy
        rcases (Tree.mem_ins c a l x).mp hx with e | hxl
        · subst e
          rcases List.mem_cons.mp hy with e | hyr
          · subst e; exact hap
          · exact key_lt_trans hlt hap (hs4 y hyr)
        · exact hs3 x hxl y hy
    · simp only [hc1, if_false] at hc ⊢
      by_cases hc0 : c p = 0
      · simp [hc0] at hc
      simp only [hc0, if_false] at hc
      have hpa : key_lt lt key p a :=
        ⟨kp, k, hkp, hka, cmp_keys_lt (hcp ▸ hc1) (hcp ▸ hc0)⟩
      simp only [Tree.toList]
      refine List.pairwise_append.mpr ⟨hs1, ?_, ?_⟩
      · refine List.pairwise_cons.mpr ⟨?_, ?_⟩
        · intro y hy
          rcases (Tree.mem_ins c a r y).mp hy with e | hyr
          · subst e; exact hpa
          · exact hs4 y hyr
        · exact ihr p hs5 (hrd.mono (fun x hx => by simp [hx])) hc
      · intro x hx y hy
        rcases List.mem_cons.mp hy with e | hyr
        · subst e; exact hs3 x hx y (by simp)
        · rcases (Tree.mem_ins c a r y).mp hyr with e | hyr2
          · subst e; exact key_lt_trans hlt (hs3 x hx p (by simp)) hpa
          · exact hs3 x hx y (by simp [hyr2])

theorem Tree.locate_found (hlt : StrictWeakOrder lt) {key : Nat → Option K} {k : K}
    {c : Nat → Int} (t : Tree) :
    ∀ d, t.toList.Pairwise (key_lt lt key) → Reads lt key k c t.toList →
      ∀ x ∈ t.toList, c x = 0 → c (t.locate c d) = 0 ∧ t.locate c d ∈ t.toList := by
  induction t with
  | nil => intro d _ _ x hx; simp [Tree.toList] at hx
  | node l p r ihl ihr =>
    intro d hs hrd x hx hcx
    simp only [Tree.toList] at hs hrd hx ⊢
    obtain ⟨hs1, hs2, hs3⟩ := List.pairwise_append.mp hs
    obtain ⟨hs4, hs5⟩ := List.pairwise_cons.mp hs2
    obtain ⟨kp, hkp, hcp⟩ := hrd p (by simp)
    obtain ⟨kx, hkx, hcx2⟩ := hrd x hx
    have hxe : equivalent lt kx k := cmp_keys_eq_zero.mp (hcx2 ▸ hcx)
    simp only [Tree.locate]
    by_cases hc1 : c p = 1
    · simp only [hc1, if_true]
      have hkpk := cmp_keys_eq_one.mp (hcp ▸ hc1)
      have hxl : x ∈ l.toList := by
        rcases List.mem_append.mp hx with h | h
        · exact h
        · exfalso
          rcases List.mem_cons.mp h with e | hxr
          · subst e; rw [hcx] at hc1; simp at hc1
          · obtain ⟨k1, k2, e1, e2, e3⟩ := hs4 x hxr
            rw [hkp] at e1; rw [hkx] at e2
            cases e1; cases e2
            have := hlt.trans _ _ _ hkpk.2 e3
            rw [hxe.2] at this; simp at this
      obtain ⟨h1, h2⟩ := ihl p hs1 (hrd.mono (fun x hx => by simp [hx])) x hxl hcx
      exact ⟨h1, List.mem_append_left _ h2⟩
    · simp only [hc1, if_false]
      by_cases hc0 : c p = 0
      · simp [hc0]
      simp only [hc0, if_false]
      have hkpk := cmp_keys_lt (hcp ▸ hc1) (hcp ▸ hc0)
      have hxr : x ∈ r.toList := by
        rcases List.mem_append.mp hx with h | h
        · exfalso
          obtain ⟨k1, k2, e1, e2, e3⟩ := hs3 x h p (by simp)
          rw [hkx] at e1; rw [hkp] at e2
          cases e1; cases e2
          have := hlt.trans _ _ _ e3 hkpk
          rw [hxe.1] at this; simp at this
        · rcases List.mem_cons.mp h with e | hxr
          · subst e; exact absurd hcx hc0
          · exact hxr
      obtain ⟨h1, h2⟩ := ihr p hs5 (hrd.mono (fun x hx => by simp [hx])) x hxr hcx
      exact ⟨h1, List.mem_append_right _ (List.mem_cons_of_mem _ h2)⟩

end keys

/-! ## One index: lookup and insertion -/

section index_ops

variable {K : Type} {lt : K → K → Bool} {key : Nat → Option K} {root_ : Nat} {m : Mem} {t : Tree}

theorem cmpf_root (k : K) : cmpf lt key root_ k root_ = 1 := by
  simp [cmpf, cmp]

theorem IsIndex.reads (hi : IsIndex lt key root_ m t) (k : K) :
    Reads lt key k (cmpf lt key root_ k) t.toList := by
  intro x hx
  have hxr : x ≠ root_ := fun e => hi.root_not_mem (e ▸ hx)
  have hk := hi.keyed x hx
  obtain ⟨kx, hkx⟩ := Option.isSome_iff_exists.mp hk
  exact ⟨kx, hkx, by simp [cmpf, cmp, hxr, hkx]⟩

theorem IsIndex.cmp_eq (hi : IsIndex lt key root_ m t) (k : K) {x : Nat}
    (hx : x ∈ root_ :: t.toList) : cmp lt key root_ x k = some (cmpf lt key root_ k x) := by
  rcases List.mem_cons.mp hx with e | hx
  · subst e; simp [cmpf, cmp]
  · obtain ⟨kx, hkx, _⟩ := hi.reads k x hx
    have hxr : x ≠ root_ := fun e => hi.root_not_mem (e ▸ hx)
    simp [cmpf, cmp, hxr, hkx]

theorem IsIndex.find_impl_eq (hi : IsIndex lt key root_ m t) (k : K) {f : Nat}
    (hf : t.toList.length + 1 ≤ f) :
    find_impl lt key root_ f m k = some (t.locate (cmpf lt key root_ k) root_) := by
  have h := @find_loop_spec K lt key root_ m k (cmpf lt key root_ k)
    (.node t root_ .nil) root_ root_ rfl hi.rep
    (fun x hx => hi.cmp_eq k (by
      simp only [Tree.toList, List.mem_append, List.mem_cons, List.not_mem_nil, or_false] at hx
      simp only [List.mem_cons]; tauto)) f (by simpa [Tree.toList] using hf)
  simpa [find_impl, Tree.locate, cmpf_root] using h

theorem IsIndex.find_eq (hi : IsIndex lt key root_ m t) (k : K) {f : Nat}
    (hf : t.toList.length + 1 ≤ f) :
    find lt key root_ f m k =
      some (some (if cmpf lt key root_ k (t.locate (cmpf lt key root_ k) root_) = 0
        then t.locate (cmpf lt key root_ k) root_ else root_)) := by
  simp only [find, hi.find_impl_eq k hf, hi.cmp_eq k (Tree.locate_mem _ t root_)]
  split_ifs <;> rfl

theorem key_lt_congr {key key1 : Nat → Option K} {x y : Nat} (hx : key1 x = key x)
    (hy : key1 y = key y) (h : key_lt lt key x y) : key_lt lt key1 x y := by
  obtain ⟨kx, ky, e1, e2, e3⟩ := h
  exact ⟨kx, ky, hx.trans e1, hy.trans e2, e3⟩

theorem IsIndex.congr_key (hi : IsIndex lt key root_ m t) {key1 : Nat → Option K}
    (hk : ∀ x ∈ t.toList, key1 x = key x) : IsIndex lt key1 root_ m t where
  rep := hi.rep
  nodup := hi.nodup
  keyed := fun x hx => by rw [hk x hx]; exact hi.keyed x hx
  sorted := hi.sorted.imp_of_mem (fun hx hy h => key_lt_congr (hk _ hx) (hk _ hy) h)

theorem IsIndex.insert_impl_spec (hlt : StrictWeakOrder lt) (hi : IsIndex lt key root_ m t)
    (key1 : Nat → Option K) {a : Nat} {k : K} (ha : a ∉ root_ :: t.toList)
    (hk1 : key1 a = some k) (hk : ∀ x, x ≠ a → key1 x = key x)
    (hc : cmpf lt key1 root_ k (t.locate (cmpf lt key1 root_ k) root_) ≠ 0) :
    insert_impl lt key1 root_ (construct m a) (t.locate (cmpf lt key1 root_ k) root_) a =
        some (some a, attach (cmpf lt key1 root_ k) (construct m a)
          (t.locate (cmpf lt key1 root_ k) root_) a) ∧
      IsIndex lt key1 root_ (attach (cmpf lt key1 root_ k) (construct m a)
          (t.locate (cmpf lt key1 root_ k) root_) a) (t.ins (cmpf lt key1 root_ k) a) := by
  simp only [List.mem_cons, not_or] at ha
  obtain ⟨har, hat⟩ := ha
  have hne : ∀ x ∈ t.toList, x ≠ a := fun x hx e => hat (e ▸ hx)
  have hi1 : IsIndex lt key1 root_ (construct m a) t :=
    { rep := Rep.congr (fun x hx => by
        have : x ≠ a := by
          simp only [Tree.toList, List.mem_append, List.mem_cons, List.not_mem_nil,
            or_false] at hx
          rcases hx with hx | hx
          · exact hne x hx
          · exact hx ▸ (Ne.symm har)
        simp [construct, this]) hi.rep
      nodup := hi.nodup
      keyed := fun x hx => by rw [hk x (hne x hx)]; exact hi.keyed x hx
      sorted := hi.sorted.imp_of_mem (fun hx hy h =>
        key_lt_congr (hk _ (hne _ hx)) (hk _ (hne _ hy)) h) }
  set c := cmpf lt key1 root_ k with hcdef
  set q := t.locate c root_ with hqdef
  have hq : q ∈ root_ :: t.toList := Tree.locate_mem c t root_
  have hqa : q ≠ a := by
    rcases List.mem_cons.mp hq with e | hq
    · rw [e]; exact Ne.symm har
    · exact hne q hq
  constructor
  · simp only [insert_impl, hk1, hi1.cmp_eq k hq, ← hcdef]
    by_cases hc1 : c q = 1
    · simp [hc1, attach, insert_left, set_left, set_parent]
    · simp [hc1, hc, attach, insert_right, set_right, set_parent]
  · have hrep := attach_rep (m := construct m a) (c := c) (a := a)
      (by simp [construct]) (by simp [construct]) (.node t root_ .nil) root_ root_ rfl hi1.rep
      (by
        simp only [Tree.toList]
        have := hi1.nodup
        have hp : ([root_] ++ t.toList).Perm (t.toList ++ [root_]) := List.perm_append_comm
        exact hp.nodup_iff.mp this)
      (by simp [Tree.toList, hat, har])
      (by simpa [Tree.locate, hcdef, cmpf_root] using hc)
    have hcr : c root_ = 1 := cmpf_root k
    simp only [Tree.locate, Tree.ins, hcr, if_true] at hrep
    refine ⟨hrep, ?_, ?_, ?_⟩
    · refine List.nodup_cons.mpr ⟨?_, Tree.nodup_ins c hi.nodup_list hat⟩
      intro hmem
      rcases (Tree.mem_ins c a t root_).mp hmem with e | e
      · exact har e.symm
      · exact hi.root_not_mem e
    · intro x hx
      rcases (Tree.mem_ins c a t x).mp hx with e | e
      · rw [e, hk1]; rfl
      · exact hi1.keyed x e
    · exact Tree.ins_sorted hlt hk1 t root_ hi1.sorted (hi1.reads k) hc

end index_ops

/-! ## Splicing a subtree into the slot of its parent -/

theorem relink_parent_eq {m : Mem} {x par : Nat} {s : Bool} (p : Ptr)
    (hpar : (m x).parent_ = some par) (hne : x ≠ par) (hs : child m par s = some x)
    (ho : child m par (!s) ≠ some x) : relink_parent m x p = splice m par s p := by
  cases s
  · simp only [child, Bool.false_eq_true, if_false, Bool.not_false, if_true] at hs ho
    have h1 : is_left m x = false := by simp [is_left, hpar, ho]
    have h2 : is_right m x = true := by simp [is_right, hpar, hs]
    simp only [relink_parent, h1, h2, hpar, splice, set_child, Bool.false_eq_true, if_false,
      if_true]
    cases p with
    | none => rfl
    | some c => simp [set_right, hne, hpar]
  · simp only [child, if_true, Bool.not_true, Bool.false_eq_true, if_false] at hs ho
    have h1 : is_left m x = true := by simp [is_left, hpar, hs]
    have h2 : is_right (set_left m par p) x = false := by
      simp [is_right, set_left, hne, hpar, ho]
    simp only [relink_parent, h1, h2, hpar, splice, set_child, if_true, Bool.false_eq_true,
      if_false]
    cases p with
    | none => rfl
    | some c => simp [set_left, hne, hpar]

theorem splice_frame (m : Mem) (par : Nat) (s : Bool) (p : Ptr) {y : Nat} (hy : y ≠ par)
    (hp : p ≠ some y) : splice m par s p y = m y := by
  cases p with
  | none => cases s <;> simp [splice, set_child, set_left, set_right, hy]
  | some c =>
    have : y ≠ c := fun e => hp (by rw [e])
    cases s <;> simp [splice, set_child, set_left, set_right, set_parent, hy, this]

theorem splice_child (m : Mem) (par : Nat) (s : Bool) (p : Ptr) (hp : p ≠ some par) :
    child (splice m par s p) par s = p ∧
      child (splice m par s p) par (!s) = child m par (!s) ∧
      (splice m par s p par).parent_ = (m par).parent_ := by
  cases p with
  | none => cases s <;> simp [splice, set_child, set_left, set_right, child]
  | some c =>
    have : par ≠ c := fun e => hp (by rw [e])
    cases s <;> simp [splice, set_child, set_left, set_right, set_parent, child, this]

theorem splice_root (m : Mem) (par : Nat) (s : Bool) {c : Nat} (hc : c ≠ par) :
    splice m par s (some c) c = { m c with parent_ := some par } := by
  cases s <;> simp [splice, set_child, set_left, set_right, set_parent, hc]

theorem splice_rep {m : Mem} {x : Nat} {t : Tree} (par : Nat) (s : Bool) (h : Rep m x t)
    (hpar : par ∉ t.toList) (hnd : t.toList.Nodup) : Rep (splice m par s t.root) par t := by
  cases t with
  | nil => trivial
  | node l c r =>
    simp only [Tree.toList, List.mem_append, List.mem_cons, not_or] at hpar
    have hnd1 := List.nodup_append.mp hnd
    have hndr := (List.nodup_cons.mp hnd1.2.1)
    have hcl : c ∉ l.toList := fun hp => hnd1.2.2 hp (List.mem_cons_self _ _)
    have hcp : c ≠ par := fun e => hpar.2.1 e.symm
    have hc := splice_root m par s hcp
    simp only [Tree.root]
    refine Rep.reroot h ?_ (by rw [hc]) (by rw [hc]) (by rw [hc])
    intro y hy
    apply splice_frame
    · rintro rfl
      rcases List.mem_append.mp hy with h1 | h1
      · exact hpar.1 h1
      · exact hpar.2.2 h1
    · simp only [ne_eq, Option.some.injEq]
      rintro rfl
      rcases List.mem_append.mp hy with h1 | h1
      · exact hcl h1
      · exact hndr.1 h1

/-! ## Shape after `erase_impl` -/

theorem Tree.erase_toList {t : Tree} (x : Nat) (hnd : t.toList.Nodup) :
    (t.erase x).toList = t.toList.filter (fun y => decide (y ≠ x)) := by
  induction t generalizing x with
  | nil => rfl
  | node l p r ihl ihr =>
    simp only [Tree.toList] at hnd
    have hnd1 := List.nodup_append.mp hnd
    have hndr := (List.nodup_cons.mp hnd1.2.1)
    have hpl : p ∉ l.toList := fun hp => hnd1.2.2 hp (List.mem_cons_self _ _)
    have hdisj : ∀ y ∈ l.toList, y ∉ r.toList := fun y hy hy2 =>
      hnd1.2.2 hy (List.mem_cons_of_mem _ hy2)
    have hfl : ∀ (ys : List Nat) (z : Nat), z ∉ ys →
        ys.filter (fun y => decide (y ≠ z)) = ys := by
      intro ys z hz
      apply List.filter_eq_self.mpr
      intro y hy
      simp only [ne_eq, decide_not, Bool.not_eq_eq_eq_not, Bool.not_true, decide_eq_false_iff_not]
      rintro rfl
      exact hz hy
    simp only [Tree.erase, Tree.toList, List.filter_append, List.filter_cons]
    by_cases hxp : x = p
    · subst hxp
      simp only [if_true, ne_eq, not_true_eq_false, decide_False, Bool.false_eq_true, if_false]
      rw [hfl _ _ hpl, hfl _ _ hndr.1]
      by_cases hl : l.root = none
      · have := Tree.root_eq_none.mp hl
        subst this
        simp [Tree.toList, Tree.root]
      · simp only [hl, if_false]
        by_cases hr : r.root = none
        · have := Tree.root_eq_none.mp hr
          subst this
          simp [Tree.toList, Tree.root]
        · simp only [hr, if_false, Tree.toList]
          rw [ihr _ hndr.2, Tree.first_eq]
          cases hrl : r.toList with
          | nil =>
            exfalso
            cases r with
            | nil => simp [Tree.root] at hr
            | node a b c => simp [Tree.toList] at hrl
          | cons z zs =>
            rw [hrl] at hndr
            have hz := (List.nodup_cons.mp hndr.2).1
            simp only [List.headD_cons, List.filter_cons, ne_eq, not_true_eq_false,
              decide_False, Bool.false_eq_true, if_false]
            rw [hfl _ _ hz]
    · have hpx : p ≠ x := Ne.symm hxp
      simp only [hxp, if_false, ne_eq, hpx, not_false_eq_true, decide_True, if_true]
      by_cases hxl : x ∈ l.toList
      · simp only [hxl, if_true, Tree.toList]
        rw [ihl _ hnd1.1, hfl _ _ (hdisj x hxl)]
      · simp only [hxl, if_false, Tree.toList]
        rw [ihr _ hndr.2, hfl _ _ hxl]

theorem Tree.mem_erase {t : Tree} {x y : Nat} (hnd : t.toList.Nodup) :
    y ∈ (t.erase x).toList ↔ y ∈ t.toList ∧ y ≠ x := by
  rw [Tree.erase_toList x hnd]
  simp

theorem Tree.first_left_none {m : Mem} {t : Tree} {par : Nat} (d : Nat) (h : Rep m par t)
    (hne : t ≠ .nil) : (m (t.first d)).left_ = none := by
  induction t generalizing par d with
  | nil => exact absurd rfl hne
  | node l a r ihl _ =>
    obtain ⟨_, h2, _, h4, _⟩ := h
    simp only [Tree.first]
    by_cases hl : l = .nil
    · subst hl; simpa [Tree.first, Tree.root] using h2
    · exact ihl a h4 hl

/-! ## Grafting the children of the erased node onto its successor -/

theorem insert_left_self (m : Mem) (a : Nat) (p : Ptr) (hp : p ≠ some a) :
    insert_left m a p a = { m a with left_ := p } := by
  cases p with
  | none => simp [insert_left, set_left]
  | some c =>
    have : a ≠ c := fun e => hp (by rw [e])
    simp [insert_left, set_left, set_parent, this]

theorem insert_left_child (m : Mem) (a c : Nat) (hc : c ≠ a) :
    insert_left m a (some c) c = { m c with parent_ := some a } := by
  simp [insert_left, set_left, set_parent, hc]

theorem insert_left_frame (m : Mem) (a : Nat) (p : Ptr) {y : Nat} (hy : y ≠ a)
    (hp : p ≠ some y) : insert_left m a p y = m y := by
  cases p with
  | none => simp [insert_left, set_left, hy]
  | some c =>
    have : y ≠ c := fun e => hp (by rw [e])
    simp [insert_left, set_left, set_parent, hy, this]

theorem insert_right_self (m : Mem) (a : Nat) (p : Ptr) (hp : p ≠ some a) :
    insert_right m a p a = { m a with right_ := p } := by
  cases p with
  | none => simp [insert_right, set_right]
  | some c =>
    have : a ≠ c := fun e => hp (by rw [e])
    simp [insert_right, set_right, set_parent, this]

theorem insert_right_child (m : Mem) (a c : Nat) (hc : c ≠ a) :
    insert_right m a (some c) c = { m c with parent_ := some a } := by
  simp [insert_right, set_right, set_parent, hc]

theorem insert_right_frame (m : Mem) (a : Nat) (p : Ptr) {y : Nat} (hy : y ≠ a)
    (hp : p ≠ some y) : insert_right m a p y = m y := by
  cases p with
  | none => simp [insert_right, set_right, hy]
  | some c =>
    have : y ≠ c := fun e => hp (by rw [e])
    simp [insert_right, set_right, set_parent, hy, this]

theorem Tree.root_ne_of_not_mem {t : Tree} {y : Nat} (h : y ∉ t.toList) : t.root ≠ some y :=
  fun e => h (Tree.root_mem e)

theorem Tree.nodup_root_not_mem_children {l r : Tree} {c : Nat}
    (hnd : (Tree.node l c r).toList.Nodup) : ∀ y ∈ l.toList ++ r.toList, y ≠ c := by
  simp only [Tree.toList] at hnd
  have hnd1 := List.nodup_append.mp hnd
  have hndr := (List.nodup_cons.mp hnd1.2.1)
  intro y hy e
  subst e
  rcases List.mem_append.mp hy with h1 | h1
  · exact hnd1.2.2 h1 (List.mem_cons_self _ _)
  · exact hndr.1 h1

theorem insert_left_rep {m : Mem} {q : Nat} {t : Tree} (a : Nat) (h : Rep m q t)
    (ha : a ∉ t.toList) (hnd : t.toList.Nodup) : Rep (insert_left m a t.root) a t := by
  cases t with
  | nil => trivial
  | node l c r =>
    have hca : c ≠ a := fun e => ha (by simp [Tree.toList, e])
    have hc := insert_left_child m a c hca
    have hch := Tree.nodup_root_not_mem_children hnd
    simp only [Tree.root]
    refine Rep.reroot h ?_ (by rw [hc]) (by rw [hc]) (by rw [hc])
    intro y hy
    apply insert_left_frame
    · rintro rfl
      apply ha
      simp only [Tree.toList, List.mem_append, List.mem_cons] at hy ⊢
      tauto
    · simp only [ne_eq, Option.some.injEq]
      exact fun e => hch y hy e.symm

theorem insert_right_rep {m : Mem} {q : Nat} {t : Tree} (a : Nat) (h : Rep m q t)
    (ha : a ∉ t.toList) (hnd : t.toList.Nodup) : Rep (insert_right m a t.root) a t := by
  cases t with
  | nil => trivial
  | node l c r =>
    have hca : c ≠ a := fun e => ha (by simp [Tree.toList, e])
    have hc := insert_right_child m a c hca
    have hch := Tree.nodup_root_not_mem_children hnd
    simp only [Tree.root]
    refine Rep.reroot h ?_ (by rw [hc]) (by rw [hc]) (by rw [hc])
    intro y hy
    apply insert_right_frame
    · rintro rfl
      apply ha
      simp only [Tree.toList, List.mem_append, List.mem_cons] at hy ⊢
      tauto
    · simp only [ne_eq, Option.some.injEq]
      exact fun e => hch y hy e.symm

/-- Both children are attached to `a`: the two subtrees hang below it and nothing else moves. -/
theorem graft {m : Mem} {q1 q2 a : Nat} {tl tr : Tree} (hl : Rep m q1 tl) (hr : Rep m q2 tr)
    (hal : a ∉ tl.toList) (har : a ∉ tr.toList) (hndl : tl.toList.Nodup)
    (hndr : tr.toList.Nodup) (hdisj : ∀ y ∈ tl.toList, y ∉ tr.toList) :
    Rep (insert_right (insert_left m a tl.root) a tr.root) a tl ∧
      Rep (insert_right (insert_left m a tl.root) a tr.root) a tr ∧
      insert_right (insert_left m a tl.root) a tr.root a =
        { m a with left_ := tl.root, right_ := tr.root } ∧
      (∀ y, y ≠ a → y ∉ tl.toList → y ∉ tr.toList →
        insert_right (insert_left m a tl.root) a tr.root y = m y) := by
  have hrl := Tree.root_ne_of_not_mem hal
  have hrr := Tree.root_ne_of_not_mem har
  have e1 : insert_right (insert_left m a tl.root) a tr.root a =
      { m a with left_ := tl.root, right_ := tr.root } := by
    rw [insert_right_self _ _ _ hrr, insert_left_self _ _ _ hrl]
  have h3 : Rep (insert_left m a tl.root) a tl := insert_left_rep a hl hal hndl
  have h3r : Rep (insert_left m a tl.root) q2 tr :=
    Rep.congr (fun y hy => insert_left_frame m a _ (fun e => har (e ▸ hy))
      (Tree.root_ne_of_not_mem (fun hy2 => hdisj y hy2 hy))) hr
  have h4 : Rep (insert_right (insert_left m a tl.root) a tr.root) a tr :=
    insert_right_rep a h3r har hndr
  have h4l : Rep (insert_right (insert_left m a tl.root) a tr.root) a tl :=
    Rep.congr (fun y hy => insert_right_frame _ a _ (fun e => hal (e ▸ hy))
      (Tree.root_ne_of_not_mem (hdisj y hy))) h3
  refine ⟨h4l, h4, e1, ?_⟩
  intro y hya hyl hyr
  rw [insert_right_frame _ a _ hya (Tree.root_ne_of_not_mem hyr),
    insert_left_frame _ a _ hya (Tree.root_ne_of_not_mem hyl)]

/-! ## `erase_impl` on a subtree -/

theorem erase_impl_no_left {m : Mem} {x f : Nat} {ret : Ptr} (hn : next f m x = some ret)
    (hl : (m x).left_ = none) :
    erase_impl (f + 1) m x = some (ret, relink_parent m x (m x).right_) := by
  simp only [erase_impl, hn, hl, true_and, if_true]
  split_ifs with h
  · rw [h]
  · rfl

theorem erase_impl_no_right {m : Mem} {x f : Nat} {ret : Ptr} (hn : next f m x = some ret)
    (hl : (m x).left_ ≠ none) (hr : (m x).right_ = none) :
    erase_impl (f + 1) m x = some (ret, relink_parent m x (m x).left_) := by
  simp [erase_impl, hn, hl, hr]

theorem erase_sub {F : Nat} (t : Tree) :
    ∀ (m : Mem) (par : Nat) (s : Bool) (x f : Nat),
      Rep m par t → (par :: t.toList).Nodup → x ∈ t.toList →
      child m par s = t.root → (∀ y ∈ t.toList, child m par (!s) ≠ some y) →
      (∀ y ∈ t.toList, ∀ g, F ≤ g → (next g m y).isSome = true) →
      t.toList.length ≤ F → F ≤ f → ((m x).left_ ≠ none → F + 1 ≤ f) →
      ∃ ret m1, erase_impl (f + 1) m x = some (ret, m1) ∧ next f m x = some ret ∧
        Rep m1 par (t.erase x) ∧ child m1 par s = (t.erase x).root ∧
        child m1 par (!s) = child m par (!s) ∧ (m1 par).parent_ = (m par).parent_ ∧
        (∀ y, y ∉ t.toList → y ≠ par → m1 y = m y) := by
  induction t with
  | nil => intro m par s x f _ _ hx; simp [Tree.toList] at hx
  | node l p r ihl ihr =>
    intro m par s x f hrep hnd hx hs ho hnext hF hf1 hf2
    have hrep0 := hrep
    obtain ⟨h1, h2, h3, h4, h5⟩ := hrep
    obtain ⟨hpar, hndt⟩ := List.nodup_cons.mp hnd
    have hndt0 := hndt
    simp only [Tree.toList] at hndt hpar hx hF
    have hnd1 := List.nodup_append.mp hndt
    have hndr := (List.nodup_cons.mp hnd1.2.1)
    have hpl : p ∉ l.toList := fun hp => hnd1.2.2 hp (List.mem_cons_self _ _)
    have hdisj : ∀ y ∈ l.toList, y ∉ r.toList := fun y hy hy2 =>
      hnd1.2.2 hy (List.mem_cons_of_mem _ hy2)
    simp only [List.mem_append, List.mem_cons, not_or] at hpar
    obtain ⟨hparl, hparp, hparr⟩ := hpar
    simp only [List.length_append, List.length_cons] at hF
    by_cases hxp : x = p
    · subst hxp
      obtain ⟨ret, hret⟩ := Option.isSome_iff_exists.mp (hnext x (by simp [Tree.toList]) f hf1)
      have hxpar : x ≠ par := Ne.symm hparp
      have hrl : ∀ q, relink_parent m x q = splice m par s q := fun q =>
        relink_parent_eq q h1 hxpar (by simpa [Tree.root] using hs)
          (ho x (by simp [Tree.toList]))
      by_cases hl : l.root = none
      · -- no left child: the right subtree takes the slot
        have he := erase_impl_no_left hret (h2.trans hl)
        rw [hrl, h3] at he
        have hte : (Tree.node l x r).erase x = r := by simp [Tree.erase, hl]
        rw [hte]
        obtain ⟨c1, c2, c3⟩ := splice_child m par s r.root (Tree.root_ne_of_not_mem hparr)
        refine ⟨ret, _, he, hret, splice_rep par s h5 hparr hndr.2, c1, c2, c3, ?_⟩
        intro y hy hyp
        apply splice_frame _ _ _ _ hyp
        apply Tree.root_ne_of_not_mem
        simp only [Tree.toList, List.mem_append, List.mem_cons, not_or] at hy
        exact hy.2.2
      · by_cases hr : r.root = none
        · -- no right child: the left subtree takes the slot
          have he := erase_impl_no_right hret (by rw [h2]; exact hl) (h3.trans hr)
          rw [hrl, h2] at he
          have hte : (Tree.node l x r).erase x = l := by simp [Tree.erase, hl, hr]
          rw [hte]
          obtain ⟨c1, c2, c3⟩ := splice_child m par s l.root (Tree.root_ne_of_not_mem hparl)
          refine ⟨ret, _, he, hret, splice_rep par s h4 hparl hnd1.1, c1, c2, c3, ?_⟩
          intro y hy hyp
          apply splice_frame _ _ _ _ hyp
          apply Tree.root_ne_of_not_mem
          simp only [Tree.toList, List.mem_append, List.mem_cons, not_or] at hy
          exact hy.1
        · -- two children: the successor is erased first and then takes the place of `x`
          have hrne : r ≠ .nil := fun e => hr (by rw [e]; rfl)
          have hr0 : r.first x ∈ r.toList := Tree.first_mem x hrne
          have hr0l : (m (r.first x)).left_ = none := Tree.first_left_none x h5 hrne
          have hF1 := hf2 (by rw [h2]; exact hl)
          obtain ⟨f1, rfl⟩ : ∃ f1, f = f1 + 1 := ⟨f - 1, by omega⟩
          have hreteq : ret = some (r.first x) := by
            cases r with
            | nil => exact absurd rfl hrne
            | node rl rr rrr =>
              have hd := descend_left_spec h5 (f1 + 1) (by
                simp only [Tree.toList, List.length_append, List.length_cons] at hF
                omega)
              simp only [next, h3, Tree.root, hd, Option.map_some'] at hret
              simpa [Tree.first] using hret.symm
          subst hreteq
          obtain ⟨lr, hlr⟩ := Option.ne_none_iff_exists'.mp hl
          have hlrl : lr ∈ l.toList := Tree.root_mem hlr
          obtain ⟨ret1, m1, he1, _, hrep1, hc1, hc2, hp1, hfr1⟩ :=
            ihr m x false (r.first x) f1 h5 (List.nodup_cons.mpr ⟨hndr.1, hndr.2⟩) hr0
              (by simp [child, h3])
              (by
                intro y hy
                simp only [child, Bool.not_false, if_true, h2, hlr, ne_eq, Option.some.injEq]
                rintro rfl
                exact hdisj _ hlrl hy)
              (fun y hy => hnext y (by simp [Tree.toList, hy])) (by omega) (by omega)
              (fun h => absurd hr0l h)
          simp only [child, Bool.false_eq_true, if_false, Bool.not_false, if_true] at hc1 hc2
          have hr0x : r.first x ≠ x := fun e => hndr.1 (e ▸ hr0)
          have hr0par : r.first x ≠ par := fun e => hparr (e ▸ hr0)
          have hr0l2 : r.first x ∉ l.toList := fun e => hdisj _ e hr0
          have hm1par : m1 par = m par :=
            hfr1 par hparr hparp
          have hrl1 : relink_parent m1 x (some (r.first x)) =
              splice m1 par s (some (r.first x)) :=
            relink_parent_eq _ (hp1.trans h1) hxpar
              (by
                have : child m1 par s = child m par s := by simp [child, hm1par]
                rw [this, hs]; rfl)
              (by
                have : child m1 par (!s) = child m par (!s) := by simp [child, hm1par]
                rw [this]
                exact ho x (by simp [Tree.toList]))
          have hm2x : splice m1 par s (some (r.first x)) x = m1 x :=
            splice_frame _ _ _ _ hxpar (by simpa using hr0x)
          have hlr0 : lr ≠ r.first x := fun e => hr0l2 (e ▸ hlrl)
          have hnd2 : (r.erase (r.first x)).toList.Nodup := by
            rw [Tree.erase_toList _ hndr.2]
            exact hndr.2.filter _
          have hmem2 : ∀ y, y ∈ (r.erase (r.first x)).toList → y ∈ r.toList ∧ y ≠ r.first x :=
            fun y hy => (Tree.mem_erase hndr.2).mp hy
          have hm3x : insert_left (splice m1 par s (some (r.first x))) (r.first x)
              (some lr) x = m1 x := by
            rw [insert_left_frame _ _ _ (Ne.symm hr0x) (by
              simp only [ne_eq, Option.some.injEq]
              rintro rfl
              exact hpl hlrl), hm2x]
          have he : erase_impl (f1 + 1 + 1) m x = some (some (r.first x),
              insert_right (insert_left (splice m1 par s (some (r.first x))) (r.first x)
                l.root) (r.first x) (r.erase (r.first x)).root) := by
            rw [erase_impl]
            simp only [hret, h2, h3, hl, hr, false_and, if_false, he1, hrl1, hm2x, hc2, hlr,
              hm3x, hc1]
            simp
          have hte : (Tree.node l x r).erase x =
              .node l (r.first x) (r.erase (r.first x)) := by
            simp [Tree.erase, hl, hr]
          rw [hte]
          -- the two subtrees in the memory after the splice
          have hl2 : Rep (splice m1 par s (some (r.first x))) x l :=
            Rep.congr (fun y hy => by
              rw [splice_frame _ _ _ _ (by rintro rfl; exact hparl hy)
                (by simp only [ne_eq, Option.some.injEq]; exact fun e => hr0l2 (e ▸ hy))]
              exact hfr1 y (hdisj y hy) (fun e => hpl (e ▸ hy))) h4
          have hr2 : Rep (splice m1 par s (some (r.first x))) x (r.erase (r.first x)) :=
            Rep.congr (fun y hy => by
              rw [splice_frame _ _ _ _ (by rintro rfl; exact hparr (hmem2 _ hy).1)
                (by simp only [ne_eq, Option.some.injEq]
                    exact fun e => (hmem2 y hy).2 e.symm)]) hrep1
          obtain ⟨g1, g2, g3, g4⟩ := graft hl2 hr2 hr0l2
            (fun e => (hmem2 _ e).2 rfl) hnd1.1 hnd2
            (fun y hy hy2 => hdisj y hy (hmem2 y hy2).1)
          have hroot := splice_root m1 par s hr0par
          obtain ⟨c1, c2, c3⟩ := splice_child m1 par s (some (r.first x))
            (by simpa using hr0par)
          have hparfr : insert_right (insert_left (splice m1 par s (some (r.first x)))
              (r.first x) l.root) (r.first x) (r.erase (r.first x)).root par =
              splice m1 par s (some (r.first x)) par :=
            g4 par (Ne.symm hr0par) hparl (fun e => hparr (hmem2 _ e).1)
          refine ⟨_, _, he, hret, ⟨?_, ?_, ?_, g1, g2⟩, ?_, ?_, ?_, ?_⟩
          · rw [g3, hroot]
          · rw [g3]
          · rw [g3]
          · simp only [child, hparfr] at c1 ⊢
            rw [c1]; rfl
          · simp only [child, hparfr, hm1par] at c2 ⊢
            exact c2
          · rw [hparfr, c3, hm1par]
          · intro y hy hyp
            simp only [Tree.toList, List.mem_append, List.mem_cons, not_or] at hy
            rw [g4 y (fun e => hy.2.2 (e ▸ hr0)) hy.1 (fun e => hy.2.2 (hmem2 _ e).1),
              splice_frame _ _ _ _ hyp (by
                simp only [ne_eq, Option.some.injEq]
                exact fun e => hy.2.2 (e ▸ hr0))]
            exact hfr1 y hy.2.2 hy.2.1
    · by_cases hxl : x ∈ l.toList
      · obtain ⟨ret, m1, he, hn, hrep1, hc1, hc2, hp1, hfr1⟩ :=
          ihl m p true x f h4 (List.nodup_cons.mpr ⟨hpl, hnd1.1⟩) hxl
            (by simp [child, h2])
            (by
              intro y hy
              simp only [child, Bool.not_true, Bool.false_eq_true, if_false, h3]
              exact Tree.root_ne_of_not_mem (hdisj y hy))
            (fun y hy => hnext y (by simp [Tree.toList, hy])) (by omega) hf1 hf2
        simp only [child, if_true, Bool.not_true, Bool.false_eq_true, if_false] at hc1 hc2
        have hte : (Tree.node l p r).erase x = .node (l.erase x) p r := by
          simp [Tree.erase, hxp, hxl]
        rw [hte]
        have hpar1 : m1 par = m par := hfr1 par hparl hparp
        refine ⟨ret, m1, he, hn, ⟨hp1.trans h1, hc1, hc2.trans h3, hrep1, ?_⟩, ?_, ?_, ?_, ?_⟩
        · exact Rep.congr (fun y hy => hfr1 y (fun e => hdisj y e hy)
            (fun e => hndr.1 (e ▸ hy))) h5
        · simp only [child, hpar1] at hs ⊢
          rw [hs]; rfl
        · simp only [child, hpar1]
        · rw [hpar1]
        · intro y hy hyp
          simp only [Tree.toList, List.mem_append, List.mem_cons, not_or] at hy
          exact hfr1 y hy.1 hy.2.1
      · have hxr : x ∈ r.toList := by
          rcases List.mem_append.mp hx with h | h
          · exact absurd h hxl
          · rcases List.mem_cons.mp h with e | h
            · exact absurd e hxp
            · exact h
        obtain ⟨ret, m1, he, hn, hrep1, hc1, hc2, hp1, hfr1⟩ :=
          ihr m p false x f h5 (List.nodup_cons.mpr ⟨hndr.1, hndr.2⟩) hxr
            (by simp [child, h3])
            (by
              intro y hy
              simp only [child, Bool.not_false, if_true, h2]
              exact Tree.root_ne_of_not_mem (fun e => hdisj y e hy))
            (fun y hy => hnext y (by simp [Tree.toList, hy])) (by omega) hf1 hf2
        simp only [child, Bool.false_eq_true, if_false, Bool.not_false, if_true] at hc1 hc2
        have hte : (Tree.node l p r).erase x = .node l p (r.erase x) := by
          simp [Tree.erase, hxp, hxl]
        rw [hte]
        have hpar1 : m1 par = m par := hfr1 par hparr hparp
        refine ⟨ret, m1, he, hn, ⟨hp1.trans h1, hc2.trans h2, hc1, ?_, hrep1⟩, ?_, ?_, ?_, ?_⟩
        · exact Rep.congr (fun y hy => hfr1 y (hdisj y hy)
            (fun e => hpl (e ▸ hy))) h4
        · simp only [child, hpar1] at hs ⊢
          rw [hs]; rfl
        · simp only [child, hpar1]
        · rw [hpar1]
        · intro y hy hyp
          simp only [Tree.toList, List.mem_append, List.mem_cons, not_or] at hy
          exact hfr1 y hy.2.2 hy.2.1

/-! ## One index: erasure -/

section index_erase

variable {K : Type} {lt : K → K → Bool} {key : Nat → Option K} {root_ : Nat} {m : Mem} {t : Tree}

theorem IsIndex.erase_impl_spec (hi : IsIndex lt key root_ m t) {x : Nat} (hx : x ∈ t.toList)
    {f : Nat} (hf : t.toList.length + 1 ≤ f) :
    ∃ m1, erase_impl (f + 1) m x = some (some (lsucc t.toList root_ x), m1) ∧
      IsIndex lt key root_ m1 (t.erase x) ∧
      (∀ y, y ∉ t.toList → y ≠ root_ → m1 y = m y) := by
  obtain ⟨hr1, hr2, hr3, hr4, _⟩ := hi.rep
  obtain ⟨ret, m1, he, hn, hrep, hc1, hc2, hp, hfr⟩ :=
    erase_sub (F := t.toList.length) t m root_ true x f hi.rep_tree hi.nodup hx
      (by simp [child, hr2])
      (by intro y _; simp [child, hr3, Tree.root])
      (fun y hy g hg => by rw [hi.next_eq hy hg]; rfl)
      (le_refl _) (by omega) (fun _ => hf)
  rw [hi.next_eq hx (by omega)] at hn
  simp only [Option.some.injEq] at hn
  subst hn
  simp only [child, if_true, Bool.not_true, Bool.false_eq_true, if_false] at hc1 hc2
  have hsub : ∀ y ∈ (t.erase x).toList, y ∈ t.toList :=
    fun y hy => ((Tree.mem_erase hi.nodup_list).mp hy).1
  refine ⟨m1, he, ⟨⟨hp.trans hr1, hc1, hc2.trans hr3, hrep, trivial⟩, ?_, ?_, ?_⟩, hfr⟩
  · refine List.nodup_cons.mpr ⟨fun e => hi.root_not_mem (hsub _ e), ?_⟩
    rw [Tree.erase_toList _ hi.nodup_list]
    exact hi.nodup_list.filter _
  · exact fun y hy => hi.keyed y (hsub y hy)
  · rw [Tree.erase_toList _ hi.nodup_list]
    exact hi.sorted.filter _

end index_erase

/-! ## The invariant of a bimap -/

section invariant

variable {L R : Type} {cl : L → L → Bool} {cr : R → R → Bool}

theorem Inv.empty : Inv cl cr (bimap_new (Heap.empty : Heap L R)).1
    (bimap_new (Heap.empty : Heap L R)).2 .nil .nil where
  left := ⟨⟨rfl, rfl, rfl, trivial, trivial⟩, by simp [Tree.toList], by simp [Tree.toList],
    by simp [Tree.toList]⟩
  right := ⟨⟨rfl, rfl, rfl, trivial, trivial⟩, by simp [Tree.toList], by simp [Tree.toList],
    by simp [Tree.toList]⟩
  live := by simp [Tree.toList, bimap_new, Heap.empty]
  same := by simp
  bound := by simp [Tree.toList]
  root_bound := by simp [bimap_new, Heap.empty]
  size_eq := rfl

variable {h : Heap L R} {b : bimap} {tl tr : Tree}

theorem Inv.val_root (hi : Inv cl cr h b tl tr) : h.val b.root_ = none := by
  have := (hi.live b.root_).not.mpr hi.left.root_not_mem
  simpa using this

theorem Inv.length_eq (hi : Inv cl cr h b tl tr) : tr.toList.length = tl.toList.length := by
  have h1 : tl.toList.Perm tr.toList :=
    (List.perm_ext_iff_of_nodup hi.left.nodup_list hi.right.nodup_list).mpr hi.same
  exact h1.length_eq.symm

theorem Inv.fuel_left (hi : Inv cl cr h b tl tr) : tl.toList.length + 1 ≤ h.brk := by
  have := length_le_of_nodup_bounded hi.left.nodup (n := h.brk) (by
    intro x hx
    rcases List.mem_cons.mp hx with e | hx
    · rw [e]; exact hi.root_bound
    · exact hi.bound x hx)
  simpa using this

theorem Inv.fuel_right (hi : Inv cl cr h b tl tr) : tr.toList.length + 1 ≤ h.brk := by
  rw [hi.length_eq]; exact hi.fuel_left

theorem Inv.left_positions_eq (hi : Inv cl cr h b tl tr) :
    left_positions h b = some tl.toList := by
  have hf := hi.fuel_left
  simp only [left_positions, begin_left, end_left, Heap.fuel]
  rw [hi.left.begin_eq (by omega)]
  exact hi.left.walk_eq (by omega) (by omega)

theorem Inv.right_positions_eq (hi : Inv cl cr h b tl tr) :
    right_positions h b = some tr.toList := by
  have hf := hi.fuel_right
  simp only [right_positions, begin_right, end_right, Heap.fuel]
  rw [hi.right.begin_eq (by omega)]
  exact hi.right.walk_eq (by omega) (by omega)

end invariant

/-! ## `insert` under the invariant -/

section insert_inv

variable {L R : Type} {cl : L → L → Bool} {cr : R → R → Bool}
variable {h : Heap L R} {b : bimap} {tl tr : Tree}

theorem Inv.insert_fail (hi : Inv cl cr h b tl tr) (l : L) (r : R)
    (hc : cmpf cl h.lkey b.root_ l (tl.locate (cmpf cl h.lkey b.root_ l) b.root_) = 0 ∨
      cmpf cr h.rkey b.root_ r (tr.locate (cmpf cr h.rkey b.root_ r) b.root_) = 0) :
    insert cl cr h b l r = some (end_left b, h, b) := by
  have hfl := hi.fuel_left
  have hfr := hi.fuel_right
  simp only [insert, Heap.fuel, hi.left.find_impl_eq l (show tl.toList.length + 1 ≤ h.brk + 1 by omega),
    hi.right.find_impl_eq r (show tr.toList.length + 1 ≤ h.brk + 1 by omega),
    hi.left.cmp_eq l (Tree.locate_mem _ tl b.root_),
    hi.right.cmp_eq r (Tree.locate_mem _ tr b.root_)]
  rcases hc with hc | hc
  · simp [hc]
  · simp only [hc, if_true]
    split_ifs <;> rfl

theorem cmpf_alloc_left (h : Heap L R) (root_ : Nat) (l k : L) (r : R) {x : Nat}
    (hx : x ≠ h.brk) :
    cmpf cl (h.alloc l r).2.lkey root_ k x = cmpf cl h.lkey root_ k x := by
  simp [cmpf, cmp, Heap.lkey, Heap.alloc, hx]

theorem cmpf_alloc_right (h : Heap L R) (root_ : Nat) (l : L) (r k : R) {x : Nat}
    (hx : x ≠ h.brk) :
    cmpf cr (h.alloc l r).2.rkey root_ k x = cmpf cr h.rkey root_ k x := by
  simp [cmpf, cmp, Heap.rkey, Heap.alloc, hx]

theorem Inv.insert_ok (hcl : StrictWeakOrder cl) (hcr : StrictWeakOrder cr)
    (hi : Inv cl cr h b tl tr) (l : L) (r : R)
    (hc1 : cmpf cl h.lkey b.root_ l (tl.locate (cmpf cl h.lkey b.root_ l) b.root_) ≠ 0)
    (hc2 : cmpf cr h.rkey b.root_ r (tr.locate (cmpf cr h.rkey b.root_ r) b.root_) ≠ 0) :
    ∃ h1, insert cl cr h b l r = some (some h.brk, h1, ⟨b.root_, b.size_ + 1⟩) ∧
      Inv cl cr h1 ⟨b.root_, b.size_ + 1⟩ (tl.ins (cmpf cl h.lkey b.root_ l) h.brk)
        (tr.ins (cmpf cr h.rkey b.root_ r) h.brk) ∧
      h1.val = (fun x => if x = h.brk then some (l, r) else h.val x) ∧
      h1.brk = h.brk + 1 := by
  have hfl := hi.fuel_left
  have hfr := hi.fuel_right
  have hbl : h.brk ∉ b.root_ :: tl.toList := by
    intro hm
    rcases List.mem_cons.mp hm with e | hm
    · have := hi.root_bound; omega
    · have := hi.bound _ hm; omega
  have hbr : h.brk ∉ b.root_ :: tr.toList := by
    intro hm
    rcases List.mem_cons.mp hm with e | hm
    · have := hi.root_bound; omega
    · have := hi.bound _ ((hi.same _).mpr hm); omega
  have hnel : ∀ x ∈ b.root_ :: tl.toList, x ≠ h.brk := fun x hx e => hbl (e ▸ hx)
  have hner : ∀ x ∈ b.root_ :: tr.toList, x ≠ h.brk := fun x hx e => hbr (e ▸ hx)
  -- the comparisons read in the heap after the allocation
  have hlocl : tl.locate (cmpf cl (h.alloc l r).2.lkey b.root_ l) b.root_ =
      tl.locate (cmpf cl h.lkey b.root_ l) b.root_ :=
    Tree.locate_congr tl _ (fun x hx =>
      cmpf_alloc_left h b.root_ l l r (hnel x (List.mem_cons_of_mem _ hx)))
  have hlocr : tr.locate (cmpf cr (h.alloc l r).2.rkey b.root_ r) b.root_ =
      tr.locate (cmpf cr h.rkey b.root_ r) b.root_ :=
    Tree.locate_congr tr _ (fun x hx =>
      cmpf_alloc_right h b.root_ l r r (hner x (List.mem_cons_of_mem _ hx)))
  have hinsl : tl.ins (cmpf cl (h.alloc l r).2.lkey b.root_ l) h.brk =
      tl.ins (cmpf cl h.lkey b.root_ l) h.brk :=
    Tree.ins_congr _ tl (fun x hx =>
      cmpf_alloc_left h b.root_ l l r (hnel x (List.mem_cons_of_mem _ hx)))
  have hinsr : tr.ins (cmpf cr (h.alloc l r).2.rkey b.root_ r) h.brk =
      tr.ins (cmpf cr h.rkey b.root_ r) h.brk :=
    Tree.ins_congr _ tr (fun x hx =>
      cmpf_alloc_right h b.root_ l r r (hner x (List.mem_cons_of_mem _ hx)))
  obtain ⟨el, il⟩ := IsIndex.insert_impl_spec hcl hi.left (h.alloc l r).2.lkey
    (a := h.brk) (k := l) hbl (by simp [Heap.lkey, Heap.alloc])
    (fun x hx => by simp [Heap.lkey, Heap.alloc, hx])
    (by
      rw [hlocl, cmpf_alloc_left h b.root_ l l r (hnel _ (Tree.locate_mem _ tl b.root_))]
      exact hc1)
  obtain ⟨er, ir⟩ := IsIndex.insert_impl_spec hcr hi.right (h.alloc l r).2.rkey
    (a := h.brk) (k := r) hbr (by simp [Heap.rkey, Heap.alloc])
    (fun x hx => by simp [Heap.rkey, Heap.alloc, hx])
    (by
      rw [hlocr, cmpf_alloc_right h b.root_ l r r (hner _ (Tree.locate_mem _ tr b.root_))]
      exact hc2)
  rw [hlocl] at el il
  rw [hlocr] at er ir
  rw [hinsl] at il
  rw [hinsr] at ir
  refine ⟨{ lnode := attach (cmpf cl (h.alloc l r).2.lkey b.root_ l) (construct h.lnode h.brk)
              (tl.locate (cmpf cl h.lkey b.root_ l) b.root_) h.brk
            rnode := attach (cmpf cr (h.alloc l r).2.rkey b.root_ r) (construct h.rnode h.brk)
              (tr.locate (cmpf cr h.rkey b.root_ r) b.root_) h.brk
            val := fun x => if x = h.brk then some (l, r) else h.val x
            brk := h.brk + 1 }, ?_, ?_, rfl, rfl⟩
  rotate_left
  · exact
    { left := il
      right := ir
      live := by
        intro a
        rw [Tree.mem_ins, ← hi.live a]
        by_cases ha : a = h.brk
        · simp [Heap.alloc, ha]
        · simp [Heap.alloc, ha]
      same := by
        intro a
        rw [Tree.mem_ins, Tree.mem_ins, hi.same a]
      bound := by
        intro a ha
        rcases (Tree.mem_ins _ _ _ _).mp ha with e | e
        · simp [Heap.alloc, e]
        · have := hi.bound a e
          simp only [Heap.alloc]
          omega
      root_bound := by
        have := hi.root_bound
        simp only [Heap.alloc]
        omega
      size_eq := by
        rw [Tree.length_ins]
        simp [hi.size_eq] }
  · simp only [insert, Heap.fuel,
      hi.left.find_impl_eq l (show tl.toList.length + 1 ≤ h.brk + 1 by omega),
      hi.right.find_impl_eq r (show tr.toList.length + 1 ≤ h.brk + 1 by omega),
      hi.left.cmp_eq l (Tree.locate_mem _ tl b.root_),
      hi.right.cmp_eq r (Tree.locate_mem _ tr b.root_), hc1, hc2, if_false]
    have el1 : insert_impl cl (h.alloc l r).2.lkey b.root_ (h.alloc l r).2.lnode
        (tl.locate (cmpf cl h.lkey b.root_ l) b.root_) (h.alloc l r).1 = _ := el
    have er1 : insert_impl cr (h.alloc l r).2.rkey b.root_ (h.alloc l r).2.rnode
        (tr.locate (cmpf cr h.rkey b.root_ r) b.root_) (h.alloc l r).1 = _ := er
    rw [el1, er1]
    rfl

end insert_inv

/-! ## `erase` under the invariant -/

theorem IsIndex.congr_mem {K : Type} {lt : K → K → Bool} {key : Nat → Option K} {root_ : Nat}
    {m : Mem} {t : Tree} (hi : IsIndex lt key root_ m t) (m1 : Mem)
    (hm : ∀ y ∈ root_ :: t.toList, m1 y = m y) : IsIndex lt key root_ m1 t where
  rep := Rep.congr (fun y hy => hm y (by
    simp only [Tree.toList, List.mem_append, List.mem_cons, List.not_mem_nil, or_false] at hy
    simp only [List.mem_cons]; tauto)) hi.rep
  nodup := hi.nodup
  keyed := hi.keyed
  sorted := hi.sorted

section erase_inv

variable {L R : Type} {cl : L → L → Bool} {cr : R → R → Bool}
variable {h : Heap L R} {b : bimap} {tl tr : Tree}

theorem Inv.erase_left_ok (hi : Inv cl cr h b tl tr) {x : Nat} (hx : x ∈ tl.toList) :
    ∃ h1, erase_left h b (some x) =
        some (some (lsucc tl.toList b.root_ x), h1, ⟨b.root_, b.size_ - 1⟩) ∧
      Inv cl cr h1 ⟨b.root_, b.size_ - 1⟩ (tl.erase x) (tr.erase x) ∧
      h1.val = (fun y => if y = x then none else h.val y) ∧ h1.brk = h.brk := by
  have hfl := hi.fuel_left
  have hfr := hi.fuel_right
  have hxr : x ∈ tr.toList := (hi.same x).mp hx
  obtain ⟨ml, el, il, _⟩ := hi.left.erase_impl_spec hx (f := h.brk) (by omega)
  obtain ⟨mr, er, ir, _⟩ := hi.right.erase_impl_spec hxr (f := h.brk) (by omega)
  obtain ⟨v, hv⟩ := Option.isSome_iff_exists.mp ((hi.live x).mpr hx)
  have hsz : size_dec b.size_ = b.size_ - 1 := by
    have : b.size_ ≠ 0 := by
      rw [hi.size_eq]
      exact fun e => by simp [List.length_eq_zero.mp e] at hx
    simp [size_dec, this]
  have hxroot : x ≠ b.root_ := fun e => hi.left.root_not_mem (e ▸ hx)
  have hndl := hi.left.nodup_list
  have hndr := hi.right.nodup_list
  refine ⟨{ lnode := unlink ml x, rnode := unlink mr x,
            val := fun y => if y = x then none else h.val y, brk := h.brk }, ?_, ?_, rfl, rfl⟩
  · simp only [erase_left, Heap.fuel, el, flip, er, Heap.delete, hv, hsz]
  · exact
    { left := (il.congr_mem (unlink ml x) (fun y hy => by
          have : y ≠ x := by
            rcases List.mem_cons.mp hy with e | hy
            · rw [e]; exact Ne.symm hxroot
            · exact ((Tree.mem_erase hndl).mp hy).2
          simp [unlink, this])).congr_key (fun y hy => by
          have : y ≠ x := ((Tree.mem_erase hndl).mp hy).2
          simp [Heap.lkey, this])
      right := (ir.congr_mem (unlink mr x) (fun y hy => by
          have : y ≠ x := by
            rcases List.mem_cons.mp hy with e | hy
            · rw [e]; exact Ne.symm hxroot
            · exact ((Tree.mem_erase hndr).mp hy).2
          simp [unlink, this])).congr_key (fun y hy => by
          have : y ≠ x := ((Tree.mem_erase hndr).mp hy).2
          simp [Heap.rkey, this])
      live := by
        intro a
        rw [Tree.mem_erase hndl, ← hi.live a]
        by_cases ha : a = x <;> simp [ha]
      same := by
        intro a
        rw [Tree.mem_erase hndl, Tree.mem_erase hndr, hi.same a]
      bound := fun a ha => hi.bound a ((Tree.mem_erase hndl).mp ha).1
      root_bound := hi.root_bound
      size_eq := by
        simp only [hi.size_eq]
        rw [Tree.erase_toList _ hndl]
        have h1 := List.Nodup.erase_eq_filter hndl x
        have h2 : List.filter (fun y => decide (y ≠ x)) tl.toList =
            List.filter (fun y => y != x) tl.toList := by
          congr 1
          funext y
          by_cases hy : y = x <;> simp [hy]
        rw [h2, ← h1, List.length_erase_of_mem hx] }

theorem Inv.erase_left_valid (hi : Inv cl cr h b tl tr) {it : Ptr}
    {res : Ptr × Heap L R × bimap} (he : erase_left h b it = some res) :
    ∃ x, it = some x ∧ x ∈ tl.toList := by
  cases it with
  | none => simp [erase_left] at he
  | some a =>
    refine ⟨a, rfl, ?_⟩
    apply (hi.live a).mp
    simp only [erase_left, flip] at he
    cases h1 : erase_impl h.fuel h.lnode a with
    | none => simp [h1] at he
    | some p1 =>
      cases h2 : erase_impl h.fuel h.rnode a with
      | none => simp [h1, h2] at he
      | some p2 =>
        cases hv : h.val a with
        | none => simp [h1, h2, Heap.delete, hv] at he
        | some v => rfl

theorem Inv.find_left_eq (hi : Inv cl cr h b tl tr) (k : L) :
    find_left cl h b k =
      some (some (if cmpf cl h.lkey b.root_ k (tl.locate (cmpf cl h.lkey b.root_ k) b.root_) = 0
        then tl.locate (cmpf cl h.lkey b.root_ k) b.root_ else b.root_)) := by
  have hfl := hi.fuel_left
  exact hi.left.find_eq k (show tl.toList.length + 1 ≤ h.brk + 1 by omega)

theorem Inv.find_right_eq (hi : Inv cl cr h b tl tr) (k : R) :
    find_right cr h b k =
      some (some (if cmpf cr h.rkey b.root_ k (tr.locate (cmpf cr h.rkey b.root_ k) b.root_) = 0
        then tr.locate (cmpf cr h.rkey b.root_ k) b.root_ else b.root_)) := by
  have hfr := hi.fuel_right
  exact hi.right.find_eq k (show tr.toList.length + 1 ≤ h.brk + 1 by omega)

end erase_inv

/-! ## Every reachable bimap satisfies the invariant -/

section reachable

variable {L R : Type} {cl : L → L → Bool} {cr : R → R → Bool}
variable {h h1 : Heap L R} {b b1 : bimap}

theorem inv_insert (hcl : StrictWeakOrder cl) (hcr : StrictWeakOrder cr)
    (hi : ∃ tl tr, Inv cl cr h b tl tr) {l : L} {r : R} {it : Ptr}
    (he : insert cl cr h b l r = some (it, h1, b1)) : ∃ tl tr, Inv cl cr h1 b1 tl tr := by
  obtain ⟨tl, tr, hi⟩ := hi
  by_cases hc : cmpf cl h.lkey b.root_ l (tl.locate (cmpf cl h.lkey b.root_ l) b.root_) = 0 ∨
      cmpf cr h.rkey b.root_ r (tr.locate (cmpf cr h.rkey b.root_ r) b.root_) = 0
  · rw [hi.insert_fail l r hc] at he
    simp only [Option.some.injEq, Prod.mk.injEq] at he
    obtain ⟨_, rfl, rfl⟩ := he
    exact ⟨tl, tr, hi⟩
  · simp only [not_or] at hc
    obtain ⟨h2, e, hi2, _⟩ := hi.insert_ok hcl hcr l r hc.1 hc.2
    rw [e] at he
    simp only [Option.some.injEq, Prod.mk.injEq] at he
    obtain ⟨_, rfl, rfl⟩ := he
    exact ⟨_, _, hi2⟩

theorem inv_erase_left (hi : ∃ tl tr, Inv cl cr h b tl tr) {it ret : Ptr}
    (he : erase_left h b it = some (ret, h1, b1)) : ∃ tl tr, Inv cl cr h1 b1 tl tr := by
  obtain ⟨tl, tr, hi⟩ := hi
  obtain ⟨x, rfl, hx⟩ := hi.erase_left_valid he
  obtain ⟨h2, e, hi2, _⟩ := hi.erase_left_ok hx
  rw [e] at he
  simp only [Option.some.injEq, Prod.mk.injEq] at he
  obtain ⟨_, rfl, rfl⟩ := he
  exact ⟨_, _, hi2⟩

theorem erase_right_eq (h : Heap L R) (b : bimap) (it : Ptr) :
    erase_right h b it = erase_left h b it := by
  simp only [erase_right, flip]
  cases erase_left h b it with
  | none => rfl
  | some p => rfl

theorem inv_erase_right (hi : ∃ tl tr, Inv cl cr h b tl tr) {it ret : Ptr}
    (he : erase_right h b it = some (ret, h1, b1)) : ∃ tl tr, Inv cl cr h1 b1 tl tr := by
  rw [erase_right_eq] at he
  exact inv_erase_left hi he

theorem inv_erase_left_key (hi : ∃ tl tr, Inv cl cr h b tl tr) {l : L} {res : Bool}
    (he : erase_left_key cl h b l = some (res, h1, b1)) : ∃ tl tr, Inv cl cr h1 b1 tl tr := by
  simp only [erase_left_key] at he
  cases hf : find_left cl h b l with
  | none => simp [hf] at he
  | some it =>
    simp only [hf] at he
    split_ifs at he with hend
    · simp only [Option.some.injEq, Prod.mk.injEq] at he
      obtain ⟨_, rfl, rfl⟩ := he
      exact hi
    · cases hr : erase_left h b it with
      | none => simp [hr] at he
      | some p =>
        obtain ⟨ret, h2, b2⟩ := p
        simp only [hr, Option.some.injEq, Prod.mk.injEq] at he
        obtain ⟨_, rfl, rfl⟩ := he
        exact inv_erase_left hi hr

theorem inv_erase_right_key (hi : ∃ tl tr, Inv cl cr h b tl tr) {r : R} {res : Bool}
    (he : erase_right_key cr h b r = some (res, h1, b1)) : ∃ tl tr, Inv cl cr h1 b1 tl tr := by
  simp only [erase_right_key] at he
  cases hf : find_right cr h b r with
  | none => simp [hf] at he
  | some it =>
    simp only [hf] at he
    split_ifs at he with hend
    · simp only [Option.some.injEq, Prod.mk.injEq] at he
      obtain ⟨_, rfl, rfl⟩ := he
      exact hi
    · cases hr : erase_right h b it with
      | none => simp [hr] at he
      | some p =>
        obtain ⟨ret, h2, b2⟩ := p
        simp only [hr, Option.some.injEq, Prod.mk.injEq] at he
        obtain ⟨_, rfl, rfl⟩ := he
        exact inv_erase_right hi hr

theorem inv_erase_left_loop (last : Ptr) (f : Nat) :
    ∀ (h : Heap L R) (b : bimap) (first ret : Ptr), (∃ tl tr, Inv cl cr h b tl tr) →
      erase_left_loop last f h b first = some (ret, h1, b1) →
      ∃ tl tr, Inv cl cr h1 b1 tl tr := by
  induction f with
  | zero => intro h b first ret _ he; simp [erase_left_loop] at he
  | succ f ih =>
    intro h b first ret hi he
    simp only [erase_left_loop] at he
    split_ifs at he with hend
    · simp only [Option.some.injEq, Prod.mk.injEq] at he
      obtain ⟨_, rfl, rfl⟩ := he
      exact hi
    · cases hn : incr_left h first with
      | none => simp [hn] at he
      | some nx =>
        cases hr : erase_left h b first with
        | none => simp [hn, hr] at he
        | some p =>
          obtain ⟨ret2, h2, b2⟩ := p
          simp only [hn, hr] at he
          exact ih h2 b2 nx ret (inv_erase_left hi hr) he

theorem inv_erase_right_loop (last : Ptr) (f : Nat) :
    ∀ (h : Heap L R) (b : bimap) (first ret : Ptr), (∃ tl tr, Inv cl cr h b tl tr) →
      erase_right_loop last f h b first = some (ret, h1, b1) →
      ∃ tl tr, Inv cl cr h1 b1 tl tr := by
  induction f with
  | zero => intro h b first ret _ he; simp [erase_right_loop] at he
  | succ f ih =>
    intro h b first ret hi he
    simp only [erase_right_loop] at he
    split_ifs at he with hend
    · simp only [Option.some.injEq, Prod.mk.injEq] at he
      obtain ⟨_, rfl, rfl⟩ := he
      exact hi
    · cases hn : incr_right h first with
      | none => simp [hn] at he
      | some nx =>
        cases hr : erase_right h b first with
        | none => simp [hn, hr] at he
        | some p =>
          obtain ⟨ret2, h2, b2⟩ := p
          simp only [hn, hr] at he
          exact ih h2 b2 nx ret (inv_erase_right hi hr) he

theorem Reachable.inv (hcl : StrictWeakOrder cl) (hcr : StrictWeakOrder cr)
    (hr : Reachable cl cr h b) : ∃ tl tr, Inv cl cr h b tl tr := by
  induction hr with
  | empty => exact ⟨.nil, .nil, Inv.empty⟩
  | insert l r _ he ih => exact inv_insert hcl hcr ih he
  | erase_left it _ he ih => exact inv_erase_left ih he
  | erase_right it _ he ih => exact inv_erase_right ih he
  | erase_left_key l _ he ih => exact inv_erase_left_key ih he
  | erase_right_key r _ he ih => exact inv_erase_right_key ih he
  | erase_left_range first last _ he ih => exact inv_erase_left_loop last _ _ _ first _ ih he
  | erase_right_range first last _ he ih => exact inv_erase_right_loop last _ _ _ first _ ih he

end reachable

/-! ## Reading the pairs at a list of positions -/

section read

variable {L R : Type}

theorem read_all_cons (h : Heap L R) (a : Nat) (xs : List Nat) (ps : List (L × R)) :
    read_all h (a :: xs) = some ps ↔
      ∃ p qs, h.val a = some p ∧ read_all h xs = some qs ∧ ps = p :: qs := by
  simp only [read_all]
  cases hv : h.val a with
  | none => simp
  | some p =>
    cases hr : read_all h xs with
    | none => simp
    | some qs =>
      simp only [Option.some.injEq]
      constructor
      · intro e; exact ⟨p, qs, rfl, rfl, e.symm⟩
      · rintro ⟨p1, qs1, e1, e2, e3⟩
        rw [e3, ← e1, ← e2]

theorem read_all_mem {h : Heap L R} {xs : List Nat} {ps : List (L × R)}
    (hr : read_all h xs = some ps) (p : L × R) :
    p ∈ ps ↔ ∃ a ∈ xs, h.val a = some p := by
  induction xs generalizing ps with
  | nil =>
    simp only [read_all, Option.some.injEq] at hr
    subst hr; simp
  | cons a xs ih =>
    obtain ⟨q, qs, e1, e2, rfl⟩ := (read_all_cons h a xs ps).mp hr
    have ih2 := ih e2
    simp only [List.mem_cons]
    constructor
    · rintro (e | hq)
      · exact ⟨a, Or.inl rfl, e ▸ e1⟩
      · obtain ⟨x, hx, hv⟩ := ih2.mp hq
        exact ⟨x, Or.inr hx, hv⟩
    · rintro ⟨x, (e | hx), hv⟩
      · left
        rw [e, e1] at hv
        exact (Option.some.inj hv).symm
      · exact Or.inr (ih2.mpr ⟨x, hx, hv⟩)

theorem read_all_length {h : Heap L R} {xs : List Nat} {ps : List (L × R)}
    (hr : read_all h xs = some ps) : ps.length = xs.length := by
  induction xs generalizing ps with
  | nil =>
    simp only [read_all, Option.some.injEq] at hr
    subst hr; rfl
  | cons a xs ih =>
    obtain ⟨q, qs, _, e2, rfl⟩ := (read_all_cons h a xs ps).mp hr
    simp [ih e2]

theorem read_all_some {h : Heap L R} {xs : List Nat}
    (hv : ∀ a ∈ xs, (h.val a).isSome = true) : ∃ ps, read_all h xs = some ps := by
  induction xs with
  | nil => exact ⟨[], rfl⟩
  | cons a xs ih =>
    obtain ⟨ps, hps⟩ := ih (fun x hx => hv x (List.mem_cons_of_mem _ hx))
    obtain ⟨p, hp⟩ := Option.isSome_iff_exists.mp (hv a (List.mem_cons_self _ _))
    exact ⟨p :: ps, (read_all_cons h a xs _).mpr ⟨p, ps, hp, hps, rfl⟩⟩

theorem read_all_congr {h h1 : Heap L R} {xs : List Nat}
    (hv : ∀ a ∈ xs, h1.val a = h.val a) : read_all h1 xs = read_all h xs := by
  induction xs with
  | nil => rfl
  | cons a xs ih =>
    simp only [read_all, hv a (List.mem_cons_self _ _),
      ih (fun x hx => hv x (List.mem_cons_of_mem _ hx))]

theorem read_all_append {h : Heap L R} {xs ys : List Nat} {ps : List (L × R)}
    (hr : read_all h (xs ++ ys) = some ps) :
    ∃ qs rs, read_all h xs = some qs ∧ read_all h ys = some rs ∧ ps = qs ++ rs := by
  induction xs generalizing ps with
  | nil => exact ⟨[], ps, rfl, hr, rfl⟩
  | cons a xs ih =>
    obtain ⟨q, qs, e1, e2, rfl⟩ := (read_all_cons h a (xs ++ ys) ps).mp hr
    obtain ⟨qs1, rs, e3, e4, rfl⟩ := ih e2
    exact ⟨q :: qs1, rs, (read_all_cons h a xs _).mpr ⟨q, qs1, e1, e3, rfl⟩, e4, rfl⟩

theorem read_all_append_some {h : Heap L R} {xs ys : List Nat} {qs rs : List (L × R)}
    (h1 : read_all h xs = some qs) (h2 : read_all h ys = some rs) :
    read_all h (xs ++ ys) = some (qs ++ rs) := by
  induction xs generalizing qs with
  | nil =>
    simp only [read_all, Option.some.injEq] at h1
    subst h1; simpa using h2
  | cons a xs ih =>
    obtain ⟨q, qs1, e1, e2, rfl⟩ := (read_all_cons h a xs qs).mp h1
    exact (read_all_cons h a (xs ++ ys) _).mpr ⟨q, qs1 ++ rs, e1, ih e2, rfl⟩

theorem read_all_pairwise {h : Heap L R} {K : Type} (lt : K → K → Bool) (proj : L × R → K)
    {xs : List Nat} {ps : List (L × R)} (hr : read_all h xs = some ps)
    (hs : xs.Pairwise (key_lt lt (fun a => (h.val a).map proj))) :
    ps.Pairwise (fun p q => lt (proj p) (proj q) = true) := by
  induction xs generalizing ps with
  | nil =>
    simp only [read_all, Option.some.injEq] at hr
    subst hr; exact List.Pairwise.nil
  | cons a xs ih =>
    obtain ⟨p, qs, e1, e2, rfl⟩ := (read_all_cons h a xs ps).mp hr
    obtain ⟨hs1, hs2⟩ := List.pairwise_cons.mp hs
    refine List.pairwise_cons.mpr ⟨?_, ih e2 hs2⟩
    intro q hq
    obtain ⟨x, hx, hv⟩ := (read_all_mem e2 q).mp hq
    obtain ⟨k1, k2, f1, f2, f3⟩ := hs1 x hx
    simp only [e1, hv, Option.map_some', Option.some.injEq] at f1 f2
    rw [f1, f2]; exact f3

end read

/-! ## Observations under the invariant -/

section observe

variable {L R : Type} {cl : L → L → Bool} {cr : R → R → Bool}
variable {h : Heap L R} {b : bimap} {tl tr : Tree}

theorem Inv.left_pairs_eq (hi : Inv cl cr h b tl tr) :
    left_pairs h b = read_all h tl.toList := by
  simp [left_pairs, hi.left_positions_eq]

theorem Inv.right_pairs_eq (hi : Inv cl cr h b tl tr) :
    right_pairs h b = read_all h tr.toList := by
  simp [right_pairs, hi.right_positions_eq]

theorem Inv.left_pairs_some (hi : Inv cl cr h b tl tr) : ∃ ps, left_pairs h b = some ps := by
  rw [hi.left_pairs_eq]
  exact read_all_some (fun a ha => (hi.live a).mpr ha)

theorem Inv.right_pairs_some (hi : Inv cl cr h b tl tr) : ∃ ps, right_pairs h b = some ps := by
  rw [hi.right_pairs_eq]
  exact read_all_some (fun a ha => (hi.live a).mpr ((hi.same a).mpr ha))

theorem Inv.mem_left_pairs (hi : Inv cl cr h b tl tr) {ps : List (L × R)}
    (hp : left_pairs h b = some ps) (p : L × R) :
    p ∈ ps ↔ ∃ a ∈ tl.toList, h.val a = some p := by
  rw [hi.left_pairs_eq] at hp
  exact read_all_mem hp p

theorem Inv.mem_right_pairs (hi : Inv cl cr h b tl tr) {ps : List (L × R)}
    (hp : right_pairs h b = some ps) (p : L × R) :
    p ∈ ps ↔ ∃ a ∈ tl.toList, h.val a = some p := by
  rw [hi.right_pairs_eq] at hp
  rw [read_all_mem hp p]
  constructor
  · rintro ⟨a, ha, hv⟩; exact ⟨a, (hi.same a).mpr ha, hv⟩
  · rintro ⟨a, ha, hv⟩; exact ⟨a, (hi.same a).mp ha, hv⟩

end observe

/-! ## Lookup by key -/

section lookup

variable {K : Type} {lt : K → K → Bool} {key : Nat → Option K} {root_ : Nat} {m : Mem} {t : Tree}

theorem IsIndex.cmpf_eq (hi : IsIndex lt key root_ m t) (k : K) {a : Nat} {ka : K}
    (ha : a ∈ t.toList) (hk : key a = some ka) :
    cmpf lt key root_ k a = cmp_keys lt ka k := by
  have : a ≠ root_ := fun e => hi.root_not_mem (e ▸ ha)
  simp [cmpf, cmp, this, hk]

theorem IsIndex.locate_zero (_hi : IsIndex lt key root_ m t) (k : K)
    (hz : cmpf lt key root_ k (t.locate (cmpf lt key root_ k) root_) = 0) :
    t.locate (cmpf lt key root_ k) root_ ∈ t.toList := by
  rcases List.mem_cons.mp (Tree.locate_mem (cmpf lt key root_ k) t root_) with e | e
  · rw [e, cmpf_root] at hz
    simp at hz
  · exact e

theorem IsIndex.comparable (hi : IsIndex lt key root_ m t) {x y : Nat} (hx : x ∈ t.toList)
    (hy : y ∈ t.toList) (hne : x ≠ y) : key_lt lt key x y ∨ key_lt lt key y x := by
  have h1 : t.toList.Pairwise (fun a b => key_lt lt key a b ∨ key_lt lt key b a) :=
    hi.sorted.imp (fun h => Or.inl h)
  exact h1.forall (fun a b h => h.symm) hx hy hne

theorem IsIndex.locate_self (hlt : StrictWeakOrder lt) (hi : IsIndex lt key root_ m t)
    {a : Nat} {k : K} (ha : a ∈ t.toList) (hk : key a = some k) :
    t.locate (cmpf lt key root_ k) root_ = a ∧ cmpf lt key root_ k a = 0 := by
  have hca : cmpf lt key root_ k a = 0 := by
    rw [hi.cmpf_eq k ha hk]
    exact cmp_keys_eq_zero.mpr ⟨hlt.irrefl k, hlt.irrefl k⟩
  obtain ⟨hz, hq⟩ := Tree.locate_found hlt t root_ hi.sorted (hi.reads k) a ha hca
  refine ⟨?_, hca⟩
  by_contra hne
  obtain ⟨kq, hkq, hcq⟩ := hi.reads k _ hq
  rw [hz] at hcq
  have he := cmp_keys_eq_zero.mp hcq.symm
  rcases hi.comparable hq ha hne with hlt1 | hlt1
  · obtain ⟨k1, k2, e1, e2, e3⟩ := hlt1
    rw [hkq] at e1; rw [hk] at e2
    cases e1; cases e2
    rw [he.1] at e3; simp at e3
  · obtain ⟨k1, k2, e1, e2, e3⟩ := hlt1
    rw [hk] at e1; rw [hkq] at e2
    cases e1; cases e2
    rw [he.2] at e3; simp at e3

theorem IsIndex.find_present (hlt : StrictWeakOrder lt) (hi : IsIndex lt key root_ m t)
    {a : Nat} {k : K} (ha : a ∈ t.toList) (hk : key a = some k) {f : Nat}
    (hf : t.toList.length + 1 ≤ f) : find lt key root_ f m k = some (some a) := by
  obtain ⟨e1, e2⟩ := hi.locate_self hlt ha hk
  rw [hi.find_eq k hf, e1, e2]
  rfl

theorem IsIndex.find_equiv (hlt : StrictWeakOrder lt) (hi : IsIndex lt key root_ m t)
    {a : Nat} {k ka : K} (ha : a ∈ t.toList) (hk : key a = some ka)
    (he : equivalent lt ka k) {f : Nat} (hf : t.toList.length + 1 ≤ f) :
    ∃ q kq, q ∈ t.toList ∧ find lt key root_ f m k = some (some q) ∧ key q = some kq ∧
      equivalent lt kq k := by
  have hca : cmpf lt key root_ k a = 0 := by
    rw [hi.cmpf_eq k ha hk]
    exact cmp_keys_eq_zero.mpr he
  obtain ⟨hz, hq⟩ := Tree.locate_found hlt t root_ hi.sorted (hi.reads k) a ha hca
  obtain ⟨kq, hkq, hcq⟩ := hi.reads k _ hq
  refine ⟨_, kq, hq, ?_, hkq, cmp_keys_eq_zero.mp (hcq ▸ hz)⟩
  rw [hi.find_eq k hf, hz]
  rfl

theorem IsIndex.locate_absent (hi : IsIndex lt key root_ m t) (k : K)
    (hk : ∀ a ∈ t.toList, ∀ ka, key a = some ka → ¬ equivalent lt ka k) :
    cmpf lt key root_ k (t.locate (cmpf lt key root_ k) root_) ≠ 0 := by
  intro hz
  have hq := hi.locate_zero k hz
  obtain ⟨kq, hkq, hcq⟩ := hi.reads k _ hq
  exact hk _ hq kq hkq (cmp_keys_eq_zero.mp (hcq ▸ hz))

theorem IsIndex.find_absent (hi : IsIndex lt key root_ m t) (k : K)
    (hk : ∀ a ∈ t.toList, ∀ ka, key a = some ka → ¬ equivalent lt ka k) {f : Nat}
    (hf : t.toList.length + 1 ≤ f) : find lt key root_ f m k = some (some root_) := by
  rw [hi.find_eq k hf, if_neg (hi.locate_absent k hk)]

end lookup

section lookup_inv

variable {L R : Type} {cl : L → L → Bool} {cr : R → R → Bool}
variable {h : Heap L R} {b : bimap} {tl tr : Tree}

theorem Inv.find_left_present (hcl : StrictWeakOrder cl) (hi : Inv cl cr h b tl tr) {a : Nat}
    {p : L × R} (ha : a ∈ tl.toList) (hv : h.val a = some p) :
    find_left cl h b p.1 = some (some a) := by
  have hf := hi.fuel_left
  exact hi.left.find_present hcl ha (by simp [Heap.lkey, hv])
    (show tl.toList.length + 1 ≤ h.brk + 1 by omega)

theorem Inv.find_right_present (hcr : StrictWeakOrder cr) (hi : Inv cl cr h b tl tr) {a : Nat}
    {p : L × R} (ha : a ∈ tl.toList) (hv : h.val a = some p) :
    find_right cr h b p.2 = some (some a) := by
  have hf := hi.fuel_right
  exact hi.right.find_present hcr ((hi.same a).mp ha) (by simp [Heap.rkey, hv])
    (show tr.toList.length + 1 ≤ h.brk + 1 by omega)

theorem Inv.find_left_absent (hi : Inv cl cr h b tl tr) (k : L)
    (hk : ∀ a ∈ tl.toList, ∀ p, h.val a = some p → ¬ equivalent cl p.1 k) :
    find_left cl h b k = some (some b.root_) := by
  have hf := hi.fuel_left
  apply hi.left.find_absent k _ (show tl.toList.length + 1 ≤ h.brk + 1 by omega)
  intro a ha ka hka
  obtain ⟨p, hp⟩ := Option.isSome_iff_exists.mp ((hi.live a).mpr ha)
  have : ka = p.1 := by simpa [Heap.lkey, hp] using hka.symm
  rw [this]
  exact hk a ha p hp

theorem Inv.find_right_absent (hi : Inv cl cr h b tl tr) (k : R)
    (hk : ∀ a ∈ tl.toList, ∀ p, h.val a = some p → ¬ equivalent cr p.2 k) :
    find_right cr h b k = some (some b.root_) := by
  have hf := hi.fuel_right
  apply hi.right.find_absent k _ (show tr.toList.length + 1 ≤ h.brk + 1 by omega)
  intro a ha ka hka
  have ha1 := (hi.same a).mpr ha
  obtain ⟨p, hp⟩ := Option.isSome_iff_exists.mp ((hi.live a).mpr ha1)
  have : ka = p.2 := by simpa [Heap.rkey, hp] using hka.symm
  rw [this]
  exact hk a ha1 p hp

theorem Inv.find_left_equiv (hcl : StrictWeakOrder cl) (hi : Inv cl cr h b tl tr) {a : Nat}
    {p : L × R} {k : L} (ha : a ∈ tl.toList) (hv : h.val a = some p)
    (he : equivalent cl p.1 k) :
    ∃ q pq, q ∈ tl.toList ∧ find_left cl h b k = some (some q) ∧ h.val q = some pq ∧
      equivalent cl pq.1 k := by
  have hf := hi.fuel_left
  obtain ⟨q, kq, hq, e1, e2, e3⟩ := hi.left.find_equiv hcl ha
    (show h.lkey a = some p.1 by simp [Heap.lkey, hv]) he
    (show tl.toList.length + 1 ≤ h.brk + 1 by omega)
  obtain ⟨pq, hpq⟩ := Option.isSome_iff_exists.mp ((hi.live q).mpr hq)
  have : kq = pq.1 := by simpa [Heap.lkey, hpq] using e2.symm
  exact ⟨q, pq, hq, e1, hpq, this ▸ e3⟩

theorem Inv.find_right_equiv (hcr : StrictWeakOrder cr) (hi : Inv cl cr h b tl tr) {a : Nat}
    {p : L × R} {k : R} (ha : a ∈ tl.toList) (hv : h.val a = some p)
    (he : equivalent cr p.2 k) :
    ∃ q pq, q ∈ tl.toList ∧ find_right cr h b k = some (some q) ∧ h.val q = some pq ∧
      equivalent cr pq.2 k := by
  have hf := hi.fuel_right
  obtain ⟨q, kq, hq, e1, e2, e3⟩ := hi.right.find_equiv hcr ((hi.same a).mp ha)
    (show h.rkey a = some p.2 by simp [Heap.rkey, hv]) he
    (show tr.toList.length + 1 ≤ h.brk + 1 by omega)
  have hq1 := (hi.same q).mpr hq
  obtain ⟨pq, hpq⟩ := Option.isSome_iff_exists.mp ((hi.live q).mpr hq1)
  have : kq = pq.2 := by simpa [Heap.rkey, hpq] using e2.symm
  exact ⟨q, pq, hq1, e1, hpq, this ▸ e3⟩

end lookup_inv

/-! ## Concrete bimaps -/

theorem nat_less_strict_weak : StrictWeakOrder nat_less where
  irrefl := fun a => by simp [nat_less]
  trans := fun a b c h1 h2 => by
    simp only [nat_less, decide_eq_true_eq] at h1 h2 ⊢
    omega
  equiv_trans := fun a b c h1 h2 => by
    simp only [equivalent, nat_less, decide_eq_false_iff_not] at h1 h2 ⊢
    omega

theorem reachable_insert_all (ps : List (Nat × Nat)) :
    ∀ s : Heap Nat Nat × bimap, Reachable nat_less nat_less s.1 s.2 →
      Reachable nat_less nat_less (insert_all s ps).1 (insert_all s ps).2 := by
  induction ps with
  | nil => intro s hs; exact hs
  | cons p ps ih =>
    intro s hs
    simp only [insert_all]
    cases he : insert nat_less nat_less s.1 s.2 p.1 p.2 with
    | none => exact hs
    | some res =>
      obtain ⟨it, h1, b1⟩ := res
      exact ih (h1, b1) (Reachable.insert p.1 p.2 hs he)

theorem reachable_sample : Reachable nat_less nat_less sample.1 sample.2 :=
  reachable_insert_all _ _ Reachable.empty

theorem reachable_sample2 : Reachable nat_less nat_less sample2.1 sample2.2 :=
  reachable_insert_all _ _ Reachable.empty

/-! ## Pairs after an insertion -/

theorem read_all_insert {L R : Type} {h h1 : Heap L R} {pre post : List Nat} {a : Nat}
    {p : L × R} {ps : List (L × R)} (ha : a ∉ pre ++ post)
    (hv : h1.val = fun x => if x = a then some p else h.val x)
    (hr : read_all h (pre ++ post) = some ps) :
    ∃ ps1 ps2, ps = ps1 ++ ps2 ∧ read_all h1 (pre ++ a :: post) = some (ps1 ++ p :: ps2) := by
  obtain ⟨ps1, ps2, e1, e2, rfl⟩ := read_all_append hr
  refine ⟨ps1, ps2, rfl, ?_⟩
  have hne : ∀ x ∈ pre ++ post, h1.val x = h.val x := by
    intro x hx
    have : x ≠ a := fun e => ha (e ▸ hx)
    simp [hv, this]
  apply read_all_append_some
  · rw [read_all_congr (fun x hx => hne x (List.mem_append_left _ hx))]
    exact e1
  · apply (read_all_cons h1 a post _).mpr
    refine ⟨p, ps2, by simp [hv], ?_, rfl⟩
    rw [read_all_congr (fun x hx => hne x (List.mem_append_right _ hx))]
    exact e2

/-! ## The claims -/

/-- C1: on a reachable bimap whose pairs are `ps`, `insert(l, r)` with `l` equivalent to no
left key and `r` equivalent to no right key returns a position that is not `end_left()`,
dereferences to `l` and has paired value `r`; the size grows by one; the pairs met in left order
and those met in right order are the old ones with `(l, r)` put in at one place. -/
theorem C1_insert_new_pair {L R : Type} {cl : L → L → Bool} {cr : R → R → Bool}
    (hcl : StrictWeakOrder cl) (hcr : StrictWeakOrder cr) {h : Heap L R} {b : bimap}
    (hreach : Reachable cl cr h b) {ps qs : List (L × R)} (hps : left_pairs h b = some ps)
    (hqs : right_pairs h b = some qs) (l : L) (r : R)
    (hl : ∀ p ∈ ps, ¬ equivalent cl p.1 l) (hr : ∀ p ∈ ps, ¬ equivalent cr p.2 r) :
    ∃ it h1 b1, insert cl cr h b l r = some (it, h1, b1) ∧
      it ≠ end_left b1 ∧ deref_left h1 it = some l ∧ get_value_left h1 it = some r ∧
      size b1 = size b + 1 ∧
      (∃ ps1 ps2, ps = ps1 ++ ps2 ∧ left_pairs h1 b1 = some (ps1 ++ (l, r) :: ps2)) ∧
      (∃ qs1 qs2, qs = qs1 ++ qs2 ∧ right_pairs h1 b1 = some (qs1 ++ (l, r) :: qs2)) := by
  obtain ⟨tl, tr, hi⟩ := hreach.inv hcl hcr
  have hc1 := hi.left.locate_absent l (fun a ha ka hka => by
    obtain ⟨p, hp⟩ := Option.isSome_iff_exists.mp ((hi.live a).mpr ha)
    have : ka = p.1 := by simpa [Heap.lkey, hp] using hka.symm
    rw [this]
    exact hl p ((hi.mem_left_pairs hps p).mpr ⟨a, ha, hp⟩))
  have hc2 := hi.right.locate_absent r (fun a ha ka hka => by
    have ha1 := (hi.same a).mpr ha
    obtain ⟨p, hp⟩ := Option.isSome_iff_exists.mp ((hi.live a).mpr ha1)
    have : ka = p.2 := by simpa [Heap.rkey, hp] using hka.symm
    rw [this]
    exact hr p ((hi.mem_left_pairs hps p).mpr ⟨a, ha1, hp⟩))
  obtain ⟨h1, e, hi1, hval, hbrk⟩ := hi.insert_ok hcl hcr l r hc1 hc2
  have hnew : ∀ t : Tree, (∀ a ∈ t.toList, a < h.brk) → h.brk ∉ t.toList :=
    fun t ht hm => Nat.lt_irrefl _ (ht _ hm)
  refine ⟨some h.brk, h1, _, e, ?_, ?_, ?_, rfl, ?_, ?_⟩
  · have := hi.root_bound
    simp only [end_left, ne_eq, Option.some.injEq]
    omega
  · simp [deref_left, Heap.lkey, hval]
  · simp [get_value_left, Heap.rkey, hval]
  · obtain ⟨pre, post, e1, e2⟩ := Tree.ins_toList (cmpf cl h.lkey b.root_ l) h.brk tl
    rw [hi1.left_pairs_eq, e2]
    rw [hi.left_pairs_eq, e1] at hps
    exact read_all_insert (by rw [← e1]; exact hnew tl hi.bound) hval hps
  · obtain ⟨pre, post, e1, e2⟩ := Tree.ins_toList (cmpf cr h.rkey b.root_ r) h.brk tr
    rw [hi1.right_pairs_eq, e2]
    rw [hi.right_pairs_eq, e1] at hqs
    exact read_all_insert (by
      rw [← e1]
      exact hnew tr (fun a ha => hi.bound a ((hi.same a).mpr ha))) hval hqs

/-- Witness of C1: `insert(6, 2)` on the bimap `sample`. -/
theorem C1_insert_new_pair_witness :
    (left_pairs sample.1 sample.2 = some [(3, 7), (4, 4), (5, 0), (7, 8), (10, 1)] ∧
      right_pairs sample.1 sample.2 = some [(5, 0), (10, 1), (4, 4), (3, 7), (7, 8)] ∧
      (∀ p ∈ [(3, 7), (4, 4), (5, 0), (7, 8), (10, 1)], ¬ equivalent nat_less p.1 6) ∧
      (∀ p ∈ [(3, 7), (4, 4), (5, 0), (7, 8), (10, 1)], ¬ equivalent nat_less p.2 2)) ∧
    ∃ it h1 b1, insert nat_less nat_less sample.1 sample.2 6 2 = some (it, h1, b1) ∧
      it ≠ end_left b1 ∧ deref_left h1 it = some 6 ∧ get_value_left h1 it = some 2 ∧
      size b1 = size sample.2 + 1 ∧
      (∃ ps1 ps2, [(3, 7), (4, 4), (5, 0), (7, 8), (10, 1)] = ps1 ++ ps2 ∧
        left_pairs h1 b1 = some (ps1 ++ (6, 2) :: ps2)) ∧
      (∃ qs1 qs2, [(5, 0), (10, 1), (4, 4), (3, 7), (7, 8)] = qs1 ++ qs2 ∧
        right_pairs h1 b1 = some (qs1 ++ (6, 2) :: qs2)) :=
  ⟨⟨by decide, by decide, by decide, by decide⟩,
    C1_insert_new_pair nat_less_strict_weak nat_less_strict_weak reachable_sample
      (by decide) (by decide) 6 2 (by decide) (by decide)⟩

/-- C2: on a reachable bimap whose pairs are `ps`, `insert(l, r)` with `l` equivalent to a
left key or `r` equivalent to a right key returns `end_left()` and changes nothing: heap and
bimap are the same, hence the size and both sequences of pairs. -/
theorem C2_insert_existing_key {L R : Type} {cl : L → L → Bool} {cr : R → R → Bool}
    (hcl : StrictWeakOrder cl) (hcr : StrictWeakOrder cr) {h : Heap L R} {b : bimap}
    (hreach : Reachable cl cr h b) {ps : List (L × R)} (hps : left_pairs h b = some ps)
    (l : L) (r : R)
    (hex : (∃ p ∈ ps, equivalent cl p.1 l) ∨ (∃ p ∈ ps, equivalent cr p.2 r)) :
    ∃ h1 b1, insert cl cr h b l r = some (end_left b, h1, b1) ∧ h1 = h ∧ b1 = b ∧
      size b1 = size b ∧ left_pairs h1 b1 = left_pairs h b ∧
      right_pairs h1 b1 = right_pairs h b := by
  obtain ⟨tl, tr, hi⟩ := hreach.inv hcl hcr
  refine ⟨h, b, ?_, rfl, rfl, rfl, rfl, rfl⟩
  apply hi.insert_fail
  rcases hex with ⟨p, hp, he⟩ | ⟨p, hp, he⟩
  · left
    obtain ⟨a, ha, hv⟩ := (hi.mem_left_pairs hps p).mp hp
    have hca : cmpf cl h.lkey b.root_ l a = 0 := by
      rw [hi.left.cmpf_eq l ha (show h.lkey a = some p.1 by simp [Heap.lkey, hv])]
      exact cmp_keys_eq_zero.mpr he
    exact (Tree.locate_found hcl tl b.root_ hi.left.sorted (hi.left.reads l) a ha hca).1
  · right
    obtain ⟨a, ha, hv⟩ := (hi.mem_left_pairs hps p).mp hp
    have har := (hi.same a).mp ha
    have hca : cmpf cr h.rkey b.root_ r a = 0 := by
      rw [hi.right.cmpf_eq r har (show h.rkey a = some p.2 by simp [Heap.rkey, hv])]
      exact cmp_keys_eq_zero.mpr he
    exact (Tree.locate_found hcr tr b.root_ hi.right.sorted (hi.right.reads r) a har hca).1

/-- Witness of C2: `insert(6, 8)` on the bimap `sample`, where only the right key exists. -/
theorem C2_insert_existing_key_witness :
    (left_pairs sample.1 sample.2 = some [(3, 7), (4, 4), (5, 0), (7, 8), (10, 1)] ∧
      ((∃ p ∈ [(3, 7), (4, 4), (5, 0), (7, 8), (10, 1)], equivalent nat_less p.1 6) ∨
        (∃ p ∈ [(3, 7), (4, 4), (5, 0), (7, 8), (10, 1)], equivalent nat_less p.2 8))) ∧
    ∃ h1 b1, insert nat_less nat_less sample.1 sample.2 6 8 = some (end_left sample.2, h1, b1) ∧
      h1 = sample.1 ∧ b1 = sample.2 ∧ size b1 = size sample.2 ∧
      left_pairs h1 b1 = left_pairs sample.1 sample.2 ∧
      right_pairs h1 b1 = right_pairs sample.1 sample.2 :=
  ⟨⟨by decide, by decide⟩,
    C2_insert_existing_key nat_less_strict_weak nat_less_strict_weak reachable_sample
      (show left_pairs sample.1 sample.2 = some [(3, 7), (4, 4), (5, 0), (7, 8), (10, 1)] by
        decide) 6 8 (by decide)⟩

/-- C3: on a reachable bimap whose pairs are `ps`, `find_left(k)` returns the position of an
element whose left key is equivalent to `k` when there is one and `end_left()` otherwise; the
same holds for `find_right` and the right keys. -/
theorem C3_find_by_key {L R : Type} {cl : L → L → Bool} {cr : R → R → Bool}
    (hcl : StrictWeakOrder cl) (hcr : StrictWeakOrder cr) {h : Heap L R} {b : bimap}
    (hreach : Reachable cl cr h b) {ps : List (L × R)} (hps : left_pairs h b = some ps)
    (kl : L) (kr : R) :
    ((∃ p ∈ ps, equivalent cl p.1 kl) →
        ∃ it p, find_left cl h b kl = some it ∧ it ≠ end_left b ∧ p ∈ ps ∧
          deref_left h it = some p.1 ∧ get_value_left h it = some p.2 ∧
          equivalent cl p.1 kl) ∧
      ((∀ p ∈ ps, ¬ equivalent cl p.1 kl) → find_left cl h b kl = some (end_left b)) ∧
      ((∃ p ∈ ps, equivalent cr p.2 kr) →
        ∃ it p, find_right cr h b kr = some it ∧ it ≠ end_right b ∧ p ∈ ps ∧
          deref_right h it = some p.2 ∧ get_value_right h it = some p.1 ∧
          equivalent cr p.2 kr) ∧
      ((∀ p ∈ ps, ¬ equivalent cr p.2 kr) → find_right cr h b kr = some (end_right b)) := by
  obtain ⟨tl, tr, hi⟩ := hreach.inv hcl hcr
  have hne : ∀ q ∈ tl.toList, some q ≠ some b.root_ := by
    intro q hq e
    exact hi.left.root_not_mem (Option.some.inj e ▸ hq)
  refine ⟨?_, ?_, ?_, ?_⟩
  · rintro ⟨p, hp, he⟩
    obtain ⟨a, ha, hv⟩ := (hi.mem_left_pairs hps p).mp hp
    obtain ⟨q, pq, hq, e1, e2, e3⟩ := hi.find_left_equiv hcl ha hv he
    exact ⟨some q, pq, e1, hne q hq, (hi.mem_left_pairs hps pq).mpr ⟨q, hq, e2⟩,
      by simp [deref_left, Heap.lkey, e2], by simp [get_value_left, Heap.rkey, e2], e3⟩
  · intro hab
    exact hi.find_left_absent kl (fun a ha p hv =>
      hab p ((hi.mem_left_pairs hps p).mpr ⟨a, ha, hv⟩))
  · rintro ⟨p, hp, he⟩
    obtain ⟨a, ha, hv⟩ := (hi.mem_left_pairs hps p).mp hp
    obtain ⟨q, pq, hq, e1, e2, e3⟩ := hi.find_right_equiv hcr ha hv he
    exact ⟨some q, pq, e1, hne q hq, (hi.mem_left_pairs hps pq).mpr ⟨q, hq, e2⟩,
      by simp [deref_right, Heap.rkey, e2], by simp [get_value_right, Heap.lkey, e2], e3⟩
  · intro hab
    exact hi.find_right_absent kr (fun a ha p hv =>
      hab p ((hi.mem_left_pairs hps p).mpr ⟨a, ha, hv⟩))

/-- Witness of C3: on the bimap `sample`, the left key `7` is present and the right key `9`
is absent. -/
theorem C3_find_by_key_witness :
    (left_pairs sample.1 sample.2 = some [(3, 7), (4, 4), (5, 0), (7, 8), (10, 1)] ∧
      (∃ p ∈ [(3, 7), (4, 4), (5, 0), (7, 8), (10, 1)], equivalent nat_less p.1 7) ∧
      (∀ p ∈ [(3, 7), (4, 4), (5, 0), (7, 8), (10, 1)], ¬ equivalent nat_less p.2 9)) ∧
    (∃ it p, find_left nat_less sample.1 sample.2 7 = some it ∧ it ≠ end_left sample.2 ∧
        p ∈ [(3, 7), (4, 4), (5, 0), (7, 8), (10, 1)] ∧
        deref_left sample.1 it = some p.1 ∧ get_value_left sample.1 it = some p.2 ∧
        equivalent nat_less p.1 7) ∧
      find_right nat_less sample.1 sample.2 9 = some (end_right sample.2) :=
  ⟨⟨by decide, by decide, by decide⟩,
    (C3_find_by_key nat_less_strict_weak nat_less_strict_weak reachable_sample
      (show left_pairs sample.1 sample.2 = some [(3, 7), (4, 4), (5, 0), (7, 8), (10, 1)] by
        decide) 7 9).1 (by decide),
    (C3_find_by_key nat_less_strict_weak nat_less_strict_weak reachable_sample
      (show left_pairs sample.1 sample.2 = some [(3, 7), (4, 4), (5, 0), (7, 8), (10, 1)] by
        decide) 7 9).2.2.2 (by decide)⟩

/-- C4: on every reachable bimap both iterations return; the left keys met from
`begin_left()` to `end_left()` increase strictly under the left comparator, the right keys met
from `begin_right()` to `end_right()` increase strictly under the right comparator, and no two
elements have equivalent left keys or equivalent right keys. -/
theorem C4_iteration_strictly_increasing {L R : Type} {cl : L → L → Bool}
    {cr : R → R → Bool} (hcl : StrictWeakOrder cl) (hcr : StrictWeakOrder cr)
    {h : Heap L R} {b : bimap} (hreach : Reachable cl cr h b) :
    ∃ ps qs, left_pairs h b = some ps ∧ right_pairs h b = some qs ∧
      ps.Pairwise (fun p q => cl p.1 q.1 = true) ∧
      qs.Pairwise (fun p q => cr p.2 q.2 = true) ∧
      ps.Pairwise (fun p q => ¬ equivalent cl p.1 q.1) ∧
      qs.Pairwise (fun p q => ¬ equivalent cr p.2 q.2) := by
  obtain ⟨tl, tr, hi⟩ := hreach.inv hcl hcr
  obtain ⟨ps, hps⟩ := hi.left_pairs_some
  obtain ⟨qs, hqs⟩ := hi.right_pairs_some
  have h1 : ps.Pairwise (fun p q => cl p.1 q.1 = true) := by
    rw [hi.left_pairs_eq] at hps
    exact read_all_pairwise cl Prod.fst hps hi.left.sorted
  have h2 : qs.Pairwise (fun p q => cr p.2 q.2 = true) := by
    rw [hi.right_pairs_eq] at hqs
    exact read_all_pairwise cr Prod.snd hqs hi.right.sorted
  refine ⟨ps, qs, hps, hqs, h1, h2, h1.imp ?_, h2.imp ?_⟩
  · intro p q hlt he
    rw [he.1] at hlt; simp at hlt
  · intro p q hlt he
    rw [he.1] at hlt; simp at hlt

/-- Witness of C4 on the bimap `sample`. -/
theorem C4_iteration_strictly_increasing_witness :
    ∃ ps qs, left_pairs sample.1 sample.2 = some ps ∧ right_pairs sample.1 sample.2 = some qs ∧
      ps.Pairwise (fun p q => nat_less p.1 q.1 = true) ∧
      qs.Pairwise (fun p q => nat_less p.2 q.2 = true) ∧
      ps.Pairwise (fun p q => ¬ equivalent nat_less p.1 q.1) ∧
      qs.Pairwise (fun p q => ¬ equivalent nat_less p.2 q.2) :=
  C4_iteration_strictly_increasing nat_less_strict_weak nat_less_strict_weak reachable_sample

/-- C5: on every reachable bimap both iterations return, each visits `size()` positions
without repetition, and the two visit the same elements. -/
theorem C5_size_counts_both_traversals {L R : Type} {cl : L → L → Bool} {cr : R → R → Bool}
    (hcl : StrictWeakOrder cl) (hcr : StrictWeakOrder cr) {h : Heap L R} {b : bimap}
    (hreach : Reachable cl cr h b) :
    ∃ xs ys, left_positions h b = some xs ∧ right_positions h b = some ys ∧
      size b = xs.length ∧ size b = ys.length ∧ xs.Nodup ∧ ys.Nodup ∧
      (∀ a, a ∈ xs ↔ a ∈ ys) ∧ end_left b ∉ xs.map some ∧ end_right b ∉ ys.map some := by
  obtain ⟨tl, tr, hi⟩ := hreach.inv hcl hcr
  refine ⟨tl.toList, tr.toList, hi.left_positions_eq, hi.right_positions_eq, hi.size_eq,
    hi.size_eq.trans hi.length_eq.symm, hi.left.nodup_list, hi.right.nodup_list, hi.same,
    ?_, ?_⟩
  · simpa [end_left] using hi.left.root_not_mem
  · simpa [end_right] using hi.right.root_not_mem

/-- Witness of C5 on the bimap `sample`. -/
theorem C5_size_counts_both_traversals_witness :
    ∃ xs ys, left_positions sample.1 sample.2 = some xs ∧
      right_positions sample.1 sample.2 = some ys ∧
      size sample.2 = xs.length ∧ size sample.2 = ys.length ∧ xs.Nodup ∧ ys.Nodup ∧
      (∀ a, a ∈ xs ↔ a ∈ ys) ∧ end_left sample.2 ∉ xs.map some ∧
      end_right sample.2 ∉ ys.map some :=
  C5_size_counts_both_traversals nat_less_strict_weak nat_less_strict_weak reachable_sample

/-- C6: on a reachable bimap, for every pair `(l, r)` it holds, `find_left(l)` and
`find_right(r)` are the two facets of one element: each is the `flip` of the other,
`find_left(l).get_value()` is `r` and `find_right(r).get_value()` is `l`. -/
theorem C6_flip_is_a_bijection {L R : Type} {cl : L → L → Bool} {cr : R → R → Bool}
    (hcl : StrictWeakOrder cl) (hcr : StrictWeakOrder cr) {h : Heap L R} {b : bimap}
    (hreach : Reachable cl cr h b) {ps : List (L × R)} (hps : left_pairs h b = some ps)
    {p : L × R} (hp : p ∈ ps) :
    ∃ itl itr, find_left cl h b p.1 = some itl ∧ find_right cr h b p.2 = some itr ∧
      flip itl = itr ∧ flip itr = itl ∧ itl ≠ end_left b ∧ itr ≠ end_right b ∧
      deref_left h itl = some p.1 ∧ get_value_left h itl = some p.2 ∧
      deref_right h itr = some p.2 ∧ get_value_right h itr = some p.1 := by
  obtain ⟨tl, tr, hi⟩ := hreach.inv hcl hcr
  obtain ⟨a, ha, hv⟩ := (hi.mem_left_pairs hps p).mp hp
  have hne : some a ≠ some b.root_ := fun e => hi.left.root_not_mem (Option.some.inj e ▸ ha)
  exact ⟨some a, some a, hi.find_left_present hcl ha hv, hi.find_right_present hcr ha hv,
    rfl, rfl, hne, hne, by simp [deref_left, Heap.lkey, hv],
    by simp [get_value_left, Heap.rkey, hv], by simp [deref_right, Heap.rkey, hv],
    by simp [get_value_right, Heap.lkey, hv]⟩

/-- Witness of C6: the pair `(7, 8)` of the bimap `sample`. -/
theorem C6_flip_is_a_bijection_witness :
    (left_pairs sample.1 sample.2 = some [(3, 7), (4, 4), (5, 0), (7, 8), (10, 1)] ∧
      ((7, 8) : Nat × Nat) ∈ [(3, 7), (4, 4), (5, 0), (7, 8), (10, 1)]) ∧
    ∃ itl itr, find_left nat_less sample.1 sample.2 7 = some itl ∧
      find_right nat_less sample.1 sample.2 8 = some itr ∧
      flip itl = itr ∧ flip itr = itl ∧ itl ≠ end_left sample.2 ∧ itr ≠ end_right sample.2 ∧
      deref_left sample.1 itl = some 7 ∧ get_value_left sample.1 itl = some 8 ∧
      deref_right sample.1 itr = some 8 ∧ get_value_right sample.1 itr = some 7 :=
  ⟨⟨by decide, by decide⟩,
    C6_flip_is_a_bijection nat_less_strict_weak nat_less_strict_weak reachable_sample
      (show left_pairs sample.1 sample.2 = some [(3, 7), (4, 4), (5, 0), (7, 8), (10, 1)] by
        decide)
      (show ((7, 8) : Nat × Nat) ∈ [(3, 7), (4, 4), (5, 0), (7, 8), (10, 1)] by decide)⟩

/-- The state after erasing the element at `a`, which holds the pair `p`: `p` is found from
neither side and every other pair from both. -/
theorem Inv.erase_at {L R : Type} {cl : L → L → Bool} {cr : R → R → Bool}
    (hcl : StrictWeakOrder cl) (hcr : StrictWeakOrder cr) {h : Heap L R} {b : bimap}
    {tl tr : Tree} (hi : Inv cl cr h b tl tr) {a : Nat} {p : L × R} (ha : a ∈ tl.toList)
    (hv : h.val a = some p) {ps : List (L × R)} (hps : left_pairs h b = some ps) :
    ∃ h1 b1, erase_left h b (some a) = some (some (lsucc tl.toList b.root_ a), h1, b1) ∧
      find_left cl h1 b1 p.1 = some (end_left b1) ∧
      find_right cr h1 b1 p.2 = some (end_right b1) ∧ size b1 + 1 = size b ∧
      ∀ q ∈ ps, q ≠ p → ∃ itl itr,
        find_left cl h1 b1 q.1 = some itl ∧ itl ≠ end_left b1 ∧
        deref_left h1 itl = some q.1 ∧ get_value_left h1 itl = some q.2 ∧
        find_right cr h1 b1 q.2 = some itr ∧ itr ≠ end_right b1 ∧
        deref_right h1 itr = some q.2 ∧ get_value_right h1 itr = some q.1 := by
  obtain ⟨h1, e, hi1, hval, _⟩ := hi.erase_left_ok ha
  have hndl := hi.left.nodup_list
  have hold : ∀ x, x ∈ (tl.erase a).toList → x ∈ tl.toList ∧ x ≠ a ∧ h1.val x = h.val x := by
    intro x hx
    obtain ⟨h2, h3⟩ := (Tree.mem_erase hndl).mp hx
    exact ⟨h2, h3, by simp [hval, h3]⟩
  have hsz : 0 < b.size_ := by
    rw [hi.size_eq]
    exact List.length_pos_of_mem ha
  refine ⟨h1, _, e, ?_, ?_, ?_, ?_⟩
  · apply hi1.find_left_absent
    intro x hx q hq he
    obtain ⟨h2, h3, h4⟩ := hold x hx
    rw [h4] at hq
    rcases hi.left.comparable h2 ha h3 with hc | hc
    · obtain ⟨k1, k2, e1, e2, e3⟩ := hc
      simp only [Heap.lkey, hq, hv, Option.map_some', Option.some.injEq] at e1 e2
      rw [← e1, ← e2, he.1] at e3; simp at e3
    · obtain ⟨k1, k2, e1, e2, e3⟩ := hc
      simp only [Heap.lkey, hq, hv, Option.map_some', Option.some.injEq] at e1 e2
      rw [← e1, ← e2, he.2] at e3; simp at e3
  · apply hi1.find_right_absent
    intro x hx q hq he
    obtain ⟨h2, h3, h4⟩ := hold x hx
    rw [h4] at hq
    rcases hi.right.comparable ((hi.same x).mp h2) ((hi.same a).mp ha) h3 with hc | hc
    · obtain ⟨k1, k2, e1, e2, e3⟩ := hc
      simp only [Heap.rkey, hq, hv, Option.map_some', Option.some.injEq] at e1 e2
      rw [← e1, ← e2, he.1] at e3; simp at e3
    · obtain ⟨k1, k2, e1, e2, e3⟩ := hc
      simp only [Heap.rkey, hq, hv, Option.map_some', Option.some.injEq] at e1 e2
      rw [← e1, ← e2, he.2] at e3; simp at e3
  · simp only [size]
    omega
  · intro q hq hqp
    obtain ⟨x, hx, hxv⟩ := (hi.mem_left_pairs hps q).mp hq
    have hxa : x ≠ a := by
      rintro rfl
      rw [hv] at hxv
      exact hqp (Option.some.inj hxv).symm
    have hx1 : x ∈ (tl.erase a).toList := (Tree.mem_erase hndl).mpr ⟨hx, hxa⟩
    have hxv1 : h1.val x = some q := by simp [hval, hxa, hxv]
    have hne : some x ≠ some b.root_ :=
      fun e => hi.left.root_not_mem (Option.some.inj e ▸ hx)
    exact ⟨some x, some x, hi1.find_left_present hcl hx1 hxv1, hne,
      by simp [deref_left, Heap.lkey, hxv1], by simp [get_value_left, Heap.rkey, hxv1],
      hi1.find_right_present hcr hx1 hxv1, hne,
      by simp [deref_right, Heap.rkey, hxv1], by simp [get_value_right, Heap.lkey, hxv1]⟩

/-- C7: on a reachable bimap holding the pair `(l, r)`, `erase_left(l)` returns true;
afterwards `find_left(l)` is `end_left()`, `find_right(r)` is `end_right()`, the size is one
less, and every other pair is still found from both sides with the same paired value.
`erase_right(r)` does the same and ends in the same state. -/
theorem C7_erase_by_key_round_trip {L R : Type} {cl : L → L → Bool} {cr : R → R → Bool}
    (hcl : StrictWeakOrder cl) (hcr : StrictWeakOrder cr) {h : Heap L R} {b : bimap}
    (hreach : Reachable cl cr h b) {ps : List (L × R)} (hps : left_pairs h b = some ps)
    {p : L × R} (hp : p ∈ ps) :
    ∃ h1 b1, erase_left_key cl h b p.1 = some (true, h1, b1) ∧
      erase_right_key cr h b p.2 = some (true, h1, b1) ∧
      find_left cl h1 b1 p.1 = some (end_left b1) ∧
      find_right cr h1 b1 p.2 = some (end_right b1) ∧ size b1 + 1 = size b ∧
      ∀ q ∈ ps, q ≠ p → ∃ itl itr,
        find_left cl h1 b1 q.1 = some itl ∧ itl ≠ end_left b1 ∧
        deref_left h1 itl = some q.1 ∧ get_value_left h1 itl = some q.2 ∧
        find_right cr h1 b1 q.2 = some itr ∧ itr ≠ end_right b1 ∧
        deref_right h1 itr = some q.2 ∧ get_value_right h1 itr = some q.1 := by
  obtain ⟨tl, tr, hi⟩ := hreach.inv hcl hcr
  obtain ⟨a, ha, hv⟩ := (hi.mem_left_pairs hps p).mp hp
  obtain ⟨h1, b1, e, r1, r2, r3, r4⟩ := hi.erase_at hcl hcr ha hv hps
  have hne : some a ≠ some b.root_ := fun e => hi.left.root_not_mem (Option.some.inj e ▸ ha)
  refine ⟨h1, b1, ?_, ?_, r1, r2, r3, r4⟩
  · simp [erase_left_key, hi.find_left_present hcl ha hv, end_left, hne, e]
  · simp [erase_right_key, hi.find_right_present hcr ha hv, end_right, hne, erase_right_eq, e]

/-- Witness of C7: the pair `(5, 0)` of the bimap `sample`, whose node has two children in
the left tree. -/
theorem C7_erase_by_key_round_trip_witness :
    (left_pairs sample.1 sample.2 = some [(3, 7), (4, 4), (5, 0), (7, 8), (10, 1)] ∧
      ((5, 0) : Nat × Nat) ∈ [(3, 7), (4, 4), (5, 0), (7, 8), (10, 1)]) ∧
    ∃ h1 b1, erase_left_key nat_less sample.1 sample.2 5 = some (true, h1, b1) ∧
      erase_right_key nat_less sample.1 sample.2 0 = some (true, h1, b1) ∧
      find_left nat_less h1 b1 5 = some (end_left b1) ∧
      find_right nat_less h1 b1 0 = some (end_right b1) ∧ size b1 + 1 = size sample.2 ∧
      ∀ q ∈ [(3, 7), (4, 4), (5, 0), (7, 8), (10, 1)], q ≠ ((5, 0) : Nat × Nat) → ∃ itl itr,
        find_left nat_less h1 b1 q.1 = some itl ∧ itl ≠ end_left b1 ∧
        deref_left h1 itl = some q.1 ∧ get_value_left h1 itl = some q.2 ∧
        find_right nat_less h1 b1 q.2 = some itr ∧ itr ≠ end_right b1 ∧
        deref_right h1 itr = some q.2 ∧ get_value_right h1 itr = some q.1 :=
  ⟨⟨by decide, by decide⟩,
    C7_erase_by_key_round_trip nat_less_strict_weak nat_less_strict_weak reachable_sample
      (show left_pairs sample.1 sample.2 = some [(3, 7), (4, 4), (5, 0), (7, 8), (10, 1)] by
        decide)
      (show ((5, 0) : Nat × Nat) ∈ [(3, 7), (4, 4), (5, 0), (7, 8), (10, 1)] by decide)⟩

/-- C8: on a reachable bimap whose pairs are `ps`, `erase_left(k)` returns true exactly when
some element has a left key equivalent to `k`, and when it returns false heap and bimap are
unchanged, hence the size and the pairs in both orders; the same holds for `erase_right`. -/
theorem C8_erase_by_key_reports_presence {L R : Type} {cl : L → L → Bool}
    {cr : R → R → Bool} (hcl : StrictWeakOrder cl) (hcr : StrictWeakOrder cr)
    {h : Heap L R} {b : bimap} (hreach : Reachable cl cr h b) {ps : List (L × R)}
    (hps : left_pairs h b = some ps) (kl : L) (kr : R) :
    (∃ res h1 b1, erase_left_key cl h b kl = some (res, h1, b1) ∧
        (res = true ↔ ∃ p ∈ ps, equivalent cl p.1 kl) ∧
        (res = false → h1 = h ∧ b1 = b ∧ size b1 = size b ∧
          left_pairs h1 b1 = left_pairs h b ∧ right_pairs h1 b1 = right_pairs h b)) ∧
      (∃ res h1 b1, erase_right_key cr h b kr = some (res, h1, b1) ∧
        (res = true ↔ ∃ p ∈ ps, equivalent cr p.2 kr) ∧
        (res = false → h1 = h ∧ b1 = b ∧ size b1 = size b ∧
          left_pairs h1 b1 = left_pairs h b ∧ right_pairs h1 b1 = right_pairs h b)) := by
  obtain ⟨tl, tr, hi⟩ := hreach.inv hcl hcr
  have hne : ∀ q ∈ tl.toList, some q ≠ some b.root_ := by
    intro q hq e
    exact hi.left.root_not_mem (Option.some.inj e ▸ hq)
  constructor
  · by_cases hex : ∃ p ∈ ps, equivalent cl p.1 kl
    · obtain ⟨p, hp, he⟩ := hex
      obtain ⟨a, ha, hv⟩ := (hi.mem_left_pairs hps p).mp hp
      obtain ⟨q, pq, hq, e1, _, _⟩ := hi.find_left_equiv hcl ha hv he
      obtain ⟨h1, e, _⟩ := hi.erase_left_ok hq
      refine ⟨true, h1, ⟨b.root_, b.size_ - 1⟩, ?_, ?_, ?_⟩
      · simp [erase_left_key, e1, end_left, hne q hq, e]
      · simp only [true_iff]; exact ⟨p, hp, he⟩
      · intro hf; simp at hf
    · refine ⟨false, h, b, ?_, ?_, fun _ => ⟨rfl, rfl, rfl, rfl, rfl⟩⟩
      · have : find_left cl h b kl = some (some b.root_) :=
          hi.find_left_absent kl (fun a ha p hv he =>
            hex ⟨p, (hi.mem_left_pairs hps p).mpr ⟨a, ha, hv⟩, he⟩)
        simp [erase_left_key, this, end_left]
      · simp only [Bool.false_eq_true, false_iff]; exact hex
  · by_cases hex : ∃ p ∈ ps, equivalent cr p.2 kr
    · obtain ⟨p, hp, he⟩ := hex
      obtain ⟨a, ha, hv⟩ := (hi.mem_left_pairs hps p).mp hp
      obtain ⟨q, pq, hq, e1, _, _⟩ := hi.find_right_equiv hcr ha hv he
      obtain ⟨h1, e, _⟩ := hi.erase_left_ok hq
      refine ⟨true, h1, ⟨b.root_, b.size_ - 1⟩, ?_, ?_, ?_⟩
      · simp [erase_right_key, e1, end_right, hne q hq, erase_right_eq, e]
      · simp only [true_iff]; exact ⟨p, hp, he⟩
      · intro hf; simp at hf
    · refine ⟨false, h, b, ?_, ?_, fun _ => ⟨rfl, rfl, rfl, rfl, rfl⟩⟩
      · have : find_right cr h b kr = some (some b.root_) :=
          hi.find_right_absent kr (fun a ha p hv he =>
            hex ⟨p, (hi.mem_left_pairs hps p).mpr ⟨a, ha, hv⟩, he⟩)
        simp [erase_right_key, this, end_right]
      · simp only [Bool.false_eq_true, false_iff]; exact hex

/-- Witness of C8 on the bimap `sample`: the left key `6` and the right key `8`. -/
theorem C8_erase_by_key_reports_presence_witness :
    left_pairs sample.1 sample.2 = some [(3, 7), (4, 4), (5, 0), (7, 8), (10, 1)] ∧
    (∃ res h1 b1, erase_left_key nat_less sample.1 sample.2 6 = some (res, h1, b1) ∧
        (res = true ↔ ∃ p ∈ [(3, 7), (4, 4), (5, 0), (7, 8), (10, 1)],
          equivalent nat_less p.1 6) ∧
        (res = false → h1 = sample.1 ∧ b1 = sample.2 ∧ size b1 = size sample.2 ∧
          left_pairs h1 b1 = left_pairs sample.1 sample.2 ∧
          right_pairs h1 b1 = right_pairs sample.1 sample.2)) ∧
      (∃ res h1 b1, erase_right_key nat_less sample.1 sample.2 8 = some (res, h1, b1) ∧
        (res = true ↔ ∃ p ∈ [(3, 7), (4, 4), (5, 0), (7, 8), (10, 1)],
          equivalent nat_less p.2 8) ∧
        (res = false → h1 = sample.1 ∧ b1 = sample.2 ∧ size b1 = size sample.2 ∧
          left_pairs h1 b1 = left_pairs sample.1 sample.2 ∧
          right_pairs h1 b1 = right_pairs sample.1 sample.2)) :=
  ⟨by decide,
    C8_erase_by_key_reports_presence nat_less_strict_weak nat_less_strict_weak
      reachable_sample
      (show left_pairs sample.1 sample.2 = some [(3, 7), (4, 4), (5, 0), (7, 8), (10, 1)] by
        decide) 6 8⟩

theorem filter_ne_middle {pre post : List Nat} {a : Nat} (hnd : (pre ++ a :: post).Nodup) :
    (pre ++ a :: post).filter (fun y => decide (y ≠ a)) = pre ++ post := by
  have hnd1 := List.nodup_append.mp hnd
  have hnd2 := List.nodup_cons.mp hnd1.2.1
  have hpre : a ∉ pre := fun hp => hnd1.2.2 hp (List.mem_cons_self _ _)
  have hfl : ∀ ys : List Nat, a ∉ ys → ys.filter (fun y => decide (y ≠ a)) = ys := by
    intro ys hz
    apply List.filter_eq_self.mpr
    intro y hy
    simp only [ne_eq, decide_not, Bool.not_eq_eq_eq_not, Bool.not_true, decide_eq_false_iff_not]
    rintro rfl
    exact hz hy
  rw [List.filter_append, List.filter_cons, hfl pre hpre, hfl post hnd2.1]
  simp

/-- C9: on a reachable bimap whose left iteration visits `pre ++ a :: post`, `erase_left` at
the position `a` returns the position after `a` in that order, which is `end_left()` when `a`
is the last one and is what `++it` gave before the call; afterwards the left iteration visits
`pre ++ post` and yields the former pairs without the one of `a`.  Nothing is assumed about the
children of `a`, so the leaf, the one-child and the two-children case are all covered. -/
theorem C9_erase_left_returns_successor {L R : Type} {cl : L → L → Bool} {cr : R → R → Bool}
    (hcl : StrictWeakOrder cl) (hcr : StrictWeakOrder cr) {h : Heap L R} {b : bimap}
    (hreach : Reachable cl cr h b) {pre post : List Nat} {a : Nat}
    (hxs : left_positions h b = some (pre ++ a :: post)) :
    ∃ h1 b1, erase_left h b (some a) = some (some (post.headD b.root_), h1, b1) ∧
      incr_left h (some a) = some (some (post.headD b.root_)) ∧
      (post = [] → some (post.headD b.root_) = end_left b) ∧
      end_left b1 = end_left b ∧ size b1 + 1 = size b ∧
      left_positions h1 b1 = some (pre ++ post) ∧
      ∃ ps1 p ps2, left_pairs h b = some (ps1 ++ p :: ps2) ∧ ps1.length = pre.length ∧
        left_pairs h1 b1 = some (ps1 ++ ps2) := by
  obtain ⟨tl, tr, hi⟩ := hreach.inv hcl hcr
  have htl : tl.toList = pre ++ a :: post := by
    have := hi.left_positions_eq
    rw [hxs] at this
    exact (Option.some.inj this).symm
  have ha : a ∈ tl.toList := by rw [htl]; simp
  have hnd := hi.left.nodup_list
  rw [htl] at hnd
  have hnd1 := List.nodup_append.mp hnd
  have hpre : a ∉ pre := fun hp => hnd1.2.2 hp (List.mem_cons_self _ _)
  have hpost : a ∉ post := (List.nodup_cons.mp hnd1.2.1).1
  have hs : lsucc tl.toList b.root_ a = post.headD b.root_ := by
    rw [htl, lsucc_append_right _ _ _ hpre]
    simp [lsucc]
  obtain ⟨h1, e, hi1, hval, _⟩ := hi.erase_left_ok ha
  rw [hs] at e
  have hfl := hi.fuel_left
  have hsz : 0 < b.size_ := by
    rw [hi.size_eq]
    exact List.length_pos_of_mem ha
  have hpos : (tl.erase a).toList = pre ++ post := by
    rw [Tree.erase_toList _ hi.left.nodup_list, htl]
    exact filter_ne_middle hnd
  refine ⟨h1, _, e, ?_, ?_, rfl, ?_, ?_, ?_⟩
  · simp only [incr_left, Option.bind, Heap.fuel]
    rw [hi.left.next_eq ha (by omega), hs]
  · rintro rfl; rfl
  · simp only [size]; omega
  · rw [hi1.left_positions_eq, hpos]
  · obtain ⟨ps, hps⟩ := hi.left_pairs_some
    rw [hi.left_pairs_eq, htl] at hps
    obtain ⟨ps1, rest, e1, e2, rfl⟩ := read_all_append hps
    obtain ⟨p, ps2, _, e4, rfl⟩ := (read_all_cons h a post rest).mp e2
    refine ⟨ps1, p, ps2, ?_, read_all_length e1, ?_⟩
    · rw [hi.left_pairs_eq, htl]; exact hps
    · rw [hi1.left_pairs_eq, hpos]
      apply read_all_append_some
      · have hc : read_all h1 pre = read_all h pre := read_all_congr (fun x hx => by
          have : x ≠ a := fun e => hpre (e ▸ hx)
          simp [hval, this])
        rw [hc]; exact e1
      · have hc : read_all h1 post = read_all h post := read_all_congr (fun x hx => by
          have : x ≠ a := fun e => hpost (e ▸ hx)
          simp [hval, this])
        rw [hc]; exact e4

/-- Witness of C9: the position `1` of the bimap `sample` holds `(5, 0)`; its node has two
children in the left tree. -/
theorem C9_erase_left_returns_successor_witness :
    (left_positions sample.1 sample.2 = some ([3, 4] ++ 1 :: [5, 2]) ∧
      sample.1.lnode 1 = ⟨some 0, some 3, some 2⟩) ∧
    ∃ h1 b1, erase_left sample.1 sample.2 (some 1) =
        some (some (([5, 2] : List Nat).headD sample.2.root_), h1, b1) ∧
      incr_left sample.1 (some 1) = some (some (([5, 2] : List Nat).headD sample.2.root_)) ∧
      (([5, 2] : List Nat) = [] →
        some (([5, 2] : List Nat).headD sample.2.root_) = end_left sample.2) ∧
      end_left b1 = end_left sample.2 ∧ size b1 + 1 = size sample.2 ∧
      left_positions h1 b1 = some ([3, 4] ++ [5, 2]) ∧
      ∃ ps1 p ps2, left_pairs sample.1 sample.2 = some (ps1 ++ p :: ps2) ∧
        ps1.length = ([3, 4] : List Nat).length ∧ left_pairs h1 b1 = some (ps1 ++ ps2) :=
  ⟨⟨by decide, by decide⟩,
    C9_erase_left_returns_successor nat_less_strict_weak nat_less_strict_weak
      reachable_sample
      (show left_positions sample.1 sample.2 = some ([3, 4] ++ 1 :: [5, 2]) by decide)⟩

/-- C10: the code at a failing input.  In the bimap after `insert(1, 20); insert(2, 10)` the
element with the greatest right key is at position `1`; `++it` in the right index gives
`end_right()`, but `erase_right` returns position `2`, the successor in left order, whose right
key is `10`. -/
theorem C10_erase_right_returns_left_successor :
    Reachable nat_less nat_less sample2.1 sample2.2 ∧
      right_pairs sample2.1 sample2.2 = some [(2, 10), (1, 20)] ∧
      find_right nat_less sample2.1 sample2.2 20 = some (some 1) ∧
      incr_right sample2.1 (some 1) = some (end_right sample2.2) ∧
      (erase_right sample2.1 sample2.2 (some 1)).map (fun res => res.1) = some (some 2) ∧
      some 2 ≠ end_right sample2.2 ∧
      deref_right sample2.1 (some 2) = some 10 ∧
      incr_left sample2.1 (some 1) = some (some 2) :=
  ⟨reachable_sample2, by decide, by decide, by decide, by decide, by decide, by decide,
    by decide⟩

/-! ## Lookups that may throw -/

theorem equivalent_symm {K : Type} {lt : K → K → Bool} {a b : K} (h : equivalent lt a b) :
    equivalent lt b a := ⟨h.2, h.1⟩

theorem Inv.equiv_unique_left {L R : Type} {cl : L → L → Bool} {cr : R → R → Bool}
    (hcl : StrictWeakOrder cl) {h : Heap L R} {b : bimap} {tl tr : Tree}
    (hi : Inv cl cr h b tl tr) {x y : Nat} {p q : L × R} {k : L} (hx : x ∈ tl.toList)
    (hy : y ∈ tl.toList) (hp : h.val x = some p) (hq : h.val y = some q)
    (e1 : equivalent cl p.1 k) (e2 : equivalent cl q.1 k) : x = y := by
  by_contra hne
  have he := hcl.equiv_trans _ _ _ e1 (equivalent_symm e2)
  rcases hi.left.comparable hx hy hne with hc | hc
  · obtain ⟨k1, k2, f1, f2, f3⟩ := hc
    simp only [Heap.lkey, hp, hq, Option.map_some', Option.some.injEq] at f1 f2
    rw [← f1, ← f2, he.1] at f3; simp at f3
  · obtain ⟨k1, k2, f1, f2, f3⟩ := hc
    simp only [Heap.lkey, hp, hq, Option.map_some', Option.some.injEq] at f1 f2
    rw [← f1, ← f2, he.2] at f3; simp at f3

theorem Inv.equiv_unique_right {L R : Type} {cl : L → L → Bool} {cr : R → R → Bool}
    (hcr : StrictWeakOrder cr) {h : Heap L R} {b : bimap} {tl tr : Tree}
    (hi : Inv cl cr h b tl tr) {x y : Nat} {p q : L × R} {k : R} (hx : x ∈ tl.toList)
    (hy : y ∈ tl.toList) (hp : h.val x = some p) (hq : h.val y = some q)
    (e1 : equivalent cr p.2 k) (e2 : equivalent cr q.2 k) : x = y := by
  by_contra hne
  have he := hcr.equiv_trans _ _ _ e1 (equivalent_symm e2)
  rcases hi.right.comparable ((hi.same x).mp hx) ((hi.same y).mp hy) hne with hc | hc
  · obtain ⟨k1, k2, f1, f2, f3⟩ := hc
    simp only [Heap.rkey, hp, hq, Option.map_some', Option.some.injEq] at f1 f2
    rw [← f1, ← f2, he.1] at f3; simp at f3
  · obtain ⟨k1, k2, f1, f2, f3⟩ := hc
    simp only [Heap.rkey, hp, hq, Option.map_some', Option.some.injEq] at f1 f2
    rw [← f1, ← f2, he.2] at f3; simp at f3

/-- C12: on a reachable bimap whose pairs are `ps`, `at_left(k)` throws `std::out_of_range`
exactly when no element has a left key equivalent to `k`, and otherwise returns the right value
of the element with such a key; the same holds for `at_right`.  Both are `const` members: the
model gives them no way to write, so heap and bimap are the same afterwards. -/
theorem C12_at_throws_iff_absent {L R : Type} {cl : L → L → Bool} {cr : R → R → Bool}
    (hcl : StrictWeakOrder cl) (hcr : StrictWeakOrder cr) {h : Heap L R} {b : bimap}
    (hreach : Reachable cl cr h b) {ps : List (L × R)} (hps : left_pairs h b = some ps)
    (kl : L) (kr : R) :
    (∃ res, at_left cl h b kl = some res ∧
        (res = .error .invalid_key ↔ ∀ p ∈ ps, ¬ equivalent cl p.1 kl) ∧
        (∀ p ∈ ps, equivalent cl p.1 kl → res = .ok p.2)) ∧
      (∃ res, at_right cr h b kr = some res ∧
        (res = .error .invalid_key ↔ ∀ p ∈ ps, ¬ equivalent cr p.2 kr) ∧
        (∀ p ∈ ps, equivalent cr p.2 kr → res = .ok p.1)) := by
  obtain ⟨tl, tr, hi⟩ := hreach.inv hcl hcr
  have hne : ∀ q ∈ tl.toList, some q ≠ some b.root_ := by
    intro q hq e
    exact hi.left.root_not_mem (Option.some.inj e ▸ hq)
  constructor
  · by_cases hex : ∃ p ∈ ps, equivalent cl p.1 kl
    · obtain ⟨p, hp, he⟩ := hex
      obtain ⟨a, ha, hv⟩ := (hi.mem_left_pairs hps p).mp hp
      obtain ⟨q, pq, hq, e1, e2, e3⟩ := hi.find_left_equiv hcl ha hv he
      refine ⟨.ok pq.2, ?_, ?_, ?_⟩
      · simp [at_left, e1, end_left, hne q hq, get_value_left, Heap.rkey, e2]
      · constructor
        · intro hc; cases hc
        · intro hall; exact absurd he (hall p hp)
      · intro p1 hp1 he1
        obtain ⟨a1, ha1, hv1⟩ := (hi.mem_left_pairs hps p1).mp hp1
        have := hi.equiv_unique_left hcl ha1 hq hv1 e2 he1 e3
        subst this
        rw [hv1] at e2
        cases e2; rfl
    · refine ⟨.error .invalid_key, ?_, ?_, ?_⟩
      · have : find_left cl h b kl = some (some b.root_) :=
          hi.find_left_absent kl (fun a ha p hv he =>
            hex ⟨p, (hi.mem_left_pairs hps p).mpr ⟨a, ha, hv⟩, he⟩)
        simp [at_left, this, end_left]
      · simp only [true_iff]
        exact fun p hp he => hex ⟨p, hp, he⟩
      · exact fun p hp he => absurd ⟨p, hp, he⟩ hex
  · by_cases hex : ∃ p ∈ ps, equivalent cr p.2 kr
    · obtain ⟨p, hp, he⟩ := hex
      obtain ⟨a, ha, hv⟩ := (hi.mem_left_pairs hps p).mp hp
      obtain ⟨q, pq, hq, e1, e2, e3⟩ := hi.find_right_equiv hcr ha hv he
      refine ⟨.ok pq.1, ?_, ?_, ?_⟩
      · simp [at_right, e1, end_right, hne q hq, get_value_right, Heap.lkey, e2]
      · constructor
        · intro hc; cases hc
        · intro hall; exact absurd he (hall p hp)
      · intro p1 hp1 he1
        obtain ⟨a1, ha1, hv1⟩ := (hi.mem_left_pairs hps p1).mp hp1
        have := hi.equiv_unique_right hcr ha1 hq hv1 e2 he1 e3
        subst this
        rw [hv1] at e2
        cases e2; rfl
    · refine ⟨.error .invalid_key, ?_, ?_, ?_⟩
      · have : find_right cr h b kr = some (some b.root_) :=
          hi.find_right_absent kr (fun a ha p hv he =>
            hex ⟨p, (hi.mem_left_pairs hps p).mpr ⟨a, ha, hv⟩, he⟩)
        simp [at_right, this, end_right]
      · simp only [true_iff]
        exact fun p hp he => hex ⟨p, hp, he⟩
      · exact fun p hp he => absurd ⟨p, hp, he⟩ hex

/-- Witness of C12 on the bimap `sample`: `at_left(7)` returns and `at_right(9)` throws. -/
theorem C12_at_throws_iff_absent_witness :
    left_pairs sample.1 sample.2 = some [(3, 7), (4, 4), (5, 0), (7, 8), (10, 1)] ∧
      at_left nat_less sample.1 sample.2 7 = some (.ok 8) ∧
      at_right nat_less sample.1 sample.2 9 = some (.error .invalid_key) ∧
      (∃ res, at_left nat_less sample.1 sample.2 7 = some res ∧
        (res = .error .invalid_key ↔
          ∀ p ∈ [(3, 7), (4, 4), (5, 0), (7, 8), (10, 1)], ¬ equivalent nat_less p.1 7) ∧
        (∀ p ∈ [(3, 7), (4, 4), (5, 0), (7, 8), (10, 1)],
          equivalent nat_less p.1 7 → res = .ok p.2)) ∧
      (∃ res, at_right nat_less sample.1 sample.2 9 = some res ∧
        (res = .error .invalid_key ↔
          ∀ p ∈ [(3, 7), (4, 4), (5, 0), (7, 8), (10, 1)], ¬ equivalent nat_less p.2 9) ∧
        (∀ p ∈ [(3, 7), (4, 4), (5, 0), (7, 8), (10, 1)],
          equivalent nat_less p.2 9 → res = .ok p.1)) :=
  ⟨by decide, by rfl, by rfl,
    C12_at_throws_iff_absent nat_less_strict_weak nat_less_strict_weak reachable_sample
      (show left_pairs sample.1 sample.2 = some [(3, 7), (4, 4), (5, 0), (7, 8), (10, 1)] by
        decide) 7 9⟩

/-! ## Lower and upper bounds -/

theorem lsucc_self_append {l1 : List Nat} (l2 : List Nat) (d p : Nat) (hp : p ∉ l1) :
    lsucc (l1 ++ p :: l2) d p = l2.headD d := by
  rw [lsucc_append_right _ _ _ hp]
  simp [lsucc]

theorem lsucc_append_cons_right {l1 l2 : List Nat} (d p x : Nat) (hx : x ∉ l1) (hxp : x ≠ p) :
    lsucc (l1 ++ p :: l2) d x = lsucc l2 d x := by
  rw [lsucc_append_right _ _ _ hx]
  simp [lsucc, Ne.symm hxp]

/-- What `lower_bound` returns once `find_impl` has stopped inside a non-empty tree. -/
theorem Tree.locate_lb {c : Nat → Int} (hv : ∀ x, c x = 1 ∨ c x = 0 ∨ c x = -1) (t : Tree) :
    ∀ par d, t ≠ .nil → t.toList.Nodup →
      (if c (t.locate c par) = -1 then lsucc t.toList d (t.locate c par)
        else t.locate c par) = t.lb c d := by
  induction t with
  | nil => intro par d hne; exact absurd rfl hne
  | node l p r ihl ihr =>
    intro par d _ hnd
    simp only [Tree.toList] at hnd
    have hnd1 := List.nodup_append.mp hnd
    have hndr := (List.nodup_cons.mp hnd1.2.1)
    have hpl : p ∉ l.toList := fun hp => hnd1.2.2 hp (List.mem_cons_self _ _)
    have hdisj : ∀ y ∈ l.toList, y ∉ r.toList := fun y hy hy2 =>
      hnd1.2.2 hy (List.mem_cons_of_mem _ hy2)
    simp only [Tree.locate, Tree.lb, Tree.toList]
    by_cases hc1 : c p = 1
    · simp only [hc1, if_true]
      by_cases hl : l = .nil
      · subst hl
        simp [Tree.locate, Tree.lb, hc1]
      · have hq := Tree.locate_mem_of_root c p hl
        rw [← ihl p p hl hnd1.1, lsucc_append_left _ _ _ hq]
        rfl
    · simp only [hc1, if_false]
      by_cases hc0 : c p = 0
      · simp [hc0]
      · simp only [hc0, if_false]
        have hcm : c p = -1 := by
          rcases hv p with h | h | h
          · exact absurd h hc1
          · exact absurd h hc0
          · exact h
        by_cases hr : r = .nil
        · subst hr
          simp only [Tree.locate, Tree.lb, hcm, if_true, Tree.toList]
          rw [lsucc_self_append _ _ _ hpl]
          rfl
        · have hq := Tree.locate_mem_of_root c p hr
          rw [← ihr p d hr hndr.2,
            lsucc_append_cons_right d p _ (fun e => hdisj _ e hq) (fun e => hndr.1 (e ▸ hq))]

/-- What `upper_bound` returns once `find_impl` has stopped inside a non-empty tree. -/
theorem Tree.locate_ub {c : Nat → Int} (hv : ∀ x, c x = 1 ∨ c x = 0 ∨ c x = -1) (t : Tree) :
    ∀ par d, t ≠ .nil → t.toList.Nodup →
      (if c (t.locate c par) ≤ 0 then lsucc t.toList d (t.locate c par)
        else t.locate c par) = t.ub c d := by
  induction t with
  | nil => intro par d hne; exact absurd rfl hne
  | node l p r ihl ihr =>
    intro par d _ hnd
    simp only [Tree.toList] at hnd
    have hnd1 := List.nodup_append.mp hnd
    have hndr := (List.nodup_cons.mp hnd1.2.1)
    have hpl : p ∉ l.toList := fun hp => hnd1.2.2 hp (List.mem_cons_self _ _)
    have hdisj : ∀ y ∈ l.toList, y ∉ r.toList := fun y hy hy2 =>
      hnd1.2.2 hy (List.mem_cons_of_mem _ hy2)
    simp only [Tree.locate, Tree.ub, Tree.toList]
    by_cases hc1 : c p = 1
    · simp only [hc1, if_true]
      by_cases hl : l = .nil
      · subst hl
        simp [Tree.locate, Tree.ub, hc1]
      · have hq := Tree.locate_mem_of_root c p hl
        rw [← ihl p p hl hnd1.1, lsucc_append_left _ _ _ hq]
        rfl
    · simp only [hc1, if_false]
      by_cases hc0 : c p = 0
      · simp only [hc0, if_true, le_refl]
        rw [lsucc_self_append _ _ _ hpl, Tree.first_eq]
      · simp only [hc0, if_false]
        have hcm : c p = -1 := by
          rcases hv p with h | h | h
          · exact absurd h hc1
          · exact absurd h hc0
          · exact h
        by_cases hr : r = .nil
        · subst hr
          simp only [Tree.locate, Tree.ub, hcm, Tree.toList]
          rw [lsucc_self_append _ _ _ hpl]
          rfl
        · have hq := Tree.locate_mem_of_root c p hr
          rw [← ihr p d hr hndr.2,
            lsucc_append_cons_right d p _ (fun e => hdisj _ e hq) (fun e => hndr.1 (e ▸ hq))]

section bound_keys

variable {K : Type} {lt : K → K → Bool}

theorem cmp_keys_eq_neg_one {a b : K} : cmp_keys lt a b = -1 ↔ lt a b = true := by
  unfold cmp_keys
  cases lt a b <;> cases lt b a <;> simp

theorem cmp_keys_values (lt : K → K → Bool) (a b : K) :
    cmp_keys lt a b = 1 ∨ cmp_keys lt a b = 0 ∨ cmp_keys lt a b = -1 := by
  unfold cmp_keys
  cases lt a b <;> cases lt b a <;> simp

/-- Along increasing keys the three-way comparison with a fixed key does not decrease, and
takes the value `0` at most once. -/
theorem Reads.monotone (hlt : StrictWeakOrder lt) {key : Nat → Option K} {k : K}
    {c : Nat → Int} {xs : List Nat} (hr : Reads lt key k c xs) {x y : Nat} (hx : x ∈ xs)
    (hy : y ∈ xs) (hxy : key_lt lt key x y) :
    (c x = 1 → c y = 1) ∧ (c y = -1 → c x = -1) ∧ (c y = 0 → c x = -1) ∧
      (c x = 0 → c y = 1) := by
  obtain ⟨kx, hkx, hcx⟩ := hr x hx
  obtain ⟨ky, hky, hcy⟩ := hr y hy
  obtain ⟨k1, k2, e1, e2, e3⟩ := hxy
  rw [hkx] at e1; rw [hky] at e2
  cases e1; cases e2
  rw [hcx, hcy]
  refine ⟨?_, ?_, ?_, ?_⟩
  · intro h1
    obtain ⟨h2, h3⟩ := cmp_keys_eq_one.mp h1
    refine cmp_keys_eq_one.mpr ⟨?_, hlt.trans _ _ _ h3 e3⟩
    by_contra hn
    simp only [Bool.not_eq_false] at hn
    rw [hlt.trans _ _ _ e3 hn] at h2
    simp at h2
  · intro h1
    exact cmp_keys_eq_neg_one.mpr (hlt.trans _ _ _ e3 (cmp_keys_eq_neg_one.mp h1))
  · intro h1
    have he := cmp_keys_eq_zero.mp h1
    apply cmp_keys_eq_neg_one.mpr
    by_contra hn
    simp only [Bool.not_eq_true] at hn
    cases hk : lt k kx with
    | true =>
      have := hlt.trans _ _ _ hk e3
      rw [he.2] at this; simp at this
    | false =>
      have h4 := hlt.equiv_trans kx k ky ⟨hn, hk⟩ (equivalent_symm he)
      rw [h4.1] at e3; simp at e3
  · intro h1
    have he := cmp_keys_eq_zero.mp h1
    have h2 : lt ky k = false := by
      by_contra hn
      simp only [Bool.not_eq_false] at hn
      have := hlt.trans _ _ _ e3 hn
      rw [he.1] at this; simp at this
    refine cmp_keys_eq_one.mpr ⟨h2, ?_⟩
    by_contra hn
    simp only [Bool.not_eq_true] at hn
    have h4 := hlt.equiv_trans kx k ky he ⟨hn, h2⟩
    rw [h4.1] at e3; simp at e3

end bound_keys

section bound_split

variable {K : Type} {lt : K → K → Bool}

theorem Tree.lb_split (hlt : StrictWeakOrder lt) {key : Nat → Option K} {k : K}
    {c : Nat → Int} (t : Tree) :
    ∀ d, t.toList.Pairwise (key_lt lt key) → Reads lt key k c t.toList →
      ∃ pre post, t.toList = pre ++ post ∧ t.lb c d = post.headD d ∧
        (∀ x ∈ pre, c x = -1) ∧ (∀ x ∈ post, c x ≠ -1) := by
  induction t with
  | nil => intro d _ _; exact ⟨[], [], rfl, rfl, by simp, by simp⟩
  | node l p r ihl ihr =>
    intro d hs hrd
    simp only [Tree.toList] at hs hrd
    obtain ⟨hs1, hs2, hs3⟩ := List.pairwise_append.mp hs
    obtain ⟨hs4, hs5⟩ := List.pairwise_cons.mp hs2
    have hpm : p ∈ l.toList ++ p :: r.toList := by simp
    have hlm : ∀ x ∈ l.toList, x ∈ l.toList ++ p :: r.toList := fun x hx => by simp [hx]
    have hrm : ∀ x ∈ r.toList, x ∈ l.toList ++ p :: r.toList := fun x hx => by simp [hx]
    obtain ⟨kp, _, hcp⟩ := hrd p hpm
    have hvp := cmp_keys_values lt kp k
    rw [← hcp] at hvp
    simp only [Tree.lb, Tree.toList]
    by_cases hc1 : c p = 1
    · simp only [hc1, if_true]
      obtain ⟨pre, post, e1, e2, e3, e4⟩ := ihl p hs1 (hrd.mono hlm)
      refine ⟨pre, post ++ p :: r.toList, by simp [e1], ?_, e3, ?_⟩
      · rw [e2]; cases post <;> simp
      · intro x hx
        rcases List.mem_append.mp hx with h | h
        · exact e4 x h
        · rcases List.mem_cons.mp h with h | h
          · rw [h, hc1]; decide
          · rw [(hrd.monotone hlt hpm (hrm x h) (hs4 x h)).1 hc1]; decide
    · simp only [hc1, if_false]
      by_cases hc0 : c p = 0
      · simp only [hc0, if_true]
        refine ⟨l.toList, p :: r.toList, rfl, rfl, ?_, ?_⟩
        · intro x hx
          exact (hrd.monotone hlt (hlm x hx) hpm (hs3 x hx p (by simp))).2.2.1 hc0
        · intro x hx
          rcases List.mem_cons.mp hx with h | h
          · rw [h, hc0]; decide
          · rw [(hrd.monotone hlt hpm (hrm x h) (hs4 x h)).2.2.2 hc0]; decide
      · simp only [hc0, if_false]
        have hcm : c p = -1 := by
          rcases hvp with h | h | h
          · exact absurd h hc1
          · exact absurd h hc0
          · exact h
        obtain ⟨pre, post, e1, e2, e3, e4⟩ := ihr d hs5 (hrd.mono hrm)
        refine ⟨l.toList ++ p :: pre, post, by simp [e1], e2, ?_, e4⟩
        intro x hx
        rcases List.mem_append.mp hx with h | h
        · exact (hrd.monotone hlt (hlm x h) hpm (hs3 x h p (by simp))).2.1 hcm
        · rcases List.mem_cons.mp h with h | h
          · rw [h, hcm]
          · exact e3 x h

theorem Tree.ub_split (hlt : StrictWeakOrder lt) {key : Nat → Option K} {k : K}
    {c : Nat → Int} (t : Tree) :
    ∀ d, t.toList.Pairwise (key_lt lt key) → Reads lt key k c t.toList →
      ∃ pre post, t.toList = pre ++ post ∧ t.ub c d = post.headD d ∧
        (∀ x ∈ pre, c x ≠ 1) ∧ (∀ x ∈ post, c x = 1) := by
  induction t with
  | nil => intro d _ _; exact ⟨[], [], rfl, rfl, by simp, by simp⟩
  | node l p r ihl ihr =>
    intro d hs hrd
    simp only [Tree.toList] at hs hrd
    obtain ⟨hs1, hs2, hs3⟩ := List.pairwise_append.mp hs
    obtain ⟨hs4, hs5⟩ := List.pairwise_cons.mp hs2
    have hpm : p ∈ l.toList ++ p :: r.toList := by simp
    have hlm : ∀ x ∈ l.toList, x ∈ l.toList ++ p :: r.toList := fun x hx => by simp [hx]
    have hrm : ∀ x ∈ r.toList, x ∈ l.toList ++ p :: r.toList := fun x hx => by simp [hx]
    obtain ⟨kp, _, hcp⟩ := hrd p hpm
    have hvp := cmp_keys_values lt kp k
    rw [← hcp] at hvp
    simp only [Tree.ub, Tree.toList]
    by_cases hc1 : c p = 1
    · simp only [hc1, if_true]
      obtain ⟨pre, post, e1, e2, e3, e4⟩ := ihl p hs1 (hrd.mono hlm)
      refine ⟨pre, post ++ p :: r.toList, by simp [e1], ?_, e3, ?_⟩
      · rw [e2]; cases post <;> simp
      · intro x hx
        rcases List.mem_append.mp hx with h | h
        · exact e4 x h
        · rcases List.mem_cons.mp h with h | h
          · rw [h, hc1]
          · exact (hrd.monotone hlt hpm (hrm x h) (hs4 x h)).1 hc1
    · simp only [hc1, if_false]
      by_cases hc0 : c p = 0
      · simp only [hc0, if_true]
        refine ⟨l.toList ++ [p], r.toList, by simp, Tree.first_eq r d, ?_, ?_⟩
        · intro x hx
          rcases List.mem_append.mp hx with h | h
          · rw [(hrd.monotone hlt (hlm x h) hpm (hs3 x h p (by simp))).2.2.1 hc0]; decide
          · simp only [List.mem_singleton] at h
            rw [h, hc0]; decide
        · intro x hx
          exact (hrd.monotone hlt hpm (hrm x hx) (hs4 x hx)).2.2.2 hc0
      · simp only [hc0, if_false]
        have hcm : c p = -1 := by
          rcases hvp with h | h | h
          · exact absurd h hc1
          · exact absurd h hc0
          · exact h
        obtain ⟨pre, post, e1, e2, e3, e4⟩ := ihr d hs5 (hrd.mono hrm)
        refine ⟨l.toList ++ p :: pre, post, by simp [e1], e2, ?_, e4⟩
        intro x hx
        rcases List.mem_append.mp hx with h | h
        · rw [(hrd.monotone hlt (hlm x h) hpm (hs3 x h p (by simp))).2.1 hcm]; decide
        · rcases List.mem_cons.mp h with h | h
          · rw [h, hcm]; decide
          · exact e3 x h

variable {key : Nat → Option K} {root_ : Nat} {m : Mem} {t : Tree}

theorem cmpf_values (k : K) (x : Nat) :
    cmpf lt key root_ k x = 1 ∨ cmpf lt key root_ k x = 0 ∨ cmpf lt key root_ k x = -1 := by
  unfold cmpf cmp
  by_cases hx : x = root_
  · simp [hx]
  · cases hk : key x with
    | none => simp [hx]
    | some kx => simpa [hx] using cmp_keys_values lt kx k

theorem IsIndex.lower_bound_eq (hi : IsIndex lt key root_ m t) (k : K) {f : Nat}
    (hf : t.toList.length + 1 ≤ f) :
    lower_bound lt key root_ f m k = some (some (t.lb (cmpf lt key root_ k) root_)) := by
  simp only [lower_bound, hi.find_impl_eq k hf, hi.cmp_eq k (Tree.locate_mem _ t root_)]
  by_cases hne : t = .nil
  · subst hne
    simp [Tree.locate, Tree.lb, cmpf_root]
  · have hq := Tree.locate_mem_of_root (cmpf lt key root_ k) root_ hne
    have hA := Tree.locate_lb (c := cmpf lt key root_ k) (cmpf_values k) t root_ root_ hne
      hi.nodup_list
    rw [← hA]
    split_ifs with hc
    · exact hi.next_eq hq (by omega)
    · rfl

theorem IsIndex.upper_bound_eq (hi : IsIndex lt key root_ m t) (k : K) {f : Nat}
    (hf : t.toList.length + 1 ≤ f) :
    upper_bound lt key root_ f m k = some (some (t.ub (cmpf lt key root_ k) root_)) := by
  simp only [upper_bound, hi.find_impl_eq k hf, hi.cmp_eq k (Tree.locate_mem _ t root_)]
  by_cases hne : t = .nil
  · subst hne
    simp [Tree.locate, Tree.ub, cmpf_root]
  · have hq := Tree.locate_mem_of_root (cmpf lt key root_ k) root_ hne
    have hA := Tree.locate_ub (c := cmpf lt key root_ k) (cmpf_values k) t root_ root_ hne
      hi.nodup_list
    rw [← hA]
    split_ifs with hc
    · exact hi.next_eq hq (by omega)
    · rfl

/-- The bounds of one index, read on its sequence of positions. -/
theorem IsIndex.bounds_spec (hlt : StrictWeakOrder lt) (hi : IsIndex lt key root_ m t)
    (k : K) {f : Nat} (hf : t.toList.length + 1 ≤ f) :
    (∃ pre post, t.toList = pre ++ post ∧
        lower_bound lt key root_ f m k = some (some (post.headD root_)) ∧
        (∀ x ∈ pre, ∃ kx, key x = some kx ∧ lt kx k = true) ∧
        (∀ x ∈ post, ∃ kx, key x = some kx ∧ lt kx k = false)) ∧
      (∃ pre post, t.toList = pre ++ post ∧
        upper_bound lt key root_ f m k = some (some (post.headD root_)) ∧
        (∀ x ∈ pre, ∃ kx, key x = some kx ∧ lt k kx = false) ∧
        (∀ x ∈ post, ∃ kx, key x = some kx ∧ lt k kx = true)) := by
  have hrd := hi.reads k
  constructor
  · obtain ⟨pre, post, e1, e2, e3, e4⟩ := Tree.lb_split hlt t root_ hi.sorted hrd
    refine ⟨pre, post, e1, by rw [hi.lower_bound_eq k hf, e2], ?_, ?_⟩
    · intro x hx
      obtain ⟨kx, hkx, hcx⟩ := hrd x (by rw [e1]; simp [hx])
      exact ⟨kx, hkx, cmp_keys_eq_neg_one.mp (hcx ▸ e3 x hx)⟩
    · intro x hx
      obtain ⟨kx, hkx, hcx⟩ := hrd x (by rw [e1]; simp [hx])
      refine ⟨kx, hkx, ?_⟩
      have := e4 x hx
      rw [hcx] at this
      cases hl : lt kx k with
      | false => rfl
      | true => exact absurd (cmp_keys_eq_neg_one.mpr hl) this
  · obtain ⟨pre, post, e1, e2, e3, e4⟩ := Tree.ub_split hlt t root_ hi.sorted hrd
    refine ⟨pre, post, e1, by rw [hi.upper_bound_eq k hf, e2], ?_, ?_⟩
    · intro x hx
      obtain ⟨kx, hkx, hcx⟩ := hrd x (by rw [e1]; simp [hx])
      refine ⟨kx, hkx, ?_⟩
      have := e3 x hx
      rw [hcx] at this
      cases hl : lt k kx with
      | false => rfl
      | true =>
        exfalso
        apply this
        refine cmp_keys_eq_one.mpr ⟨?_, hl⟩
        cases h2 : lt kx k with
        | false => rfl
        | true =>
          have := hlt.trans _ _ _ hl h2
          rw [hlt.irrefl] at this; simp at this
    · intro x hx
      obtain ⟨kx, hkx, hcx⟩ := hrd x (by rw [e1]; simp [hx])
      exact ⟨kx, hkx, (cmp_keys_eq_one.mp (hcx ▸ e4 x hx)).2⟩

end bound_split

/-- C13: on a reachable bimap the left iteration splits as `pre ++ post` so that
`lower_bound_left(k)` is the first position of `post` (`end_left()`, the address of the
sentinel, when `post` is empty), every key in `pre` is less than `k` and no key in `post` is;
`upper_bound_left(k)` is the first position of a split where no key of `pre` is greater than `k`
and every key of `post` is.  The same holds for the right side.  On the empty bimap both
parts are empty and the bounds are the end positions. -/
theorem C13_lower_and_upper_bound {L R : Type} {cl : L → L → Bool} {cr : R → R → Bool}
    (hcl : StrictWeakOrder cl) (hcr : StrictWeakOrder cr) {h : Heap L R} {b : bimap}
    (hreach : Reachable cl cr h b) (kl : L) (kr : R) :
    (∃ pre post, left_positions h b = some (pre ++ post) ∧
        lower_bound_left cl h b kl = some (some (post.headD b.root_)) ∧
        (∀ x ∈ pre, ∃ kx, deref_left h (some x) = some kx ∧ cl kx kl = true) ∧
        (∀ x ∈ post, ∃ kx, deref_left h (some x) = some kx ∧ cl kx kl = false)) ∧
      (∃ pre post, left_positions h b = some (pre ++ post) ∧
        upper_bound_left cl h b kl = some (some (post.headD b.root_)) ∧
        (∀ x ∈ pre, ∃ kx, deref_left h (some x) = some kx ∧ cl kl kx = false) ∧
        (∀ x ∈ post, ∃ kx, deref_left h (some x) = some kx ∧ cl kl kx = true)) ∧
      (∃ pre post, right_positions h b = some (pre ++ post) ∧
        lower_bound_right cr h b kr = some (some (post.headD b.root_)) ∧
        (∀ x ∈ pre, ∃ kx, deref_right h (some x) = some kx ∧ cr kx kr = true) ∧
        (∀ x ∈ post, ∃ kx, deref_right h (some x) = some kx ∧ cr kx kr = false)) ∧
      (∃ pre post, right_positions h b = some (pre ++ post) ∧
        upper_bound_right cr h b kr = some (some (post.headD b.root_)) ∧
        (∀ x ∈ pre, ∃ kx, deref_right h (some x) = some kx ∧ cr kr kx = false) ∧
        (∀ x ∈ post, ∃ kx, deref_right h (some x) = some kx ∧ cr kr kx = true)) ∧
      end_left b = some b.root_ ∧ end_right b = some b.root_ := by
  obtain ⟨tl, tr, hi⟩ := hreach.inv hcl hcr
  have hfl := hi.fuel_left
  have hfr := hi.fuel_right
  obtain ⟨⟨p1, q1, a1, a2, a3, a4⟩, ⟨p2, q2, b1, b2, b3, b4⟩⟩ :=
    hi.left.bounds_spec hcl kl (show tl.toList.length + 1 ≤ h.brk + 1 by omega)
  obtain ⟨⟨p3, q3, c1, c2, c3, c4⟩, ⟨p4, q4, d1, d2, d3, d4⟩⟩ :=
    hi.right.bounds_spec hcr kr (show tr.toList.length + 1 ≤ h.brk + 1 by omega)
  refine ⟨⟨p1, q1, ?_, a2, a3, a4⟩, ⟨p2, q2, ?_, b2, b3, b4⟩, ⟨p3, q3, ?_, c2, c3, c4⟩,
    ⟨p4, q4, ?_, d2, d3, d4⟩, rfl, rfl⟩
  · rw [hi.left_positions_eq, a1]
  · rw [hi.left_positions_eq, b1]
  · rw [hi.right_positions_eq, c1]
  · rw [hi.right_positions_eq, d1]

/-- Witness of C13 on the bimap `sample`, whose left keys are 3, 4, 5, 7, 10 at the
positions 3, 4, 1, 5, 2: the bounds of the left key `5` and of the right key `9`. -/
theorem C13_lower_and_upper_bound_witness :
    (left_positions sample.1 sample.2 = some [3, 4, 1, 5, 2] ∧
      lower_bound_left nat_less sample.1 sample.2 5 = some (some 1) ∧
      upper_bound_left nat_less sample.1 sample.2 5 = some (some 5) ∧
      lower_bound_right nat_less sample.1 sample.2 9 = some (end_right sample.2) ∧
      lower_bound_left nat_less (bimap_new (Heap.empty : Heap Nat Nat)).1
        (bimap_new (Heap.empty : Heap Nat Nat)).2 5 =
          some (end_left (bimap_new (Heap.empty : Heap Nat Nat)).2)) ∧
    ((∃ pre post, left_positions sample.1 sample.2 = some (pre ++ post) ∧
        lower_bound_left nat_less sample.1 sample.2 5 =
          some (some (post.headD sample.2.root_)) ∧
        (∀ x ∈ pre, ∃ kx, deref_left sample.1 (some x) = some kx ∧ nat_less kx 5 = true) ∧
        (∀ x ∈ post, ∃ kx, deref_left sample.1 (some x) = some kx ∧ nat_less kx 5 = false)) ∧
      (∃ pre post, left_positions sample.1 sample.2 = some (pre ++ post) ∧
        upper_bound_left nat_less sample.1 sample.2 5 =
          some (some (post.headD sample.2.root_)) ∧
        (∀ x ∈ pre, ∃ kx, deref_left sample.1 (some x) = some kx ∧ nat_less 5 kx = false) ∧
        (∀ x ∈ post, ∃ kx, deref_left sample.1 (some x) = some kx ∧ nat_less 5 kx = true)) ∧
      (∃ pre post, right_positions sample.1 sample.2 = some (pre ++ post) ∧
        lower_bound_right nat_less sample.1 sample.2 9 =
          some (some (post.headD sample.2.root_)) ∧
        (∀ x ∈ pre, ∃ kx, deref_right sample.1 (some x) = some kx ∧ nat_less kx 9 = true) ∧
        (∀ x ∈ post, ∃ kx, deref_right sample.1 (some x) = some kx ∧ nat_less kx 9 = false)) ∧
      (∃ pre post, right_positions sample.1 sample.2 = some (pre ++ post) ∧
        upper_bound_right nat_less sample.1 sample.2 9 =
          some (some (post.headD sample.2.root_)) ∧
        (∀ x ∈ pre, ∃ kx, deref_right sample.1 (some x) = some kx ∧ nat_less 9 kx = false) ∧
        (∀ x ∈ post, ∃ kx, deref_right sample.1 (some x) = some kx ∧ nat_less 9 kx = true)) ∧
      end_left sample.2 = some sample.2.root_ ∧ end_right sample.2 = some sample.2.root_) :=
  ⟨⟨by decide, by decide, by decide, by decide, by decide⟩,
    C13_lower_and_upper_bound nat_less_strict_weak nat_less_strict_weak reachable_sample 5 9⟩

/-! ## Default-inserting lookups -/

section or_default

variable {L R : Type} {cl : L → L → Bool} {cr : R → R → Bool}
variable {h : Heap L R} {b : bimap} {tl tr : Tree}

theorem Inv.locate_left_equiv (hcl : StrictWeakOrder cl) (hi : Inv cl cr h b tl tr) {a : Nat}
    {p : L × R} {k : L} (ha : a ∈ tl.toList) (hv : h.val a = some p)
    (he : equivalent cl p.1 k) :
    tl.locate (cmpf cl h.lkey b.root_ k) b.root_ = a ∧ cmpf cl h.lkey b.root_ k a = 0 := by
  have hca : cmpf cl h.lkey b.root_ k a = 0 := by
    rw [hi.left.cmpf_eq k ha (show h.lkey a = some p.1 by simp [Heap.lkey, hv])]
    exact cmp_keys_eq_zero.mpr he
  obtain ⟨hz, hq⟩ := Tree.locate_found hcl tl b.root_ hi.left.sorted (hi.left.reads k) a ha hca
  obtain ⟨pq, hpq⟩ := Option.isSome_iff_exists.mp ((hi.live _).mpr hq)
  have hcq : equivalent cl pq.1 k := by
    rw [hi.left.cmpf_eq k hq (show h.lkey _ = some pq.1 by simp [Heap.lkey, hpq])] at hz
    exact cmp_keys_eq_zero.mp hz
  exact ⟨hi.equiv_unique_left hcl hq ha hpq hv hcq he, hca⟩

/-- The state after a successful `insert(l, r)`, read through both iterations. -/
theorem Inv.insert_new_pairs (hcl : StrictWeakOrder cl) (hcr : StrictWeakOrder cr)
    (hi : Inv cl cr h b tl tr) {ps qs : List (L × R)} (hps : left_pairs h b = some ps)
    (hqs : right_pairs h b = some qs) (l : L) (r : R)
    (hl : ∀ p ∈ ps, ¬ equivalent cl p.1 l) (hr : ∀ p ∈ ps, ¬ equivalent cr p.2 r) :
    cmpf cl h.lkey b.root_ l (tl.locate (cmpf cl h.lkey b.root_ l) b.root_) ≠ 0 ∧
      cmpf cr h.rkey b.root_ r (tr.locate (cmpf cr h.rkey b.root_ r) b.root_) ≠ 0 ∧
      ∃ h1, insert cl cr h b l r = some (some h.brk, h1, ⟨b.root_, b.size_ + 1⟩) ∧
        h1.val h.brk = some (l, r) ∧
        (∃ ps1 ps2, ps = ps1 ++ ps2 ∧
          left_pairs h1 ⟨b.root_, b.size_ + 1⟩ = some (ps1 ++ (l, r) :: ps2)) ∧
        (∃ qs1 qs2, qs = qs1 ++ qs2 ∧
          right_pairs h1 ⟨b.root_, b.size_ + 1⟩ = some (qs1 ++ (l, r) :: qs2)) := by
  have hc1 := hi.left.locate_absent l (fun a ha ka hka => by
    obtain ⟨p, hp⟩ := Option.isSome_iff_exists.mp ((hi.live a).mpr ha)
    have : ka = p.1 := by simpa [Heap.lkey, hp] using hka.symm
    rw [this]
    exact hl p ((hi.mem_left_pairs hps p).mpr ⟨a, ha, hp⟩))
  have hc2 := hi.right.locate_absent r (fun a ha ka hka => by
    have ha1 := (hi.same a).mpr ha
    obtain ⟨p, hp⟩ := Option.isSome_iff_exists.mp ((hi.live a).mpr ha1)
    have : ka = p.2 := by simpa [Heap.rkey, hp] using hka.symm
    rw [this]
    exact hr p ((hi.mem_left_pairs hps p).mpr ⟨a, ha1, hp⟩))
  obtain ⟨h1, e, hi1, hval, _⟩ := hi.insert_ok hcl hcr l r hc1 hc2
  have hnew : ∀ t : Tree, (∀ a ∈ t.toList, a < h.brk) → h.brk ∉ t.toList :=
    fun t ht hm => Nat.lt_irrefl _ (ht _ hm)
  refine ⟨hc1, hc2, h1, e, by simp [hval], ?_, ?_⟩
  · obtain ⟨pre, post, e1, e2⟩ := Tree.ins_toList (cmpf cl h.lkey b.root_ l) h.brk tl
    rw [hi1.left_pairs_eq, e2]
    rw [hi.left_pairs_eq, e1] at hps
    exact read_all_insert (by rw [← e1]; exact hnew tl hi.bound) hval hps
  · obtain ⟨pre, post, e1, e2⟩ := Tree.ins_toList (cmpf cr h.rkey b.root_ r) h.brk tr
    rw [hi1.right_pairs_eq, e2]
    rw [hi.right_pairs_eq, e1] at hqs
    exact read_all_insert (by
      rw [← e1]
      exact hnew tr (fun a ha => hi.bound a ((hi.same a).mpr ha))) hval hqs

end or_default

/-- C15: on a reachable bimap whose pairs are `ps`, `at_left_or_default(key)` returns the
paired right value and changes nothing when an element has a left key equivalent to `key`;
when there is none and the default `d` is equivalent to no right key, it returns `d`, the size
grows by one and the pairs in left order and in right order are the old ones with `(key, d)`
put in at one place. -/
theorem C15_at_left_or_default_plain {L R : Type} {cl : L → L → Bool} {cr : R → R → Bool}
    (hcl : StrictWeakOrder cl) (hcr : StrictWeakOrder cr) {h : Heap L R} {b : bimap}
    (hreach : Reachable cl cr h b) {ps qs : List (L × R)} (hps : left_pairs h b = some ps)
    (hqs : right_pairs h b = some qs) (d : R) (key : L) :
    (∀ p ∈ ps, equivalent cl p.1 key →
        at_left_or_default cl cr d h b key = some (p.2, h, b)) ∧
      ((∀ p ∈ ps, ¬ equivalent cl p.1 key) → (∀ p ∈ ps, ¬ equivalent cr p.2 d) →
        ∃ h1 b1, at_left_or_default cl cr d h b key = some (d, h1, b1) ∧
          size b1 = size b + 1 ∧
          (∃ ps1 ps2, ps = ps1 ++ ps2 ∧ left_pairs h1 b1 = some (ps1 ++ (key, d) :: ps2)) ∧
          (∃ qs1 qs2, qs = qs1 ++ qs2 ∧
            right_pairs h1 b1 = some (qs1 ++ (key, d) :: qs2))) := by
  obtain ⟨tl, tr, hi⟩ := hreach.inv hcl hcr
  have hfl := hi.fuel_left
  have hfr := hi.fuel_right
  have hf1 := hi.left.find_impl_eq key (show tl.toList.length + 1 ≤ h.brk + 1 by omega)
  have hc1 := hi.left.cmp_eq key (Tree.locate_mem (cmpf cl h.lkey b.root_ key) tl b.root_)
  constructor
  · intro p hp he
    obtain ⟨a, ha, hv⟩ := (hi.mem_left_pairs hps p).mp hp
    obtain ⟨e1, e2⟩ := hi.locate_left_equiv hcl ha hv he
    rw [e1] at hf1 hc1
    simp only [at_left_or_default, Heap.fuel, hf1, hc1, e2, if_true, upcast,
      Option.bind, Heap.rkey, hv, Option.map_some']
  · intro hl hr
    obtain ⟨n1, n2, h1, e, hv1, r1, r2⟩ := hi.insert_new_pairs hcl hcr hps hqs key d hl hr
    have hf2 := hi.right.find_impl_eq d (show tr.toList.length + 1 ≤ h.brk + 1 by omega)
    have hc2 := hi.right.cmp_eq d (Tree.locate_mem (cmpf cr h.rkey b.root_ d) tr b.root_)
    refine ⟨h1, ⟨b.root_, b.size_ + 1⟩, ?_, rfl, r1, r2⟩
    simp only [at_left_or_default, Heap.fuel, hf1, hc1, n1, if_false, hf2, hc2, n2, e,
      get_value_left, Option.bind, Heap.rkey, hv1, Option.map_some']

/-- Witness of C15: on the bimap `sample` the key `7` is present and the key `6` with default
`9` is new; and after `insert(5, 1)` on an empty bimap, `at_left_or_default(7)` with default
`0` yields `0` and the size becomes 2. -/
theorem C15_at_left_or_default_plain_witness :
    (left_pairs sample.1 sample.2 = some [(3, 7), (4, 4), (5, 0), (7, 8), (10, 1)] ∧
      right_pairs sample.1 sample.2 = some [(5, 0), (10, 1), (4, 4), (3, 7), (7, 8)] ∧
      (∀ p ∈ [(3, 7), (4, 4), (5, 0), (7, 8), (10, 1)], ¬ equivalent nat_less p.1 6) ∧
      (∀ p ∈ [(3, 7), (4, 4), (5, 0), (7, 8), (10, 1)], ¬ equivalent nat_less p.2 9) ∧
      ((at_left_or_default nat_less nat_less 0
          (insert_all (bimap_new Heap.empty) [(5, 1)]).1
          (insert_all (bimap_new Heap.empty) [(5, 1)]).2 7).map
        (fun res => (res.1, size res.2.2))) = some (0, 2)) ∧
    (∀ p ∈ [(3, 7), (4, 4), (5, 0), (7, 8), (10, 1)], equivalent nat_less p.1 7 →
        at_left_or_default nat_less nat_less 9 sample.1 sample.2 7 =
          some (p.2, sample.1, sample.2)) ∧
      ∃ h1 b1, at_left_or_default nat_less nat_less 9 sample.1 sample.2 6 = some (9, h1, b1) ∧
        size b1 = size sample.2 + 1 ∧
        (∃ ps1 ps2, [(3, 7), (4, 4), (5, 0), (7, 8), (10, 1)] = ps1 ++ ps2 ∧
          left_pairs h1 b1 = some (ps1 ++ (6, 9) :: ps2)) ∧
        (∃ qs1 qs2, [(5, 0), (10, 1), (4, 4), (3, 7), (7, 8)] = qs1 ++ qs2 ∧
          right_pairs h1 b1 = some (qs1 ++ (6, 9) :: qs2)) :=
  ⟨⟨by decide, by decide, by decide, by decide, by decide⟩,
    (C15_at_left_or_default_plain nat_less_strict_weak nat_less_strict_weak reachable_sample
      (show left_pairs sample.1 sample.2 = some [(3, 7), (4, 4), (5, 0), (7, 8), (10, 1)] by
        decide)
      (show right_pairs sample.1 sample.2 = some [(5, 0), (10, 1), (4, 4), (3, 7), (7, 8)] by
        decide) 9 7).1,
    (C15_at_left_or_default_plain nat_less_strict_weak nat_less_strict_weak reachable_sample
      (show left_pairs sample.1 sample.2 = some [(3, 7), (4, 4), (5, 0), (7, 8), (10, 1)] by
        decide)
      (show right_pairs sample.1 sample.2 = some [(5, 0), (10, 1), (4, 4), (3, 7), (7, 8)] by
        decide) 9 6).2 (by decide) (by decide)⟩

/-- C14: the code at a failing input.  After `insert(10, 1); insert(5, 0)` the key `20` is
absent and the default `0` is the right key of `(5, 0)`.  The probe for `20` stops at position
`1`, the element `(10, 1)`, while the element holding the default is at position `2`.
`at_left_or_default(20)` returns `0` and keeps the size, but it erases and re-inserts position
`1` instead of position `2`: afterwards the `left_` links of positions `1` and `2` point at each
other, so `begin_left()`, the left iteration and `find_left(5)` do not return. -/
theorem C14_at_left_or_default_relinks_wrong_node :
    Reachable nat_less nat_less sample3.1 sample3.2 ∧
      left_pairs sample3.1 sample3.2 = some [(5, 0), (10, 1)] ∧
      find_impl nat_less sample3.1.lkey sample3.2.root_ sample3.1.fuel sample3.1.lnode 20 =
        some 1 ∧
      find_right nat_less sample3.1 sample3.2 0 = some (some 2) ∧
      (at_left_or_default nat_less nat_less 0 sample3.1 sample3.2 20).map
        (fun res => (res.1, size res.2.2, begin_left res.2.1 res.2.2,
          left_pairs res.2.1 res.2.2, find_left nat_less res.2.1 res.2.2 5,
          (res.2.1.lnode 1).left_, (res.2.1.lnode 2).left_)) =
        some (0, 2, none, none, none, some 2, some 1) :=
  ⟨reachable_insert_all _ _ Reachable.empty, by decide, by decide, by decide, by rfl⟩

/-- C16: the code at a failing input.  The bimap after `insert(1, 20); insert(2, 10)` holds
the pair `(2, 10)` at position `2`, and the probe of the right index for `10` stops there with
an exact match.  `at_right_or_default(10)` then reads `left_value_` through `upcast_left`
applied to that pointer to a right facet, a cast that has no defined result: the call yields no
value where the claim expects `2`. -/
theorem C16_at_right_or_default_casts_with_wrong_tag :
    Reachable nat_less nat_less sample2.1 sample2.2 ∧
      left_pairs sample2.1 sample2.2 = some [(1, 20), (2, 10)] ∧
      find_impl nat_less sample2.1.rkey sample2.2.root_ sample2.1.fuel sample2.1.rnode 10 =
        some 2 ∧
      cmp nat_less sample2.1.rkey sample2.2.root_ 2 10 = some 0 ∧
      upcast .left_tag .right_tag 2 = none ∧
      (at_right_or_default nat_less nat_less 0 sample2.1 sample2.2 10).isNone = true ∧
      get_value_right sample2.1 (some 2) = some 2 :=
  ⟨reachable_sample2, by decide, by decide, by decide, by decide, by decide, by decide⟩

/-- C18: the code at a failing input.  Moving out of the bimap `sample`, which holds five
pairs, by move construction or by move assignment to a fresh bimap unlinks its sentinel, so
`begin_left() == end_left()` and `begin_right() == end_right()` hold for the source, but
`size_` of the source is never written: `size()` is still 5 and `empty()` is false. -/
theorem C18_moved_from_keeps_its_size :
    Reachable nat_less nat_less sample.1 sample.2 ∧ size sample.2 = 5 ∧
      (size (move_construct sample.1 sample.2).2.2 = 5 ∧
        empty (move_construct sample.1 sample.2).2.2 = false ∧
        begin_left (move_construct sample.1 sample.2).1 (move_construct sample.1 sample.2).2.2 =
          some (end_left (move_construct sample.1 sample.2).2.2) ∧
        begin_right (move_construct sample.1 sample.2).1
            (move_construct sample.1 sample.2).2.2 =
          some (end_right (move_construct sample.1 sample.2).2.2) ∧
        left_positions (move_construct sample.1 sample.2).1
          (move_construct sample.1 sample.2).2.2 = some []) ∧
      (move_assign (bimap_new sample.1).1 (bimap_new sample.1).2 sample.2).map
        (fun res => (size res.2.1, size res.2.2, empty res.2.2, begin_left res.1 res.2.2,
          end_left res.2.2, begin_right res.1 res.2.2, end_right res.2.2,
          left_positions res.1 res.2.1, left_positions res.1 res.2.2)) =
        some (5, 5, false, some (some 0), some 0, some (some 0), some 0,
          some [3, 4, 1, 5, 2], some []) :=
  ⟨reachable_sample, by decide, ⟨by decide, by decide, by decide, by decide, by decide⟩,
    by rfl⟩

/-! ## Range erasure -/

section range

variable {L R : Type} {cl : L → L → Bool} {cr : R → R → Bool}

theorem headD_append_ne {mid post : List Nat} {x d : Nat} (hnd : (x :: (mid ++ post)).Nodup)
    (hd : x ≠ d) : x ≠ post.headD d := by
  cases post with
  | nil => simpa using hd
  | cons y ys =>
    simp only [List.headD_cons]
    rintro rfl
    exact (List.nodup_cons.mp hnd).1 (by simp)

theorem filter_not_mem_cons (x : Nat) (mid ys : List Nat) :
    (ys.filter (fun y => decide (y ≠ x))).filter (fun y => decide (y ∉ mid)) =
      ys.filter (fun y => decide (y ∉ x :: mid)) := by
  rw [List.filter_filter]
  congr 1
  funext y
  by_cases h1 : y = x <;> by_cases h2 : y ∈ mid <;> simp [h1, h2]

theorem erase_left_loop_spec (mid : List Nat) :
    ∀ (h : Heap L R) (b : bimap) (tl tr : Tree) (pre post : List Nat),
      Inv cl cr h b tl tr → tl.toList = pre ++ (mid ++ post) → ∀ f, mid.length + 1 ≤ f →
      ∃ h1 tl1 tr1, erase_left_loop (some (post.headD b.root_)) f h b
            (some ((mid ++ post).headD b.root_)) =
          some (some (post.headD b.root_), h1, ⟨b.root_, b.size_ - mid.length⟩) ∧
        Inv cl cr h1 ⟨b.root_, b.size_ - mid.length⟩ tl1 tr1 ∧
        tl1.toList = pre ++ post ∧
        tr1.toList = tr.toList.filter (fun y => decide (y ∉ mid)) ∧
        h1.val = (fun y => if y ∈ mid then none else h.val y) ∧ h1.brk = h.brk := by
  induction mid with
  | nil =>
    intro h b tl tr pre post hi htl f hf
    obtain ⟨g, rfl⟩ : ∃ g, f = g + 1 := ⟨f - 1, by simp at hf; omega⟩
    refine ⟨h, tl, tr, by simp [erase_left_loop], by simpa using hi, by simpa using htl,
      by simp, by simp, rfl⟩
  | cons x mid ih =>
    intro h b tl tr pre post hi htl f hf
    obtain ⟨g, rfl⟩ : ∃ g, f = g + 1 := ⟨f - 1, by simp at hf; omega⟩
    have hx : x ∈ tl.toList := by rw [htl]; simp
    have hnd := hi.left.nodup_list
    rw [htl] at hnd
    have hnd1 := List.nodup_append.mp hnd
    have hpre : x ∉ pre := fun hp => hnd1.2.2 hp (by simp)
    have hxroot : x ≠ b.root_ := fun e => hi.left.root_not_mem (e ▸ hx)
    have hne : (some x : Ptr) ≠ some (post.headD b.root_) := by
      simp only [ne_eq, Option.some.injEq]
      exact headD_append_ne hnd1.2.1 hxroot
    have hfl := hi.fuel_left
    have hs : lsucc tl.toList b.root_ x = (mid ++ post).headD b.root_ := by
      rw [htl]
      exact lsucc_self_append _ _ _ hpre
    obtain ⟨h1, e, hi1, hval, hbrk⟩ := hi.erase_left_ok hx
    have hpos : (tl.erase x).toList = pre ++ (mid ++ post) := by
      rw [Tree.erase_toList _ hi.left.nodup_list, htl]
      exact filter_ne_middle hnd
    obtain ⟨h2, tl2, tr2, e2, hi2, p1, p2, p3, p4⟩ :=
      ih h1 ⟨b.root_, b.size_ - 1⟩ (tl.erase x) (tr.erase x) pre post hi1 hpos g
        (by simp at hf; omega)
    have hsz : b.size_ - 1 - mid.length = b.size_ - (x :: mid).length := by
      simp only [List.length_cons]; omega
    simp only [hsz] at e2 hi2
    refine ⟨h2, tl2, tr2, ?_, hi2, p1, ?_, ?_, p4.trans hbrk⟩
    · simp only [List.cons_append, List.headD_cons, erase_left_loop, hne, if_false,
        incr_left, Option.bind, Heap.fuel]
      rw [hi.left.next_eq hx (by omega), hs]
      simp only [e]
      exact e2
    · rw [p2, Tree.erase_toList _ hi.right.nodup_list, filter_not_mem_cons]
    · rw [p3, hval]
      funext y
      by_cases h1 : y = x <;> by_cases h2 : y ∈ mid <;> simp [h1, h2]

theorem erase_right_loop_spec (mid : List Nat) :
    ∀ (h : Heap L R) (b : bimap) (tl tr : Tree) (pre post : List Nat),
      Inv cl cr h b tl tr → tr.toList = pre ++ (mid ++ post) → ∀ f, mid.length + 1 ≤ f →
      ∃ h1 tl1 tr1, erase_right_loop (some (post.headD b.root_)) f h b
            (some ((mid ++ post).headD b.root_)) =
          some (some (post.headD b.root_), h1, ⟨b.root_, b.size_ - mid.length⟩) ∧
        Inv cl cr h1 ⟨b.root_, b.size_ - mid.length⟩ tl1 tr1 ∧
        tr1.toList = pre ++ post ∧
        tl1.toList = tl.toList.filter (fun y => decide (y ∉ mid)) ∧
        h1.val = (fun y => if y ∈ mid then none else h.val y) ∧ h1.brk = h.brk := by
  induction mid with
  | nil =>
    intro h b tl tr pre post hi htr f hf
    obtain ⟨g, rfl⟩ : ∃ g, f = g + 1 := ⟨f - 1, by simp at hf; omega⟩
    refine ⟨h, tl, tr, by simp [erase_right_loop], by simpa using hi, by simpa using htr,
      by simp, by simp, rfl⟩
  | cons x mid ih =>
    intro h b tl tr pre post hi htr f hf
    obtain ⟨g, rfl⟩ : ∃ g, f = g + 1 := ⟨f - 1, by simp at hf; omega⟩
    have hxr : x ∈ tr.toList := by rw [htr]; simp
    have hx : x ∈ tl.toList := (hi.same x).mpr hxr
    have hnd := hi.right.nodup_list
    rw [htr] at hnd
    have hnd1 := List.nodup_append.mp hnd
    have hpre : x ∉ pre := fun hp => hnd1.2.2 hp (by simp)
    have hxroot : x ≠ b.root_ := fun e => hi.left.root_not_mem (e ▸ hx)
    have hne : (some x : Ptr) ≠ some (post.headD b.root_) := by
      simp only [ne_eq, Option.some.injEq]
      exact headD_append_ne hnd1.2.1 hxroot
    have hfr := hi.fuel_right
    have hs : lsucc tr.toList b.root_ x = (mid ++ post).headD b.root_ := by
      rw [htr]
      exact lsucc_self_append _ _ _ hpre
    obtain ⟨h1, e, hi1, hval, hbrk⟩ := hi.erase_left_ok hx
    have hpos : (tr.erase x).toList = pre ++ (mid ++ post) := by
      rw [Tree.erase_toList _ hi.right.nodup_list, htr]
      exact filter_ne_middle hnd
    obtain ⟨h2, tl2, tr2, e2, hi2, p1, p2, p3, p4⟩ :=
      ih h1 ⟨b.root_, b.size_ - 1⟩ (tl.erase x) (tr.erase x) pre post hi1 hpos g
        (by simp at hf; omega)
    have hsz : b.size_ - 1 - mid.length = b.size_ - (x :: mid).length := by
      simp only [List.length_cons]; omega
    simp only [hsz] at e2 hi2
    refine ⟨h2, tl2, tr2, ?_, hi2, p1, ?_, ?_, p4.trans hbrk⟩
    · simp only [List.cons_append, List.headD_cons, erase_right_loop, hne, if_false,
        incr_right, Option.bind, Heap.fuel]
      rw [hi.right.next_eq hxr (by omega), hs]
      simp only [erase_right_eq, e]
      exact e2
    · rw [p2, Tree.erase_toList _ hi.left.nodup_list, filter_not_mem_cons]
    · rw [p3, hval]
      funext y
      by_cases h1 : y = x <;> by_cases h2 : y ∈ mid <;> simp [h1, h2]

end range

/-- C11: on a reachable bimap whose left iteration visits `pre ++ mid ++ post`,
`erase_left(first, last)` with `first` the first position of `mid ++ post` and `last` the first
position of `post` (the end position when that part is empty) returns `last`; afterwards the
left iteration visits `pre ++ post`, the right iteration visits the former positions that are
not in `mid`, the size has dropped by the length of `mid`, and the remaining positions hold the
pairs they held.  The same holds for `erase_right(first, last)` on a range of the right
iteration. -/
theorem C11_erase_range {L R : Type} {cl : L → L → Bool} {cr : R → R → Bool}
    (hcl : StrictWeakOrder cl) (hcr : StrictWeakOrder cr) {h : Heap L R} {b : bimap}
    (hreach : Reachable cl cr h b) {pre mid post pre2 mid2 post2 : List Nat}
    (hxs : left_positions h b = some (pre ++ (mid ++ post)))
    (hys : right_positions h b = some (pre2 ++ (mid2 ++ post2))) :
    (∃ h1 b1, erase_left_range h b (some ((mid ++ post).headD b.root_))
          (some (post.headD b.root_)) = some (some (post.headD b.root_), h1, b1) ∧
        left_positions h1 b1 = some (pre ++ post) ∧
        right_positions h1 b1 =
          some ((pre2 ++ (mid2 ++ post2)).filter (fun y => decide (y ∉ mid))) ∧
        size b1 + mid.length = size b ∧
        left_pairs h1 b1 = read_all h (pre ++ post) ∧
        right_pairs h1 b1 =
          read_all h ((pre2 ++ (mid2 ++ post2)).filter (fun y => decide (y ∉ mid)))) ∧
      (∃ h1 b1, erase_right_range h b (some ((mid2 ++ post2).headD b.root_))
          (some (post2.headD b.root_)) = some (some (post2.headD b.root_), h1, b1) ∧
        right_positions h1 b1 = some (pre2 ++ post2) ∧
        left_positions h1 b1 =
          some ((pre ++ (mid ++ post)).filter (fun y => decide (y ∉ mid2))) ∧
        size b1 + mid2.length = size b ∧
        right_pairs h1 b1 = read_all h (pre2 ++ post2) ∧
        left_pairs h1 b1 =
          read_all h ((pre ++ (mid ++ post)).filter (fun y => decide (y ∉ mid2)))) := by
  obtain ⟨tl, tr, hi⟩ := hreach.inv hcl hcr
  have htl : tl.toList = pre ++ (mid ++ post) := by
    have := hi.left_positions_eq
    rw [hxs] at this
    exact (Option.some.inj this).symm
  have htr : tr.toList = pre2 ++ (mid2 ++ post2) := by
    have := hi.right_positions_eq
    rw [hys] at this
    exact (Option.some.inj this).symm
  have hfl := hi.fuel_left
  have hfr := hi.fuel_right
  have hlen : mid.length ≤ tl.toList.length := by
    rw [htl]; simp only [List.length_append]; omega
  have hlen2 : mid2.length ≤ tr.toList.length := by
    rw [htr]; simp only [List.length_append]; omega
  have hsz := hi.size_eq
  have hsz2 := hi.length_eq
  constructor
  · obtain ⟨h1, tl1, tr1, e, hi1, p1, p2, p3, _⟩ :=
      erase_left_loop_spec mid h b tl tr pre post hi htl (h.brk + 1) (by omega)
    have hv : ∀ xs : List Nat, (∀ x ∈ xs, x ∉ mid) → read_all h1 xs = read_all h xs :=
      fun xs hx => read_all_congr (fun x hm => by simp [p3, hx x hm])
    have hnd := hi.left.nodup_list
    rw [htl] at hnd
    have hnd1 := List.nodup_append.mp hnd
    have hnd2 := List.nodup_append.mp hnd1.2.1
    refine ⟨h1, _, e, ?_, ?_, ?_, ?_, ?_⟩
    · rw [hi1.left_positions_eq, p1]
    · rw [hi1.right_positions_eq, p2, htr]
    · simp only [size]; omega
    · rw [hi1.left_pairs_eq, p1]
      apply hv
      intro x hx hm
      rcases List.mem_append.mp hx with h2 | h2
      · exact hnd1.2.2 h2 (List.mem_append_left _ hm)
      · exact hnd2.2.2 hm h2
    · rw [hi1.right_pairs_eq, p2, htr]
      apply hv
      intro x hx
      simpa using (List.mem_filter.mp hx).2
  · obtain ⟨h1, tl1, tr1, e, hi1, p1, p2, p3, _⟩ :=
      erase_right_loop_spec mid2 h b tl tr pre2 post2 hi htr (h.brk + 1) (by omega)
    have hv : ∀ xs : List Nat, (∀ x ∈ xs, x ∉ mid2) → read_all h1 xs = read_all h xs :=
      fun xs hx => read_all_congr (fun x hm => by simp [p3, hx x hm])
    have hnd := hi.right.nodup_list
    rw [htr] at hnd
    have hnd1 := List.nodup_append.mp hnd
    have hnd2 := List.nodup_append.mp hnd1.2.1
    refine ⟨h1, _, e, ?_, ?_, ?_, ?_, ?_⟩
    · rw [hi1.right_positions_eq, p1]
    · rw [hi1.left_positions_eq, p2, htl]
    · simp only [size]; omega
    · rw [hi1.right_pairs_eq, p1]
      apply hv
      intro x hx hm
      rcases List.mem_append.mp hx with h2 | h2
      · exact hnd1.2.2 h2 (List.mem_append_left _ hm)
      · exact hnd2.2.2 hm h2
    · rw [hi1.left_pairs_eq, p2, htl]
      apply hv
      intro x hx
      simpa using (List.mem_filter.mp hx).2

/-- Witness of C11 on the bimap `sample`: the left range of the positions `4, 1` and the
right range of the positions `2, 4, 3`. -/
theorem C11_erase_range_witness :
    (left_positions sample.1 sample.2 = some ([3] ++ ([4, 1] ++ [5, 2])) ∧
      right_positions sample.1 sample.2 = some ([1] ++ ([2, 4, 3] ++ [5]))) ∧
    ((∃ h1 b1, erase_left_range sample.1 sample.2
          (some (([4, 1] ++ [5, 2] : List Nat).headD sample.2.root_))
          (some (([5, 2] : List Nat).headD sample.2.root_)) =
            some (some (([5, 2] : List Nat).headD sample.2.root_), h1, b1) ∧
        left_positions h1 b1 = some ([3] ++ [5, 2]) ∧
        right_positions h1 b1 =
          some (([1] ++ ([2, 4, 3] ++ [5])).filter (fun y => decide (y ∉ [4, 1]))) ∧
        size b1 + ([4, 1] : List Nat).length = size sample.2 ∧
        left_pairs h1 b1 = read_all sample.1 ([3] ++ [5, 2]) ∧
        right_pairs h1 b1 =
          read_all sample.1
            (([1] ++ ([2, 4, 3] ++ [5])).filter (fun y => decide (y ∉ [4, 1])))) ∧
      (∃ h1 b1, erase_right_range sample.1 sample.2
          (some (([2, 4, 3] ++ [5] : List Nat).headD sample.2.root_))
          (some (([5] : List Nat).headD sample.2.root_)) =
            some (some (([5] : List Nat).headD sample.2.root_), h1, b1) ∧
        right_positions h1 b1 = some ([1] ++ [5]) ∧
        left_positions h1 b1 =
          some (([3] ++ ([4, 1] ++ [5, 2])).filter (fun y => decide (y ∉ [2, 4, 3]))) ∧
        size b1 + ([2, 4, 3] : List Nat).length = size sample.2 ∧
        right_pairs h1 b1 = read_all sample.1 ([1] ++ [5]) ∧
        left_pairs h1 b1 =
          read_all sample.1
            (([3] ++ ([4, 1] ++ [5, 2])).filter (fun y => decide (y ∉ [2, 4, 3]))))) :=
  ⟨⟨by decide, by decide⟩,
    C11_erase_range nat_less_strict_weak nat_less_strict_weak reachable_sample
      (show left_positions sample.1 sample.2 = some ([3] ++ ([4, 1] ++ [5, 2])) by decide)
      (show right_positions sample.1 sample.2 = some ([1] ++ ([2, 4, 3] ++ [5])) by decide)⟩

/-! ## An index whose sentinel has been moved -/

section loose

variable {m : Mem} {par root_ : Nat} {t : Tree}

theorem loose_next_eq (hrep : Rep m par (.node t root_ .nil)) (hnd : (root_ :: t.toList).Nodup)
    {x : Nat} (hx : x ∈ t.toList) {f : Nat} (hf : t.toList.length ≤ f) :
    next f m x = some (some (lsucc t.toList root_ x)) := by
  have hrt : Rep m root_ t := hrep.2.2.2.1
  apply next_sub t root_ root_ 1 hrt (List.nodup_cons.mp hnd).2 _ x hx f (Nat.succ_le_succ hf)
  intro p hp g
  refine ⟨p, ?_, ?_⟩
  · have : is_right m p = false := by
      apply is_right_of_rep_left hrep hp
      simp [Tree.toList]
    simp [climb_right, this]
  · cases t with
    | nil => simp [Tree.root] at hp
    | node l a r =>
      simp only [Tree.root, Option.some.injEq] at hp
      subst hp; exact hrt.1

theorem loose_begin_eq (hrep : Rep m par (.node t root_ .nil)) {f : Nat}
    (hf : t.toList.length + 1 ≤ f) :
    map_begin f m root_ = some (some (t.toList.headD root_)) := by
  simp only [map_begin]
  rw [descend_left_spec hrep f hf, Tree.first_eq]
  rfl

theorem loose_walk_suffix (hrep : Rep m par (.node t root_ .nil))
    (hnd : (root_ :: t.toList).Nodup) {nf : Nat} (hnf : t.toList.length + 1 ≤ nf)
    (suf : List Nat) :
    ∀ (pre : List Nat), pre ++ suf = t.toList → ∀ f, suf.length + 1 ≤ f →
      walk nf m (some root_) f (some (suf.headD root_)) = some suf := by
  induction suf with
  | nil =>
    intro pre _ f hf
    obtain ⟨g, rfl⟩ : ∃ g, f = g + 1 := ⟨f - 1, by omega⟩
    simp [walk]
  | cons x rest ih =>
    intro pre hpre f hf
    obtain ⟨g, rfl⟩ : ∃ g, f = g + 1 := ⟨f - 1, by simp at hf; omega⟩
    have hx : x ∈ t.toList := by rw [← hpre]; simp
    have hxr : x ≠ root_ := fun e => (List.nodup_cons.mp hnd).1 (e ▸ hx)
    have hnd2 := (List.nodup_cons.mp hnd).2
    rw [← hpre] at hnd2
    have hxpre : x ∉ pre := fun hp =>
      (List.nodup_append.mp hnd2).2.2 hp (List.mem_cons_self _ _)
    have hs : lsucc t.toList root_ x = rest.headD root_ := by
      rw [← hpre]
      exact lsucc_self_append _ _ _ hxpre
    simp only [List.headD_cons, walk, Option.some.injEq, hxr, if_false,
      loose_next_eq hrep hnd hx (Nat.le_of_succ_le hnf), hs]
    rw [ih (pre ++ [x]) (by simpa using hpre) g (by simp at hf; omega)]
    rfl

theorem loose_walk_eq (hrep : Rep m par (.node t root_ .nil))
    (hnd : (root_ :: t.toList).Nodup) {nf f : Nat} (hnf : t.toList.length + 1 ≤ nf)
    (hf : t.toList.length + 1 ≤ f) :
    walk nf m (some root_) f (some (t.toList.headD root_)) = some t.toList :=
  loose_walk_suffix hrep hnd hnf t.toList [] rfl f hf

end loose

theorem base_node_move_apply (m : Mem) {n root_ : Nat} {lp : Ptr}
    (hr1 : (m root_).parent_ = some root_) (hr2 : (m root_).left_ = lp)
    (hr3 : (m root_).right_ = none) (hnr : n ≠ root_) (hl1 : lp ≠ some root_)
    (hl2 : lp ≠ some n) (y : Nat) :
    base_node_move m n root_ y =
      if y = root_ then ⟨none, none, none⟩
      else if y = n then ⟨some root_, lp, none⟩
      else if lp = some y then { m y with parent_ := some n }
      else m y := by
  have hrn : root_ ≠ n := Ne.symm hnr
  cases lp with
  | none =>
    by_cases h1 : y = root_
    · subst h1
      simp [base_node_move, hr1, hr2, hr3, relink_parent, is_left, is_right, hnr, hrn, unlink,
        set_parent]
    · by_cases h2 : y = n
      · subst h2
        simp [base_node_move, hr1, hr2, hr3, relink_parent, is_left, is_right, hnr, hrn,
          unlink, set_parent]
      · simp [base_node_move, hr1, hr2, hr3, relink_parent, is_left, is_right, hnr, hrn,
          unlink, set_parent, h1, h2]
  | some c =>
    have hcr : c ≠ root_ := fun e => hl1 (by rw [e])
    have hcn : c ≠ n := fun e => hl2 (by rw [e])
    have hrc : root_ ≠ c := Ne.symm hcr
    have hnc : n ≠ c := Ne.symm hcn
    by_cases h1 : y = root_
    · subst h1
      simp [base_node_move, hr1, hr2, hr3, relink_parent, is_left, is_right, hnr, hrn, unlink,
        set_parent, hcr, hcn, hrc, hnc]
    · by_cases h2 : y = n
      · subst h2
        simp [base_node_move, hr1, hr2, hr3, relink_parent, is_left, is_right, hnr, hrn,
          unlink, set_parent, hcr, hcn, hrc, hnc]
      · by_cases h3 : c = y
        · subst h3
          simp [base_node_move, hr1, hr2, hr3, relink_parent, is_left, is_right, hnr, hrn,
            unlink, set_parent, hcr, hcn, hrc, hnc]
        · have h4 : y ≠ c := Ne.symm h3
          simp [base_node_move, hr1, hr2, hr3, relink_parent, is_left, is_right, hnr, hrn,
            unlink, set_parent, hcr, hcn, hrc, hnc, h1, h2, h3, h4]

/-- The move constructor of `base_node` run on a sentinel: the tree hangs below the new
sentinel `n`, whose `parent_` is the address of the old one, and the old one is unlinked. -/
theorem base_node_move_sentinel {K : Type} {lt : K → K → Bool} {key : Nat → Option K}
    {root_ : Nat} {m : Mem} {t : Tree} (hi : IsIndex lt key root_ m t) {n : Nat}
    (hn : n ∉ root_ :: t.toList) :
    Rep (base_node_move m n root_) root_ (.node t n .nil) ∧
      base_node_move m n root_ root_ = ⟨none, none, none⟩ ∧
      (∀ y ∈ t.toList, (base_node_move m n root_ y).left_ = (m y).left_ ∧
        (base_node_move m n root_ y).right_ = (m y).right_) := by
  obtain ⟨hr1, hr2, hr3, hr4, _⟩ := hi.rep
  simp only [Tree.root] at hr3
  simp only [List.mem_cons, not_or] at hn
  obtain ⟨hnr, hnt⟩ := hn
  have hrt := hi.root_not_mem
  have hm0 := base_node_move_apply m hr1 hr2 hr3 hnr (Tree.root_ne_of_not_mem hrt)
    (Tree.root_ne_of_not_mem hnt)
  have hnd := hi.nodup_list
  refine ⟨⟨?_, ?_, ?_, ?_, trivial⟩, ?_, ?_⟩
  · rw [hm0]; simp [hnr]
  · rw [hm0]; simp [hnr]
  · rw [hm0]; simp [hnr, Tree.root]
  · cases t with
    | nil => trivial
    | node l c r =>
      have hch := Tree.nodup_root_not_mem_children hnd
      have hc : c ∈ (Tree.node l c r).toList := by simp [Tree.toList]
      have hcr : c ≠ root_ := fun e => hrt (e ▸ hc)
      have hcn : c ≠ n := fun e => hnt (e ▸ hc)
      have hmc : base_node_move m n root_ c = { m c with parent_ := some n } := by
        rw [hm0]; simp [hcr, hcn, Tree.root]
      refine Rep.reroot hr4 ?_ (by rw [hmc]) (by rw [hmc]) (by rw [hmc])
      intro y hy
      have hy2 : y ∈ (Tree.node l c r).toList := by
        simp only [Tree.toList, List.mem_append, List.mem_cons] at hy ⊢
        tauto
      have h1 : y ≠ root_ := fun e => hrt (e ▸ hy2)
      have h2 : y ≠ n := fun e => hnt (e ▸ hy2)
      have h3 : c ≠ y := fun e => hch y hy e.symm
      rw [hm0]; simp [h1, h2, Tree.root, h3]
  · rw [hm0]; simp
  · intro y hy
    have h1 : y ≠ root_ := fun e => hrt (e ▸ hy)
    have h2 : y ≠ n := fun e => hnt (e ▸ hy)
    rw [hm0]
    by_cases h3 : t.root = some y <;> simp [h1, h2, h3]

/-! ## Claim C17: move construction -/

theorem lsucc_getLast {l : List Nat} (hnd : l.Nodup) (d : Nat) {x : Nat}
    (hx : l.getLast? = some x) : lsucc l d x = d := by
  obtain ⟨pre, rfl⟩ := List.getLast?_eq_some_iff.mp hx
  have hxp : x ∉ pre := fun hp =>
    (List.nodup_append.mp hnd).2.2 hp (List.mem_singleton_self _)
  rw [lsucc_self_append _ _ _ hxp]
  rfl

theorem getLast_mem {l : List Nat} {x : Nat} (hx : l.getLast? = some x) : x ∈ l := by
  obtain ⟨pre, rfl⟩ := List.getLast?_eq_some_iff.mp hx
  simp

/-- One index after its sentinel has been move-constructed at `n`: the walk from the new
sentinel meets the old positions, and the successor of the last one is the new sentinel. -/
theorem move_index {K : Type} {lt : K → K → Bool} {key : Nat → Option K}
    {root_ : Nat} {m : Mem} {t : Tree} (hi : IsIndex lt key root_ m t) {n nf : Nat}
    (hn : n ∉ root_ :: t.toList) (hnf : t.toList.length + 1 ≤ nf) :
    (match map_begin nf (base_node_move m n root_) n with
      | none => none
      | some it => walk nf (base_node_move m n root_) (some n) nf it) = some t.toList ∧
    ∀ x, t.toList.getLast? = some x →
      next nf (base_node_move m n root_) x = some (some n) := by
  obtain ⟨hrep, _, _⟩ := base_node_move_sentinel hi hn
  have hnd : (n :: t.toList).Nodup :=
    List.nodup_cons.mpr ⟨fun hx => hn (List.mem_cons_of_mem _ hx), hi.nodup_list⟩
  refine ⟨?_, ?_⟩
  · rw [loose_begin_eq hrep hnf]
    exact loose_walk_eq hrep hnd hnf hnf
  · intro x hx
    rw [loose_next_eq hrep hnd (getLast_mem hx) (Nat.le_of_succ_le hnf),
      lsucc_getLast hi.nodup_list n hx]

section claim17

variable {L R : Type} {cl : L → L → Bool} {cr : R → R → Bool} {h : Heap L R} {src : bimap}

/-- Claim C17: after move-constructing `dst` from a reachable `src`, `dst.size()` is the
previous size of `src`; the left-order and the right-order iteration of `dst` visit the same
element nodes in the same order, with the same keys and paired values, as those of `src`
before the move; every position of an element still dereferences to the same key and paired
value; and incrementing the last position of either order yields the end position of `dst`. -/
theorem C17_move_construct_keeps_elements (hcl : StrictWeakOrder cl) (hcr : StrictWeakOrder cr)
    (hr : Reachable cl cr h src) :
    ∃ ps qs, left_positions h src = some ps ∧ right_positions h src = some qs ∧
      size (move_construct h src).2.1 = size src ∧
      left_positions (move_construct h src).1 (move_construct h src).2.1 = some ps ∧
      right_positions (move_construct h src).1 (move_construct h src).2.1 = some qs ∧
      left_pairs (move_construct h src).1 (move_construct h src).2.1 = left_pairs h src ∧
      right_pairs (move_construct h src).1 (move_construct h src).2.1 = right_pairs h src ∧
      (∃ ls, left_pairs h src = some ls) ∧ (∃ rs, right_pairs h src = some rs) ∧
      (∀ x, x ∈ ps ∨ x ∈ qs → ∃ k v, deref_left h (some x) = some k ∧
        get_value_left h (some x) = some v ∧
        deref_left (move_construct h src).1 (some x) = some k ∧
        get_value_left (move_construct h src).1 (some x) = some v ∧
        deref_right (move_construct h src).1 (some x) = some v ∧
        get_value_right (move_construct h src).1 (some x) = some k) ∧
      (∀ x, ps.getLast? = some x →
        incr_left (move_construct h src).1 (some x) = some (end_left (move_construct h src).2.1)) ∧
      (∀ x, qs.getLast? = some x →
        incr_right (move_construct h src).1 (some x) =
          some (end_right (move_construct h src).2.1)) := by
  obtain ⟨tl, tr, hi⟩ := hr.inv hcl hcr
  have hnl : h.brk ∉ src.root_ :: tl.toList := by
    intro hx
    rcases List.mem_cons.mp hx with e | hx
    · have := hi.root_bound; omega
    · have := hi.bound _ hx; omega
  have hnr : h.brk ∉ src.root_ :: tr.toList := by
    intro hx
    rcases List.mem_cons.mp hx with e | hx
    · have := hi.root_bound; omega
    · have := hi.bound _ ((hi.same _).mpr hx); omega
  have hfl : tl.toList.length + 1 ≤ h.brk + 1 + 1 := by have := hi.fuel_left; omega
  have hfr : tr.toList.length + 1 ≤ h.brk + 1 + 1 := by have := hi.fuel_right; omega
  obtain ⟨hl1, hl2⟩ := move_index hi.left hnl hfl
  obtain ⟨hr1, hr2⟩ := move_index hi.right hnr hfr
  have hpl : left_positions (move_construct h src).1 (move_construct h src).2.1 =
      some tl.toList := hl1
  have hpr : right_positions (move_construct h src).1 (move_construct h src).2.1 =
      some tr.toList := hr1
  refine ⟨tl.toList, tr.toList, hi.left_positions_eq, hi.right_positions_eq, rfl, hpl, hpr,
    ?_, ?_, hi.left_pairs_some, hi.right_pairs_some, ?_, ?_, ?_⟩
  · rw [hi.left_pairs_eq]
    simp only [left_pairs, hpl, Option.some_bind]
    exact read_all_congr (fun _ _ => rfl)
  · rw [hi.right_pairs_eq]
    simp only [right_pairs, hpr, Option.some_bind]
    exact read_all_congr (fun _ _ => rfl)
  · intro x hx
    have hxl : x ∈ tl.toList := hx.elim id (fun hq => (hi.same _).mpr hq)
    have hv := (hi.live x).mpr hxl
    obtain ⟨⟨k, v⟩, hkv⟩ := Option.isSome_iff_exists.mp hv
    refine ⟨k, v, ?_, ?_, ?_, ?_, ?_, ?_⟩ <;>
      simp [deref_left, get_value_left, deref_right, get_value_right, Heap.lkey, Heap.rkey,
        move_construct, hkv]
  · intro x hx
    exact hl2 x hx
  · intro x hx
    exact hr2 x hx

theorem C17_move_construct_keeps_elements_witness :
    (left_positions sample.1 sample.2 = some [3, 4, 1, 5, 2] ∧
      left_positions (move_construct sample.1 sample.2).1 (move_construct sample.1 sample.2).2.1
        = some [3, 4, 1, 5, 2] ∧
      incr_left (move_construct sample.1 sample.2).1 (some 2) = some (some 6) ∧
      end_left (move_construct sample.1 sample.2).2.1 = some 6) ∧
    ∃ ps qs, left_positions sample.1 sample.2 = some ps ∧
      right_positions sample.1 sample.2 = some qs ∧
      size (move_construct sample.1 sample.2).2.1 = size sample.2 ∧
      left_positions (move_construct sample.1 sample.2).1 (move_construct sample.1 sample.2).2.1
        = some ps ∧
      right_positions (move_construct sample.1 sample.2).1
        (move_construct sample.1 sample.2).2.1 = some qs ∧
      left_pairs (move_construct sample.1 sample.2).1 (move_construct sample.1 sample.2).2.1 =
        left_pairs sample.1 sample.2 ∧
      right_pairs (move_construct sample.1 sample.2).1 (move_construct sample.1 sample.2).2.1 =
        right_pairs sample.1 sample.2 ∧
      (∃ ls, left_pairs sample.1 sample.2 = some ls) ∧
      (∃ rs, right_pairs sample.1 sample.2 = some rs) ∧
      (∀ x, x ∈ ps ∨ x ∈ qs → ∃ k v, deref_left sample.1 (some x) = some k ∧
        get_value_left sample.1 (some x) = some v ∧
        deref_left (move_construct sample.1 sample.2).1 (some x) = some k ∧
        get_value_left (move_construct sample.1 sample.2).1 (some x) = some v ∧
        deref_right (move_construct sample.1 sample.2).1 (some x) = some v ∧
        get_value_right (move_construct sample.1 sample.2).1 (some x) = some k) ∧
      (∀ x, ps.getLast? = some x →
        incr_left (move_construct sample.1 sample.2).1 (some x) =
          some (end_left (move_construct sample.1 sample.2).2.1)) ∧
      (∀ x, qs.getLast? = some x →
        incr_right (move_construct sample.1 sample.2).1 (some x) =
          some (end_right (move_construct sample.1 sample.2).2.1)) :=
  ⟨⟨by decide, by decide, by decide, by decide⟩,
    C17_move_construct_keeps_elements nat_less_strict_weak nat_less_strict_weak
      reachable_sample⟩

end claim17

/-! ## The invariant of a bimap among other objects -/

section linv

variable {L R : Type} {cl : L → L → Bool} {cr : R → R → Bool}
variable {h : Heap L R} {b : bimap} {tl tr : Tree}

theorem Inv.toLInv (hi : Inv cl cr h b tl tr) : LInv cl cr h b tl tr where
  left := hi.left
  right := hi.right
  live := fun a ha => (hi.live a).mpr ha
  same := hi.same
  bound := hi.bound
  root_bound := hi.root_bound
  size_eq := hi.size_eq

theorem LInv.length_eq_loc (hi : LInv cl cr h b tl tr) : tr.toList.length = tl.toList.length := by
  have h1 : tl.toList.Perm tr.toList :=
    (List.perm_ext_iff_of_nodup hi.left.nodup_list hi.right.nodup_list).mpr hi.same
  exact h1.length_eq.symm

theorem LInv.fuel_left_loc (hi : LInv cl cr h b tl tr) : tl.toList.length + 1 ≤ h.brk := by
  have := length_le_of_nodup_bounded hi.left.nodup (n := h.brk) (by
    intro x hx
    rcases List.mem_cons.mp hx with e | hx
    · rw [e]; exact hi.root_bound
    · exact hi.bound x hx)
  simpa using this

theorem LInv.fuel_right_loc (hi : LInv cl cr h b tl tr) : tr.toList.length + 1 ≤ h.brk := by
  rw [hi.length_eq_loc]; exact hi.fuel_left_loc

theorem LInv.left_positions_eq_loc (hi : LInv cl cr h b tl tr) :
    left_positions h b = some tl.toList := by
  have hf := hi.fuel_left_loc
  simp only [left_positions, begin_left, end_left, Heap.fuel]
  rw [hi.left.begin_eq (by omega)]
  exact hi.left.walk_eq (by omega) (by omega)

theorem LInv.right_positions_eq_loc (hi : LInv cl cr h b tl tr) :
    right_positions h b = some tr.toList := by
  have hf := hi.fuel_right_loc
  simp only [right_positions, begin_right, end_right, Heap.fuel]
  rw [hi.right.begin_eq (by omega)]
  exact hi.right.walk_eq (by omega) (by omega)

theorem LInv.left_pairs_eq_loc (hi : LInv cl cr h b tl tr) :
    left_pairs h b = read_all h tl.toList := by
  simp [left_pairs, hi.left_positions_eq_loc]

theorem LInv.right_pairs_eq_loc (hi : LInv cl cr h b tl tr) :
    right_pairs h b = read_all h tr.toList := by
  simp [right_pairs, hi.right_positions_eq_loc]

theorem LInv.left_pairs_some_loc (hi : LInv cl cr h b tl tr) : ∃ ps, left_pairs h b = some ps := by
  rw [hi.left_pairs_eq_loc]
  exact read_all_some (fun a ha => hi.live a ha)

theorem LInv.right_pairs_some_loc (hi : LInv cl cr h b tl tr) :
    ∃ ps, right_pairs h b = some ps := by
  rw [hi.right_pairs_eq_loc]
  exact read_all_some (fun a ha => hi.live a ((hi.same a).mpr ha))

end linv

/-! ## `insert` and `erase` among other objects -/

section lstep

variable {L R : Type} {cl : L → L → Bool} {cr : R → R → Bool}
variable {h h1 : Heap L R} {b b1 : bimap} {tl tr : Tree}

theorem LInv.insert_fail_loc (hi : LInv cl cr h b tl tr) (l : L) (r : R)
    (hc : cmpf cl h.lkey b.root_ l (tl.locate (cmpf cl h.lkey b.root_ l) b.root_) = 0 ∨
      cmpf cr h.rkey b.root_ r (tr.locate (cmpf cr h.rkey b.root_ r) b.root_) = 0) :
    insert cl cr h b l r = some (end_left b, h, b) := by
  have hfl := hi.fuel_left_loc
  have hfr := hi.fuel_right_loc
  simp only [insert, Heap.fuel, hi.left.find_impl_eq l (show tl.toList.length + 1 ≤ h.brk + 1 by omega),
    hi.right.find_impl_eq r (show tr.toList.length + 1 ≤ h.brk + 1 by omega),
    hi.left.cmp_eq l (Tree.locate_mem _ tl b.root_),
    hi.right.cmp_eq r (Tree.locate_mem _ tr b.root_)]
  rcases hc with hc | hc
  · simp [hc]
  · simp only [hc, if_true]
    split_ifs <;> rfl

theorem LInv.insert_ok_loc (hcl : StrictWeakOrder cl) (hcr : StrictWeakOrder cr)
    (hi : LInv cl cr h b tl tr) (l : L) (r : R)
    (hc1 : cmpf cl h.lkey b.root_ l (tl.locate (cmpf cl h.lkey b.root_ l) b.root_) ≠ 0)
    (hc2 : cmpf cr h.rkey b.root_ r (tr.locate (cmpf cr h.rkey b.root_ r) b.root_) ≠ 0) :
    ∃ h1, insert cl cr h b l r = some (some h.brk, h1, ⟨b.root_, b.size_ + 1⟩) ∧
      LInv cl cr h1 ⟨b.root_, b.size_ + 1⟩ (tl.ins (cmpf cl h.lkey b.root_ l) h.brk)
        (tr.ins (cmpf cr h.rkey b.root_ r) h.brk) ∧
      h1.val = (fun x => if x = h.brk then some (l, r) else h.val x) ∧
      h1.brk = h.brk + 1 ∧
      (∀ y, y ∉ b.root_ :: tl.toList → y ≠ h.brk →
        h1.lnode y = h.lnode y ∧ h1.rnode y = h.rnode y) := by
  have hfl := hi.fuel_left_loc
  have hfr := hi.fuel_right_loc
  have hbl : h.brk ∉ b.root_ :: tl.toList := by
    intro hm
    rcases List.mem_cons.mp hm with e | hm
    · have := hi.root_bound; omega
    · have := hi.bound _ hm; omega
  have hbr : h.brk ∉ b.root_ :: tr.toList := by
    intro hm
    rcases List.mem_cons.mp hm with e | hm
    · have := hi.root_bound; omega
    · have := hi.bound _ ((hi.same _).mpr hm); omega
  have hnel : ∀ x ∈ b.root_ :: tl.toList, x ≠ h.brk := fun x hx e => hbl (e ▸ hx)
  have hner : ∀ x ∈ b.root_ :: tr.toList, x ≠ h.brk := fun x hx e => hbr (e ▸ hx)
  have hlocl : tl.locate (cmpf cl (h.alloc l r).2.lkey b.root_ l) b.root_ =
      tl.locate (cmpf cl h.lkey b.root_ l) b.root_ :=
    Tree.locate_congr tl _ (fun x hx =>
      cmpf_alloc_left h b.root_ l l r (hnel x (List.mem_cons_of_mem _ hx)))
  have hlocr : tr.locate (cmpf cr (h.alloc l r).2.rkey b.root_ r) b.root_ =
      tr.locate (cmpf cr h.rkey b.root_ r) b.root_ :=
    Tree.locate_congr tr _ (fun x hx =>
      cmpf_alloc_right h b.root_ l r r (hner x (List.mem_cons_of_mem _ hx)))
  have hinsl : tl.ins (cmpf cl (h.alloc l r).2.lkey b.root_ l) h.brk =
      tl.ins (cmpf cl h.lkey b.root_ l) h.brk :=
    Tree.ins_congr _ tl (fun x hx =>
      cmpf_alloc_left h b.root_ l l r (hnel x (List.mem_cons_of_mem _ hx)))
  have hinsr : tr.ins (cmpf cr (h.alloc l r).2.rkey b.root_ r) h.brk =
      tr.ins (cmpf cr h.rkey b.root_ r) h.brk :=
    Tree.ins_congr _ tr (fun x hx =>
      cmpf_alloc_right h b.root_ l r r (hner x (List.mem_cons_of_mem _ hx)))
  obtain ⟨el, il⟩ := IsIndex.insert_impl_spec hcl hi.left (h.alloc l r).2.lkey
    (a := h.brk) (k := l) hbl (by simp [Heap.lkey, Heap.alloc])
    (fun x hx => by simp [Heap.lkey, Heap.alloc, hx])
    (by
      rw [hlocl, cmpf_alloc_left h b.root_ l l r (hnel _ (Tree.locate_mem _ tl b.root_))]
      exact hc1)
  obtain ⟨er, ir⟩ := IsIndex.insert_impl_spec hcr hi.right (h.alloc l r).2.rkey
    (a := h.brk) (k := r) hbr (by simp [Heap.rkey, Heap.alloc])
    (fun x hx => by simp [Heap.rkey, Heap.alloc, hx])
    (by
      rw [hlocr, cmpf_alloc_right h b.root_ l r r (hner _ (Tree.locate_mem _ tr b.root_))]
      exact hc2)
  rw [hlocl] at el il
  rw [hlocr] at er ir
  rw [hinsl] at il
  rw [hinsr] at ir
  refine ⟨{ lnode := attach (cmpf cl (h.alloc l r).2.lkey b.root_ l) (construct h.lnode h.brk)
              (tl.locate (cmpf cl h.lkey b.root_ l) b.root_) h.brk
            rnode := attach (cmpf cr (h.alloc l r).2.rkey b.root_ r) (construct h.rnode h.brk)
              (tr.locate (cmpf cr h.rkey b.root_ r) b.root_) h.brk
            val := fun x => if x = h.brk then some (l, r) else h.val x
            brk := h.brk + 1 }, ?_, ?_, rfl, rfl, ?_⟩
  · simp only [insert, Heap.fuel,
      hi.left.find_impl_eq l (show tl.toList.length + 1 ≤ h.brk + 1 by omega),
      hi.right.find_impl_eq r (show tr.toList.length + 1 ≤ h.brk + 1 by omega),
      hi.left.cmp_eq l (Tree.locate_mem _ tl b.root_),
      hi.right.cmp_eq r (Tree.locate_mem _ tr b.root_), hc1, hc2, if_false]
    have el1 : insert_impl cl (h.alloc l r).2.lkey b.root_ (h.alloc l r).2.lnode
        (tl.locate (cmpf cl h.lkey b.root_ l) b.root_) (h.alloc l r).1 = _ := el
    have er1 : insert_impl cr (h.alloc l r).2.rkey b.root_ (h.alloc l r).2.rnode
        (tr.locate (cmpf cr h.rkey b.root_ r) b.root_) (h.alloc l r).1 = _ := er
    rw [el1, er1]
    rfl
  · exact
    { left := il
      right := ir
      live := by
        intro a ha
        rcases (Tree.mem_ins _ _ _ _).mp ha with e | e
        · simp [e]
        · have := hi.live a e
          by_cases hab : a = h.brk
          · simp [hab]
          · simpa [hab] using this
      same := by
        intro a
        rw [Tree.mem_ins, Tree.mem_ins, hi.same a]
      bound := by
        intro a ha
        rcases (Tree.mem_ins _ _ _ _).mp ha with e | e
        · simp [e]
        · have := hi.bound a e
          show a < h.brk + 1
          omega
      root_bound := by
        have := hi.root_bound
        show b.root_ < h.brk + 1
        omega
      size_eq := by
        rw [Tree.length_ins]
        simp [hi.size_eq] }
  · intro y hy hyb
    have hyl : y ≠ tl.locate (cmpf cl h.lkey b.root_ l) b.root_ :=
      fun e => hy (e ▸ Tree.locate_mem _ tl b.root_)
    have hyr : y ≠ tr.locate (cmpf cr h.rkey b.root_ r) b.root_ := by
      intro e
      apply hy
      rcases List.mem_cons.mp (e ▸ Tree.locate_mem _ tr b.root_) with e1 | e1
      · exact List.mem_cons.mpr (Or.inl e1)
      · exact List.mem_cons_of_mem _ ((hi.same _).mpr e1)
    constructor
    · show attach _ _ _ _ y = _
      rw [attach_frame _ _ hyl hyb]
      simp [construct, hyb]
    · show attach _ _ _ _ y = _
      rw [attach_frame _ _ hyr hyb]
      simp [construct, hyb]

theorem LInv.erase_left_ok_loc (hi : LInv cl cr h b tl tr) {x : Nat} (hx : x ∈ tl.toList) :
    ∃ h1, erase_left h b (some x) =
        some (some (lsucc tl.toList b.root_ x), h1, ⟨b.root_, b.size_ - 1⟩) ∧
      LInv cl cr h1 ⟨b.root_, b.size_ - 1⟩ (tl.erase x) (tr.erase x) ∧
      h1.val = (fun y => if y = x then none else h.val y) ∧ h1.brk = h.brk ∧
      (∀ y, y ∉ b.root_ :: tl.toList →
        h1.lnode y = h.lnode y ∧ h1.rnode y = h.rnode y) := by
  have hfl := hi.fuel_left_loc
  have hfr := hi.fuel_right_loc
  have hxr : x ∈ tr.toList := (hi.same x).mp hx
  obtain ⟨ml, el, il, fl⟩ := hi.left.erase_impl_spec hx (f := h.brk) (by omega)
  obtain ⟨mr, er, ir, fr⟩ := hi.right.erase_impl_spec hxr (f := h.brk) (by omega)
  obtain ⟨v, hv⟩ := Option.isSome_iff_exists.mp (hi.live x hx)
  have hsz : size_dec b.size_ = b.size_ - 1 := by
    have : b.size_ ≠ 0 := by
      rw [hi.size_eq]
      exact fun e => by simp [List.length_eq_zero.mp e] at hx
    simp [size_dec, this]
  have hxroot : x ≠ b.root_ := fun e => hi.left.root_not_mem (e ▸ hx)
  have hndl := hi.left.nodup_list
  have hndr := hi.right.nodup_list
  refine ⟨{ lnode := unlink ml x, rnode := unlink mr x,
            val := fun y => if y = x then none else h.val y, brk := h.brk }, ?_, ?_, rfl, rfl,
            ?_⟩
  · simp only [erase_left, Heap.fuel, el, flip, er, Heap.delete, hv, hsz]
  · exact
    { left := (il.congr_mem (unlink ml x) (fun y hy => by
          have : y ≠ x := by
            rcases List.mem_cons.mp hy with e | hy
            · rw [e]; exact Ne.symm hxroot
            · exact ((Tree.mem_erase hndl).mp hy).2
          simp [unlink, this])).congr_key (fun y hy => by
          have : y ≠ x := ((Tree.mem_erase hndl).mp hy).2
          simp [Heap.lkey, this])
      right := (ir.congr_mem (unlink mr x) (fun y hy => by
          have : y ≠ x := by
            rcases List.mem_cons.mp hy with e | hy
            · rw [e]; exact Ne.symm hxroot
            · exact ((Tree.mem_erase hndr).mp hy).2
          simp [unlink, this])).congr_key (fun y hy => by
          have : y ≠ x := ((Tree.mem_erase hndr).mp hy).2
          simp [Heap.rkey, this])
      live := by
        intro a ha
        have ha2 := (Tree.mem_erase hndl).mp ha
        have := hi.live a ha2.1
        simpa [ha2.2] using this
      same := by
        intro a
        rw [Tree.mem_erase hndl, Tree.mem_erase hndr, hi.same a]
      bound := fun a ha => hi.bound a ((Tree.mem_erase hndl).mp ha).1
      root_bound := hi.root_bound
      size_eq := by
        simp only [hi.size_eq]
        rw [Tree.erase_toList _ hndl]
        have h1 := List.Nodup.erase_eq_filter hndl x
        have h2 : List.filter (fun y => decide (y ≠ x)) tl.toList =
            List.filter (fun y => y != x) tl.toList := by
          congr 1
          funext y
          by_cases hy : y = x <;> simp [hy]
        rw [h2, ← h1, List.length_erase_of_mem hx] }
  · intro y hy
    simp only [List.mem_cons, not_or] at hy
    have hyx : y ≠ x := fun e => hy.2 (e ▸ hx)
    constructor
    · show unlink ml x y = _
      simp only [unlink, hyx, if_false]
      exact fl y hy.2 hy.1
    · show unlink mr x y = _
      simp only [unlink, hyx, if_false]
      exact fr y (fun e => hy.2 ((hi.same _).mpr e)) hy.1

/-- What a call on one bimap leaves alone. -/
theorem LInv.insert_step (hcl : StrictWeakOrder cl) (hcr : StrictWeakOrder cr)
    (hi : LInv cl cr h b tl tr) {l : L} {r : R} {it : Ptr}
    (he : insert cl cr h b l r = some (it, h1, b1)) :
    ∃ tl1 tr1, LInv cl cr h1 b1 tl1 tr1 ∧ b1.root_ = b.root_ ∧ h.brk ≤ h1.brk ∧
      (∀ x ∈ tl1.toList, x ∈ tl.toList ∨ x = h.brk) ∧
      (∀ y, y ∉ b.root_ :: tl.toList → y < h.brk →
        h1.lnode y = h.lnode y ∧ h1.rnode y = h.rnode y ∧ h1.val y = h.val y) := by
  by_cases hc : cmpf cl h.lkey b.root_ l (tl.locate (cmpf cl h.lkey b.root_ l) b.root_) = 0 ∨
      cmpf cr h.rkey b.root_ r (tr.locate (cmpf cr h.rkey b.root_ r) b.root_) = 0
  · rw [hi.insert_fail_loc l r hc] at he
    simp only [Option.some.injEq, Prod.mk.injEq] at he
    obtain ⟨_, rfl, rfl⟩ := he
    exact ⟨tl, tr, hi, rfl, le_refl _, fun x hx => Or.inl hx, fun y _ _ => ⟨rfl, rfl, rfl⟩⟩
  · simp only [not_or] at hc
    obtain ⟨h2, e, hi2, hv, hb, hfr⟩ := hi.insert_ok_loc hcl hcr l r hc.1 hc.2
    rw [e] at he
    simp only [Option.some.injEq, Prod.mk.injEq] at he
    obtain ⟨_, rfl, rfl⟩ := he
    refine ⟨_, _, hi2, rfl, by omega, fun x hx => ?_, fun y hy hyb => ?_⟩
    · rcases (Tree.mem_ins _ _ _ _).mp hx with e1 | e1
      · exact Or.inr e1
      · exact Or.inl e1
    · have hne : y ≠ h.brk := by omega
      obtain ⟨f1, f2⟩ := hfr y hy hne
      exact ⟨f1, f2, by rw [hv]; simp [hne]⟩

theorem LInv.erase_left_step (hi : LInv cl cr h b tl tr) {x : Nat} (hx : x ∈ tl.toList)
    {ret : Ptr} (he : erase_left h b (some x) = some (ret, h1, b1)) :
    ∃ tl1 tr1, LInv cl cr h1 b1 tl1 tr1 ∧ b1.root_ = b.root_ ∧ h.brk ≤ h1.brk ∧
      (∀ x ∈ tl1.toList, x ∈ tl.toList ∨ x = h.brk) ∧
      (∀ y, y ∉ b.root_ :: tl.toList → y < h.brk →
        h1.lnode y = h.lnode y ∧ h1.rnode y = h.rnode y ∧ h1.val y = h.val y) := by
  obtain ⟨h2, e, hi2, hv, hb, hfr⟩ := hi.erase_left_ok_loc hx
  rw [e] at he
  simp only [Option.some.injEq, Prod.mk.injEq] at he
  obtain ⟨_, rfl, rfl⟩ := he
  refine ⟨_, _, hi2, rfl, by omega, fun y hy => ?_, fun y hy _ => ?_⟩
  · exact Or.inl ((Tree.mem_erase hi.left.nodup_list).mp hy).1
  · obtain ⟨f1, f2⟩ := hfr y hy
    have hne : y ≠ x := fun e1 => hy (List.mem_cons_of_mem _ (e1 ▸ hx))
    exact ⟨f1, f2, by rw [hv]; simp [hne]⟩

theorem LInv.find_left_mem (hi : LInv cl cr h b tl tr) (k : L) {it : Ptr}
    (hf : find_left cl h b k = some it) (hne : it ≠ end_left b) :
    ∃ x, it = some x ∧ x ∈ tl.toList := by
  have hfl := hi.fuel_left_loc
  have e := hi.left.find_eq k (show tl.toList.length + 1 ≤ h.brk + 1 by omega)
  simp only [find_left, Heap.fuel] at hf
  rw [e] at hf
  simp only [Option.some.injEq] at hf
  subst hf
  split_ifs at hne ⊢ with hc
  · refine ⟨_, rfl, ?_⟩
    rcases List.mem_cons.mp (Tree.locate_mem (cmpf cl h.lkey b.root_ k) tl b.root_) with e1 | e1
    · rw [e1] at hne; exact absurd rfl hne
    · exact e1
  · exact absurd rfl hne

theorem LInv.find_right_mem (hi : LInv cl cr h b tl tr) (k : R) {it : Ptr}
    (hf : find_right cr h b k = some it) (hne : it ≠ end_right b) :
    ∃ x, it = some x ∧ x ∈ tl.toList := by
  have hfl := hi.fuel_right_loc
  have e := hi.right.find_eq k (show tr.toList.length + 1 ≤ h.brk + 1 by omega)
  simp only [find_right, Heap.fuel] at hf
  rw [e] at hf
  simp only [Option.some.injEq] at hf
  subst hf
  split_ifs at hne ⊢ with hc
  · refine ⟨_, rfl, ?_⟩
    rcases List.mem_cons.mp (Tree.locate_mem (cmpf cr h.rkey b.root_ k) tr b.root_) with e1 | e1
    · rw [e1] at hne; exact absurd rfl hne
    · exact (hi.same _).mpr e1
  · exact absurd rfl hne

end lstep

/-! ## Every reachable pair of bimaps satisfies the invariant -/

section reachable2

variable {L R : Type} {cl : L → L → Bool} {cr : R → R → Bool}
variable {h h1 : Heap L R} {a a1 b : bimap} {tla tra tlb trb : Tree}

theorem Inv2.symm (hi : Inv2 cl cr h a b tla tra tlb trb) :
    Inv2 cl cr h b a tlb trb tla tra where
  fst := hi.snd
  snd := hi.fst
  roots := Ne.symm hi.roots
  root_fst := hi.root_snd
  root_snd := hi.root_fst
  disj := fun x hx hxa => hi.disj x hxa hx

/-- A call on the first bimap that keeps its own invariant and writes only its own sentinel,
its own elements and fresh addresses keeps the invariant of the pair. -/
theorem Inv2.step (hi : Inv2 cl cr h a b tla tra tlb trb) {tla1 tra1 : Tree}
    (h1i : LInv cl cr h1 a1 tla1 tra1) (hroot : a1.root_ = a.root_) (hbrk : h.brk ≤ h1.brk)
    (hsub : ∀ x ∈ tla1.toList, x ∈ tla.toList ∨ x = h.brk)
    (hfr : ∀ y, y ∉ a.root_ :: tla.toList → y < h.brk →
      h1.lnode y = h.lnode y ∧ h1.rnode y = h.rnode y ∧ h1.val y = h.val y) :
    Inv2 cl cr h1 a1 b tla1 tra1 tlb trb := by
  have hout : ∀ y ∈ b.root_ :: tlb.toList, y ∉ a.root_ :: tla.toList ∧ y < h.brk := by
    intro y hy
    rcases List.mem_cons.mp hy with e | hy
    · subst e
      refine ⟨fun hm => ?_, hi.snd.root_bound⟩
      rcases List.mem_cons.mp hm with e1 | e1
      · exact hi.roots e1.symm
      · exact hi.root_snd e1
    · refine ⟨fun hm => ?_, hi.snd.bound y hy⟩
      rcases List.mem_cons.mp hm with e1 | e1
      · exact hi.root_fst (e1 ▸ hy)
      · exact hi.disj y e1 hy
  have houtr : ∀ y ∈ b.root_ :: trb.toList, y ∉ a.root_ :: tla.toList ∧ y < h.brk := by
    intro y hy
    apply hout
    rcases List.mem_cons.mp hy with e | hy
    · exact List.mem_cons.mpr (Or.inl e)
    · exact List.mem_cons_of_mem _ ((hi.snd.same y).mpr hy)
  refine
    { fst := h1i
      snd :=
        { left := (hi.snd.left.congr_mem h1.lnode (fun y hy =>
              (hfr y (hout y hy).1 (hout y hy).2).1)).congr_key (fun y hy => by
              have := (hfr y (hout y (List.mem_cons_of_mem _ hy)).1
                (hout y (List.mem_cons_of_mem _ hy)).2).2.2
              simp [Heap.lkey, this])
          right := (hi.snd.right.congr_mem h1.rnode (fun y hy =>
              (hfr y (houtr y hy).1 (houtr y hy).2).2.1)).congr_key (fun y hy => by
              have := (hfr y (houtr y (List.mem_cons_of_mem _ hy)).1
                (houtr y (List.mem_cons_of_mem _ hy)).2).2.2
              simp [Heap.rkey, this])
          live := fun y hy => by
            rw [(hfr y (hout y (List.mem_cons_of_mem _ hy)).1
              (hout y (List.mem_cons_of_mem _ hy)).2).2.2]
            exact hi.snd.live y hy
          same := hi.snd.same
          bound := fun y hy => lt_of_lt_of_le (hi.snd.bound y hy) hbrk
          root_bound := lt_of_lt_of_le hi.snd.root_bound hbrk
          size_eq := hi.snd.size_eq }
      roots := by rw [hroot]; exact hi.roots
      root_fst := by rw [hroot]; exact hi.root_fst
      root_snd := fun hm => by
        rcases hsub _ hm with e | e
        · exact hi.root_snd e
        · have := hi.snd.root_bound; omega
      disj := fun x hx hxb => by
        rcases hsub x hx with e | e
        · exact hi.disj x e hxb
        · have := hi.snd.bound x hxb; omega }

theorem Inv2.new {tl tr : Tree} (hi : Inv cl cr h a tl tr) :
    Inv2 cl cr (bimap_new h).1 a (bimap_new h).2 tl tr .nil .nil := by
  have hne : ∀ y ∈ a.root_ :: tl.toList, y ≠ h.brk := by
    intro y hy e
    rcases List.mem_cons.mp hy with e1 | e1
    · have := hi.root_bound; omega
    · have := hi.bound y e1; omega
  have hner : ∀ y ∈ a.root_ :: tr.toList, y ≠ h.brk := by
    intro y hy
    apply hne
    rcases List.mem_cons.mp hy with e | hy
    · exact List.mem_cons.mpr (Or.inl e)
    · exact List.mem_cons_of_mem _ ((hi.same y).mpr hy)
  refine
    { fst :=
        { left := hi.left.congr_mem _ (fun y hy => by simp [bimap_new, construct, hne y hy])
          right := hi.right.congr_mem _ (fun y hy => by simp [bimap_new, construct, hner y hy])
          live := fun y hy => (hi.live y).mpr hy
          same := hi.same
          bound := fun y hy => Nat.lt_succ_of_lt (hi.bound y hy)
          root_bound := Nat.lt_succ_of_lt hi.root_bound
          size_eq := hi.size_eq }
      snd :=
        { left := ⟨⟨by simp [bimap_new, construct], by simp [bimap_new, construct, Tree.root],
            by simp [bimap_new, construct, Tree.root], trivial, trivial⟩,
            by simp [Tree.toList], by simp [Tree.toList], by simp [Tree.toList]⟩
          right := ⟨⟨by simp [bimap_new, construct], by simp [bimap_new, construct, Tree.root],
            by simp [bimap_new, construct, Tree.root], trivial, trivial⟩,
            by simp [Tree.toList], by simp [Tree.toList], by simp [Tree.toList]⟩
          live := by simp [Tree.toList]
          same := by simp [Tree.toList]
          bound := by simp [Tree.toList]
          root_bound := by simp [bimap_new]
          size_eq := by simp [Tree.toList, bimap_new] }
      roots := by
        have := hi.root_bound
        simp only [bimap_new]
        omega
      root_fst := by simp [Tree.toList]
      root_snd := fun hm => by
        have := hi.bound _ hm
        simp [bimap_new] at this
      disj := by simp [Tree.toList] }

theorem Inv2.erase_left_key_step (hi : Inv2 cl cr h a b tla tra tlb trb) {l : L} {res : Bool}
    (he : erase_left_key cl h a l = some (res, h1, a1)) :
    ∃ tla tra tlb trb, Inv2 cl cr h1 a1 b tla tra tlb trb := by
  simp only [erase_left_key] at he
  cases hf : find_left cl h a l with
  | none => simp [hf] at he
  | some it =>
    simp only [hf] at he
    split_ifs at he with hend
    · simp only [Option.some.injEq, Prod.mk.injEq] at he
      obtain ⟨_, rfl, rfl⟩ := he
      exact ⟨tla, tra, tlb, trb, hi⟩
    · obtain ⟨x, rfl, hx⟩ := hi.fst.find_left_mem l hf hend
      cases hr : erase_left h a (some x) with
      | none => simp [hr] at he
      | some p =>
        obtain ⟨ret, h2, b2⟩ := p
        simp only [hr, Option.some.injEq, Prod.mk.injEq] at he
        obtain ⟨_, rfl, rfl⟩ := he
        obtain ⟨tl1, tr1, h1i, e1, e2, e3, e4⟩ := hi.fst.erase_left_step hx hr
        exact ⟨tl1, tr1, tlb, trb, hi.step h1i e1 e2 e3 e4⟩

theorem Inv2.erase_right_key_step (hi : Inv2 cl cr h a b tla tra tlb trb) {r : R} {res : Bool}
    (he : erase_right_key cr h a r = some (res, h1, a1)) :
    ∃ tla tra tlb trb, Inv2 cl cr h1 a1 b tla tra tlb trb := by
  simp only [erase_right_key] at he
  cases hf : find_right cr h a r with
  | none => simp [hf] at he
  | some it =>
    simp only [hf] at he
    split_ifs at he with hend
    · simp only [Option.some.injEq, Prod.mk.injEq] at he
      obtain ⟨_, rfl, rfl⟩ := he
      exact ⟨tla, tra, tlb, trb, hi⟩
    · obtain ⟨x, rfl, hx⟩ := hi.fst.find_right_mem r hf hend
      rw [erase_right_eq] at he
      cases hr : erase_left h a (some x) with
      | none => simp [hr] at he
      | some p =>
        obtain ⟨ret, h2, b2⟩ := p
        simp only [hr, Option.some.injEq, Prod.mk.injEq] at he
        obtain ⟨_, rfl, rfl⟩ := he
        obtain ⟨tl1, tr1, h1i, e1, e2, e3, e4⟩ := hi.fst.erase_left_step hx hr
        exact ⟨tl1, tr1, tlb, trb, hi.step h1i e1 e2 e3 e4⟩

theorem Reachable2.inv2 (hcl : StrictWeakOrder cl) (hcr : StrictWeakOrder cr)
    (hr : Reachable2 cl cr h a b) : ∃ tla tra tlb trb, Inv2 cl cr h a b tla tra tlb trb := by
  induction hr with
  | new hs =>
    obtain ⟨tl, tr, hi⟩ := hs.inv hcl hcr
    exact ⟨tl, tr, .nil, .nil, Inv2.new hi⟩
  | symm _ ih =>
    obtain ⟨tla, tra, tlb, trb, hi⟩ := ih
    exact ⟨tlb, trb, tla, tra, hi.symm⟩
  | insert l r _ he ih =>
    obtain ⟨tla, tra, tlb, trb, hi⟩ := ih
    obtain ⟨tl1, tr1, h1i, e1, e2, e3, e4⟩ := hi.fst.insert_step hcl hcr he
    exact ⟨tl1, tr1, tlb, trb, hi.step h1i e1 e2 e3 e4⟩
  | erase_left x _ hp hx he ih =>
    obtain ⟨tla, tra, tlb, trb, hi⟩ := ih
    rw [hi.fst.left_positions_eq_loc] at hp
    simp only [Option.some.injEq] at hp
    subst hp
    obtain ⟨tl1, tr1, h1i, e1, e2, e3, e4⟩ := hi.fst.erase_left_step hx he
    exact ⟨tl1, tr1, tlb, trb, hi.step h1i e1 e2 e3 e4⟩
  | erase_right x _ hp hx he ih =>
    obtain ⟨tla, tra, tlb, trb, hi⟩ := ih
    rw [hi.fst.right_positions_eq_loc] at hp
    simp only [Option.some.injEq] at hp
    subst hp
    rw [erase_right_eq] at he
    obtain ⟨tl1, tr1, h1i, e1, e2, e3, e4⟩ :=
      hi.fst.erase_left_step ((hi.fst.same x).mpr hx) he
    exact ⟨tl1, tr1, tlb, trb, hi.step h1i e1 e2 e3 e4⟩
  | erase_left_key l _ he ih =>
    obtain ⟨tla, tra, tlb, trb, hi⟩ := ih
    exact hi.erase_left_key_step he
  | erase_right_key r _ he ih =>
    obtain ⟨tla, tra, tlb, trb, hi⟩ := ih
    exact hi.erase_right_key_step he

theorem reachable2_insert_all (ps : List (Nat × Nat)) (b : bimap) :
    ∀ s : Heap Nat Nat × bimap, Reachable2 nat_less nat_less s.1 s.2 b →
      Reachable2 nat_less nat_less (insert_all s ps).1 (insert_all s ps).2 b := by
  induction ps with
  | nil => intro s hs; exact hs
  | cons p ps ih =>
    intro s hs
    simp only [insert_all]
    cases he : insert nat_less nat_less s.1 s.2 p.1 p.2 with
    | none => exact hs
    | some res =>
      obtain ⟨it, h1, b1⟩ := res
      exact ih (h1, b1) (Reachable2.insert p.1 p.2 hs he)

theorem reachable2_insert_both (xs ys : List (Nat × Nat)) :
    Reachable2 nat_less nat_less (insert_both xs ys).1 (insert_both xs ys).2.1
      (insert_both xs ys).2.2 :=
  (reachable2_insert_all ys _ _
    (Reachable2.new (reachable_insert_all xs _ Reachable.empty)).symm).symm

end reachable2

/-! ## `intrusive_map::swap` -/

theorem map_swap_apply (m : Mem) {ra rb : Nat} {la lb : Ptr} (hla : (m ra).left_ = la)
    (hlb : (m rb).left_ = lb) (hab : ra ≠ rb) (h1 : la ≠ some ra) (h2 : la ≠ some rb)
    (h3 : lb ≠ some ra) (h4 : lb ≠ some rb) (h5 : ∀ c, la = some c → lb ≠ some c) (y : Nat) :
    map_swap m ra rb y =
      if y = ra then { m ra with left_ := lb }
      else if y = rb then { m rb with left_ := la }
      else if lb = some y then { m y with parent_ := some ra }
      else if la = some y then { m y with parent_ := some rb }
      else m y := by
  have hba : rb ≠ ra := Ne.symm hab
  cases la with
  | none =>
    cases lb with
    | none =>
      by_cases e1 : y = ra
      · subst e1
        simp [map_swap, insert_left, set_left, set_parent, hla, hlb, hab, hba]
      · by_cases e2 : y = rb
        · subst e2
          simp [map_swap, insert_left, set_left, set_parent, hla, hlb, hab, hba]
        · simp [map_swap, insert_left, set_left, set_parent, hla, hlb, hab, hba, e1, e2]
    | some d =>
      have hda : d ≠ ra := fun e => h3 (by rw [e])
      have hdb : d ≠ rb := fun e => h4 (by rw [e])
      have had : ra ≠ d := Ne.symm hda
      have hbd : rb ≠ d := Ne.symm hdb
      by_cases e1 : y = ra
      · subst e1
        simp [map_swap, insert_left, set_left, set_parent, hla, hlb, hab, hba, hda, hdb, had,
          hbd]
      · by_cases e2 : y = rb
        · subst e2
          simp [map_swap, insert_left, set_left, set_parent, hla, hlb, hab, hba, hda, hdb,
            had, hbd]
        · by_cases e3 : d = y
          · subst e3
            simp [map_swap, insert_left, set_left, set_parent, hla, hlb, hab, hba, hda, hdb,
              had, hbd]
          · have e4 : y ≠ d := Ne.symm e3
            simp [map_swap, insert_left, set_left, set_parent, hla, hlb, hab, hba, hda, hdb,
              had, hbd, e1, e2, e3, e4]
  | some c =>
    have hca : c ≠ ra := fun e => h1 (by rw [e])
    have hcb : c ≠ rb := fun e => h2 (by rw [e])
    have hac : ra ≠ c := Ne.symm hca
    have hbc : rb ≠ c := Ne.symm hcb
    cases lb with
    | none =>
      by_cases e1 : y = ra
      · subst e1
        simp [map_swap, insert_left, set_left, set_parent, hla, hlb, hab, hba, hca, hcb, hac,
          hbc]
      · by_cases e2 : y = rb
        · subst e2
          simp [map_swap, insert_left, set_left, set_parent, hla, hlb, hab, hba, hca, hcb,
            hac, hbc]
        · by_cases e3 : c = y
          · subst e3
            simp [map_swap, insert_left, set_left, set_parent, hla, hlb, hab, hba, hca, hcb,
              hac, hbc]
          · have e4 : y ≠ c := Ne.symm e3
            simp [map_swap, insert_left, set_left, set_parent, hla, hlb, hab, hba, hca, hcb,
              hac, hbc, e1, e2, e3, e4]
    | some d =>
      have hda : d ≠ ra := fun e => h3 (by rw [e])
      have hdb : d ≠ rb := fun e => h4 (by rw [e])
      have had : ra ≠ d := Ne.symm hda
      have hbd : rb ≠ d := Ne.symm hdb
      have hdc : d ≠ c := fun e => h5 c rfl (by rw [e])
      have hcd : c ≠ d := Ne.symm hdc
      by_cases e1 : y = ra
      · subst e1
        simp [map_swap, insert_left, set_left, set_parent, hla, hlb, hab, hba, hca, hcb, hac,
          hbc, hda, hdb, had, hbd, hdc, hcd]
      · by_cases e2 : y = rb
        · subst e2
          simp [map_swap, insert_left, set_left, set_parent, hla, hlb, hab, hba, hca, hcb,
            hac, hbc, hda, hdb, had, hbd, hdc, hcd]
        · by_cases e3 : d = y
          · subst e3
            simp [map_swap, insert_left, set_left, set_parent, hla, hlb, hab, hba, hca, hcb,
              hac, hbc, hda, hdb, had, hbd, hdc, hcd]
          · have e4 : y ≠ d := Ne.symm e3
            by_cases e5 : c = y
            · subst e5
              simp [map_swap, insert_left, set_left, set_parent, hla, hlb, hab, hba, hca, hcb,
                hac, hbc, hda, hdb, had, hbd, hdc, hcd]
            · have e6 : y ≠ c := Ne.symm e5
              simp [map_swap, insert_left, set_left, set_parent, hla, hlb, hab, hba, hca,
                hcb, hac, hbc, hda, hdb, had, hbd, hdc, hcd, e1, e2, e3, e4, e5, e6]

section swap_index

variable {K : Type} {lt : K → K → Bool} {key : Nat → Option K} {m : Mem} {ra rb : Nat}
variable {ta tb : Tree}

/-- The links after `swap`, node by node. -/
theorem map_swap_eq (hia : IsIndex lt key ra m ta) (hib : IsIndex lt key rb m tb)
    (hab : ra ≠ rb) (h1 : ra ∉ tb.toList) (h2 : rb ∉ ta.toList)
    (hd : ∀ x ∈ ta.toList, x ∉ tb.toList) (y : Nat) :
    map_swap m ra rb y =
      if y = ra then { m ra with left_ := tb.root }
      else if y = rb then { m rb with left_ := ta.root }
      else if tb.root = some y then { m y with parent_ := some ra }
      else if ta.root = some y then { m y with parent_ := some rb }
      else m y :=
  map_swap_apply m hia.rep.2.1 hib.rep.2.1 hab (Tree.root_ne_of_not_mem hia.root_not_mem)
    (Tree.root_ne_of_not_mem h2) (Tree.root_ne_of_not_mem h1)
    (Tree.root_ne_of_not_mem hib.root_not_mem)
    (fun c hc e => hd c (Tree.root_mem hc) (Tree.root_mem e)) y

/-- The tree that hung below `rb` hangs below `ra` after `swap`. -/
theorem map_swap_takes (hia : IsIndex lt key ra m ta) (hib : IsIndex lt key rb m tb)
    (hab : ra ≠ rb) (h1 : ra ∉ tb.toList) (h2 : rb ∉ ta.toList)
    (hd : ∀ x ∈ ta.toList, x ∉ tb.toList) :
    IsIndex lt key ra (map_swap m ra rb) tb := by
  have hm := map_swap_eq hia hib hab h1 h2 hd
  obtain ⟨ha1, ha2, ha3, _, _⟩ := hia.rep
  refine ⟨⟨?_, ?_, ?_, ?_, trivial⟩, ?_, hib.keyed, hib.sorted⟩
  · rw [hm ra]; simpa using ha1
  · rw [hm ra]; simp
  · rw [hm ra]; simpa using ha3
  · have hrb := hib.rep_tree
    cases tb with
    | nil => trivial
    | node l c r =>
      have hc : c ∈ (Tree.node l c r).toList := by simp [Tree.toList]
      have hca : c ≠ ra := fun e => h1 (e ▸ hc)
      have hcb : c ≠ rb := fun e => hib.root_not_mem (e ▸ hc)
      have hmc : map_swap m ra rb c = { m c with parent_ := some ra } := by
        rw [hm c, if_neg hca, if_neg hcb, if_pos (show (Tree.node l c r).root = some c from rfl)]
      refine Rep.reroot hrb (fun x hx => ?_) (by rw [hmc]) (by rw [hmc]) (by rw [hmc])
      have hxt : x ∈ (Tree.node l c r).toList := by
        simp only [Tree.toList, List.mem_append, List.mem_cons] at hx ⊢
        tauto
      have hxa : x ≠ ra := fun e => h1 (e ▸ hxt)
      have hxb : x ≠ rb := fun e => hib.root_not_mem (e ▸ hxt)
      have hxc : x ≠ c := Tree.nodup_root_not_mem_children hib.nodup_list x hx
      have hxr : ta.root ≠ some x := fun e => hd x (Tree.root_mem e) hxt
      have hxq : (Tree.node l c r).root ≠ some x := by simp [Tree.root, Ne.symm hxc]
      rw [hm x, if_neg hxa, if_neg hxb, if_neg hxq, if_neg hxr]
  · exact List.nodup_cons.mpr ⟨h1, hib.nodup_list⟩

/-- The tree that hung below `ra` hangs below `rb` after `swap`. -/
theorem map_swap_gives (hia : IsIndex lt key ra m ta) (hib : IsIndex lt key rb m tb)
    (hab : ra ≠ rb) (h1 : ra ∉ tb.toList) (h2 : rb ∉ ta.toList)
    (hd : ∀ x ∈ ta.toList, x ∉ tb.toList) :
    IsIndex lt key rb (map_swap m ra rb) ta := by
  have hm := map_swap_eq hia hib hab h1 h2 hd
  obtain ⟨hb1, hb2, hb3, _, _⟩ := hib.rep
  have hba : rb ≠ ra := Ne.symm hab
  refine ⟨⟨?_, ?_, ?_, ?_, trivial⟩, ?_, hia.keyed, hia.sorted⟩
  · rw [hm rb]; simpa [hba] using hb1
  · rw [hm rb]; simp [hba]
  · rw [hm rb]; simpa [hba] using hb3
  · have hra := hia.rep_tree
    cases ta with
    | nil => trivial
    | node l c r =>
      have hc : c ∈ (Tree.node l c r).toList := by simp [Tree.toList]
      have hca : c ≠ ra := fun e => hia.root_not_mem (e ▸ hc)
      have hcb : c ≠ rb := fun e => h2 (e ▸ hc)
      have hcr : tb.root ≠ some c := fun e => hd c hc (Tree.root_mem e)
      have hmc : map_swap m ra rb c = { m c with parent_ := some rb } := by
        rw [hm c, if_neg hca, if_neg hcb, if_neg hcr,
          if_pos (show (Tree.node l c r).root = some c from rfl)]
      refine Rep.reroot hra (fun x hx => ?_) (by rw [hmc]) (by rw [hmc]) (by rw [hmc])
      have hxt : x ∈ (Tree.node l c r).toList := by
        simp only [Tree.toList, List.mem_append, List.mem_cons] at hx ⊢
        tauto
      have hxa : x ≠ ra := fun e => hia.root_not_mem (e ▸ hxt)
      have hxb : x ≠ rb := fun e => h2 (e ▸ hxt)
      have hxc : x ≠ c := Tree.nodup_root_not_mem_children hia.nodup_list x hx
      have hxr : tb.root ≠ some x := fun e => hd x hxt (Tree.root_mem e)
      have hxq : (Tree.node l c r).root ≠ some x := by simp [Tree.root, Ne.symm hxc]
      rw [hm x, if_neg hxa, if_neg hxb, if_neg hxr, if_neg hxq]
  · exact List.nodup_cons.mpr ⟨h2, hia.nodup_list⟩

/-- Swapping twice restores every link. -/
theorem map_swap_twice (hia : IsIndex lt key ra m ta) (hib : IsIndex lt key rb m tb)
    (hab : ra ≠ rb) (h1 : ra ∉ tb.toList) (h2 : rb ∉ ta.toList)
    (hd : ∀ x ∈ ta.toList, x ∉ tb.toList) :
    map_swap (map_swap m ra rb) ra rb = m := by
  have hm := map_swap_eq hia hib hab h1 h2 hd
  have hia1 := map_swap_takes hia hib hab h1 h2 hd
  have hib1 := map_swap_gives hia hib hab h1 h2 hd
  have hm1 := map_swap_eq hia1 hib1 hab hia.root_not_mem hib.root_not_mem
    (fun x hx hxa => hd x hxa hx)
  have hba : rb ≠ ra := Ne.symm hab
  funext y
  rw [hm1 y]
  by_cases e1 : y = ra
  · subst e1
    rw [hm y]
    simp only [if_true]
    have := hia.rep.2.1
    cases hy : m y
    simp [hy] at this ⊢
    exact this.symm
  · by_cases e2 : y = rb
    · subst e2
      rw [hm y]
      simp only [e1, if_false, if_true]
      have := hib.rep.2.1
      cases hy : m y
      simp [hy] at this ⊢
      exact this.symm
    · simp only [e1, e2, if_false]
      by_cases e3 : ta.root = some y
      · have hyt := Tree.root_mem e3
        have e4 : tb.root ≠ some y := fun e => hd y hyt (Tree.root_mem e)
        rw [hm y]
        simp only [e1, e2, e3, e4, if_false, if_true]
        have hp : (m y).parent_ = some ra := by
          have hrep := hia.rep_tree
          cases ta with
          | nil => simp [Tree.root] at e3
          | node l c r =>
            simp only [Tree.root, Option.some.injEq] at e3
            subst e3
            exact hrep.1
        cases hy : m y
        simp [hy] at hp ⊢
        exact hp.symm
      · simp only [e3, if_false]
        by_cases e4 : tb.root = some y
        · rw [hm y]
          simp only [e1, e2, e4, if_false, if_true]
          have hp : (m y).parent_ = some rb := by
            have hrep := hib.rep_tree
            cases tb with
            | nil => simp [Tree.root] at e4
            | node l c r =>
              simp only [Tree.root, Option.some.injEq] at e4
              subst e4
              exact hrep.1
          cases hy : m y
          simp [hy] at hp ⊢
          exact hp.symm
        · rw [hm y]
          simp only [e1, e2, e3, e4, if_false]

end swap_index

/-! ## Claim C19: `swap` -/

theorem IsIndex.root_parent {K : Type} {lt : K → K → Bool} {key : Nat → Option K}
    {root_ : Nat} {m : Mem} {t : Tree} (hi : IsIndex lt key root_ m t) {c : Nat}
    (hc : (m root_).left_ = some c) : (m c).parent_ = some root_ := by
  have h1 := hi.rep.2.1
  have h2 := hi.rep_tree
  rw [hc] at h1
  cases t with
  | nil => simp [Tree.root] at h1
  | node l p r =>
    simp only [Tree.root, Option.some.injEq] at h1
    subst h1
    exact h2.1

section claim19

variable {L R : Type} {cl : L → L → Bool} {cr : R → R → Bool} {h : Heap L R} {a b : bimap}

theorem Inv2.swap {tla tra tlb trb : Tree} (hi : Inv2 cl cr h a b tla tra tlb trb) :
    Inv2 cl cr (swap h a b).1 (swap h a b).2.1 (swap h a b).2.2 tlb trb tla tra ∧
      swap (swap h a b).1 (swap h a b).2.1 (swap h a b).2.2 = (h, a, b) := by
  have hra : a.root_ ∉ trb.toList := fun e => hi.root_fst ((hi.snd.same _).mpr e)
  have hrb : b.root_ ∉ tra.toList := fun e => hi.root_snd ((hi.fst.same _).mpr e)
  have hdr : ∀ x ∈ tra.toList, x ∉ trb.toList := fun x hx e =>
    hi.disj x ((hi.fst.same _).mpr hx) ((hi.snd.same _).mpr e)
  refine ⟨?_, ?_⟩
  · exact
    { fst :=
        { left := map_swap_takes hi.fst.left hi.snd.left hi.roots hi.root_fst hi.root_snd
            hi.disj
          right := map_swap_takes hi.fst.right hi.snd.right hi.roots hra hrb hdr
          live := hi.snd.live
          same := hi.snd.same
          bound := hi.snd.bound
          root_bound := hi.fst.root_bound
          size_eq := hi.snd.size_eq }
      snd :=
        { left := map_swap_gives hi.fst.left hi.snd.left hi.roots hi.root_fst hi.root_snd
            hi.disj
          right := map_swap_gives hi.fst.right hi.snd.right hi.roots hra hrb hdr
          live := hi.fst.live
          same := hi.fst.same
          bound := hi.fst.bound
          root_bound := hi.snd.root_bound
          size_eq := hi.fst.size_eq }
      roots := hi.roots
      root_fst := hi.fst.left.root_not_mem
      root_snd := hi.snd.left.root_not_mem
      disj := fun x hx hxa => hi.disj x hxa hx }
  · have e1 := map_swap_twice hi.fst.left hi.snd.left hi.roots hi.root_fst hi.root_snd hi.disj
    have e2 := map_swap_twice hi.fst.right hi.snd.right hi.roots hra hrb hdr
    simp only [Bimap.swap, e1, e2]

/-- Claim C19: for two reachable bimaps `a` and `b` of one program, `a.swap(b)` leaves both
objects at their addresses (the first result is the object with the sentinel of `a`, the
second the one with the sentinel of `b`); after it the bimap `a` has the positions, the pairs
in both orders and the size that `b` had, and `b` has those that `a` had; the walks of both
return; both are well formed, each sentinel is its own parent and is the parent of the root
below it in both trees; and a second `swap` restores the heap and both bimaps. -/
theorem C19_swap_exchanges (hcl : StrictWeakOrder cl) (hcr : StrictWeakOrder cr)
    (hr : Reachable2 cl cr h a b) :
    ((swap h a b).2.1.root_ = a.root_ ∧ (swap h a b).2.2.root_ = b.root_) ∧
    (left_positions (swap h a b).1 (swap h a b).2.1 = left_positions h b ∧
      right_positions (swap h a b).1 (swap h a b).2.1 = right_positions h b ∧
      left_pairs (swap h a b).1 (swap h a b).2.1 = left_pairs h b ∧
      right_pairs (swap h a b).1 (swap h a b).2.1 = right_pairs h b ∧
      size (swap h a b).2.1 = size b) ∧
    (left_positions (swap h a b).1 (swap h a b).2.2 = left_positions h a ∧
      right_positions (swap h a b).1 (swap h a b).2.2 = right_positions h a ∧
      left_pairs (swap h a b).1 (swap h a b).2.2 = left_pairs h a ∧
      right_pairs (swap h a b).1 (swap h a b).2.2 = right_pairs h a ∧
      size (swap h a b).2.2 = size a) ∧
    ((∃ ps, left_pairs h a = some ps) ∧ (∃ ps, right_pairs h a = some ps) ∧
      (∃ ps, left_pairs h b = some ps) ∧ (∃ ps, right_pairs h b = some ps)) ∧
    (∃ tla tra tlb trb,
      Inv2 cl cr (swap h a b).1 (swap h a b).2.1 (swap h a b).2.2 tla tra tlb trb) ∧
    (∀ r ∈ [(swap h a b).2.1.root_, (swap h a b).2.2.root_],
      ((swap h a b).1.lnode r).parent_ = some r ∧ ((swap h a b).1.rnode r).parent_ = some r ∧
      (∀ c, ((swap h a b).1.lnode r).left_ = some c →
        ((swap h a b).1.lnode c).parent_ = some r) ∧
      (∀ c, ((swap h a b).1.rnode r).left_ = some c →
        ((swap h a b).1.rnode c).parent_ = some r)) ∧
    swap (swap h a b).1 (swap h a b).2.1 (swap h a b).2.2 = (h, a, b) := by
  obtain ⟨tla, tra, tlb, trb, hi⟩ := hr.inv2 hcl hcr
  obtain ⟨hs, htwice⟩ := hi.swap
  have hv : ∀ xs, read_all (swap h a b).1 xs = read_all h xs :=
    fun xs => read_all_congr (fun _ _ => rfl)
  refine ⟨⟨rfl, rfl⟩, ⟨?_, ?_, ?_, ?_, rfl⟩, ⟨?_, ?_, ?_, ?_, rfl⟩,
    ⟨hi.fst.left_pairs_some_loc, hi.fst.right_pairs_some_loc, hi.snd.left_pairs_some_loc,
      hi.snd.right_pairs_some_loc⟩, ⟨_, _, _, _, hs⟩, ?_, htwice⟩
  · rw [hs.fst.left_positions_eq_loc, hi.snd.left_positions_eq_loc]
  · rw [hs.fst.right_positions_eq_loc, hi.snd.right_positions_eq_loc]
  · rw [hs.fst.left_pairs_eq_loc, hi.snd.left_pairs_eq_loc, hv]
  · rw [hs.fst.right_pairs_eq_loc, hi.snd.right_pairs_eq_loc, hv]
  · rw [hs.snd.left_positions_eq_loc, hi.fst.left_positions_eq_loc]
  · rw [hs.snd.right_positions_eq_loc, hi.fst.right_positions_eq_loc]
  · rw [hs.snd.left_pairs_eq_loc, hi.fst.left_pairs_eq_loc, hv]
  · rw [hs.snd.right_pairs_eq_loc, hi.fst.right_pairs_eq_loc, hv]
  · intro r hr
    simp only [List.mem_cons, List.mem_singleton, List.not_mem_nil, or_false] at hr
    rcases hr with e | e
    · subst e
      exact ⟨hs.fst.left.rep.1, hs.fst.right.rep.1, fun c hc => hs.fst.left.root_parent hc,
        fun c hc => hs.fst.right.root_parent hc⟩
    · subst e
      exact ⟨hs.snd.left.rep.1, hs.snd.right.rep.1, fun c hc => hs.snd.left.root_parent hc,
        fun c hc => hs.snd.right.root_parent hc⟩

theorem C19_swap_exchanges_witness :
    (left_pairs duo.1 duo.2.1 = some [(5, 0), (10, 1)] ∧
      left_pairs duo.1 duo.2.2 = some [(1, 20), (2, 10), (3, 30)] ∧
      left_pairs (swap duo.1 duo.2.1 duo.2.2).1 (swap duo.1 duo.2.1 duo.2.2).2.1 =
        some [(1, 20), (2, 10), (3, 30)] ∧
      right_pairs (swap duo.1 duo.2.1 duo.2.2).1 (swap duo.1 duo.2.1 duo.2.2).2.2 =
        some [(5, 0), (10, 1)] ∧
      size (swap duo.1 duo.2.1 duo.2.2).2.1 = 3 ∧ size (swap duo.1 duo.2.1 duo.2.2).2.2 = 2 ∧
      duo.2.1.root_ = 0 ∧ duo.2.2.root_ = 3 ∧
      (swap duo.1 duo.2.1 duo.2.2).2.1.root_ = 0 ∧
      (swap duo.1 duo.2.1 duo.2.2).2.2.root_ = 3) ∧
    (((swap duo.1 duo.2.1 duo.2.2).2.1.root_ = duo.2.1.root_ ∧
      (swap duo.1 duo.2.1 duo.2.2).2.2.root_ = duo.2.2.root_) ∧
    (left_positions (swap duo.1 duo.2.1 duo.2.2).1 (swap duo.1 duo.2.1 duo.2.2).2.1 =
        left_positions duo.1 duo.2.2 ∧
      right_positions (swap duo.1 duo.2.1 duo.2.2).1 (swap duo.1 duo.2.1 duo.2.2).2.1 =
        right_positions duo.1 duo.2.2 ∧
      left_pairs (swap duo.1 duo.2.1 duo.2.2).1 (swap duo.1 duo.2.1 duo.2.2).2.1 =
        left_pairs duo.1 duo.2.2 ∧
      right_pairs (swap duo.1 duo.2.1 duo.2.2).1 (swap duo.1 duo.2.1 duo.2.2).2.1 =
        right_pairs duo.1 duo.2.2 ∧
      size (swap duo.1 duo.2.1 duo.2.2).2.1 = size duo.2.2) ∧
    (left_positions (swap duo.1 duo.2.1 duo.2.2).1 (swap duo.1 duo.2.1 duo.2.2).2.2 =
        left_positions duo.1 duo.2.1 ∧
      right_positions (swap duo.1 duo.2.1 duo.2.2).1 (swap duo.1 duo.2.1 duo.2.2).2.2 =
        right_positions duo.1 duo.2.1 ∧
      left_pairs (swap duo.1 duo.2.1 duo.2.2).1 (swap duo.1 duo.2.1 duo.2.2).2.2 =
        left_pairs duo.1 duo.2.1 ∧
      right_pairs (swap duo.1 duo.2.1 duo.2.2).1 (swap duo.1 duo.2.1 duo.2.2).2.2 =
        right_pairs duo.1 duo.2.1 ∧
      size (swap duo.1 duo.2.1 duo.2.2).2.2 = size duo.2.1) ∧
    swap (swap duo.1 duo.2.1 duo.2.2).1 (swap duo.1 duo.2.1 duo.2.2).2.1
      (swap duo.1 duo.2.1 duo.2.2).2.2 = (duo.1, duo.2.1, duo.2.2)) :=
  ⟨⟨by decide, by decide, by decide, by decide, by decide, by decide, by decide, by decide,
      by decide, by decide⟩,
    (C19_swap_exchanges nat_less_strict_weak nat_less_strict_weak
      (reachable2_insert_both [(10, 1), (5, 0)] [(1, 20), (2, 10), (3, 30)])).1,
    (C19_swap_exchanges nat_less_strict_weak nat_less_strict_weak
      (reachable2_insert_both [(10, 1), (5, 0)] [(1, 20), (2, 10), (3, 30)])).2.1,
    (C19_swap_exchanges nat_less_strict_weak nat_less_strict_weak
      (reachable2_insert_both [(10, 1), (5, 0)] [(1, 20), (2, 10), (3, 30)])).2.2.1,
    (C19_swap_exchanges nat_less_strict_weak nat_less_strict_weak
      (reachable2_insert_both [(10, 1), (5, 0)] [(1, 20), (2, 10), (3, 30)])).2.2.2.2.2.2⟩

end claim19

/-! ## The loop of `operator==` -/

section equality_loop

variable {L R : Type} [DecidableEq L] [DecidableEq R]
variable {cl cl2 : L → L → Bool} {cr cr2 : R → R → Bool} {h : Heap L R} {a b : bimap}
variable {tla tra tlb trb : Tree}

/-- The loop of `operator==` started at two positions with equally many elements left.  The
two bimaps may order their keys by different comparators. -/
theorem eq_loop_spec (hia : LInv cl cr h a tla tra) (hib : LInv cl2 cr2 h b tlb trb)
    (sa : List Nat) :
    ∀ (sb prea preb : List Nat), prea ++ sa = tla.toList → preb ++ sb = tlb.toList →
      sa.length = sb.length → ∀ f, sa.length + 1 ≤ f →
      ∀ pa pb, read_all h sa = some pa → read_all h sb = some pb →
        eq_loop h a b f (some (sa.headD a.root_)) (some (sb.headD b.root_)) =
          some (decide (pa = pb)) := by
  induction sa with
  | nil =>
    intro sb prea preb _ _ hlen f hf pa pb hpa hpb
    have hsb : sb = [] := List.length_eq_zero.mp hlen.symm
    subst hsb
    obtain ⟨g, rfl⟩ : ∃ g, f = g + 1 := ⟨f - 1, by omega⟩
    simp only [read_all, Option.some.injEq] at hpa hpb
    subst hpa; subst hpb
    simp [eq_loop, end_left]
  | cons x sa ih =>
    intro sb prea preb hprea hpreb hlen f hf pa pb hpa hpb
    cases sb with
    | nil => simp at hlen
    | cons y sb =>
      obtain ⟨g, rfl⟩ : ∃ g, f = g + 1 := ⟨f - 1, by omega⟩
      obtain ⟨p, pa1, hvx, hra, rfl⟩ := (read_all_cons h x sa pa).mp hpa
      obtain ⟨q, pb1, hvy, hrb, rfl⟩ := (read_all_cons h y sb pb).mp hpb
      have hx : x ∈ tla.toList := by rw [← hprea]; simp
      have hy : y ∈ tlb.toList := by rw [← hpreb]; simp
      have hxr : x ≠ a.root_ := fun e => hia.left.root_not_mem (e ▸ hx)
      have hyr : y ≠ b.root_ := fun e => hib.left.root_not_mem (e ▸ hy)
      have hnda := hia.left.nodup_list
      have hndb := hib.left.nodup_list
      rw [← hprea] at hnda
      rw [← hpreb] at hndb
      have hxpre : x ∉ prea := fun hp =>
        (List.nodup_append.mp hnda).2.2 hp (List.mem_cons_self _ _)
      have hypre : y ∉ preb := fun hp =>
        (List.nodup_append.mp hndb).2.2 hp (List.mem_cons_self _ _)
      have hsx : lsucc tla.toList a.root_ x = sa.headD a.root_ := by
        rw [← hprea]; exact lsucc_self_append _ _ _ hxpre
      have hsy : lsucc tlb.toList b.root_ y = sb.headD b.root_ := by
        rw [← hpreb]; exact lsucc_self_append _ _ _ hypre
      have hfa := hia.fuel_left_loc
      have hfb := hib.fuel_left_loc
      have hnx : incr_left h (some x) = some (some (sa.headD a.root_)) := by
        simp only [incr_left, Option.some_bind, Heap.fuel]
        rw [hia.left.next_eq hx (by omega), hsx]
      have hny : incr_left h (some y) = some (some (sb.headD b.root_)) := by
        simp only [incr_left, Option.some_bind, Heap.fuel]
        rw [hib.left.next_eq hy (by omega), hsy]
      have hrec := ih sb (prea ++ [x]) (preb ++ [y]) (by simpa using hprea)
        (by simpa using hpreb) (by simpa using hlen) g (by simp at hf; omega) pa1 pb1 hra hrb
      simp only [List.headD_cons, eq_loop, end_left, ne_eq, Option.some.injEq, hxr, hyr,
        not_false_eq_true, and_self, if_true, deref_left, get_value_left, Option.some_bind,
        Heap.lkey, Heap.rkey, hvx, hvy, Option.map_some', hnx, hny, hrec]
      by_cases hpq : p = q
      · subst hpq
        simp
      · have : p.1 ≠ q.1 ∨ p.2 ≠ q.2 := by
          by_contra hcon
          simp only [not_or, not_not] at hcon
          exact hpq (Prod.ext hcon.1 hcon.2)
        simp [this, hpq]

theorem LInv.bimap_eq_spec (hia : LInv cl cr h a tla tra) (hib : LInv cl2 cr2 h b tlb trb)
    {pa pb : List (L × R)} (hpa : left_pairs h a = some pa) (hpb : left_pairs h b = some pb) :
    bimap_eq h a b = some (decide (size a = size b ∧ pa = pb)) := by
  rw [hia.left_pairs_eq_loc] at hpa
  rw [hib.left_pairs_eq_loc] at hpb
  have hfa := hia.fuel_left_loc
  simp only [bimap_eq, size]
  by_cases hs : a.size_ = b.size_
  · have hlen : tla.toList.length = tlb.toList.length := by
      rw [← hia.size_eq, ← hib.size_eq]; exact hs
    simp only [hs, ne_eq, not_true_eq_false, if_false, begin_left, Heap.fuel,
      hia.left.begin_eq (show tla.toList.length + 1 ≤ h.brk + 1 by omega),
      hib.left.begin_eq (show tlb.toList.length + 1 ≤ h.brk + 1 by omega), true_and]
    exact eq_loop_spec hia hib tla.toList tlb.toList [] [] rfl rfl hlen (h.brk + 1) (by omega)
      pa pb hpa hpb
  · simp [hs]

end equality_loop

/-! ## Claim C22: the links of both trees -/

/-- In a region of memory shaped like a tree, a child pointer leads to a node of the tree
whose `parent_` points back. -/
theorem Rep.child_parent {m : Mem} {t : Tree} :
    ∀ {par : Nat}, Rep m par t → ∀ x ∈ t.toList, ∀ y,
      (m x).left_ = some y ∨ (m x).right_ = some y →
        (m y).parent_ = some x ∧ y ∈ t.toList := by
  induction t with
  | nil => intro par _ x hx; simp [Tree.toList] at hx
  | node l a r ihl ihr =>
    intro par hrep x hx y hy
    obtain ⟨_, h2, h3, h4, h5⟩ := hrep
    simp only [Tree.toList, List.mem_append, List.mem_cons] at hx ⊢
    rcases hx with hx | rfl | hx
    · obtain ⟨e1, e2⟩ := ihl h4 x hx y hy
      exact ⟨e1, Or.inl e2⟩
    · rcases hy with hy | hy
      · rw [h2] at hy
        cases l with
        | nil => simp [Tree.root] at hy
        | node l1 c r1 =>
          simp only [Tree.root, Option.some.injEq] at hy
          subst hy
          exact ⟨h4.1, Or.inl (by simp [Tree.toList])⟩
      · rw [h3] at hy
        cases r with
        | nil => simp [Tree.root] at hy
        | node l1 c r1 =>
          simp only [Tree.root, Option.some.injEq] at hy
          subst hy
          exact ⟨h5.1, Or.inr (Or.inr (by simp [Tree.toList]))⟩
    · obtain ⟨e1, e2⟩ := ihr h5 x hx y hy
      exact ⟨e1, Or.inr (Or.inr e2)⟩

theorem IsIndex.links_back {K : Type} {lt : K → K → Bool} {key : Nat → Option K}
    {root_ : Nat} {m : Mem} {t : Tree} (hi : IsIndex lt key root_ m t) :
    ∀ x ∈ root_ :: t.toList, ∀ y, (m x).left_ = some y ∨ (m x).right_ = some y →
      (m y).parent_ = some x ∧ y ∈ t.toList := by
  intro x hx y hy
  have h := Rep.child_parent hi.rep x (by
    simp only [Tree.toList, List.mem_append, List.mem_cons, List.not_mem_nil, or_false]
    rcases List.mem_cons.mp hx with e | e
    · exact Or.inr e
    · exact Or.inl e) y hy
  refine ⟨h.1, ?_⟩
  have h2 := h.2
  simp only [Tree.toList, List.mem_append, List.mem_cons, List.not_mem_nil, or_false] at h2
  rcases h2 with h2 | h2
  · exact h2
  · exfalso
    subst h2
    -- a child pointer never leads to the sentinel: its parent is itself
    have hp := h.1
    rw [hi.rep.1, Option.some.injEq] at hp
    subst hp
    rcases hy with hy | hy
    · rw [hi.rep.2.1] at hy
      exact hi.root_not_mem (Tree.root_mem hy)
    · rw [hi.rep.2.2.1] at hy
      simp [Tree.root] at hy

section claim22

variable {L R : Type} {cl : L → L → Bool} {cr : R → R → Bool} {h : Heap L R} {b : bimap}

/-- Claim C22: for every bimap reached by calls of `insert` and `erase`, each of the two
trees has the shape of a finite binary tree below the sentinel: the links of the sentinel and
of the nodes are those of a tree `t` of addresses without repetition, the addresses of `t` are
exactly the live elements, every `left_` or `right_` pointer of the sentinel or of a node leads
to a node of `t` whose `parent_` points back, the sentinel's `right_` is null, and the
iteration visits exactly the nodes of `t`. -/
theorem C22_links_form_a_tree (hcl : StrictWeakOrder cl) (hcr : StrictWeakOrder cr)
    (hr : Reachable cl cr h b) :
    ∃ tl tr : Tree,
      (Rep h.lnode b.root_ (.node tl b.root_ .nil) ∧ (b.root_ :: tl.toList).Nodup ∧
        (∀ x, (h.val x).isSome = true ↔ x ∈ tl.toList) ∧
        (h.lnode b.root_).right_ = none ∧
        (∀ x ∈ b.root_ :: tl.toList, ∀ y,
          (h.lnode x).left_ = some y ∨ (h.lnode x).right_ = some y →
            (h.lnode y).parent_ = some x ∧ y ∈ tl.toList) ∧
        left_positions h b = some tl.toList) ∧
      (Rep h.rnode b.root_ (.node tr b.root_ .nil) ∧ (b.root_ :: tr.toList).Nodup ∧
        (∀ x, (h.val x).isSome = true ↔ x ∈ tr.toList) ∧
        (h.rnode b.root_).right_ = none ∧
        (∀ x ∈ b.root_ :: tr.toList, ∀ y,
          (h.rnode x).left_ = some y ∨ (h.rnode x).right_ = some y →
            (h.rnode y).parent_ = some x ∧ y ∈ tr.toList) ∧
        right_positions h b = some tr.toList) := by
  obtain ⟨tl, tr, hi⟩ := hr.inv hcl hcr
  refine ⟨tl, tr, ⟨hi.left.rep, hi.left.nodup, hi.live, hi.left.rep.2.2.1,
    hi.left.links_back, hi.left_positions_eq⟩,
    ⟨hi.right.rep, hi.right.nodup, fun x => (hi.live x).trans (hi.same x),
      hi.right.rep.2.2.1, hi.right.links_back, hi.right_positions_eq⟩⟩

theorem C22_links_form_a_tree_witness :
    (left_positions sample.1 sample.2 = some [3, 4, 1, 5, 2] ∧
      right_positions sample.1 sample.2 = some [1, 2, 4, 3, 5] ∧
      (sample.1.lnode 0).left_ = some 1 ∧ (sample.1.lnode 1).parent_ = some 0 ∧
      (sample.1.lnode 0).right_ = none ∧ (sample.1.rnode 0).right_ = none) ∧
    ∃ tl tr : Tree,
      (Rep sample.1.lnode sample.2.root_ (.node tl sample.2.root_ .nil) ∧
        (sample.2.root_ :: tl.toList).Nodup ∧
        (∀ x, (sample.1.val x).isSome = true ↔ x ∈ tl.toList) ∧
        (sample.1.lnode sample.2.root_).right_ = none ∧
        (∀ x ∈ sample.2.root_ :: tl.toList, ∀ y,
          (sample.1.lnode x).left_ = some y ∨ (sample.1.lnode x).right_ = some y →
            (sample.1.lnode y).parent_ = some x ∧ y ∈ tl.toList) ∧
        left_positions sample.1 sample.2 = some tl.toList) ∧
      (Rep sample.1.rnode sample.2.root_ (.node tr sample.2.root_ .nil) ∧
        (sample.2.root_ :: tr.toList).Nodup ∧
        (∀ x, (sample.1.val x).isSome = true ↔ x ∈ tr.toList) ∧
        (sample.1.rnode sample.2.root_).right_ = none ∧
        (∀ x ∈ sample.2.root_ :: tr.toList, ∀ y,
          (sample.1.rnode x).left_ = some y ∨ (sample.1.rnode x).right_ = some y →
            (sample.1.rnode y).parent_ = some x ∧ y ∈ tr.toList) ∧
        right_positions sample.1 sample.2 = some tr.toList) :=
  ⟨⟨by decide, by decide, by decide, by decide, by decide, by decide⟩,
    C22_links_form_a_tree nat_less_strict_weak nat_less_strict_weak reachable_sample⟩

end claim22

/-! ## What a call on one bimap leaves alone -/

section grows

variable {L R : Type} {cl : L → L → Bool} {cr : R → R → Bool}
variable {h h1 h2 : Heap L R} {c c1 c2 : bimap} {tl tl1 tl2 : Tree}

theorem Grows.refl (h : Heap L R) (c : bimap) (tl : Tree) : Grows h c tl h c tl where
  root := rfl
  brk := le_refl _
  sub := fun _ hx => Or.inl hx
  frame := fun _ _ _ => ⟨rfl, rfl, rfl⟩

theorem Grows.trans (g1 : Grows h c tl h1 c1 tl1) (g2 : Grows h1 c1 tl1 h2 c2 tl2) :
    Grows h c tl h2 c2 tl2 where
  root := g2.root.trans g1.root
  brk := le_trans g1.brk g2.brk
  sub := fun x hx => by
    rcases g2.sub x hx with e | e
    · exact g1.sub x e
    · exact Or.inr (le_trans g1.brk e)
  frame := fun y hy hyb => by
    have hy1 : y ∉ c1.root_ :: tl1.toList := by
      intro hm
      rcases List.mem_cons.mp hm with e | e
      · exact hy (List.mem_cons.mpr (Or.inl (e.trans g1.root)))
      · rcases g1.sub y e with e1 | e1
        · exact hy (List.mem_cons_of_mem _ e1)
        · omega
    obtain ⟨a1, a2, a3⟩ := g1.frame y hy hyb
    obtain ⟨b1, b2, b3⟩ := g2.frame y hy1 (lt_of_lt_of_le hyb g1.brk)
    exact ⟨b1.trans a1, b2.trans a2, b3.trans a3⟩

/-- A bimap none of whose addresses is written keeps its invariant. -/
theorem LInv.frame {x : bimap} {tx rx : Tree} (hi : LInv cl cr h x tx rx)
    (hbrk : h.brk ≤ h1.brk)
    (hfr : ∀ y ∈ x.root_ :: tx.toList,
      h1.lnode y = h.lnode y ∧ h1.rnode y = h.rnode y ∧ h1.val y = h.val y) :
    LInv cl cr h1 x tx rx := by
  have hfrr : ∀ y ∈ x.root_ :: rx.toList,
      h1.lnode y = h.lnode y ∧ h1.rnode y = h.rnode y ∧ h1.val y = h.val y := by
    intro y hy
    apply hfr
    rcases List.mem_cons.mp hy with e | hy
    · exact List.mem_cons.mpr (Or.inl e)
    · exact List.mem_cons_of_mem _ ((hi.same y).mpr hy)
  exact
    { left := (hi.left.congr_mem h1.lnode (fun y hy => (hfr y hy).1)).congr_key
        (fun y hy => by
          have := (hfr y (List.mem_cons_of_mem _ hy)).2.2
          simp [Heap.lkey, this])
      right := (hi.right.congr_mem h1.rnode (fun y hy => (hfrr y hy).2.1)).congr_key
        (fun y hy => by
          have := (hfrr y (List.mem_cons_of_mem _ hy)).2.2
          simp [Heap.rkey, this])
      live := fun y hy => by
        rw [(hfr y (List.mem_cons_of_mem _ hy)).2.2]
        exact hi.live y hy
      same := hi.same
      bound := fun y hy => lt_of_lt_of_le (hi.bound y hy) hbrk
      root_bound := lt_of_lt_of_le hi.root_bound hbrk
      size_eq := hi.size_eq }

/-- The addresses of the second bimap of a pair are not written by a call on the first. -/
theorem Inv2.untouched {a b : bimap} {tla tra tlb trb : Tree}
    (hi : Inv2 cl cr h a b tla tra tlb trb) :
    ∀ y ∈ b.root_ :: tlb.toList, y ∉ a.root_ :: tla.toList ∧ y < h.brk := by
  intro y hy
  rcases List.mem_cons.mp hy with e | hy
  · subst e
    refine ⟨fun hm => ?_, hi.snd.root_bound⟩
    rcases List.mem_cons.mp hm with e1 | e1
    · exact hi.roots e1.symm
    · exact hi.root_snd e1
  · refine ⟨fun hm => ?_, hi.snd.bound y hy⟩
    rcases List.mem_cons.mp hm with e1 | e1
    · exact hi.root_fst (e1 ▸ hy)
    · exact hi.disj y e1 hy

theorem Inv2.grows {a a1 b : bimap} {tla tra tlb trb tla1 tra1 : Tree}
    (hi : Inv2 cl cr h a b tla tra tlb trb) (h1i : LInv cl cr h1 a1 tla1 tra1)
    (g : Grows h a tla h1 a1 tla1) : Inv2 cl cr h1 a1 b tla1 tra1 tlb trb where
  fst := h1i
  snd := hi.snd.frame g.brk (fun y hy => g.frame y (hi.untouched y hy).1 (hi.untouched y hy).2)
  roots := by rw [g.root]; exact hi.roots
  root_fst := by rw [g.root]; exact hi.root_fst
  root_snd := fun hm => by
    rcases g.sub _ hm with e | e
    · exact hi.root_snd e
    · have := hi.snd.root_bound; omega
  disj := fun x hx hxb => by
    rcases g.sub x hx with e | e
    · exact hi.disj x e hxb
    · have := hi.snd.bound x hxb; omega

/-- A newly constructed bimap beside an existing one. -/
theorem Inv2.fresh {x : bimap} {tx rx : Tree} (hi : LInv cl cr h x tx rx) :
    Inv2 cl cr (bimap_new h).1 (bimap_new h).2 x .nil .nil tx rx := by
  have hne : ∀ y ∈ x.root_ :: tx.toList, y ≠ h.brk := by
    intro y hy e
    rcases List.mem_cons.mp hy with e1 | e1
    · have := hi.root_bound; omega
    · have := hi.bound y e1; omega
  exact
    { fst :=
        { left := ⟨⟨by simp [bimap_new, construct], by simp [bimap_new, construct, Tree.root],
            by simp [bimap_new, construct, Tree.root], trivial, trivial⟩,
            by simp [Tree.toList], by simp [Tree.toList], by simp [Tree.toList]⟩
          right := ⟨⟨by simp [bimap_new, construct], by simp [bimap_new, construct, Tree.root],
            by simp [bimap_new, construct, Tree.root], trivial, trivial⟩,
            by simp [Tree.toList], by simp [Tree.toList], by simp [Tree.toList]⟩
          live := by simp [Tree.toList]
          same := by simp [Tree.toList]
          bound := by simp [Tree.toList]
          root_bound := by simp [bimap_new]
          size_eq := by simp [Tree.toList, bimap_new] }
      snd := hi.frame (by simp [bimap_new]) (fun y hy => by
        simp [bimap_new, construct, hne y hy])
      roots := by
        have := hi.root_bound
        simp only [bimap_new]
        omega
      root_fst := fun hm => by
        have := hi.bound _ hm
        simp [bimap_new] at this
      root_snd := by simp [Tree.toList]
      disj := by simp [Tree.toList] }

/-- The call `insert(l, r)` with keys that no element of the bimap has. -/
theorem LInv.insert_fresh (hcl : StrictWeakOrder cl) (hcr : StrictWeakOrder cr) {tr : Tree}
    (hi : LInv cl cr h c tl tr) (l : L) (r : R)
    (hl : ∀ x ∈ tl.toList, ∀ q, h.val x = some q → ¬ equivalent cl q.1 l)
    (hr : ∀ x ∈ tl.toList, ∀ q, h.val x = some q → ¬ equivalent cr q.2 r) :
    ∃ h1 tl1 tr1, insert cl cr h c l r = some (some h.brk, h1, ⟨c.root_, c.size_ + 1⟩) ∧
      LInv cl cr h1 ⟨c.root_, c.size_ + 1⟩ tl1 tr1 ∧
      Grows h c tl h1 ⟨c.root_, c.size_ + 1⟩ tl1 ∧
      (∀ q, (∃ x ∈ tl1.toList, h1.val x = some q) ↔
        (∃ x ∈ tl.toList, h.val x = some q) ∨ q = (l, r)) := by
  have hc1 := hi.left.locate_absent l (fun a ha ka hka => by
    obtain ⟨q, hq⟩ := Option.isSome_iff_exists.mp (hi.live a ha)
    have : ka = q.1 := by simpa [Heap.lkey, hq] using hka.symm
    rw [this]
    exact hl a ha q hq)
  have hc2 := hi.right.locate_absent r (fun a ha ka hka => by
    have ha1 := (hi.same a).mpr ha
    obtain ⟨q, hq⟩ := Option.isSome_iff_exists.mp (hi.live a ha1)
    have : ka = q.2 := by simpa [Heap.rkey, hq] using hka.symm
    rw [this]
    exact hr a ha1 q hq)
  obtain ⟨h1, e, hi1, hv, hb, hfr⟩ := hi.insert_ok_loc hcl hcr l r hc1 hc2
  have hbt : h.brk ∉ tl.toList := fun hm => by have := hi.bound _ hm; omega
  refine ⟨h1, _, _, e, hi1, ⟨rfl, by omega, fun x hx => ?_, fun y hy hyb => ?_⟩, fun q => ?_⟩
  · rcases (Tree.mem_ins _ _ _ _).mp hx with e1 | e1
    · exact Or.inr (le_of_eq e1.symm)
    · exact Or.inl e1
  · have hne : y ≠ h.brk := by omega
    obtain ⟨f1, f2⟩ := hfr y hy hne
    exact ⟨f1, f2, by rw [hv]; simp [hne]⟩
  · rw [hv]
    constructor
    · rintro ⟨x, hx, hq⟩
      rcases (Tree.mem_ins _ _ _ _).mp hx with e1 | e1
      · right
        simpa [e1] using hq.symm
      · left
        have : x ≠ h.brk := fun e2 => hbt (e2 ▸ e1)
        exact ⟨x, e1, by simpa [this] using hq⟩
    · rintro (⟨x, hx, hq⟩ | rfl)
      · have : x ≠ h.brk := fun e2 => hbt (e2 ▸ hx)
        exact ⟨x, (Tree.mem_ins _ _ _ _).mpr (Or.inr hx), by simpa [this] using hq⟩
      · exact ⟨h.brk, (Tree.mem_ins _ _ _ _).mpr (Or.inl rfl), by simp⟩

end grows

/-! ## Two bimaps with the same pairs -/

theorem pairwise_unique {α : Type} {r : α → α → Prop} (hirr : ∀ a, ¬ r a a)
    (htr : ∀ a b c, r a b → r b c → r a c) {l1 l2 : List α} (h1 : l1.Pairwise r)
    (h2 : l2.Pairwise r) (hm : ∀ q, q ∈ l1 ↔ q ∈ l2) : l1 = l2 := by
  haveI : IsAntisymm α r := ⟨fun a b hab hba => absurd (htr a b a hab hba) (hirr a)⟩
  have n1 : l1.Pairwise (fun a b => a ≠ b) :=
    h1.imp (fun {a b} hab (e : a = b) => hirr a (by rw [← e] at hab; exact hab))
  have n2 : l2.Pairwise (fun a b => a ≠ b) :=
    h2.imp (fun {a b} hab (e : a = b) => hirr a (by rw [← e] at hab; exact hab))
  exact List.eq_of_perm_of_sorted ((List.perm_ext_iff_of_nodup n1 n2).mpr hm) h1 h2

section same_pairs

variable {L R : Type} {cl : L → L → Bool} {cr : R → R → Bool}
variable {h : Heap L R} {a b : bimap} {tla tra tlb trb : Tree}

theorem LInv.left_pairs_sorted (hi : LInv cl cr h a tla tra) {ps : List (L × R)}
    (hp : read_all h tla.toList = some ps) :
    ps.Pairwise (fun p q => cl p.1 q.1 = true) :=
  read_all_pairwise cl Prod.fst hp hi.left.sorted

theorem LInv.right_pairs_sorted (hi : LInv cl cr h a tla tra) {ps : List (L × R)}
    (hp : read_all h tra.toList = some ps) :
    ps.Pairwise (fun p q => cr p.2 q.2 = true) :=
  read_all_pairwise cr Prod.snd hp hi.right.sorted

/-- Two bimaps whose elements hold the same pairs show the same sequences in both orders and
have the same size. -/
theorem LInv.same_pairs (hcl : StrictWeakOrder cl) (hcr : StrictWeakOrder cr)
    (hia : LInv cl cr h a tla tra) (hib : LInv cl cr h b tlb trb)
    (hset : ∀ q, (∃ x ∈ tla.toList, h.val x = some q) ↔ (∃ y ∈ tlb.toList, h.val y = some q)) :
    left_pairs h a = left_pairs h b ∧ right_pairs h a = right_pairs h b ∧
      a.size_ = b.size_ := by
  obtain ⟨pa, hpa⟩ := hia.left_pairs_some_loc
  obtain ⟨pb, hpb⟩ := hib.left_pairs_some_loc
  obtain ⟨qa, hqa⟩ := hia.right_pairs_some_loc
  obtain ⟨qb, hqb⟩ := hib.right_pairs_some_loc
  rw [hpa, hpb, hqa, hqb]
  rw [hia.left_pairs_eq_loc] at hpa
  rw [hib.left_pairs_eq_loc] at hpb
  rw [hia.right_pairs_eq_loc] at hqa
  rw [hib.right_pairs_eq_loc] at hqb
  have e1 : pa = pb := by
    apply pairwise_unique (r := fun p q : L × R => cl p.1 q.1 = true)
      (fun p => by simp [hcl.irrefl p.1]) (fun p q s => hcl.trans p.1 q.1 s.1)
      (hia.left_pairs_sorted hpa) (hib.left_pairs_sorted hpb)
    intro q
    rw [read_all_mem hpa q, read_all_mem hpb q]
    exact hset q
  have e2 : qa = qb := by
    apply pairwise_unique (r := fun p q : L × R => cr p.2 q.2 = true)
      (fun p => by simp [hcr.irrefl p.2]) (fun p q s => hcr.trans p.2 q.2 s.2)
      (hia.right_pairs_sorted hqa) (hib.right_pairs_sorted hqb)
    intro q
    rw [read_all_mem hqa q, read_all_mem hqb q]
    constructor
    · rintro ⟨x, hx, hv⟩
      obtain ⟨y, hy, hw⟩ := (hset q).mp ⟨x, (hia.same x).mpr hx, hv⟩
      exact ⟨y, (hib.same y).mp hy, hw⟩
    · rintro ⟨x, hx, hv⟩
      obtain ⟨y, hy, hw⟩ := (hset q).mpr ⟨x, (hib.same x).mpr hx, hv⟩
      exact ⟨y, (hia.same y).mp hy, hw⟩
  refine ⟨by rw [e1], by rw [e2], ?_⟩
  rw [hia.size_eq, hib.size_eq, ← read_all_length hpa, ← read_all_length hpb, e1]

end same_pairs

/-! ## Sequences of insertions -/

section insert_runs

variable {L R : Type} {cl : L → L → Bool} {cr : R → R → Bool}

/-- Two different elements of one bimap have inequivalent left keys and inequivalent right
keys. -/
theorem LInv.distinct_inequiv {h : Heap L R} {b : bimap} {tl tr : Tree}
    (hi : LInv cl cr h b tl tr) {x y : Nat} (hx : x ∈ tl.toList) (hy : y ∈ tl.toList)
    (hne : x ≠ y) {p q : L × R} (hp : h.val x = some p) (hq : h.val y = some q) :
    ¬ equivalent cl p.1 q.1 ∧ ¬ equivalent cr p.2 q.2 := by
  constructor
  · intro he
    rcases hi.left.comparable hx hy hne with hc | hc
    · obtain ⟨k1, k2, f1, f2, f3⟩ := hc
      simp only [Heap.lkey, hp, hq, Option.map_some', Option.some.injEq] at f1 f2
      subst f1; subst f2
      rw [he.1] at f3
      exact Bool.false_ne_true f3
    · obtain ⟨k1, k2, f1, f2, f3⟩ := hc
      simp only [Heap.lkey, hp, hq, Option.map_some', Option.some.injEq] at f1 f2
      subst f1; subst f2
      rw [he.2] at f3
      exact Bool.false_ne_true f3
  · intro he
    rcases hi.right.comparable ((hi.same x).mp hx) ((hi.same y).mp hy) hne with hc | hc
    · obtain ⟨k1, k2, f1, f2, f3⟩ := hc
      simp only [Heap.rkey, hp, hq, Option.map_some', Option.some.injEq] at f1 f2
      subst f1; subst f2
      rw [he.1] at f3
      exact Bool.false_ne_true f3
    · obtain ⟨k1, k2, f1, f2, f3⟩ := hc
      simp only [Heap.rkey, hp, hq, Option.map_some', Option.some.injEq] at f1 f2
      subst f1; subst f2
      rw [he.2] at f3
      exact Bool.false_ne_true f3

/-- A run of `insert` calls with pairwise inequivalent keys, none of them in the bimap: every
call inserts. -/
theorem LInv.insert_seq_spec (hcl : StrictWeakOrder cl) (hcr : StrictWeakOrder cr)
    (ps : List (L × R)) :
    ∀ (h : Heap L R) (c : bimap) (tl tr : Tree), LInv cl cr h c tl tr →
      ps.Pairwise (fun p q => ¬ equivalent cl p.1 q.1 ∧ ¬ equivalent cr p.2 q.2) →
      (∀ p ∈ ps, ∀ x ∈ tl.toList, ∀ q, h.val x = some q →
        ¬ equivalent cl q.1 p.1 ∧ ¬ equivalent cr q.2 p.2) →
      ∃ h1 c1 tl1 tr1, insert_seq cl cr h c ps = some (h1, c1) ∧
        LInv cl cr h1 c1 tl1 tr1 ∧ Grows h c tl h1 c1 tl1 ∧
        (∀ q, (∃ x ∈ tl1.toList, h1.val x = some q) ↔
          (∃ x ∈ tl.toList, h.val x = some q) ∨ q ∈ ps) := by
  induction ps with
  | nil =>
    intro h c tl tr hi _ _
    exact ⟨h, c, tl, tr, rfl, hi, Grows.refl h c tl, by simp⟩
  | cons p ps ih =>
    intro h c tl tr hi hpw hex
    obtain ⟨hhd, htl⟩ := List.pairwise_cons.mp hpw
    obtain ⟨h1, tl1, tr1, e, hi1, g1, hset1⟩ := hi.insert_fresh hcl hcr p.1 p.2
      (fun x hx q hq => (hex p (List.mem_cons_self _ _) x hx q hq).1)
      (fun x hx q hq => (hex p (List.mem_cons_self _ _) x hx q hq).2)
    obtain ⟨h2, c2, tl2, tr2, e2, hi2, g2, hset2⟩ := ih h1 _ tl1 tr1 hi1 htl (by
      intro p1 hp1 x hx q hq
      rcases (hset1 q).mp ⟨x, hx, hq⟩ with ⟨x0, hx0, hq0⟩ | rfl
      · exact hex p1 (List.mem_cons_of_mem _ hp1) x0 hx0 q hq0
      · exact hhd p1 hp1)
    refine ⟨h2, c2, tl2, tr2, ?_, hi2, g1.trans g2, fun q => ?_⟩
    · simp only [insert_seq, e, e2]
    · rw [hset2 q, hset1 q, List.mem_cons]
      constructor
      · rintro ((hq | hq) | hq)
        · exact Or.inl hq
        · exact Or.inr (Or.inl hq)
        · exact Or.inr (Or.inr hq)
      · rintro (hq | hq | hq)
        · exact Or.inl (Or.inl hq)
        · exact Or.inl (Or.inr hq)
        · exact Or.inr hq

/-- The loop of the copy constructor, started at a position of `b` with the elements `sb`
still to come: every one of them is inserted into `c`. -/
theorem copy_loop_spec (hcl : StrictWeakOrder cl) (hcr : StrictWeakOrder cr) {b : bimap}
    {tlb trb : Tree} (sb : List Nat) :
    ∀ (h : Heap L R) (c : bimap) (tlc trc : Tree) (pre : List Nat),
      Inv2 cl cr h c b tlc trc tlb trb → pre ++ sb = tlb.toList →
      (∀ y ∈ sb, ∀ p, h.val y = some p → ∀ x ∈ tlc.toList, ∀ q, h.val x = some q →
        ¬ equivalent cl q.1 p.1 ∧ ¬ equivalent cr q.2 p.2) →
      ∀ f, sb.length + 1 ≤ f →
      ∃ h1 c1 tl1 tr1, copy_loop cl cr b f h c (some (sb.headD b.root_)) = some (h1, c1) ∧
        Inv2 cl cr h1 c1 b tl1 tr1 tlb trb ∧ Grows h c tlc h1 c1 tl1 ∧
        (∀ q, (∃ x ∈ tl1.toList, h1.val x = some q) ↔
          (∃ x ∈ tlc.toList, h.val x = some q) ∨ (∃ y ∈ sb, h.val y = some q)) := by
  induction sb with
  | nil =>
    intro h c tlc trc pre hi _ _ f hf
    obtain ⟨g, rfl⟩ : ∃ g, f = g + 1 := ⟨f - 1, by omega⟩
    exact ⟨h, c, tlc, trc, by simp [copy_loop, end_left], hi, Grows.refl h c tlc, by simp⟩
  | cons y sb ih =>
    intro h c tlc trc pre hi hpre hex f hf
    obtain ⟨g, rfl⟩ : ∃ g, f = g + 1 := ⟨f - 1, by omega⟩
    have hy : y ∈ tlb.toList := by rw [← hpre]; simp
    have hyr : y ≠ b.root_ := fun e => hi.snd.left.root_not_mem (e ▸ hy)
    obtain ⟨p, hp⟩ := Option.isSome_iff_exists.mp (hi.snd.live y hy)
    obtain ⟨h1, tl1, tr1, e, hi1, g1, hset1⟩ := hi.fst.insert_fresh hcl hcr p.1 p.2
      (fun x hx q hq => (hex y (List.mem_cons_self _ _) p hp x hx q hq).1)
      (fun x hx q hq => (hex y (List.mem_cons_self _ _) p hp x hx q hq).2)
    have hi2 := hi.grows hi1 g1
    have hval : ∀ z ∈ tlb.toList, h1.val z = h.val z := fun z hz =>
      (g1.frame z (hi.untouched z (List.mem_cons_of_mem _ hz)).1
        (hi.untouched z (List.mem_cons_of_mem _ hz)).2).2.2
    have hnd := hi.snd.left.nodup_list
    rw [← hpre] at hnd
    have hypre : y ∉ pre := fun hm =>
      (List.nodup_append.mp hnd).2.2 hm (List.mem_cons_self _ _)
    have hysb : y ∉ sb := (List.nodup_cons.mp (List.nodup_append.mp hnd).2.1).1
    have hsy : lsucc tlb.toList b.root_ y = sb.headD b.root_ := by
      rw [← hpre]; exact lsucc_self_append _ _ _ hypre
    have hfb := hi2.snd.fuel_left_loc
    have hny : incr_left h1 (some y) = some (some (sb.headD b.root_)) := by
      simp only [incr_left, Option.some_bind, Heap.fuel]
      rw [hi2.snd.left.next_eq hy (by omega), hsy]
    obtain ⟨h2, c2, tl2, tr2, e2, hi3, g2, hset2⟩ := ih h1 _ tl1 tr1 (pre ++ [y]) hi2
      (by simpa using hpre) (by
        intro y1 hy1 p1 hp1 x hx q hq
        have hy1b : y1 ∈ tlb.toList := by rw [← hpre]; simp [hy1]
        rw [hval y1 hy1b] at hp1
        rcases (hset1 q).mp ⟨x, hx, hq⟩ with ⟨x0, hx0, hq0⟩ | rfl
        · exact hex y1 (List.mem_cons_of_mem _ hy1) p1 hp1 x0 hx0 q hq0
        · exact hi.snd.distinct_inequiv hy hy1b (fun e1 => hysb (e1 ▸ hy1)) hp hp1)
      g (by simp at hf; omega)
    refine ⟨h2, c2, tl2, tr2, ?_, hi3, g1.trans g2, fun q => ?_⟩
    · simp only [List.headD_cons, copy_loop, end_left, Option.some.injEq, hyr, if_false,
        deref_left, get_value_left, Option.some_bind, Heap.lkey, Heap.rkey, hp,
        Option.map_some', e, hny, e2]
    · rw [hset2 q, hset1 q]
      constructor
      · rintro ((hq | rfl) | ⟨y1, hy1, hq⟩)
        · exact Or.inl hq
        · exact Or.inr ⟨y, List.mem_cons_self _ _, hp⟩
        · have hy1b : y1 ∈ tlb.toList := by rw [← hpre]; simp [hy1]
          exact Or.inr ⟨y1, List.mem_cons_of_mem _ hy1, by rw [← hval y1 hy1b]; exact hq⟩
      · rintro (hq | ⟨y1, hy1, hq⟩)
        · exact Or.inl (Or.inl hq)
        · rcases List.mem_cons.mp hy1 with e1 | e1
          · subst e1
            rw [hp] at hq
            exact Or.inl (Or.inr (Option.some.inj hq).symm)
          · have hy1b : y1 ∈ tlb.toList := by rw [← hpre]; simp [e1]
            exact Or.inr ⟨y1, e1, by rw [hval y1 hy1b]; exact hq⟩

end insert_runs

/-! ## The destructor -/

section destroy_spec

variable {L R : Type}

theorem recursive_delete_null (f : Nat) (h : Heap L R) : recursive_delete f h none = some h := by
  cases f <;> rfl

/-- The call `recursive_delete(ptr)` on a subtree all of whose nodes are live elements frees
exactly these and writes nothing else. -/
theorem recursive_delete_spec (t : Tree) :
    ∀ (par f : Nat) (h : Heap L R), Rep h.lnode par t → t.toList.Nodup →
      (∀ x ∈ t.toList, (h.val x).isSome = true) → t.toList.length ≤ f →
      ∃ h1, recursive_delete f h t.root = some h1 ∧ h1.brk = h.brk ∧
        (∀ y, y ∉ t.toList →
          h1.lnode y = h.lnode y ∧ h1.rnode y = h.rnode y ∧ h1.val y = h.val y) ∧
        (∀ y ∈ t.toList, h1.val y = none) := by
  induction t with
  | nil =>
    intro par f h _ _ _ _
    exact ⟨h, recursive_delete_null f h, rfl, fun _ _ => ⟨rfl, rfl, rfl⟩,
      by simp [Tree.toList]⟩
  | node l p r ihl ihr =>
    intro par f h hrep hnd hlive hf
    obtain ⟨_, h2, h3, h4, h5⟩ := hrep
    simp only [Tree.toList, List.length_append, List.length_cons] at hf
    obtain ⟨g, rfl⟩ : ∃ g, f = g + 1 := ⟨f - 1, by omega⟩
    have hnd0 := hnd
    simp only [Tree.toList] at hnd
    have hnd1 := List.nodup_append.mp hnd
    have hnd2 := List.nodup_cons.mp hnd1.2.1
    have hpl : p ∉ l.toList := fun hm => hnd1.2.2 hm (List.mem_cons_self _ _)
    have hpr : p ∉ r.toList := hnd2.1
    have hlr : ∀ x ∈ r.toList, x ∉ l.toList := fun x hx hm =>
      hnd1.2.2 hm (List.mem_cons_of_mem _ hx)
    have hml : ∀ x ∈ l.toList, x ∈ (Tree.node l p r).toList := fun x hx => by
      simp [Tree.toList, hx]
    have hmr : ∀ x ∈ r.toList, x ∈ (Tree.node l p r).toList := fun x hx => by
      simp [Tree.toList, hx]
    have hmp : p ∈ (Tree.node l p r).toList := by simp [Tree.toList]
    obtain ⟨h1, e1, b1, fr1, d1⟩ := ihl p g h h4 hnd1.1 (fun x hx => hlive x (hml x hx))
      (by omega)
    have hrep1 : Rep h1.lnode p r := Rep.congr (fun x hx => (fr1 x (hlr x hx)).1) h5
    obtain ⟨h2', e2, b2, fr2, d2⟩ := ihr p g h1 hrep1 hnd2.2
      (fun x hx => by rw [(fr1 x (hlr x hx)).2.2]; exact hlive x (hmr x hx)) (by omega)
    obtain ⟨v, hv⟩ := Option.isSome_iff_exists.mp (hlive p hmp)
    have hvp : h2'.val p = some v := by
      rw [(fr2 p hpr).2.2, (fr1 p hpl).2.2]; exact hv
    refine ⟨{ lnode := unlink h2'.lnode p, rnode := unlink h2'.rnode p,
              val := fun x => if x = p then none else h2'.val x, brk := h2'.brk }, ?_, ?_,
              ?_, ?_⟩
    · have hl : (h.lnode p).left_ = l.root := h2
      have hr : (h1.lnode p).right_ = r.root := by rw [(fr1 p hpl).1]; exact h3
      show recursive_delete (g + 1) h (some p) = _
      simp only [recursive_delete, hl, e1, hr, e2, Heap.delete, hvp]
    · show h2'.brk = h.brk
      rw [b2, b1]
    · intro y hy
      simp only [Tree.toList, List.mem_append, List.mem_cons, not_or] at hy
      obtain ⟨hyl, hyp, hyr⟩ := hy
      obtain ⟨a1, a2, a3⟩ := fr1 y hyl
      obtain ⟨c1, c2, c3⟩ := fr2 y hyr
      refine ⟨?_, ?_, ?_⟩
      · show unlink h2'.lnode p y = _
        simp only [unlink, hyp, if_false]; exact c1.trans a1
      · show unlink h2'.rnode p y = _
        simp only [unlink, hyp, if_false]; exact c2.trans a2
      · show (if y = p then none else h2'.val y) = _
        simp only [hyp, if_false]; exact c3.trans a3
    · intro y hy
      show (if y = p then none else h2'.val y) = none
      by_cases hyp : y = p
      · simp [hyp]
      · simp only [hyp, if_false]
        simp only [Tree.toList, List.mem_append, List.mem_cons] at hy
        rcases hy with hy | hy | hy
        · rw [(fr2 y (fun hm => hlr y hm hy)).2.2]; exact d1 y hy
        · exact absurd hy hyp
        · exact d2 y hy

variable {cl : L → L → Bool} {cr : R → R → Bool}

/-- The destructor of a well-formed bimap returns; it frees the elements of the bimap and
writes nothing but these and the sentinel. -/
theorem LInv.destroy_spec {h : Heap L R} {x : bimap} {tl tr : Tree}
    (hi : LInv cl cr h x tl tr) :
    ∃ h1, destroy h x = some h1 ∧ h1.brk = h.brk ∧
      (∀ y, y ∉ x.root_ :: tl.toList →
        h1.lnode y = h.lnode y ∧ h1.rnode y = h.rnode y ∧ h1.val y = h.val y) ∧
      (∀ y ∈ tl.toList, h1.val y = none) := by
  have hf := hi.fuel_left_loc
  obtain ⟨h1, e1, b1, fr1, d1⟩ := recursive_delete_spec tl x.root_ h.fuel h hi.left.rep_tree
    hi.left.nodup_list hi.live (by simp only [Heap.fuel]; omega)
  refine ⟨{ h1 with lnode := unlink h1.lnode x.root_, rnode := unlink h1.rnode x.root_ }, ?_,
    b1, ?_, d1⟩
  · simp only [destroy, hi.left.rep.2.1, e1]
  · intro y hy
    simp only [List.mem_cons, not_or] at hy
    obtain ⟨a1, a2, a3⟩ := fr1 y hy.2
    refine ⟨?_, ?_, a3⟩
    · show unlink h1.lnode x.root_ y = _
      simp only [unlink, hy.1, if_false]; exact a1
    · show unlink h1.rnode x.root_ y = _
      simp only [unlink, hy.1, if_false]; exact a2

end destroy_spec

/-! ## Copy construction and copy assignment -/

section copy_spec

variable {L R : Type} {cl : L → L → Bool} {cr : R → R → Bool}
variable {h h1 : Heap L R}

/-- A bimap whose elements keep their values shows the same positions and pairs. -/
theorem LInv.pairs_frame {x : bimap} {tx rx : Tree} (hi : LInv cl cr h x tx rx)
    (hi1 : LInv cl cr h1 x tx rx) (hv : ∀ y ∈ tx.toList, h1.val y = h.val y) :
    left_pairs h1 x = left_pairs h x ∧ right_pairs h1 x = right_pairs h x ∧
      left_positions h1 x = left_positions h x ∧
      right_positions h1 x = right_positions h x := by
  refine ⟨?_, ?_, ?_, ?_⟩
  · rw [hi1.left_pairs_eq_loc, hi.left_pairs_eq_loc]
    exact read_all_congr hv
  · rw [hi1.right_pairs_eq_loc, hi.right_pairs_eq_loc]
    exact read_all_congr (fun y hy => hv y ((hi.same y).mpr hy))
  · rw [hi1.left_positions_eq_loc, hi.left_positions_eq_loc]
  · rw [hi1.right_positions_eq_loc, hi.right_positions_eq_loc]

/-- A bimap of the heap in which another one is constructed and filled is not written. -/
theorem Grows.keeps {x c : bimap} {tx rx tl1 tr1 : Tree} (hx : LInv cl cr h x tx rx)
    (hc : LInv cl cr h1 c tl1 tr1)
    (g : Grows (bimap_new h).1 (bimap_new h).2 .nil h1 c tl1) :
    Inv2 cl cr h1 c x tl1 tr1 tx rx ∧
      ∀ y ∈ x.root_ :: tx.toList,
        h1.lnode y = h.lnode y ∧ h1.rnode y = h.rnode y ∧ h1.val y = h.val y := by
  have hi0 := Inv2.fresh hx
  refine ⟨hi0.grows hc g, fun y hy => ?_⟩
  obtain ⟨a1, a2, a3⟩ := g.frame y (hi0.untouched y hy).1 (hi0.untouched y hy).2
  have hne : y ≠ h.brk := by
    rcases List.mem_cons.mp hy with e | e
    · have := hx.root_bound; omega
    · have := hx.bound y e; omega
  refine ⟨a1.trans ?_, a2.trans ?_, a3⟩
  · simp [bimap_new, construct, hne]
  · simp [bimap_new, construct, hne]

/-- The copy constructor returns a bimap with the pairs of its argument. -/
theorem LInv.copy_construct_spec (hcl : StrictWeakOrder cl) (hcr : StrictWeakOrder cr)
    {b : bimap} {tlb trb : Tree} (hib : LInv cl cr h b tlb trb) :
    ∃ h1 c tl1 tr1, copy_construct cl cr h b = some (h1, c) ∧
      LInv cl cr h1 c tl1 tr1 ∧ Grows (bimap_new h).1 (bimap_new h).2 .nil h1 c tl1 ∧
      (∀ q, (∃ x ∈ tl1.toList, h1.val x = some q) ↔ (∃ y ∈ tlb.toList, h.val y = some q)) := by
  have hi0 := Inv2.fresh hib
  have hf := hi0.snd.fuel_left_loc
  obtain ⟨h1, c, tl1, tr1, e, hi1, g, hset⟩ := copy_loop_spec hcl hcr tlb.toList
    (bimap_new h).1 (bimap_new h).2 .nil .nil [] hi0 rfl
    (by intro y _ p _ x hx; simp [Tree.toList] at hx)
    (bimap_new h).1.fuel (by simp only [Heap.fuel]; omega)
  refine ⟨h1, c, tl1, tr1, ?_, hi1.fst, g, fun q => ?_⟩
  · simp only [copy_construct, begin_left]
    rw [hi0.snd.left.begin_eq (show tlb.toList.length + 1 ≤ (bimap_new h).1.fuel by
      simp only [Heap.fuel]; omega)]
    exact e
  · rw [hset q]
    simp [Tree.toList, bimap_new]

end copy_spec

section copy_obs

variable {L R : Type} {cl : L → L → Bool} {cr : R → R → Bool}
variable {h : Heap L R}

/-- What `swap` writes: the two sentinels and the two roots. -/
theorem Inv2.swap_frame {a b : bimap} {tla tra tlb trb : Tree}
    (hi : Inv2 cl cr h a b tla tra tlb trb) (y : Nat) (hya : y ∉ a.root_ :: tla.toList)
    (hyb : y ∉ b.root_ :: tlb.toList) :
    (Bimap.swap h a b).1.lnode y = h.lnode y ∧ (Bimap.swap h a b).1.rnode y = h.rnode y ∧
      (Bimap.swap h a b).1.val y = h.val y := by
  simp only [List.mem_cons, not_or] at hya hyb
  have hra : a.root_ ∉ trb.toList := fun e => hi.root_fst ((hi.snd.same _).mpr e)
  have hrb : b.root_ ∉ tra.toList := fun e => hi.root_snd ((hi.fst.same _).mpr e)
  have hdr : ∀ x ∈ tra.toList, x ∉ trb.toList := fun x hx e =>
    hi.disj x ((hi.fst.same _).mpr hx) ((hi.snd.same _).mpr e)
  refine ⟨?_, ?_, rfl⟩
  · show map_swap h.lnode a.root_ b.root_ y = _
    rw [map_swap_eq hi.fst.left hi.snd.left hi.roots hi.root_fst hi.root_snd hi.disj y,
      if_neg hya.1, if_neg hyb.1, if_neg (Tree.root_ne_of_not_mem hyb.2),
      if_neg (Tree.root_ne_of_not_mem hya.2)]
  · show map_swap h.rnode a.root_ b.root_ y = _
    rw [map_swap_eq hi.fst.right hi.snd.right hi.roots hra hrb hdr y,
      if_neg hya.1, if_neg hyb.1,
      if_neg (Tree.root_ne_of_not_mem (fun e => hyb.2 ((hi.snd.same _).mpr e))),
      if_neg (Tree.root_ne_of_not_mem (fun e => hya.2 ((hi.fst.same _).mpr e)))]

variable [DecidableEq L] [DecidableEq R]

/-- Two bimaps of one heap with the same pairs compare equal. -/
theorem LInv.eq_of_same_pairs (hcl : StrictWeakOrder cl) (hcr : StrictWeakOrder cr)
    {a b : bimap} {tla tra tlb trb : Tree}
    (hia : LInv cl cr h a tla tra) (hib : LInv cl cr h b tlb trb)
    (hset : ∀ q, (∃ x ∈ tla.toList, h.val x = some q) ↔ (∃ y ∈ tlb.toList, h.val y = some q)) :
    bimap_eq h a b = some true ∧ bimap_ne h a b = some false ∧ size a = size b ∧
      left_pairs h a = left_pairs h b ∧ right_pairs h a = right_pairs h b := by
  obtain ⟨e1, e2, e3⟩ := hia.same_pairs hcl hcr hib hset
  obtain ⟨pa, hpa⟩ := hia.left_pairs_some_loc
  have hpb : left_pairs h b = some pa := by rw [← e1]; exact hpa
  have e := hia.bimap_eq_spec hib hpa hpb
  have ht : decide (size a = size b ∧ pa = pa) = true := by
    simp only [size, e3, and_self, decide_True]
  rw [ht] at e
  exact ⟨e, by simp only [bimap_ne, e, Option.map_some', Bool.not_true], e3, e1, e2⟩

/-- The copy constructor, as seen through the public interface. -/
theorem LInv.copy_construct_obs (hcl : StrictWeakOrder cl) (hcr : StrictWeakOrder cr)
    {b : bimap} {tlb trb : Tree} (hib : LInv cl cr h b tlb trb) :
    ∃ h1 c, copy_construct cl cr h b = some (h1, c) ∧
      (bimap_eq h1 c b = some true ∧ bimap_ne h1 c b = some false ∧ size c = size b ∧
        left_pairs h1 c = left_pairs h b ∧ right_pairs h1 c = right_pairs h b) ∧
      (left_pairs h1 b = left_pairs h b ∧ right_pairs h1 b = right_pairs h b ∧
        left_positions h1 b = left_positions h b ∧
        right_positions h1 b = right_positions h b) := by
  obtain ⟨h1, c, tl1, tr1, ec, hc, g, hset⟩ := hib.copy_construct_spec hcl hcr
  obtain ⟨J, fb⟩ := g.keeps hib hc
  have hvb : ∀ y ∈ tlb.toList, h1.val y = h.val y := fun y hy =>
    (fb y (List.mem_cons_of_mem _ hy)).2.2
  have hfr := hib.pairs_frame J.snd hvb
  have hset1 : ∀ q, (∃ x ∈ tl1.toList, h1.val x = some q) ↔
      (∃ y ∈ tlb.toList, h1.val y = some q) := by
    intro q
    rw [hset q]
    constructor
    · rintro ⟨y, hy, hq⟩; exact ⟨y, hy, by rw [hvb y hy]; exact hq⟩
    · rintro ⟨y, hy, hq⟩; exact ⟨y, hy, by rw [← hvb y hy]; exact hq⟩
  obtain ⟨a1, a2, a3, a4, a5⟩ := hc.eq_of_same_pairs hcl hcr J.snd hset1
  exact ⟨h1, c, ec, ⟨a1, a2, a3, a4.trans hfr.1, a5.trans hfr.2.1⟩, hfr⟩

/-- The copy assignment `a = b` of two different bimaps, as seen through the public
interface. -/
theorem Inv2.copy_assign_obs (hcl : StrictWeakOrder cl) (hcr : StrictWeakOrder cr)
    {a b : bimap} {tla tra tlb trb : Tree} (hi : Inv2 cl cr h a b tla tra tlb trb) :
    ∃ h3 a1, copy_assign cl cr h a b = some (h3, a1) ∧ a1.root_ = a.root_ ∧
      (bimap_eq h3 a1 b = some true ∧ bimap_ne h3 a1 b = some false ∧ size a1 = size b ∧
        left_pairs h3 a1 = left_pairs h b ∧ right_pairs h3 a1 = right_pairs h b) ∧
      (left_pairs h3 b = left_pairs h b ∧ right_pairs h3 b = right_pairs h b ∧
        left_positions h3 b = left_positions h b ∧
        right_positions h3 b = right_positions h b) := by
  obtain ⟨h1, t, tl1, tr1, ec, ht, g, hset⟩ := hi.snd.copy_construct_spec hcl hcr
  obtain ⟨Jb, fb⟩ := g.keeps hi.snd ht
  obtain ⟨Ja, _⟩ := g.keeps hi.fst ht
  have K := Ja.symm.swap.1
  -- `b` is not written by `swap`
  have hbs : ∀ y ∈ b.root_ :: tlb.toList,
      (Bimap.swap h1 a t).1.lnode y = h1.lnode y ∧ (Bimap.swap h1 a t).1.rnode y = h1.rnode y ∧
        (Bimap.swap h1 a t).1.val y = h1.val y := fun y hy =>
    Ja.symm.swap_frame y (hi.untouched y hy).1 (Jb.untouched y hy).1
  have Lbs : LInv cl cr (Bimap.swap h1 a t).1 b tlb trb := Jb.snd.frame (le_refl _) hbs
  obtain ⟨h3, ed, bd, fd, _⟩ := K.snd.destroy_spec
  have hout_a : ∀ y ∈ a.root_ :: tl1.toList, y ∉ t.root_ :: tla.toList := fun y hy =>
    (K.symm.untouched y hy).1
  have hout_b : ∀ y ∈ b.root_ :: tlb.toList, y ∉ t.root_ :: tla.toList := by
    intro y hy hm
    rcases List.mem_cons.mp hm with e | e
    · exact (Jb.untouched y hy).1 (List.mem_cons.mpr (Or.inl e))
    · exact (hi.untouched y hy).1 (List.mem_cons_of_mem _ e)
  have La3 : LInv cl cr h3 (Bimap.swap h1 a t).2.1 tl1 tr1 :=
    K.fst.frame (le_of_eq bd.symm) (fun y hy => fd y (hout_a y hy))
  have Lb3 : LInv cl cr h3 b tlb trb :=
    Lbs.frame (le_of_eq bd.symm) (fun y hy => fd y (hout_b y hy))
  have hva : ∀ x ∈ tl1.toList, h3.val x = h1.val x := fun x hx =>
    (fd x (hout_a x (List.mem_cons_of_mem _ hx))).2.2
  have hvb : ∀ y ∈ tlb.toList, h3.val y = h.val y := fun y hy =>
    ((fd y (hout_b y (List.mem_cons_of_mem _ hy))).2.2.trans
      (hbs y (List.mem_cons_of_mem _ hy)).2.2).trans (fb y (List.mem_cons_of_mem _ hy)).2.2
  have hset3 : ∀ q, (∃ x ∈ tl1.toList, h3.val x = some q) ↔
      (∃ y ∈ tlb.toList, h3.val y = some q) := by
    intro q
    constructor
    · rintro ⟨x, hx, hq⟩
      obtain ⟨y, hy, hw⟩ := (hset q).mp ⟨x, hx, by rw [← hva x hx]; exact hq⟩
      exact ⟨y, hy, by rw [hvb y hy]; exact hw⟩
    · rintro ⟨y, hy, hq⟩
      obtain ⟨x, hx, hw⟩ := (hset q).mpr ⟨y, hy, by rw [← hvb y hy]; exact hq⟩
      exact ⟨x, hx, by rw [hva x hx]; exact hw⟩
  have hfr := hi.snd.pairs_frame Lb3 hvb
  obtain ⟨a1, a2, a3, a4, a5⟩ := La3.eq_of_same_pairs hcl hcr Lb3 hset3
  refine ⟨h3, (Bimap.swap h1 a t).2.1, ?_, rfl, ⟨a1, a2, a3, a4.trans hfr.1, a5.trans hfr.2.1⟩, hfr⟩
  simp only [copy_assign, if_neg hi.roots, ec, ed]

end copy_obs

/-! ## Claim C21: copies -/

section claim21

variable {L R : Type} [DecidableEq L] [DecidableEq R] {cl : L → L → Bool} {cr : R → R → Bool}

/-- Claim C21: for every reachable bimap `b`, the copy constructor returns a bimap `c` with
`c == b`, `c.size() == b.size()` and the same sequences of pairs in left and in right order,
and `b` shows the same positions and pairs as before; self-assignment `b = b` changes nothing;
and for two reachable bimaps `a` and `b` of one program the copy assignment `a = b` returns,
after it `a == b`, `a.size() == b.size()`, `a` shows the sequences of `b` in both orders, and
`b` shows the same positions and pairs as before.  The copies are built with the comparators
`cl` and `cr` of the source. -/
theorem C21_copy_equals_source (hcl : StrictWeakOrder cl) (hcr : StrictWeakOrder cr) :
    (∀ (h : Heap L R) (b : bimap), Reachable cl cr h b →
      (∃ h1 c, copy_construct cl cr h b = some (h1, c) ∧
        (bimap_eq h1 c b = some true ∧ bimap_ne h1 c b = some false ∧ size c = size b ∧
          left_pairs h1 c = left_pairs h b ∧ right_pairs h1 c = right_pairs h b) ∧
        (left_pairs h1 b = left_pairs h b ∧ right_pairs h1 b = right_pairs h b ∧
          left_positions h1 b = left_positions h b ∧
          right_positions h1 b = right_positions h b)) ∧
      copy_assign cl cr h b b = some (h, b) ∧
      (∃ ps qs, left_pairs h b = some ps ∧ right_pairs h b = some qs)) ∧
    (∀ (h : Heap L R) (a b : bimap), Reachable2 cl cr h a b →
      ∃ h3 a1, copy_assign cl cr h a b = some (h3, a1) ∧ a1.root_ = a.root_ ∧
        (bimap_eq h3 a1 b = some true ∧ bimap_ne h3 a1 b = some false ∧ size a1 = size b ∧
          left_pairs h3 a1 = left_pairs h b ∧ right_pairs h3 a1 = right_pairs h b) ∧
        (left_pairs h3 b = left_pairs h b ∧ right_pairs h3 b = right_pairs h b ∧
          left_positions h3 b = left_positions h b ∧
          right_positions h3 b = right_positions h b)) := by
  refine ⟨fun h b hr => ?_, fun h a b hr => ?_⟩
  · obtain ⟨tl, tr, hi⟩ := hr.inv hcl hcr
    obtain ⟨ps, hps⟩ := hi.left_pairs_some
    obtain ⟨qs, hqs⟩ := hi.right_pairs_some
    exact ⟨hi.toLInv.copy_construct_obs hcl hcr, by simp [copy_assign], ps, qs, hps, hqs⟩
  · obtain ⟨tla, tra, tlb, trb, hi⟩ := hr.inv2 hcl hcr
    exact hi.copy_assign_obs hcl hcr

theorem C21_copy_equals_source_witness :
    ((copy_construct nat_less nat_less sample.1 sample.2).map
        (fun s => (s.2, left_pairs s.1 s.2, right_pairs s.1 s.2, bimap_eq s.1 s.2 sample.2)) =
        some (⟨6, 5⟩, some [(3, 7), (4, 4), (5, 0), (7, 8), (10, 1)],
          some [(5, 0), (10, 1), (4, 4), (3, 7), (7, 8)], some true) ∧
      right_pairs sample.1 sample.2 = some [(5, 0), (10, 1), (4, 4), (3, 7), (7, 8)] ∧
      (copy_assign nat_less nat_less duo.1 duo.2.1 duo.2.2).map
        (fun s => (s.2, left_pairs s.1 s.2, right_pairs s.1 s.2, bimap_eq s.1 s.2 duo.2.2)) =
        some (⟨0, 3⟩, some [(1, 20), (2, 10), (3, 30)], some [(2, 10), (1, 20), (3, 30)],
          some true)) ∧
    ((∃ h1 c, copy_construct nat_less nat_less sample.1 sample.2 = some (h1, c) ∧
        (bimap_eq h1 c sample.2 = some true ∧ bimap_ne h1 c sample.2 = some false ∧
          size c = size sample.2 ∧
          left_pairs h1 c = left_pairs sample.1 sample.2 ∧
          right_pairs h1 c = right_pairs sample.1 sample.2) ∧
        (left_pairs h1 sample.2 = left_pairs sample.1 sample.2 ∧
          right_pairs h1 sample.2 = right_pairs sample.1 sample.2 ∧
          left_positions h1 sample.2 = left_positions sample.1 sample.2 ∧
          right_positions h1 sample.2 = right_positions sample.1 sample.2)) ∧
      copy_assign nat_less nat_less sample.1 sample.2 sample.2 = some (sample.1, sample.2) ∧
      (∃ ps qs, left_pairs sample.1 sample.2 = some ps ∧
        right_pairs sample.1 sample.2 = some qs)) ∧
    (∃ h3 a1, copy_assign nat_less nat_less duo.1 duo.2.1 duo.2.2 = some (h3, a1) ∧
      a1.root_ = duo.2.1.root_ ∧
      (bimap_eq h3 a1 duo.2.2 = some true ∧ bimap_ne h3 a1 duo.2.2 = some false ∧
        size a1 = size duo.2.2 ∧
        left_pairs h3 a1 = left_pairs duo.1 duo.2.2 ∧
        right_pairs h3 a1 = right_pairs duo.1 duo.2.2) ∧
      (left_pairs h3 duo.2.2 = left_pairs duo.1 duo.2.2 ∧
        right_pairs h3 duo.2.2 = right_pairs duo.1 duo.2.2 ∧
        left_positions h3 duo.2.2 = left_positions duo.1 duo.2.2 ∧
        right_positions h3 duo.2.2 = right_positions duo.1 duo.2.2)) :=
  ⟨⟨by rfl, by decide, by rfl⟩,
    (C21_copy_equals_source nat_less_strict_weak nat_less_strict_weak).1 sample.1 sample.2
      reachable_sample,
    (C21_copy_equals_source nat_less_strict_weak nat_less_strict_weak).2 duo.1 duo.2.1 duo.2.2
      (reachable2_insert_both [(10, 1), (5, 0)] [(1, 20), (2, 10), (3, 30)])⟩

end claim21

/-! ## Claim C23: equality and the order of insertions -/

section claim23

variable {L R : Type} [DecidableEq L] [DecidableEq R] {cl : L → L → Bool} {cr : R → R → Bool}

/-- Two bimaps built in one heap from a list of pairs with pairwise inequivalent keys and from
a permutation of it hold the same pairs in the same order and compare equal. -/
theorem insert_orders_equal (hcl : StrictWeakOrder cl) (hcr : StrictWeakOrder cr)
    (xs ys : List (L × R)) (hp : xs.Perm ys)
    (hpw : xs.Pairwise (fun p q => ¬ equivalent cl p.1 q.1 ∧ ¬ equivalent cr p.2 q.2)) :
    ∃ h2 a b, build_pair cl cr xs ys = some (h2, a, b) ∧
      bimap_eq h2 a b = some true ∧ bimap_eq h2 b a = some true ∧
      bimap_ne h2 a b = some false ∧ size a = xs.length ∧ size b = ys.length ∧
      left_pairs h2 a = left_pairs h2 b ∧ right_pairs h2 a = right_pairs h2 b ∧
      ∃ ps, left_pairs h2 a = some ps ∧ ps.Perm xs := by
  have hsymm : ∀ {p q : L × R}, (¬ equivalent cl p.1 q.1 ∧ ¬ equivalent cr p.2 q.2) →
      (¬ equivalent cl q.1 p.1 ∧ ¬ equivalent cr q.2 p.2) := fun {p q} hpq =>
    ⟨fun e => hpq.1 (equivalent_symm e), fun e => hpq.2 (equivalent_symm e)⟩
  have hpwy := (hp.pairwise_iff hsymm).mp hpw
  have hi00 : LInv cl cr (bimap_new (Heap.empty : Heap L R)).1
      (bimap_new (Heap.empty : Heap L R)).2 .nil .nil := Inv.empty.toLInv
  obtain ⟨h1, a, tla, tra, e1, hia, _, hset1⟩ :=
    LInv.insert_seq_spec hcl hcr xs _ _ _ _ hi00 hpw
      (by intro p _ x hx; simp [Tree.toList] at hx)
  have hi0 := Inv2.fresh hia
  obtain ⟨h2, b, tlb, trb, e2, hib, g2, hset2⟩ :=
    LInv.insert_seq_spec hcl hcr ys _ _ _ _ hi0.fst hpwy
      (by intro p _ x hx; simp [Tree.toList] at hx)
  have hi2 := hi0.grows hib g2
  have hva : ∀ x ∈ tla.toList, h2.val x = h1.val x := fun x hx =>
    (g2.frame x (hi0.untouched x (List.mem_cons_of_mem _ hx)).1
      (hi0.untouched x (List.mem_cons_of_mem _ hx)).2).2.2
  have hseta : ∀ q, (∃ x ∈ tla.toList, h2.val x = some q) ↔ q ∈ xs := by
    intro q
    rw [← (show (∃ x ∈ tla.toList, h1.val x = some q) ↔ q ∈ xs by
      rw [hset1 q]; simp [Tree.toList])]
    constructor
    · rintro ⟨x, hx, hq⟩; exact ⟨x, hx, by rw [← hva x hx]; exact hq⟩
    · rintro ⟨x, hx, hq⟩; exact ⟨x, hx, by rw [hva x hx]; exact hq⟩
  have hsetb : ∀ q, (∃ y ∈ tlb.toList, h2.val y = some q) ↔ q ∈ ys := by
    intro q
    rw [hset2 q]; simp [Tree.toList]
  have hset : ∀ q, (∃ x ∈ tla.toList, h2.val x = some q) ↔
      (∃ y ∈ tlb.toList, h2.val y = some q) := fun q => by
    rw [hseta q, hsetb q]; exact hp.mem_iff
  obtain ⟨a1, a2, a3, a4, a5⟩ := hi2.snd.eq_of_same_pairs hcl hcr hi2.fst hset
  obtain ⟨b1, _, _, _, _⟩ := hi2.fst.eq_of_same_pairs hcl hcr hi2.snd (fun q => (hset q).symm)
  obtain ⟨ps, hps⟩ := hi2.snd.left_pairs_some_loc
  have hps1 := hps
  rw [hi2.snd.left_pairs_eq_loc] at hps1
  have hnx : xs.Nodup := hpw.imp (fun {p q} hpq (e : p = q) =>
    hpq.1 (by rw [e]; exact ⟨hcl.irrefl _, hcl.irrefl _⟩))
  have hnp : ps.Nodup := (hi2.snd.left_pairs_sorted hps1).imp
    (fun {p q} hpq (e : p = q) => by
      rw [e, hcl.irrefl] at hpq
      exact Bool.false_ne_true hpq)
  have hperm : ps.Perm xs := (List.perm_ext_iff_of_nodup hnp hnx).mpr (fun q => by
    rw [read_all_mem hps1 q]; exact hseta q)
  have hsa : size a = xs.length := by
    simp only [size]
    rw [hi2.snd.size_eq, ← read_all_length hps1]
    exact hperm.length_eq
  refine ⟨h2, a, b, by simp only [build_pair, e1, e2], a1, b1, a2, hsa, ?_, a4, a5, ps, hps,
    hperm⟩
  rw [← hp.length_eq, ← hsa]
  exact a3.symm

/-- Claim C23: with comparators that are total orders, as the natural ordering of the key
types is, for every list of pairs with pairwise distinct left keys and pairwise distinct right
keys and every permutation of it, the bimap built by inserting the list and the bimap built by
inserting the permutation both hold all the pairs and compare equal with `operator==`. -/
theorem C23_equality_ignores_insertion_order (hcl : StrictWeakOrder cl)
    (hcr : StrictWeakOrder cr) (htl : ∀ a b, equivalent cl a b → a = b)
    (htr : ∀ a b, equivalent cr a b → a = b) (xs ys : List (L × R)) (hp : xs.Perm ys)
    (hl : (xs.map Prod.fst).Nodup) (hr : (xs.map Prod.snd).Nodup) :
    ∃ h2 a b, build_pair cl cr xs ys = some (h2, a, b) ∧
      bimap_eq h2 a b = some true ∧ bimap_eq h2 b a = some true ∧
      bimap_ne h2 a b = some false ∧ size a = xs.length ∧ size b = ys.length ∧
      left_pairs h2 a = left_pairs h2 b ∧ right_pairs h2 a = right_pairs h2 b ∧
      ∃ ps, left_pairs h2 a = some ps ∧ ps.Perm xs := by
  apply insert_orders_equal hcl hcr xs ys hp
  have h1 : xs.Pairwise (fun p q => p.1 ≠ q.1) := List.pairwise_map.mp hl
  have h2 : xs.Pairwise (fun p q => p.2 ≠ q.2) := List.pairwise_map.mp hr
  exact (h1.and h2).imp (fun {p q} hpq =>
    ⟨fun e => hpq.1 (htl _ _ e), fun e => hpq.2 (htr _ _ e)⟩)

theorem nat_less_total (a b : Nat) (h : equivalent nat_less a b) : a = b := by
  simp only [equivalent, nat_less, decide_eq_false_iff_not] at h
  omega

theorem C23_equality_ignores_insertion_order_witness :
    (([(10, 1), (5, 0), (7, 8)] : List (Nat × Nat)).Perm [(7, 8), (10, 1), (5, 0)] ∧
      (([(10, 1), (5, 0), (7, 8)] : List (Nat × Nat)).map Prod.fst).Nodup ∧
      (([(10, 1), (5, 0), (7, 8)] : List (Nat × Nat)).map Prod.snd).Nodup) ∧
    (build_pair nat_less nat_less [(10, 1), (5, 0), (7, 8)] [(7, 8), (10, 1), (5, 0)]).map
        (fun s => (bimap_eq s.1 s.2.1 s.2.2, left_pairs s.1 s.2.1, left_pairs s.1 s.2.2,
          deref_left s.1 (s.1.lnode s.2.1.root_).left_,
          deref_left s.1 (s.1.lnode s.2.2.root_).left_)) =
        some (some true, some [(5, 0), (7, 8), (10, 1)], some [(5, 0), (7, 8), (10, 1)],
          some 10, some 7) ∧
    ∃ h2 a b, build_pair nat_less nat_less [(10, 1), (5, 0), (7, 8)]
        [(7, 8), (10, 1), (5, 0)] = some (h2, a, b) ∧
      bimap_eq h2 a b = some true ∧ bimap_eq h2 b a = some true ∧
      bimap_ne h2 a b = some false ∧
      size a = ([(10, 1), (5, 0), (7, 8)] : List (Nat × Nat)).length ∧
      size b = ([(7, 8), (10, 1), (5, 0)] : List (Nat × Nat)).length ∧
      left_pairs h2 a = left_pairs h2 b ∧ right_pairs h2 a = right_pairs h2 b ∧
      ∃ ps, left_pairs h2 a = some ps ∧ ps.Perm [(10, 1), (5, 0), (7, 8)] :=
  ⟨⟨by decide, by decide, by decide⟩, by rfl,
    C23_equality_ignores_insertion_order nat_less_strict_weak nat_less_strict_weak
      nat_less_total nat_less_total [(10, 1), (5, 0), (7, 8)] [(7, 8), (10, 1), (5, 0)]
      (by decide) (by decide) (by decide)⟩

end claim23

/-! ## Pairs of bimaps with comparators of their own -/

section pair_inv

variable {L R : Type} {cl : L → L → Bool} {cr : R → R → Bool}
variable {cla clb : L → L → Bool} {cra crb : R → R → Bool}
variable {h h1 : Heap L R} {a a1 b : bimap} {tl tr tla tra tlb trb : Tree}

/-- A call on a well-formed bimap keeps it well formed and writes only its own addresses and
fresh ones. -/
theorem linv_of_call (hcl : StrictWeakOrder cl) (hcr : StrictWeakOrder cr)
    (hi : LInv cl cr h a tl tr) (hc : Call cl cr h a h1 a1) :
    ∃ tl1 tr1, LInv cl cr h1 a1 tl1 tr1 ∧ Grows h a tl h1 a1 tl1 := by
  have key : ∀ {x : Nat} {ret : Ptr}, x ∈ tl.toList →
      erase_left h a (some x) = some (ret, h1, a1) →
      ∃ tl1 tr1, LInv cl cr h1 a1 tl1 tr1 ∧ Grows h a tl h1 a1 tl1 := by
    intro x ret hx he
    obtain ⟨tl1, tr1, h1i, e1, e2, e3, e4⟩ := hi.erase_left_step hx he
    exact ⟨tl1, tr1, h1i, e1, e2, fun y hy => (e3 y hy).imp id (fun e => le_of_eq e.symm), e4⟩
  cases hc with
  | insert l r he =>
    obtain ⟨tl1, tr1, h1i, e1, e2, e3, e4⟩ := hi.insert_step hcl hcr he
    exact ⟨tl1, tr1, h1i, e1, e2, fun y hy => (e3 y hy).imp id (fun e => le_of_eq e.symm), e4⟩
  | erase_left x hp hx he =>
    rw [hi.left_positions_eq_loc] at hp
    simp only [Option.some.injEq] at hp
    subst hp
    exact key hx he
  | erase_right x hp hx he =>
    rw [hi.right_positions_eq_loc] at hp
    simp only [Option.some.injEq] at hp
    subst hp
    rw [erase_right_eq] at he
    exact key ((hi.same x).mpr hx) he
  | erase_left_key l he =>
    simp only [erase_left_key] at he
    cases hf : find_left cl h a l with
    | none => simp [hf] at he
    | some it =>
      simp only [hf] at he
      split_ifs at he with hend
      · simp only [Option.some.injEq, Prod.mk.injEq] at he
        obtain ⟨_, rfl, rfl⟩ := he
        exact ⟨tl, tr, hi, Grows.refl h a tl⟩
      · obtain ⟨x, rfl, hx⟩ := hi.find_left_mem l hf hend
        cases hr : erase_left h a (some x) with
        | none => simp [hr] at he
        | some p =>
          obtain ⟨ret, h2, b2⟩ := p
          simp only [hr, Option.some.injEq, Prod.mk.injEq] at he
          obtain ⟨_, rfl, rfl⟩ := he
          exact key hx hr
  | erase_right_key r he =>
    simp only [erase_right_key] at he
    cases hf : find_right cr h a r with
    | none => simp [hf] at he
    | some it =>
      simp only [hf] at he
      split_ifs at he with hend
      · simp only [Option.some.injEq, Prod.mk.injEq] at he
        obtain ⟨_, rfl, rfl⟩ := he
        exact ⟨tl, tr, hi, Grows.refl h a tl⟩
      · obtain ⟨x, rfl, hx⟩ := hi.find_right_mem r hf hend
        rw [erase_right_eq] at he
        cases hr : erase_left h a (some x) with
        | none => simp [hr] at he
        | some p =>
          obtain ⟨ret, h2, b2⟩ := p
          simp only [hr, Option.some.injEq, Prod.mk.injEq] at he
          obtain ⟨_, rfl, rfl⟩ := he
          exact key hx hr

theorem InvPair.symm_pair (hi : InvPair cla cra clb crb h a b tla tra tlb trb) :
    InvPair clb crb cla cra h b a tlb trb tla tra where
  fst := hi.snd
  snd := hi.fst
  roots := Ne.symm hi.roots
  root_fst := hi.root_snd
  root_snd := hi.root_fst
  disj := fun x hx hxa => hi.disj x hxa hx

theorem InvPair.grows_pair {tla1 tra1 : Tree} (hi : InvPair cla cra clb crb h a b tla tra tlb trb)
    (h1i : LInv cla cra h1 a1 tla1 tra1) (g : Grows h a tla h1 a1 tla1) :
    InvPair cla cra clb crb h1 a1 b tla1 tra1 tlb trb := by
  have hout : ∀ y ∈ b.root_ :: tlb.toList, y ∉ a.root_ :: tla.toList ∧ y < h.brk := by
    intro y hy
    rcases List.mem_cons.mp hy with e | hy
    · subst e
      refine ⟨fun hm => ?_, hi.snd.root_bound⟩
      rcases List.mem_cons.mp hm with e1 | e1
      · exact hi.roots e1.symm
      · exact hi.root_snd e1
    · refine ⟨fun hm => ?_, hi.snd.bound y hy⟩
      rcases List.mem_cons.mp hm with e1 | e1
      · exact hi.root_fst (e1 ▸ hy)
      · exact hi.disj y e1 hy
  exact
    { fst := h1i
      snd := hi.snd.frame g.brk (fun y hy => g.frame y (hout y hy).1 (hout y hy).2)
      roots := by rw [g.root]; exact hi.roots
      root_fst := by rw [g.root]; exact hi.root_fst
      root_snd := fun hm => by
        rcases g.sub _ hm with e | e
        · exact hi.root_snd e
        · have := hi.snd.root_bound; omega
      disj := fun x hx hxb => by
        rcases g.sub x hx with e | e
        · exact hi.disj x e hxb
        · have := hi.snd.bound x hxb; omega }

/-- A newly constructed bimap, with any comparators, beside an existing one. -/
theorem InvPair.fresh_pair {x : bimap} {tx rx : Tree} (hi : LInv clb crb h x tx rx) :
    InvPair cla cra clb crb (bimap_new h).1 (bimap_new h).2 x .nil .nil tx rx :=
  { fst :=
      { left := ⟨⟨by simp [bimap_new, construct], by simp [bimap_new, construct, Tree.root],
          by simp [bimap_new, construct, Tree.root], trivial, trivial⟩,
          by simp [Tree.toList], by simp [Tree.toList], by simp [Tree.toList]⟩
        right := ⟨⟨by simp [bimap_new, construct], by simp [bimap_new, construct, Tree.root],
          by simp [bimap_new, construct, Tree.root], trivial, trivial⟩,
          by simp [Tree.toList], by simp [Tree.toList], by simp [Tree.toList]⟩
        live := by simp [Tree.toList]
        same := by simp [Tree.toList]
        bound := by simp [Tree.toList]
        root_bound := by simp [bimap_new]
        size_eq := by simp [Tree.toList, bimap_new] }
    snd := (Inv2.fresh hi).snd
    roots := (Inv2.fresh hi).roots
    root_fst := (Inv2.fresh hi).root_fst
    root_snd := (Inv2.fresh hi).root_snd
    disj := (Inv2.fresh hi).disj }

theorem ReachablePair.inv_pair (hcla : StrictWeakOrder cla) (hcra : StrictWeakOrder cra)
    (hclb : StrictWeakOrder clb) (hcrb : StrictWeakOrder crb)
    (hr : ReachablePair cla cra clb crb h a b) :
    ∃ tla tra tlb trb, InvPair cla cra clb crb h a b tla tra tlb trb := by
  induction hr with
  | new_snd hs =>
    obtain ⟨tl, tr, hi⟩ := hs.inv hcla hcra
    exact ⟨tl, tr, .nil, .nil, (InvPair.fresh_pair hi.toLInv).symm_pair⟩
  | new_fst hs =>
    obtain ⟨tl, tr, hi⟩ := hs.inv hclb hcrb
    exact ⟨.nil, .nil, tl, tr, InvPair.fresh_pair hi.toLInv⟩
  | fst _ hc ih =>
    obtain ⟨tla, tra, tlb, trb, hi⟩ := ih
    obtain ⟨tl1, tr1, h1i, g⟩ := linv_of_call hcla hcra hi.fst hc
    exact ⟨tl1, tr1, tlb, trb, hi.grows_pair h1i g⟩
  | snd _ hc ih =>
    obtain ⟨tla, tra, tlb, trb, hi⟩ := ih
    obtain ⟨tl1, tr1, h1i, g⟩ := linv_of_call hclb hcrb hi.snd hc
    exact ⟨tla, tra, tl1, tr1, (hi.symm_pair.grows_pair h1i g).symm_pair⟩

theorem ReachablePair.flip_pair (hr : ReachablePair cla cra clb crb h a b) :
    ReachablePair clb crb cla cra h b a := by
  induction hr with
  | new_snd hs => exact ReachablePair.new_fst hs
  | new_fst hs => exact ReachablePair.new_snd hs
  | fst _ hc ih => exact ReachablePair.snd ih hc
  | snd _ hc ih => exact ReachablePair.fst ih hc

/-- Two bimaps with the same comparators are a special case. -/
theorem Reachable2.pair (hr : Reachable2 cl cr h a b) : ReachablePair cl cr cl cr h a b := by
  induction hr with
  | new hs => exact ReachablePair.new_snd hs
  | symm _ ih => exact ih.flip_pair
  | insert l r _ he ih => exact ReachablePair.fst ih (Call.insert l r he)
  | erase_left x _ hp hx he ih => exact ReachablePair.fst ih (Call.erase_left x hp hx he)
  | erase_right x _ hp hx he ih => exact ReachablePair.fst ih (Call.erase_right x hp hx he)
  | erase_left_key l _ he ih => exact ReachablePair.fst ih (Call.erase_left_key l he)
  | erase_right_key r _ he ih => exact ReachablePair.fst ih (Call.erase_right_key r he)

end pair_inv

/-! ## The bimaps `opposite` -/

theorem nat_greater_strict_weak : StrictWeakOrder nat_greater where
  irrefl := fun a => by simp [nat_greater]
  trans := fun a b c h1 h2 => by
    simp only [nat_greater, decide_eq_true_eq] at h1 h2 ⊢
    omega
  equiv_trans := fun a b c h1 h2 => by
    simp only [equivalent, nat_greater, decide_eq_false_iff_not] at h1 h2 ⊢
    omega

section insert_list_runs

variable {L R : Type} {cl : L → L → Bool} {cr : R → R → Bool}
variable {cla clb : L → L → Bool} {cra crb : R → R → Bool}

theorem reachable_insert_list (ps : List (L × R)) :
    ∀ s : Heap L R × bimap, Reachable cl cr s.1 s.2 →
      Reachable cl cr (insert_list cl cr s ps).1 (insert_list cl cr s ps).2 := by
  induction ps with
  | nil => intro s hs; exact hs
  | cons p ps ih =>
    intro s hs
    simp only [insert_list]
    cases he : insert cl cr s.1 s.2 p.1 p.2 with
    | none => exact hs
    | some res =>
      obtain ⟨it, h1, b1⟩ := res
      exact ih (h1, b1) (Reachable.insert p.1 p.2 hs he)

theorem reachable_pair_insert_list (ps : List (L × R)) (a : bimap) :
    ∀ s : Heap L R × bimap, ReachablePair cla cra clb crb s.1 a s.2 →
      ReachablePair cla cra clb crb (insert_list clb crb s ps).1 a
        (insert_list clb crb s ps).2 := by
  induction ps with
  | nil => intro s hs; exact hs
  | cons p ps ih =>
    intro s hs
    simp only [insert_list]
    cases he : insert clb crb s.1 s.2 p.1 p.2 with
    | none => exact hs
    | some res =>
      obtain ⟨it, h1, b1⟩ := res
      exact ih (h1, b1) (ReachablePair.snd hs (Call.insert p.1 p.2 he))

end insert_list_runs

theorem reachable_pair_opposite :
    ReachablePair nat_less nat_less nat_greater nat_greater opposite.1 opposite.2.1
      opposite.2.2 :=
  reachable_pair_insert_list _ _ _
    (ReachablePair.new_snd (reachable_insert_list _ _ Reachable.empty))

/-! ## Claim C20: `operator==` and `operator!=` -/

section claim20

variable {L R : Type} [DecidableEq L] [DecidableEq R]
variable {cla clb : L → L → Bool} {cra crb : R → R → Bool} {h : Heap L R} {a b : bimap}

/-- Claim C20: for two reachable bimaps `a` and `b` of one program, whose comparators may
differ, the walks of both in left-key order return, `a == b` returns, and it is true exactly
when `a.size() == b.size()` and the two sequences of (left key, paired right value) are equal
element by element; `a != b` returns the negation; and `a == a` is true. -/
theorem C20_equality_is_size_and_pairs (hcla : StrictWeakOrder cla)
    (hcra : StrictWeakOrder cra) (hclb : StrictWeakOrder clb) (hcrb : StrictWeakOrder crb)
    (hr : ReachablePair cla cra clb crb h a b) :
    ∃ pa pb, left_pairs h a = some pa ∧ left_pairs h b = some pb ∧
      bimap_eq h a b = some (decide (size a = size b ∧ pa = pb)) ∧
      bimap_ne h a b = some (!decide (size a = size b ∧ pa = pb)) ∧
      bimap_eq h a a = some true ∧ bimap_ne h a a = some false := by
  obtain ⟨tla, tra, tlb, trb, hi⟩ := hr.inv_pair hcla hcra hclb hcrb
  obtain ⟨pa, hpa⟩ := hi.fst.left_pairs_some_loc
  obtain ⟨pb, hpb⟩ := hi.snd.left_pairs_some_loc
  have e1 := hi.fst.bimap_eq_spec hi.snd hpa hpb
  have e2 := hi.fst.bimap_eq_spec hi.fst hpa hpa
  simp only [and_self, decide_True] at e2
  refine ⟨pa, pb, hpa, hpb, e1, ?_, e2, ?_⟩
  · simp only [bimap_ne, e1, Option.map_some']
  · simp only [bimap_ne, e2, Option.map_some', Bool.not_true]

theorem C20_equality_is_size_and_pairs_witness :
    (left_pairs opposite.1 opposite.2.1 = some [(1, 10), (2, 20)] ∧
      left_pairs opposite.1 opposite.2.2 = some [(2, 20), (1, 10)] ∧
      size opposite.2.1 = 2 ∧ size opposite.2.2 = 2 ∧
      bimap_eq opposite.1 opposite.2.1 opposite.2.2 = some false ∧
      bimap_ne opposite.1 opposite.2.1 opposite.2.2 = some true ∧
      left_pairs twins.1 twins.2.1 = some [(5, 0), (10, 1)] ∧
      left_pairs twins.1 twins.2.2 = some [(5, 0), (10, 1)] ∧
      left_positions twins.1 twins.2.1 = some [2, 1] ∧
      left_positions twins.1 twins.2.2 = some [4, 5] ∧
      bimap_eq twins.1 twins.2.1 twins.2.2 = some true ∧
      bimap_ne twins.1 twins.2.1 twins.2.2 = some false) ∧
    (∃ pa pb, left_pairs opposite.1 opposite.2.1 = some pa ∧
      left_pairs opposite.1 opposite.2.2 = some pb ∧
      bimap_eq opposite.1 opposite.2.1 opposite.2.2 =
        some (decide (size opposite.2.1 = size opposite.2.2 ∧ pa = pb)) ∧
      bimap_ne opposite.1 opposite.2.1 opposite.2.2 =
        some (!decide (size opposite.2.1 = size opposite.2.2 ∧ pa = pb)) ∧
      bimap_eq opposite.1 opposite.2.1 opposite.2.1 = some true ∧
      bimap_ne opposite.1 opposite.2.1 opposite.2.1 = some false) ∧
    ∃ pa pb, left_pairs twins.1 twins.2.1 = some pa ∧ left_pairs twins.1 twins.2.2 = some pb ∧
      bimap_eq twins.1 twins.2.1 twins.2.2 =
        some (decide (size twins.2.1 = size twins.2.2 ∧ pa = pb)) ∧
      bimap_ne twins.1 twins.2.1 twins.2.2 =
        some (!decide (size twins.2.1 = size twins.2.2 ∧ pa = pb)) ∧
      bimap_eq twins.1 twins.2.1 twins.2.1 = some true ∧
      bimap_ne twins.1 twins.2.1 twins.2.1 = some false :=
  ⟨⟨by decide, by decide, by decide, by decide, by decide, by decide, by decide, by decide,
      by decide, by decide, by decide, by decide⟩,
    C20_equality_is_size_and_pairs nat_less_strict_weak nat_less_strict_weak
      nat_greater_strict_weak nat_greater_strict_weak reachable_pair_opposite,
    C20_equality_is_size_and_pairs nat_less_strict_weak nat_less_strict_weak
      nat_less_strict_weak nat_less_strict_weak
      (reachable2_insert_both [(10, 1), (5, 0)] [(5, 0), (10, 1)]).pair⟩

end claim20

end Bimap
